import Mathlib

/-!
# bitcoin-parser: a verification development

A shallow embedding of the transaction codec (`utilities.cpp`, `transaction.cpp`),
the script engine (`script.cpp`, `script_processor.cpp`), the accounting layer
(`accounting.cpp`), the header, block, Merkle and undo codecs (`block.cpp`) and the scan of
the block and undo streams (`block_parser.cpp`), followed by theorems about them.

Conventions of the embedding

* a byte (`uint8_t`) is a `Fin 256`; a `std::vector<uint8_t>` is a `List Byte`;
* `uint32_t`, `uint64_t` and `size_t` values are natural numbers; every place where the
  C++ arithmetic is performed in a 64-bit register is written with `sz` (reduction
  modulo `2^64`) or `u64`;
* a C++ function that may throw returns `Res α`; the fault `Fault.undefined` marks the
  places where the C++ program leaves defined behaviour (an iterator range whose end
  precedes its start or lies beyond the buffer);
* a `T& offset` cursor is threaded explicitly: the function returns the new offset;
* a loop is a recursive function on the number of iterations left; where that number is a
  bound computed from the data (`fuel`), a theorem shows that more iterations change
  nothing;
* the digest functions, the address encoders and the floating-point fee rate are
  collaborators of the program and are gathered in `Env`.
-/

namespace BitcoinParser

/-! ## Bytes and machine words -/

abbrev Byte := Fin 256
abbrev Bytes := List Byte

/-- The value of a `size_t` (64-bit) expression whose mathematical value is `n`. -/
def sz (n : Nat) : Nat := n % 2 ^ 64

/-- The value of a `uint64_t` expression whose mathematical value is `n`. -/
def u64 (n : Nat) : Nat := n % 2 ^ 64

/-- The cast `static_cast<uint8_t>(n)`. -/
def toByte (n : Nat) : Byte := ⟨n % 256, Nat.mod_lt n (by decide)⟩

/-- The element `data[i]` of a vector (used only behind a bounds check). -/
def at_ (data : Bytes) (i : Nat) : Byte := data.getD i 0

/-- The range constructor `std::vector(data.begin() + first, data.begin() + first + len)`. -/
def slice (data : Bytes) (first len : Nat) : Bytes := (data.drop first).take len

/-- What a C++ call can end in besides a value. -/
inductive Fault where
  | out_of_range (what : String)
  | runtime_error (what : String)
  | undefined
deriving DecidableEq, Repr

abbrev Res (α : Type) := Except Fault α

deriving instance DecidableEq for Except

/-- The call threw a C++ exception (as opposed to returning, or to undefined behaviour). -/
def Res.threw {α : Type} : Res α → Bool
  | .error (.out_of_range _) => true
  | .error (.runtime_error _) => true
  | _ => false

/-- The call returned a value. -/
def Res.succeeded {α : Type} : Res α → Bool
  | .ok _ => true
  | _ => false

/-! ## utilities.cpp -/

/-- The loop `for (i = 0; i < n; i++) value |= data[offset + i] << (i * 8)` of the
`read_uintN_le` functions, after `n` iterations. -/
def read_le (data : Bytes) (offset : Nat) : Nat → Nat
  | 0 => 0
  | i + 1 => read_le data offset i ||| ((at_ data (offset + i)).val <<< (i * 8))

def read_uint16_le (data : Bytes) (offset : Nat) : Res Nat :=
  if sz (offset + 2) > data.length then
    .error (.out_of_range "read_uint16_le: not enough bytes")
  else
    .ok ((at_ data offset).val ||| ((at_ data (offset + 1)).val <<< 8))

def read_uint32_le (data : Bytes) (offset : Nat) : Res Nat :=
  if sz (offset + 4) > data.length then
    .error (.out_of_range "read_uint32_le: not enough bytes")
  else
    .ok (read_le data offset 4)

def read_uint64_le (data : Bytes) (offset : Nat) : Res Nat :=
  if sz (offset + 8) > data.length then
    .error (.out_of_range "read_uint64_le: not enough bytes")
  else
    .ok (read_le data offset 8)

/-- The loop `for (i = 0; i < n; i++) buffer.push_back((uint8_t)(value >> (i * 8)))`. -/
def write_le (buffer : Bytes) (value : Nat) : Nat → Bytes
  | 0 => buffer
  | i + 1 => write_le buffer value i ++ [toByte (value >>> (i * 8))]

def write_uint32_le (buffer : Bytes) (value : Nat) : Bytes := write_le buffer value 4

def write_uint64_le (buffer : Bytes) (value : Nat) : Bytes := write_le buffer value 8

/-- Reads a CompactSize at `offset`; returns the value and the advanced offset. -/
def read_varint (data : Bytes) (offset : Nat) : Res (Nat × Nat) :=
  if offset ≥ data.length then
    .error (.out_of_range "read_varint: no data")
  else
    let pfx := (at_ data offset).val
    let offset := sz (offset + 1)
    if pfx < 0xFD then
      .ok (pfx, offset)
    else if pfx = 0xFD then
      match read_uint16_le data offset with
      | .error e => .error e
      | .ok value => .ok (value, sz (offset + 2))
    else if pfx = 0xFE then
      match read_uint32_le data offset with
      | .error e => .error e
      | .ok value => .ok (value, sz (offset + 4))
    else
      match read_uint64_le data offset with
      | .error e => .error e
      | .ok value => .ok (value, sz (offset + 8))

def write_varint (buffer : Bytes) (value : Nat) : Bytes :=
  if value < 0xFD then
    buffer ++ [toByte value]
  else if value ≤ 0xFFFF then
    write_le (buffer ++ [0xFD]) value 2
  else if value ≤ 0xFFFFFFFF then
    write_le (buffer ++ [0xFE]) value 4
  else
    write_le (buffer ++ [0xFF]) value 8

/-- The function `reverse_32`: `reversed[i] = data[31 - i]` for `i < 32`. -/
def reverse_32 (data : Bytes) : Bytes := (List.range 32).map (fun i => at_ data (31 - i))

/-- The collaborators of the program.

* `sha256`: the OpenSSL digest.
* `b58check_enc version data`: the Base58Check encoder of libbase58, `none` when the call
  reports failure.
* `bech32_address_encode program hrp version`: the segwit address encoder, with its negative
  return code on failure.
* `fee_rate_gt_200 fee vb`: the floating-point test
  `std::round((double)fee / vb * 100.0) / 100.0 > 200.0`.
* `opcode_map`: the opcode-name table of `script.cpp` as a lookup; its keys are constants of
  `script.h`, which is not among the sources.
* `pubkey_uncompress compressed`: the calls `secp256k1_ec_pubkey_parse` on the 33 bytes
  `compressed` and `secp256k1_ec_pubkey_serialize` in uncompressed form; `none` when the
  parse reports failure, otherwise the 65 bytes of the array `full` and the length
  `full_len` that the serializer reports. -/
structure Env where
  sha256 : Bytes → Bytes
  b58check_enc : Nat → Bytes → Option String
  bech32_address_encode : Bytes → String → Nat → Except Int String
  fee_rate_gt_200 : Nat → Nat → Bool
  opcode_map : Byte → Option String
  pubkey_uncompress : Bytes → Option (Bytes × Nat)

def double_sha256 (env : Env) (data : Bytes) : Bytes := env.sha256 (env.sha256 data)

/-! ## utilities.cpp: hexadecimal rendering -/

/-- The table `"0123456789abcdef"` indexed at `n`. -/
def hex_char (n : Nat) : Char := "0123456789abcdef".toList.getD n '0'

/-- The function `bytes_to_hex`, for a vector and for a 32-byte array alike. -/
def bytes_to_hex (bytes : Bytes) : String :=
  String.mk (bytes.flatMap (fun b => [hex_char (b.val >>> 4), hex_char (b.val &&& 0x0F)]))

/-- The function `byte_to_hex` (upper case). -/
def byte_to_hex (b : Byte) : String :=
  String.mk ["0123456789ABCDEF".toList.getD ((b.val >>> 4) &&& 0x0F) '0',
             "0123456789ABCDEF".toList.getD (b.val &&& 0x0F) '0']

/-- The library function `std::to_string` on an unsigned value: its decimal numeral. -/
def to_string (n : Nat) : String := toString n

def encode_p2pkh_address (env : Env) (hash20 : Bytes) : Res String :=
  if hash20.length ≠ 20 then
    .error (.runtime_error "Invalid P2PKH hash size")
  else
    match env.b58check_enc 0x00 hash20 with
    | none => .error (.runtime_error "Base58Check encoding failed")
    | some out => .ok out

def encode_p2sh_address (env : Env) (hash20 : Bytes) : Res String :=
  if hash20.length ≠ 20 then
    .error (.runtime_error "Invalid P2SH hash size")
  else
    match env.b58check_enc 0x05 hash20 with
    | none => .error (.runtime_error "Base58Check encoding failed")
    | some out => .ok out

def encode_segwit_address (env : Env) (version : Nat) (program : Bytes) : Res String :=
  match env.bech32_address_encode program "bc" version with
  | .error ret =>
    .error (.runtime_error ("bech32_address_encode failed: error code " ++ toString ret))
  | .ok address => .ok address

/-- The loop of `is_valid_utf8`, with `fuel` iterations left, at index `i`. -/
def is_valid_utf8_loop (data : Bytes) : Nat → Nat → Bool
  | 0, _ => true
  | fuel + 1, i =>
    if ¬ (i < data.length) then true
    else
      let byte := (at_ data i).val
      if byte ≤ 0x7F then
        is_valid_utf8_loop data fuel (i + 1)
      else if byte >>> 5 = 0x6 then
        if i + 1 ≥ data.length then false
        else if (at_ data (i + 1)).val >>> 6 ≠ 0x2 then false
        else is_valid_utf8_loop data fuel (i + 2)
      else if byte >>> 4 = 0xE then
        if i + 2 ≥ data.length then false
        else if (at_ data (i + 1)).val >>> 6 ≠ 0x2 then false
        else if (at_ data (i + 2)).val >>> 6 ≠ 0x2 then false
        else is_valid_utf8_loop data fuel (i + 3)
      else if byte >>> 3 = 0x1E then
        if i + 3 ≥ data.length then false
        else if (at_ data (i + 1)).val >>> 6 ≠ 0x2 then false
        else if (at_ data (i + 2)).val >>> 6 ≠ 0x2 then false
        else if (at_ data (i + 3)).val >>> 6 ≠ 0x2 then false
        else is_valid_utf8_loop data fuel (i + 4)
      else false

/-- The function `is_valid_utf8`; every iteration advances `i`, so `data.size()` iterations
exhaust the loop. -/
def is_valid_utf8 (data : Bytes) : Bool := is_valid_utf8_loop data data.length 0

/-! ## transaction.h, transaction.cpp -/

structure TxIn where
  prevTxId : Bytes
  vout : Nat
  scriptSig : Bytes
  sequence : Nat
  witness : List Bytes
deriving DecidableEq, Repr

structure TxOut where
  amount : Nat
  scriptPubKey : Bytes
deriving DecidableEq, Repr

structure Transaction where
  version : Nat
  outputs : List TxOut
  inputs : List TxIn
  locktime : Nat
  isSegwit : Bool
  TxIdHash : Bytes
  WTxIdHash : Bytes
deriving DecidableEq, Repr

/-- The body of the loop over `inputs` in both serializers. -/
def serialize_input (out : Bytes) (txin : TxIn) : Bytes :=
  let out := out ++ txin.prevTxId
  let out := write_uint32_le out txin.vout
  let out := write_varint out txin.scriptSig.length
  let out := out ++ txin.scriptSig
  write_uint32_le out txin.sequence

def serialize_inputs (out : Bytes) : List TxIn → Bytes
  | [] => out
  | txin :: rest => serialize_inputs (serialize_input out txin) rest

/-- The body of the loop over `outputs` in both serializers. -/
def serialize_output (out : Bytes) (o : TxOut) : Bytes :=
  let out := write_uint64_le out o.amount
  let out := write_varint out o.scriptPubKey.length
  out ++ o.scriptPubKey

def serialize_outputs (out : Bytes) : List TxOut → Bytes
  | [] => out
  | o :: rest => serialize_outputs (serialize_output out o) rest

/-- The inner loop `for (item : in.witness)` of `serialize_with_witness`. -/
def serialize_witness_items (out : Bytes) : List Bytes → Bytes
  | [] => out
  | item :: rest => serialize_witness_items (write_varint out item.length ++ item) rest

/-- The loop writing one witness stack per input. -/
def serialize_witnesses (out : Bytes) : List TxIn → Bytes
  | [] => out
  | txin :: rest =>
    serialize_witnesses
      (serialize_witness_items (write_varint out txin.witness.length) txin.witness) rest

def Transaction.serialize_legacy (tx : Transaction) : Bytes :=
  let out := write_uint32_le [] tx.version
  let out := write_varint out tx.inputs.length
  let out := serialize_inputs out tx.inputs
  let out := write_varint out tx.outputs.length
  let out := serialize_outputs out tx.outputs
  write_uint32_le out tx.locktime

def Transaction.serialize_with_witness (tx : Transaction) : Bytes :=
  if !tx.isSegwit then
    tx.serialize_legacy
  else
    let out := write_uint32_le [] tx.version
    let out := out ++ [0x00]
    let out := out ++ [0x01]
    let out := write_varint out tx.inputs.length
    let out := serialize_inputs out tx.inputs
    let out := write_varint out tx.outputs.length
    let out := serialize_outputs out tx.outputs
    let out := serialize_witnesses out tx.inputs
    write_uint32_le out tx.locktime

/-- One iteration of the input loop of the constructor, from `offset`. -/
def parse_input (raw : Bytes) (offset : Nat) : Res (TxIn × Nat) :=
  if sz (offset + 32) > raw.length then
    .error (.runtime_error "Transaction: truncated prevTxId")
  else
    let prevTxId := slice raw offset 32
    let offset := sz (offset + 32)
    if sz (offset + 4) > raw.length then
      .error (.runtime_error "Transaction: truncated vout")
    else
      match read_uint32_le raw offset with
      | .error e => .error e
      | .ok vout =>
        match read_varint raw (sz (offset + 4)) with
        | .error e => .error e
        | .ok (script_len, offset) =>
          if sz (offset + script_len) > raw.length then
            .error (.runtime_error "Transaction: truncated scriptSig")
          else if offset + script_len ≥ 2 ^ 64 then
            -- `raw.begin() + offset + script_len` precedes `raw.begin() + offset`
            .error .undefined
          else
            let scriptSig := slice raw offset script_len
            let offset := sz (offset + script_len)
            if sz (offset + 4) > raw.length then
              .error (.runtime_error "Transaction: truncated sequence")
            else
              match read_uint32_le raw offset with
              | .error e => .error e
              | .ok sequence =>
                .ok ({ prevTxId := prevTxId, vout := vout, scriptSig := scriptSig,
                       sequence := sequence, witness := [] }, sz (offset + 4))

/-- The loop `for (i = 0; i < input_count; i++)`, with `n` iterations left. -/
def parse_inputs (raw : Bytes) : Nat → Nat → Res (List TxIn × Nat)
  | 0, offset => .ok ([], offset)
  | n + 1, offset =>
    match parse_input raw offset with
    | .error e => .error e
    | .ok (txin, offset) =>
      match parse_inputs raw n offset with
      | .error e => .error e
      | .ok (rest, offset) => .ok (txin :: rest, offset)

/-- One iteration of the output loop of the constructor, from `offset`. -/
def parse_output (raw : Bytes) (offset : Nat) : Res (TxOut × Nat) :=
  if sz (offset + 8) > raw.length then
    .error (.runtime_error "Transaction: truncated amount")
  else
    match read_uint64_le raw offset with
    | .error e => .error e
    | .ok amount =>
      match read_varint raw (sz (offset + 8)) with
      | .error e => .error e
      | .ok (script_len, offset) =>
        if sz (offset + script_len) > raw.length then
          .error (.runtime_error "Transaction: truncated scriptPubKey")
        else if offset + script_len ≥ 2 ^ 64 then
          .error .undefined
        else
          .ok ({ amount := amount, scriptPubKey := slice raw offset script_len },
               sz (offset + script_len))

/-- The loop `for (i = 0; i < output_count; i++)`, with `n` iterations left. -/
def parse_outputs (raw : Bytes) : Nat → Nat → Res (List TxOut × Nat)
  | 0, offset => .ok ([], offset)
  | n + 1, offset =>
    match parse_output raw offset with
    | .error e => .error e
    | .ok (o, offset) =>
      match parse_outputs raw n offset with
      | .error e => .error e
      | .ok (rest, offset) => .ok (o :: rest, offset)

/-- One iteration of the witness-item loop, from `offset`. -/
def parse_witness_item (raw : Bytes) (offset : Nat) : Res (Bytes × Nat) :=
  match read_varint raw offset with
  | .error e => .error e
  | .ok (item_len, offset) =>
    if sz (offset + item_len) > raw.length then
      .error (.runtime_error "Transaction: truncated witness item")
    else if offset + item_len ≥ 2 ^ 64 then
      .error .undefined
    else
      .ok (slice raw offset item_len, sz (offset + item_len))

/-- The loop `for (i = 0; i < item_count; i++)`, with `n` iterations left. -/
def parse_witness_items (raw : Bytes) : Nat → Nat → Res (List Bytes × Nat)
  | 0, offset => .ok ([], offset)
  | n + 1, offset =>
    match parse_witness_item raw offset with
    | .error e => .error e
    | .ok (item, offset) =>
      match parse_witness_items raw n offset with
      | .error e => .error e
      | .ok (rest, offset) => .ok (item :: rest, offset)

/-- The loop `for (auto &in : inputs)` that reads one witness stack per input and appends
its items to `in.witness`. -/
def parse_witnesses (raw : Bytes) : List TxIn → Nat → Res (List TxIn × Nat)
  | [], offset => .ok ([], offset)
  | txin :: rest, offset =>
    match read_varint raw offset with
    | .error e => .error e
    | .ok (item_count, offset) =>
      match parse_witness_items raw item_count offset with
      | .error e => .error e
      | .ok (items, offset) =>
        match parse_witnesses raw rest offset with
        | .error e => .error e
        | .ok (rest, offset) => .ok ({ txin with witness := txin.witness ++ items } :: rest, offset)

/-- The two cached hashes, computed at the end of both constructors. -/
def Transaction.with_hashes (env : Env) (tx : Transaction) : Transaction :=
  let TxIdHash := reverse_32 (double_sha256 env tx.serialize_legacy)
  let WTxIdHash :=
    if tx.isSegwit then reverse_32 (double_sha256 env tx.serialize_with_witness) else TxIdHash
  { tx with TxIdHash := TxIdHash, WTxIdHash := WTxIdHash }

/-- The constructor `Transaction::Transaction(const std::vector<uint8_t> &raw)`. -/
def Transaction.construct (env : Env) (raw : Bytes) : Res Transaction :=
  if raw.length < 4 then
    .error (.runtime_error "Transaction: raw data too short")
  else
    match read_uint32_le raw 0 with
    | .error e => .error e
    | .ok version =>
      let offset := 4
      let isSegwit :=
        decide (sz (offset + 1) < raw.length) && (at_ raw offset == 0x00 &&
          at_ raw (offset + 1) == 0x01)
      let offset := if isSegwit then sz (offset + 2) else offset
      match read_varint raw offset with
      | .error e => .error e
      | .ok (input_count, offset) =>
        match parse_inputs raw input_count offset with
        | .error e => .error e
        | .ok (inputs, offset) =>
          match read_varint raw offset with
          | .error e => .error e
          | .ok (output_count, offset) =>
            match parse_outputs raw output_count offset with
            | .error e => .error e
            | .ok (outputs, offset) =>
              match (if isSegwit then parse_witnesses raw inputs offset
                     else .ok (inputs, offset)) with
              | .error e => .error e
              | .ok (inputs, offset) =>
                if sz (offset + 4) > raw.length then
                  .error (.runtime_error "Transaction: truncated locktime")
                else
                  match read_uint32_le raw offset with
                  | .error e => .error e
                  | .ok locktime =>
                    .ok (Transaction.with_hashes env
                      { version := version, outputs := outputs, inputs := inputs,
                        locktime := locktime, isSegwit := isSegwit,
                        TxIdHash := [], WTxIdHash := [] })

def Transaction.is_segwit (tx : Transaction) : Bool := tx.isSegwit

def Transaction.get_size_bytes (tx : Transaction) : Nat := tx.serialize_with_witness.length

/-- The weight, computed in `size_t`: `base * 4 + (total - base)`. -/
def Transaction.get_weight (tx : Transaction) : Nat :=
  let base := tx.serialize_legacy.length
  let total := tx.serialize_with_witness.length
  let witness := sz (total + 2 ^ 64 - base)
  sz (sz (base * 4) + witness)

def Transaction.get_vbytes (tx : Transaction) : Nat := sz (tx.get_weight + 3) / 4

def Transaction.get_txid (tx : Transaction) : Bytes := tx.TxIdHash

def Transaction.get_wtxid (tx : Transaction) : Bytes := tx.WTxIdHash

def Transaction.RBF_enabled (tx : Transaction) : Bool :=
  tx.inputs.any (fun txin => decide (txin.sequence < 0xFFFFFFFE))


/-! ## script.h (constants), script.cpp -/

/-- Modelled from the spec: `script.h` is not among the sources; `OP_0` is the standard
opcode `0x00`, as in the template `OP_0 <20B>`. -/
def OP_0 : Byte := 0x00

/-- Modelled from the spec: `script.h` is not among the sources; `OP_PUSHDATA1` is the
standard opcode `0x4c`, the first byte after the direct pushes `0x01`-`0x4b`. -/
def OP_PUSHDATA1 : Byte := 0x4c

/-- Modelled from the spec: `script.h` is not among the sources; `OP_PUSHDATA2` is the
standard opcode `0x4d`. -/
def OP_PUSHDATA2 : Byte := 0x4d

/-- Modelled from the spec: `script.h` is not among the sources; `OP_PUSHDATA4` is the
standard opcode `0x4e`. -/
def OP_PUSHDATA4 : Byte := 0x4e

/-- Modelled from the spec: `script.h` is not among the sources; `OP_1` is the standard
opcode `0x51`, as in the template `OP_1 <32B>`. -/
def OP_1 : Byte := 0x51

/-- Modelled from the spec: `script.h` is not among the sources; `OP_RETURN` is the
standard opcode `0x6a`. -/
def OP_RETURN : Byte := 0x6a

/-- Modelled from the spec: `script.h` is not among the sources; `OP_DUP` is the standard
opcode `0x76`. -/
def OP_DUP : Byte := 0x76

/-- Modelled from the spec: `script.h` is not among the sources; `OP_EQUAL` is the
standard opcode `0x87`. -/
def OP_EQUAL : Byte := 0x87

/-- Modelled from the spec: `script.h` is not among the sources; `OP_EQUALVERIFY` is the
standard opcode `0x88`. -/
def OP_EQUALVERIFY : Byte := 0x88

/-- Modelled from the spec: `script.h` is not among the sources; `OP_HASH160` is the
standard opcode `0xa9`. -/
def OP_HASH160 : Byte := 0xa9

/-- Modelled from the spec: `script.h` is not among the sources; `OP_CHECKSIG` is the
standard opcode `0xac`. -/
def OP_CHECKSIG : Byte := 0xac

/-- Modelled from the spec: `script.h` is not among the sources; the enumeration of output
script shapes, with the members that `script.cpp` and `script_processor.cpp` use. -/
inductive OutputScriptType where
  | P2PKH
  | P2SH
  | P2WPKH
  | P2WSH
  | P2TR
  | OP_RETURN
  | UNKNOWN
deriving DecidableEq, Repr

def classify_output_script (script : Bytes) : OutputScriptType :=
  if script.length = 25 ∧ at_ script 0 = OP_DUP ∧ at_ script 1 = OP_HASH160 ∧
      at_ script 2 = 0x14 ∧ at_ script 23 = OP_EQUALVERIFY ∧ at_ script 24 = OP_CHECKSIG then
    .P2PKH
  else if script.length = 23 ∧ at_ script 0 = OP_HASH160 ∧ at_ script 1 = 0x14 ∧
      at_ script 22 = OP_EQUAL then
    .P2SH
  else if script.length = 22 ∧ at_ script 0 = OP_0 ∧ at_ script 1 = 0x14 then
    .P2WPKH
  else if script.length = 34 ∧ at_ script 0 = OP_0 ∧ at_ script 1 = 0x20 then
    .P2WSH
  else if script.length = 34 ∧ at_ script 0 = OP_1 ∧ at_ script 1 = 0x20 then
    .P2TR
  else if ¬ script.isEmpty ∧ at_ script 0 = OP_RETURN then
    .OP_RETURN
  else
    .UNKNOWN

/-- The loop of `disassemble_script`, with `fuel` iterations left, at index `i`, with the
text produced so far. A `break` returns the text. -/
def disassemble_loop (env : Env) (script : Bytes) : Nat → Nat → String → String
  | 0, _, result => result
  | fuel + 1, i, result =>
    if ¬ (i < script.length) then result
    else
      let opcode := at_ script i
      let i := i + 1
      let sep (i : Nat) (result : String) : String :=
        if i < script.length then result ++ " " else result
      if 0x01 ≤ opcode.val ∧ opcode.val ≤ 0x4b then
        let avail := script.length - i
        let take := if opcode.val ≤ avail then opcode.val else avail
        let data := slice script i take
        let result := result ++ ("OP_PUSHBYTES_" ++ to_string opcode.val)
        let result := result ++ " "
        let result := result ++ bytes_to_hex data
        let i := i + take
        disassemble_loop env script fuel i (sep i result)
      else if opcode = OP_PUSHDATA1 then
        if i ≥ script.length then result ++ "OP_PUSHDATA1"
        else
          let length := (at_ script i).val
          let i := i + 1
          let avail := script.length - i
          let take := if length ≤ avail then length else avail
          let data := slice script i take
          let result := result ++ "OP_PUSHDATA1 "
          let result := result ++ bytes_to_hex data
          let i := i + take
          disassemble_loop env script fuel i (sep i result)
      else if opcode = OP_PUSHDATA2 then
        if i + 2 > script.length then result ++ "OP_PUSHDATA2"
        else
          match read_uint16_le script i with
          | .error _ => result
          | .ok length =>
            let i := i + 2
            let avail := script.length - i
            let take := if length ≤ avail then length else avail
            let data := slice script i take
            let result := result ++ "OP_PUSHDATA2 "
            let result := result ++ bytes_to_hex data
            let i := i + take
            disassemble_loop env script fuel i (sep i result)
      else if opcode = OP_PUSHDATA4 then
        if i + 4 > script.length then result ++ "OP_PUSHDATA4"
        else
          match read_uint32_le script i with
          | .error _ => result
          | .ok length =>
            let i := i + 4
            let avail := script.length - i
            let take := if length ≤ avail then length else avail
            let data := slice script i take
            let result := result ++ "OP_PUSHDATA4 "
            let result := result ++ bytes_to_hex data
            let i := i + take
            disassemble_loop env script fuel i (sep i result)
      else
        let result :=
          match env.opcode_map opcode with
          | some name => result ++ name
          | none => (result ++ "OP_UNKNOWN_0x") ++ byte_to_hex opcode
        disassemble_loop env script fuel i (sep i result)

/-- The function `disassemble_script`; every iteration advances `i`, so `script.size()`
iterations exhaust the loop. -/
def disassemble_script (env : Env) (script : Bytes) : String :=
  disassemble_loop env script script.length 0 ""

/-- The element `data[i]` read with its bound made explicit: outside the vector the program
leaves defined behaviour. -/
def read_at (data : Bytes) (i : Nat) : Res Byte :=
  if i < data.length then .ok (at_ data i) else .error .undefined

/-- The range constructor `std::vector(data.begin() + first, data.begin() + last)` with its
bounds made explicit. -/
def range_at (data : Bytes) (first last : Nat) : Res Bytes :=
  if first ≤ last ∧ last ≤ data.length then .ok (slice data first (last - first))
  else .error .undefined

/-- The loop of `disassemble_script` once more, with every element read and every range
checked against the size of the script (`read_at`, `range_at`) and the subtraction
`script.size() - i` performed in `size_t`. -/
def disassemble_loop_checked (env : Env) (script : Bytes) : Nat → Nat → String → Res String
  | 0, _, result => .ok result
  | fuel + 1, i, result =>
    if ¬ (i < script.length) then .ok result
    else
      match read_at script i with
      | .error e => .error e
      | .ok opcode =>
        let i := i + 1
        let sep (i : Nat) (result : String) : String :=
          if i < script.length then result ++ " " else result
        if 0x01 ≤ opcode.val ∧ opcode.val ≤ 0x4b then
          let avail := sz (script.length + 2 ^ 64 - i)
          let take := if opcode.val ≤ avail then opcode.val else avail
          match range_at script i (i + take) with
          | .error e => .error e
          | .ok data =>
            let result := result ++ ("OP_PUSHBYTES_" ++ to_string opcode.val)
            let result := result ++ " "
            let result := result ++ bytes_to_hex data
            let i := i + take
            disassemble_loop_checked env script fuel i (sep i result)
        else if opcode = OP_PUSHDATA1 then
          if i ≥ script.length then .ok (result ++ "OP_PUSHDATA1")
          else
            match read_at script i with
            | .error e => .error e
            | .ok length =>
              let length := length.val
              let i := i + 1
              let avail := sz (script.length + 2 ^ 64 - i)
              let take := if length ≤ avail then length else avail
              match range_at script i (i + take) with
              | .error e => .error e
              | .ok data =>
                let result := result ++ "OP_PUSHDATA1 "
                let result := result ++ bytes_to_hex data
                let i := i + take
                disassemble_loop_checked env script fuel i (sep i result)
        else if opcode = OP_PUSHDATA2 then
          if i + 2 > script.length then .ok (result ++ "OP_PUSHDATA2")
          else
            match read_uint16_le script i with
            | .error e => .error e
            | .ok length =>
              let i := i + 2
              let avail := sz (script.length + 2 ^ 64 - i)
              let take := if length ≤ avail then length else avail
              match range_at script i (i + take) with
              | .error e => .error e
              | .ok data =>
                let result := result ++ "OP_PUSHDATA2 "
                let result := result ++ bytes_to_hex data
                let i := i + take
                disassemble_loop_checked env script fuel i (sep i result)
        else if opcode = OP_PUSHDATA4 then
          if i + 4 > script.length then .ok (result ++ "OP_PUSHDATA4")
          else
            match read_uint32_le script i with
            | .error e => .error e
            | .ok length =>
              let i := i + 4
              let avail := sz (script.length + 2 ^ 64 - i)
              let take := if length ≤ avail then length else avail
              match range_at script i (i + take) with
              | .error e => .error e
              | .ok data =>
                let result := result ++ "OP_PUSHDATA4 "
                let result := result ++ bytes_to_hex data
                let i := i + take
                disassemble_loop_checked env script fuel i (sep i result)
        else
          let result :=
            match env.opcode_map opcode with
            | some name => result ++ name
            | none => (result ++ "OP_UNKNOWN_0x") ++ byte_to_hex opcode
          disassemble_loop_checked env script fuel i (sep i result)

/-- The function `disassemble_script` with the checked loop. -/
def disassemble_script_checked (env : Env) (script : Bytes) : Res String :=
  disassemble_loop_checked env script script.length 0 ""

/-! ## script_processor.h, script_processor.cpp -/

inductive InputScriptType where
  | P2PKH
  | P2SH_P2WPKH
  | P2SH_P2WSH
  | P2WPKH
  | P2WSH
  | P2TR_KEYPATH
  | P2TR_SCRIPTPATH
  | UNKNOWN
deriving DecidableEq, Repr

inductive OPReturnProtocol where
  | OMNI
  | OPENTIMESTAMPS
  | UNKNOWN
deriving DecidableEq, Repr

structure OPReturnPayload where
  data : Bytes
  utf8 : Option Bytes
  protocol : OPReturnProtocol
deriving DecidableEq, Repr

structure ProcessedScriptPubKey where
  type : OutputScriptType
  address : Option String
  op_return : Option OPReturnPayload
deriving DecidableEq, Repr

/-- The part of the loop bodies of `extract_last_push` and `parse_op_return` that decodes
one push opcode at `i` (already past the opcode byte): the declared length and the index of
the first data byte, or `none` where the loop gives up. -/
def push_length (script : Bytes) (opcode : Byte) (i : Nat) : Option (Nat × Nat) :=
  if 0x01 ≤ opcode.val ∧ opcode.val ≤ 0x4b then
    some (opcode.val, i)
  else if opcode = OP_PUSHDATA1 then
    if i ≥ script.length then none else some ((at_ script i).val, i + 1)
  else if opcode = OP_PUSHDATA2 then
    if i + 2 > script.length then none
    else
      match read_uint16_le script i with
      | .error _ => none
      | .ok length => some (length, i + 2)
  else if opcode = OP_PUSHDATA4 then
    if i + 4 > script.length then none
    else
      match read_uint32_le script i with
      | .error _ => none
      | .ok length => some (length, i + 4)
  else
    none

/-- The loop of `extract_last_push`, with `fuel` iterations left; `none` is the early
`return std::nullopt`. -/
def extract_last_push_loop (script : Bytes) : Nat → Nat → Bytes → Option Bytes
  | 0, _, last => some last
  | fuel + 1, i, last =>
    if ¬ (i < script.length) then some last
    else
      match push_length script (at_ script i) (i + 1) with
      | none => none
      | some (length, i) =>
        if i + length > script.length then none
        else extract_last_push_loop script fuel (i + length) (slice script i length)

def extract_last_push (script : Bytes) : Option Bytes :=
  match extract_last_push_loop script script.length 0 [] with
  | none => none
  | some last => if last.isEmpty then none else some last

/-- The loop of `parse_op_return`, with `fuel` iterations left; a `break` returns the data
gathered so far. -/
def parse_op_return_loop (script : Bytes) : Nat → Nat → Bytes → Bytes
  | 0, _, data => data
  | fuel + 1, i, data =>
    if ¬ (i < script.length) then data
    else
      match push_length script (at_ script i) (i + 1) with
      | none => data
      | some (length, i) =>
        if i + length > script.length then data
        else parse_op_return_loop script fuel (i + length) (data ++ slice script i length)

def parse_op_return (script : Bytes) : OPReturnPayload :=
  if script.isEmpty ∨ at_ script 0 ≠ OP_RETURN then
    { data := [], utf8 := none, protocol := .UNKNOWN }
  else
    let data := parse_op_return_loop script script.length 1 []
    let protocol :=
      if data.length ≥ 4 ∧ at_ data 0 = 0x6f ∧ at_ data 1 = 0x6d ∧ at_ data 2 = 0x6e ∧
          at_ data 3 = 0x69 then
        OPReturnProtocol.OMNI
      else if data.length ≥ 5 ∧ at_ data 0 = 0x01 ∧ at_ data 1 = 0x09 ∧ at_ data 2 = 0xf9 ∧
          at_ data 3 = 0x11 ∧ at_ data 4 = 0x02 then
        OPReturnProtocol.OPENTIMESTAMPS
      else
        OPReturnProtocol.UNKNOWN
    let utf8 := if ¬ data.isEmpty ∧ is_valid_utf8 data then some data else none
    { data := data, utf8 := utf8, protocol := protocol }

def process_output_script (env : Env) (script : Bytes) : Res ProcessedScriptPubKey :=
  let type := classify_output_script script
  match type with
  | .P2PKH =>
    match encode_p2pkh_address env (slice script 3 20) with
    | .error e => .error e
    | .ok address => .ok { type := type, address := some address, op_return := none }
  | .P2SH =>
    match encode_p2sh_address env (slice script 2 20) with
    | .error e => .error e
    | .ok address => .ok { type := type, address := some address, op_return := none }
  | .P2WPKH =>
    match encode_segwit_address env 0 (slice script 2 20) with
    | .error e => .error e
    | .ok address => .ok { type := type, address := some address, op_return := none }
  | .P2WSH =>
    match encode_segwit_address env 0 (slice script 2 32) with
    | .error e => .error e
    | .ok address => .ok { type := type, address := some address, op_return := none }
  | .P2TR =>
    match encode_segwit_address env 1 (slice script 2 32) with
    | .error e => .error e
    | .ok address => .ok { type := type, address := some address, op_return := none }
  | .OP_RETURN =>
    .ok { type := type, address := none, op_return := some (parse_op_return script) }
  | .UNKNOWN =>
    .ok { type := type, address := none, op_return := none }

def classify_input (prevout_script scriptSig : Bytes) (witness : List Bytes) :
    InputScriptType :=
  match classify_output_script prevout_script with
  | .P2PKH => .P2PKH
  | .P2WPKH => .P2WPKH
  | .P2WSH => .P2WSH
  | .P2TR =>
    if witness.length = 1 then .P2TR_KEYPATH
    else if witness.length ≥ 2 then .P2TR_SCRIPTPATH
    else .UNKNOWN
  | .P2SH =>
    match extract_last_push scriptSig with
    | none => .UNKNOWN
    | some redeem =>
      if redeem.length = 22 ∧ at_ redeem 0 = OP_0 ∧ at_ redeem 1 = 0x14 then .P2SH_P2WPKH
      else if redeem.length = 34 ∧ at_ redeem 0 = OP_0 ∧ at_ redeem 1 = 0x20 then .P2SH_P2WSH
      else .UNKNOWN
  | _ => .UNKNOWN

def output_script_type_str : OutputScriptType → String
  | .P2PKH => "p2pkh"
  | .P2SH => "p2sh"
  | .P2WPKH => "p2wpkh"
  | .P2WSH => "p2wsh"
  | .P2TR => "p2tr"
  | .OP_RETURN => "op_return"
  | .UNKNOWN => "unknown"

def input_script_type_str : InputScriptType → String
  | .P2PKH => "p2pkh"
  | .P2SH_P2WPKH => "p2sh-p2wpkh"
  | .P2SH_P2WSH => "p2sh-p2wsh"
  | .P2WPKH => "p2wpkh"
  | .P2WSH => "p2wsh"
  | .P2TR_KEYPATH => "p2tr_keypath"
  | .P2TR_SCRIPTPATH => "p2tr_scriptpath"
  | .UNKNOWN => "unknown"

def op_return_protocol_str : OPReturnProtocol → String
  | .OMNI => "omni"
  | .OPENTIMESTAMPS => "opentimestamps"
  | .UNKNOWN => "unknown"

/-! ## transaction.cpp: relative locktime -/

inductive RelativeLockTimeType where
  | UNIX_TIMESTAMP
  | BLOCK_HEIGHT
deriving DecidableEq, Repr

structure RelativeLocktimeInfo where
  enabled : Bool
  type : RelativeLockTimeType
  value : Nat
deriving DecidableEq, Repr

def TxIn.RLT_enabled (txin : TxIn) : Bool := txin.sequence &&& (1 <<< 31) = 0

/-- The function `TxIn::get_rlt_info`; `info{}` starts with the first enumerator. -/
def TxIn.get_rlt_info (txin : TxIn) : RelativeLocktimeInfo :=
  if ¬ txin.RLT_enabled then
    { enabled := false, type := .UNIX_TIMESTAMP, value := 0 }
  else
    let time_flag := txin.sequence &&& (1 <<< 22) ≠ 0
    { enabled := true,
      type := if time_flag then .UNIX_TIMESTAMP else .BLOCK_HEIGHT,
      value := (txin.sequence &&& 0xFFFF) % 2 ^ 16 }

/-! ## accounting.h, accounting.cpp -/

structure Prevout where
  txid : Bytes
  vout : Nat
  value_sats : Nat
  script_pubkey_hex : Bytes
deriving DecidableEq, Repr

/-- The integer members of `SegwitSavings` (`savings_pct` is a `double`). -/
structure SegwitSavings where
  witness_bytes : Nat
  non_witness_bytes : Nat
  total_bytes : Nat
  weight_actual : Nat
  weight_if_legacy : Nat
deriving DecidableEq, Repr

inductive WarningCode where
  | RBF_SIGNALING
  | HIGH_FEE
  | DUST_OUTPUT
  | UNKNOWN_OUTPUT_SCRIPT
deriving DecidableEq, Repr

structure TxWarning where
  code : WarningCode
deriving DecidableEq, Repr

structure AccountedInput where
  txid : String
  vout : Nat
  sequence : Nat
  script_sig_hex : String
  script_asm : String
  witness : List String
  script_type : String
  address : Option String
  prevout_value_sats : Nat
  prevout_script_pubkey_hex : String
  rlt : RelativeLocktimeInfo
deriving DecidableEq, Repr

structure AccountedOutput where
  n : Nat
  value_sats : Nat
  script_pubkey_hex : String
  script_asm : String
  script_type : String
  address : Option String
  op_return_data_hex : Option String
  op_return_data_utf8 : Option Bytes
  op_return_protocol : Option String
deriving DecidableEq, Repr

/-- The members of `TxnAnalyzer` (`fee_rate_sat_vb_` is a `double`). -/
structure TxnAnalyzer where
  tx_ : Transaction
  network_ : String
  total_input_sats_ : Nat
  total_output_sats_ : Nat
  fee_sats_ : Nat
  segwit_savings_ : SegwitSavings
  inputs_ : List AccountedInput
  outputs_ : List AccountedOutput
  warnings_ : List TxWarning
deriving DecidableEq, Repr

/-- The key `bytes_to_hex(txid) + ":" + std::to_string(vout)` of the prevout map. -/
def prevout_key (txid_hex : String) (vout : Nat) : String :=
  (txid_hex ++ ":") ++ to_string vout

/-- The key of a supplied prevout. -/
def Prevout.key (p : Prevout) : String := prevout_key (bytes_to_hex p.txid) p.vout

/-- The key under which the prevout of an input is looked up. -/
def TxIn.key (txin : TxIn) : String :=
  prevout_key (bytes_to_hex (reverse_32 txin.prevTxId)) txin.vout

/-- The loop of the constructor that fills `prevout_map` (an association list stands for
the `std::unordered_map`; `count` and `find` are `List.lookup`). -/
def build_prevout_map :
    List Prevout → List (String × Prevout) → Res (List (String × Prevout))
  | [], prevout_map => .ok prevout_map
  | p :: rest, prevout_map =>
    let key := p.key
    if (prevout_map.lookup key).isSome then
      .error (.runtime_error ("Duplicate prevout in fixture: " ++ key))
    else
      build_prevout_map rest (prevout_map ++ [(key, p)])

/-- The test `is_coinbase` of `build_inputs`: `vout == 0xFFFFFFFF` and the 32 bytes of
`prevTxId` are zero. -/
def is_coinbase (txin : TxIn) : Bool :=
  decide (txin.vout = 0xFFFFFFFF) &&
    (List.range 32).all (fun b => decide (at_ txin.prevTxId b = 0))

/-- The body of the loop of `build_inputs`. -/
def build_input (env : Env) (prevout_map : List (String × Prevout)) (txin : TxIn) :
    Res AccountedInput :=
  let rev := reverse_32 txin.prevTxId
  let txid := bytes_to_hex rev
  if is_coinbase txin then
    .ok { txid := txid, vout := txin.vout, sequence := txin.sequence,
          rlt := txin.get_rlt_info,
          script_sig_hex := bytes_to_hex txin.scriptSig,
          script_asm := disassemble_script env txin.scriptSig,
          script_type := "coinbase",
          prevout_value_sats := 0,
          prevout_script_pubkey_hex := "",
          witness := [], address := none }
  else
    let key := txin.key
    match prevout_map.lookup key with
    | none => .error (.runtime_error ("Missing prevout for input: " ++ key))
    | some prev =>
      let ist := classify_input prev.script_pubkey_hex txin.scriptSig txin.witness
      match process_output_script env prev.script_pubkey_hex with
      | .error e => .error e
      | .ok pspk =>
        .ok { txid := txid, vout := txin.vout, sequence := txin.sequence,
              rlt := txin.get_rlt_info,
              script_sig_hex := bytes_to_hex txin.scriptSig,
              script_asm := disassemble_script env txin.scriptSig,
              witness := txin.witness.map bytes_to_hex,
              script_type := input_script_type_str ist,
              address := pspk.address,
              prevout_value_sats := prev.value_sats,
              prevout_script_pubkey_hex := bytes_to_hex prev.script_pubkey_hex }

def build_inputs (env : Env) (prevout_map : List (String × Prevout)) :
    List TxIn → Res (List AccountedInput)
  | [] => .ok []
  | txin :: rest =>
    match build_input env prevout_map txin with
    | .error e => .error e
    | .ok ai =>
      match build_inputs env prevout_map rest with
      | .error e => .error e
      | .ok ais => .ok (ai :: ais)

/-- The body of the loop of `build_outputs` for the output of index `i`. -/
def build_output (env : Env) (i : Nat) (out : TxOut) : Res AccountedOutput :=
  match process_output_script env out.scriptPubKey with
  | .error e => .error e
  | .ok pspk =>
    let payload : Option OPReturnPayload :=
      if pspk.type = .OP_RETURN then pspk.op_return else none
    .ok { n := i % 2 ^ 32,
          value_sats := out.amount,
          script_pubkey_hex := bytes_to_hex out.scriptPubKey,
          script_asm := disassemble_script env out.scriptPubKey,
          script_type := output_script_type_str pspk.type,
          address := pspk.address,
          op_return_data_hex := payload.map (fun p => bytes_to_hex p.data),
          op_return_data_utf8 := payload.bind (fun p => p.utf8),
          op_return_protocol := payload.map (fun p => op_return_protocol_str p.protocol) }

def build_outputs (env : Env) : Nat → List TxOut → Res (List AccountedOutput)
  | _, [] => .ok []
  | i, out :: rest =>
    match build_output env i out with
    | .error e => .error e
    | .ok ao =>
      match build_outputs env (i + 1) rest with
      | .error e => .error e
      | .ok aos => .ok (ao :: aos)

/-- The first loop of `build_fee_info`: the 64-bit sum over the inputs not marked
`"coinbase"`. -/
def sum_input_sats (inputs : List AccountedInput) : Nat :=
  inputs.foldl
    (fun total ai => if ai.script_type ≠ "coinbase" then u64 (total + ai.prevout_value_sats)
                     else total) 0

/-- The second loop of `build_fee_info`: the 64-bit sum over the outputs. -/
def sum_output_sats (outputs : List AccountedOutput) : Nat :=
  outputs.foldl (fun total ao => u64 (total + ao.value_sats)) 0

/-- The fee of `build_fee_info` from the two totals. -/
def fee_of (total_input_sats total_output_sats : Nat) : Nat :=
  if total_input_sats ≥ total_output_sats then total_input_sats - total_output_sats else 0

/-- The integer part of `build_segwit_savings`, in `size_t` arithmetic. -/
def build_segwit_savings (tx : Transaction) : SegwitSavings :=
  let total := tx.get_size_bytes
  let w_act := tx.get_weight
  if tx.is_segwit then
    let base := sz (sz (w_act + 2) + 2 ^ 64 - total) / 3
    { witness_bytes := sz (sz (total + 2 ^ 64 - base) + 2 ^ 64 - 2),
      non_witness_bytes := base,
      total_bytes := total,
      weight_actual := w_act,
      weight_if_legacy := sz (total * 4) }
  else
    { witness_bytes := 0,
      non_witness_bytes := total,
      total_bytes := total,
      weight_actual := w_act,
      weight_if_legacy := sz (total * 4) }

/-- The function `build_warnings`: each of the four checks appends at most one warning. -/
def build_warnings (env : Env) (tx : Transaction) (fee_sats : Nat)
    (outputs : List AccountedOutput) : List TxWarning :=
  let warnings : List TxWarning := []
  let warnings := if tx.RBF_enabled then warnings ++ [{ code := .RBF_SIGNALING }] else warnings
  let vb := tx.get_vbytes
  let warnings :=
    if fee_sats > 1000000 ∨ (vb > 0 ∧ env.fee_rate_gt_200 fee_sats vb) then
      warnings ++ [{ code := .HIGH_FEE }]
    else warnings
  let warnings :=
    if outputs.any (fun out => out.script_type ≠ "op_return" ∧ out.value_sats < 546) then
      warnings ++ [{ code := .DUST_OUTPUT }]
    else warnings
  let warnings :=
    if outputs.any (fun out => out.script_type = "unknown") then
      warnings ++ [{ code := .UNKNOWN_OUTPUT_SCRIPT }]
    else warnings
  warnings

/-- The constructor `TxnAnalyzer::TxnAnalyzer(tx, prevouts, network)`. -/
def TxnAnalyzer.construct (env : Env) (tx : Transaction) (prevouts : List Prevout)
    (network : String) : Res TxnAnalyzer :=
  match build_prevout_map prevouts [] with
  | .error e => .error e
  | .ok prevout_map =>
    match build_inputs env prevout_map tx.inputs with
    | .error e => .error e
    | .ok inputs =>
      match build_outputs env 0 tx.outputs with
      | .error e => .error e
      | .ok outputs =>
        let total_input_sats := sum_input_sats inputs
        let total_output_sats := sum_output_sats outputs
        let fee_sats := fee_of total_input_sats total_output_sats
        .ok { tx_ := tx, network_ := network,
              total_input_sats_ := total_input_sats,
              total_output_sats_ := total_output_sats,
              fee_sats_ := fee_sats,
              segwit_savings_ := build_segwit_savings tx,
              inputs_ := inputs, outputs_ := outputs,
              warnings_ := build_warnings env tx fee_sats outputs }

/-! ## block.h, block.cpp -/

structure BlockHeader where
  version : Nat
  prevBlock : Bytes
  merkleRoot : Bytes
  timestamp : Nat
  bits : Nat
  nonce : Nat
  blockHash : Bytes
deriving DecidableEq, Repr

/-- The lambda `w32` of `calcBlockHash`:
`for (i = 0; i < 4; ++i) buf.push_back((uint8_t)(val >> (8 * i)))`. -/
def w32 (buf : Bytes) (val : Nat) : Bytes := write_le buf val 4

/-- The buffer `buf` that `calcBlockHash` fills before hashing it. -/
def BlockHeader.calcBlockHash_buf (h : BlockHeader) : Bytes :=
  let buf := w32 [] h.version
  let buf := buf ++ h.prevBlock
  let buf := buf ++ h.merkleRoot
  let buf := w32 buf h.timestamp
  let buf := w32 buf h.bits
  w32 buf h.nonce

def BlockHeader.calcBlockHash (env : Env) (h : BlockHeader) : BlockHeader :=
  { h with blockHash := reverse_32 (double_sha256 env h.calcBlockHash_buf) }

/-- The constructor `BlockHeader::BlockHeader(std::array<uint8_t, 80> &)`; the argument is
an array of 80 bytes. -/
def BlockHeader.construct (env : Env) (blk_header_hex_bytes : Bytes) : Res BlockHeader :=
  let off := 0
  match read_uint32_le blk_header_hex_bytes off with
  | .error e => .error e
  | .ok version =>
    let off := off + 4
    let prevBlock := slice blk_header_hex_bytes off 32
    let off := off + 32
    let merkleRoot := slice blk_header_hex_bytes off 32
    let off := off + 32
    match read_uint32_le blk_header_hex_bytes off with
    | .error e => .error e
    | .ok timestamp =>
      let off := off + 4
      match read_uint32_le blk_header_hex_bytes off with
      | .error e => .error e
      | .ok bits =>
        let off := off + 4
        match read_uint32_le blk_header_hex_bytes off with
        | .error e => .error e
        | .ok nonce =>
          .ok (BlockHeader.calcBlockHash env
            { version := version, prevBlock := prevBlock, merkleRoot := merkleRoot,
              timestamp := timestamp, bits := bits, nonce := nonce, blockHash := [] })

def BlockHeader.getPreviousBlock (h : BlockHeader) : Bytes := h.prevBlock

def BlockHeader.getMerkleRoot (h : BlockHeader) : Bytes := h.merkleRoot

def BlockHeader.getBlockHash (h : BlockHeader) : Bytes := h.blockHash

def BlockHeader.getHashStr (h : BlockHeader) : String := bytes_to_hex h.blockHash

structure Block where
  magic : Nat
  blockSize : Nat
  blockHeader : BlockHeader
  txnCounter : Nat
  txs : List Transaction
deriving DecidableEq, Repr

def Block.getTransactions (b : Block) : List Transaction := b.txs

/-- The step `if (layer.size() % 2 != 0) layer.push_back(layer.back())`. -/
def merkle_dup (layer : List Bytes) : List Bytes :=
  if layer.length % 2 ≠ 0 then layer ++ [layer.getLastD []] else layer

/-- The loop `for (i = 0; i < layer.size(); i += 2)` building `next`: one node
`double_sha256(layer[i] ‖ layer[i + 1])` for each even index `i = 2 * k` below the size. -/
def merkle_next (env : Env) (layer : List Bytes) : List Bytes :=
  (List.range ((layer.length + 1) / 2)).map
    (fun k => double_sha256 env (layer.getD (2 * k) [] ++ layer.getD (2 * k + 1) []))

/-- The loop `while (layer.size() > 1)` of `calcMerkleRoot`, with `fuel` iterations left.
An iteration on a layer of `n > 1` nodes leaves at most `n - 1`, so `layer.size()`
iterations exhaust the loop. -/
def merkle_loop (env : Env) : Nat → List Bytes → List Bytes
  | 0, layer => layer
  | fuel + 1, layer =>
    if layer.length > 1 then merkle_loop env fuel (merkle_next env (merkle_dup layer))
    else layer

def Block.calcMerkleRoot (env : Env) (b : Block) : Bytes :=
  if b.txs.isEmpty then
    List.replicate 32 0
  else
    let layer := b.txs.map (fun tx => reverse_32 tx.get_txid)
    let layer := merkle_loop env layer.length layer
    layer.getD 0 []

/-- The loop `while (e--) n *= 10` of `decompress_amount`. -/
def mul10_loop : Nat → Nat → Nat
  | 0, n => n
  | e + 1, n => mul10_loop e (u64 (n * 10))

def decompress_amount (x : Nat) : Nat :=
  if x = 0 then 0
  else
    let x := x - 1
    let e := x % 10
    let x := x / 10
    let n :=
      if e < 9 then
        let d := x % 9 + 1
        let x := x / 9
        u64 (x * 10 + d)
      else
        u64 (x + 1)
    mul10_loop e n

/-- The lambda `read_n` of `decompress_script`, from `off`; the sum `off + n` is computed in
`size_t`, and a range whose end precedes its start is outside defined behaviour. -/
def read_n (data : Bytes) (off n : Nat) : Res (Bytes × Nat) :=
  if sz (off + n) > data.length then
    .error (.runtime_error "decompress_script: underflow")
  else if off + n ≥ 2 ^ 64 then
    .error .undefined
  else
    .ok (slice data off n, sz (off + n))

def decompress_script (env : Env) (type : Nat) (data : Bytes) (off : Nat) :
    Res (Bytes × Nat) :=
  if type = 0 then
    match read_n data off 20 with
    | .error e => .error e
    | .ok (h, off) => .ok ([0x76, 0xa9, 0x14] ++ h ++ [0x88] ++ [0xac], off)
  else if type = 1 then
    match read_n data off 20 with
    | .error e => .error e
    | .ok (h, off) => .ok ([0xa9, 0x14] ++ h ++ [0x87], off)
  else if type = 2 ∨ type = 3 then
    match read_n data off 32 with
    | .error e => .error e
    | .ok (x, off) => .ok ([0x21, toByte type] ++ x ++ [0xac], off)
  else if type = 4 ∨ type = 5 then
    match read_n data off 32 with
    | .error e => .error e
    | .ok (x, off) =>
      let compressed := [toByte (type - 2)] ++ x
      match env.pubkey_uncompress compressed with
      | none => .error (.runtime_error "Invalid compressed pubkey in undo data")
      | some (full, full_len) =>
        if full_len ≠ 65 then
          .error (.runtime_error "Unexpected pubkey length")
        else
          .ok ([0x41] ++ full ++ [0xac], off)
  else
    read_n data off (type - 6)

/-- The loop `while (true)` of `read_cvarint`, with `fuel = data.size() - off` bytes left:
an iteration either returns, throws, or consumes one byte, and with no byte left it
throws. -/
def read_cvarint_loop (data : Bytes) : Nat → Nat → Nat → Res (Nat × Nat)
  | 0, _, _ => .error (.runtime_error "read_cvarint: underflow")
  | fuel + 1, off, n =>
    if off ≥ data.length then
      .error (.runtime_error "read_cvarint: underflow")
    else
      let b := (at_ data off).val
      let off := off + 1
      let n := u64 ((n <<< 7) ||| (b &&& 0x7F))
      if b &&& 0x80 ≠ 0 then
        read_cvarint_loop data fuel off (u64 (n + 1))
      else
        .ok (n, off)

/-- Reads a bit-packed varint at `off`; returns the value and the advanced offset. -/
def read_cvarint (data : Bytes) (off : Nat) : Res (Nat × Nat) :=
  read_cvarint_loop data (data.length - off) off 0

structure UndoCoin where
  height : Nat
  isCoinbase : Bool
  value : Nat
  scriptPubKey : Bytes
deriving DecidableEq, Repr

structure UndoTx where
  spentOutputs : List UndoCoin
deriving DecidableEq, Repr

structure UndoBlock where
  magic : Nat
  undoPayloadSize : Nat
  txCount : Nat
  transactions : List UndoTx
deriving DecidableEq, Repr

/-- One iteration of the loop of `UndoTx::UndoTx`, from `off`. -/
def parse_undo_coin (env : Env) (data : Bytes) (off : Nat) : Res (UndoCoin × Nat) :=
  match read_cvarint data off with
  | .error e => .error e
  | .ok (code, off) =>
    let height := (code >>> 1) % 2 ^ 32
    let isCoinbase := decide (code &&& 1 ≠ 0)
    match (if height > 0 then
             if off ≥ data.length then .error (.runtime_error "dummy underflow")
             else .ok (off + 1)
           else .ok off : Res Nat) with
    | .error e => .error e
    | .ok off =>
      match read_cvarint data off with
      | .error e => .error e
      | .ok (compressed, off) =>
        let value := decompress_amount compressed
        match read_cvarint data off with
        | .error e => .error e
        | .ok (script_type, off) =>
          match decompress_script env script_type data off with
          | .error e => .error e
          | .ok (scriptPubKey, off) =>
            .ok ({ height := height, isCoinbase := isCoinbase, value := value,
                   scriptPubKey := scriptPubKey }, off)

/-- The loop `for (i = 0; i < input_count; i++)` of `UndoTx::UndoTx`, with `n` iterations
left. -/
def parse_undo_coins (env : Env) (data : Bytes) : Nat → Nat → Res (List UndoCoin × Nat)
  | 0, off => .ok ([], off)
  | n + 1, off =>
    match parse_undo_coin env data off with
    | .error e => .error e
    | .ok (coin, off) =>
      match parse_undo_coins env data n off with
      | .error e => .error e
      | .ok (rest, off) => .ok (coin :: rest, off)

/-- The constructor `UndoTx::UndoTx(std::vector<uint8_t> &data, size_t &off)`. -/
def UndoTx.construct (env : Env) (data : Bytes) (off : Nat) : Res (UndoTx × Nat) :=
  match read_varint data off with
  | .error e => .error e
  | .ok (input_count, off) =>
    match parse_undo_coins env data input_count off with
    | .error e => .error e
    | .ok (spentOutputs, off) => .ok ({ spentOutputs := spentOutputs }, off)

def UndoTx.getInputs (t : UndoTx) : List UndoCoin := t.spentOutputs

/-- The loop `for (i = 0; i < txCount; ++i) transactions.emplace_back(raw, off)`, with `n`
iterations left. -/
def parse_undo_txs (env : Env) (raw : Bytes) : Nat → Nat → Res (List UndoTx × Nat)
  | 0, off => .ok ([], off)
  | n + 1, off =>
    match UndoTx.construct env raw off with
    | .error e => .error e
    | .ok (t, off) =>
      match parse_undo_txs env raw n off with
      | .error e => .error e
      | .ok (rest, off) => .ok (t :: rest, off)

/-- The constructor `UndoBlock::UndoBlock(std::vector<uint8_t> &raw)`. -/
def UndoBlock.construct (env : Env) (raw : Bytes) : Res UndoBlock :=
  let off := 0
  match read_uint32_le raw off with
  | .error e => .error e
  | .ok magic =>
    let off := off + 4
    match read_uint32_le raw off with
    | .error e => .error e
    | .ok undoPayloadSize =>
      let off := off + 4
      if sz (off + undoPayloadSize) > raw.length then
        .error (.runtime_error "UndoBlock truncated")
      else
        let payloadEnd := sz (off + undoPayloadSize)
        match read_varint raw off with
        | .error e => .error e
        | .ok (txCount, off) =>
          match parse_undo_txs env raw txCount off with
          | .error e => .error e
          | .ok (transactions, off) =>
            if off ≠ payloadEnd then
              .error (.runtime_error "UndoBlock payload size mismatch")
            else
              .ok { magic := magic, undoPayloadSize := undoPayloadSize, txCount := txCount,
                    transactions := transactions }

def UndoBlock.getTransactions (b : UndoBlock) : List UndoTx := b.transactions

def UndoBlock.getTxCount (b : UndoBlock) : Nat := b.txCount

/-! ## transaction.cpp: the constructor on a shared cursor -/

/-- One iteration of the input loop of `Transaction(raw, off)`. It has the test before
`prevTxId` only: `vout` and `sequence` are read by `read_uint32_le`, which throws by itself,
and the script is copied by `insert(raw.begin() + off, raw.begin() + off + script_len)`
without a test, which is undefined where the range leaves the buffer. -/
def parse_input_at (raw : Bytes) (off : Nat) : Res (TxIn × Nat) :=
  if sz (off + 32) > raw.length then
    .error (.runtime_error "Transaction: truncated prevTxId")
  else
    let prevTxId := slice raw off 32
    let off := sz (off + 32)
    match read_uint32_le raw off with
    | .error e => .error e
    | .ok vout =>
      match read_varint raw (sz (off + 4)) with
      | .error e => .error e
      | .ok (script_len, off) =>
        if off + script_len > raw.length then
          .error .undefined
        else
          let scriptSig := slice raw off script_len
          let off := sz (off + script_len)
          match read_uint32_le raw off with
          | .error e => .error e
          | .ok sequence =>
            .ok ({ prevTxId := prevTxId, vout := vout, scriptSig := scriptSig,
                   sequence := sequence, witness := [] }, sz (off + 4))

/-- The loop `for (i = 0; i < input_count; i++)` of `Transaction(raw, off)`, with `n`
iterations left. -/
def parse_inputs_at (raw : Bytes) : Nat → Nat → Res (List TxIn × Nat)
  | 0, off => .ok ([], off)
  | n + 1, off =>
    match parse_input_at raw off with
    | .error e => .error e
    | .ok (txin, off) =>
      match parse_inputs_at raw n off with
      | .error e => .error e
      | .ok (rest, off) => .ok (txin :: rest, off)

/-- One iteration of the output loop of `Transaction(raw, off)`; the script is copied
without a test, as in `parse_input_at`. -/
def parse_output_at (raw : Bytes) (off : Nat) : Res (TxOut × Nat) :=
  match read_uint64_le raw off with
  | .error e => .error e
  | .ok amount =>
    match read_varint raw (sz (off + 8)) with
    | .error e => .error e
    | .ok (script_len, off) =>
      if off + script_len > raw.length then
        .error .undefined
      else
        .ok ({ amount := amount, scriptPubKey := slice raw off script_len },
             sz (off + script_len))

/-- The loop `for (i = 0; i < output_count; i++)` of `Transaction(raw, off)`, with `n`
iterations left. -/
def parse_outputs_at (raw : Bytes) : Nat → Nat → Res (List TxOut × Nat)
  | 0, off => .ok ([], off)
  | n + 1, off =>
    match parse_output_at raw off with
    | .error e => .error e
    | .ok (o, off) =>
      match parse_outputs_at raw n off with
      | .error e => .error e
      | .ok (rest, off) => .ok (o :: rest, off)

/-- The constructor `Transaction::Transaction(const std::vector<uint8_t> &raw, size_t &off)`:
the transaction and the value left in `off`. The witness loop is the one of the other
constructor, test included. -/
def Transaction.construct_at (env : Env) (raw : Bytes) (off : Nat) : Res (Transaction × Nat) :=
  match read_uint32_le raw off with
  | .error e => .error e
  | .ok version =>
    let off := sz (off + 4)
    let isSegwit :=
      decide (sz (off + 1) < raw.length) && (at_ raw off == 0x00 && at_ raw (off + 1) == 0x01)
    let off := if isSegwit then sz (off + 2) else off
    match read_varint raw off with
    | .error e => .error e
    | .ok (input_count, off) =>
      match parse_inputs_at raw input_count off with
      | .error e => .error e
      | .ok (inputs, off) =>
        match read_varint raw off with
        | .error e => .error e
        | .ok (output_count, off) =>
          match parse_outputs_at raw output_count off with
          | .error e => .error e
          | .ok (outputs, off) =>
            match (if isSegwit then parse_witnesses raw inputs off
                   else .ok (inputs, off)) with
            | .error e => .error e
            | .ok (inputs, off) =>
              match read_uint32_le raw off with
              | .error e => .error e
              | .ok locktime =>
                .ok (Transaction.with_hashes env
                  { version := version, outputs := outputs, inputs := inputs,
                    locktime := locktime, isSegwit := isSegwit,
                    TxIdHash := [], WTxIdHash := [] }, sz (off + 4))

/-- The constructor `Transaction(raw)` together with the final value of its local variable
`offset`, the number of bytes it has consumed. -/
def Transaction.construct_offset (env : Env) (raw : Bytes) : Res (Transaction × Nat) :=
  if raw.length < 4 then
    .error (.runtime_error "Transaction: raw data too short")
  else
    match read_uint32_le raw 0 with
    | .error e => .error e
    | .ok version =>
      let offset := 4
      let isSegwit :=
        decide (sz (offset + 1) < raw.length) && (at_ raw offset == 0x00 &&
          at_ raw (offset + 1) == 0x01)
      let offset := if isSegwit then sz (offset + 2) else offset
      match read_varint raw offset with
      | .error e => .error e
      | .ok (input_count, offset) =>
        match parse_inputs raw input_count offset with
        | .error e => .error e
        | .ok (inputs, offset) =>
          match read_varint raw offset with
          | .error e => .error e
          | .ok (output_count, offset) =>
            match parse_outputs raw output_count offset with
            | .error e => .error e
            | .ok (outputs, offset) =>
              match (if isSegwit then parse_witnesses raw inputs offset
                     else .ok (inputs, offset)) with
              | .error e => .error e
              | .ok (inputs, offset) =>
                if sz (offset + 4) > raw.length then
                  .error (.runtime_error "Transaction: truncated locktime")
                else
                  match read_uint32_le raw offset with
                  | .error e => .error e
                  | .ok locktime =>
                    .ok (Transaction.with_hashes env
                      { version := version, outputs := outputs, inputs := inputs,
                        locktime := locktime, isSegwit := isSegwit,
                        TxIdHash := [], WTxIdHash := [] }, sz (offset + 4))

/-! ## block.cpp: the Block constructor -/

/-- The loop `for (i = 0; i < txnCounter; ++i)` of the `Block` constructor, with `n`
iterations left: each transaction is decoded at the shared cursor. -/
def parse_txs (env : Env) (blk : Bytes) : Nat → Nat → Res (List Transaction × Nat)
  | 0, off => .ok ([], off)
  | n + 1, off =>
    match Transaction.construct_at env blk off with
    | .error e => .error e
    | .ok (tx, off) =>
      match parse_txs env blk n off with
      | .error e => .error e
      | .ok (rest, off) => .ok (tx :: rest, off)

/-- The constructor `Block::Block(std::vector<uint8_t> &blk_hex_bytes)`. -/
def Block.construct (env : Env) (blk_hex_bytes : Bytes) : Res Block :=
  if blk_hex_bytes.length < 8 then
    .error (.runtime_error "Block: buffer too short")
  else
    let off := 0
    match read_uint32_le blk_hex_bytes off with
    | .error e => .error e
    | .ok magic =>
      let off := sz (off + 4)
      match read_uint32_le blk_hex_bytes off with
      | .error e => .error e
      | .ok blockSize =>
        let off := sz (off + 4)
        if blk_hex_bytes.length < sz (off + 80) then
          .error (.runtime_error "Block: not enough bytes for block header")
        else
          match BlockHeader.construct env (slice blk_hex_bytes off 80) with
          | .error e => .error e
          | .ok blockHeader =>
            let off := sz (off + 80)
            match read_varint blk_hex_bytes off with
            | .error e => .error e
            | .ok (txnCounter, off) =>
              match parse_txs env blk_hex_bytes txnCounter off with
              | .error e => .error e
              | .ok (txs, _) =>
                .ok { magic := magic, blockSize := blockSize, blockHeader := blockHeader,
                      txnCounter := txnCounter, txs := txs }

/-- The getter `getTransactionCount`: the counter cast to `uint32_t`. -/
def Block.getTransactionCount (b : Block) : Nat := b.txnCounter % 2 ^ 32

/-! ## accounting.h, accounting.cpp: BlockAnalyzer -/

/-- The getter `getVersion`, as the 32-bit pattern of its `int32_t` result: the callers
store it in a `uint32_t` again, and the two casts cancel. -/
def BlockHeader.getVersion (h : BlockHeader) : Nat := h.version

/-- The getter `getTimestamp`, as a 32-bit pattern (see `getVersion`). -/
def BlockHeader.getTimestamp (h : BlockHeader) : Nat := h.timestamp

/-- The getter `getBits`, as a 32-bit pattern (see `getVersion`). -/
def BlockHeader.getBits (h : BlockHeader) : Nat := h.bits

/-- The getter `getNonce`, as a 32-bit pattern (see `getVersion`). -/
def BlockHeader.getNonce (h : BlockHeader) : Nat := h.nonce

def Block.getHeader (b : Block) : BlockHeader := b.blockHeader

def TxnAnalyzer.weight (ta : TxnAnalyzer) : Nat := ta.tx_.get_weight

def TxnAnalyzer.fee_sats (ta : TxnAnalyzer) : Nat := ta.fee_sats_

def TxnAnalyzer.vout (ta : TxnAnalyzer) : List AccountedOutput := ta.outputs_

/-- The members of `BlockStats` (`avg_fee_rate_sat_vb` is a `double`). The `std::map` is
the list of its entries, read by key with `map_get`; the order of the list is the order of
insertion, not the order of iteration of the map. -/
structure BlockStats where
  total_fees_sats : Nat
  total_weight : Nat
  script_type_summary : List (String × Nat)
deriving DecidableEq, Repr

structure CoinBaseInfo where
  bip34_height : Nat
  coinbase_script_hex : String
  total_output_sats : Nat
deriving DecidableEq, Repr

structure AnalyzedBlockHeader where
  version : Nat
  prev_block_hash : String
  merkle_root : String
  merkle_root_valid : Bool
  timestamp : Nat
  bits : String
  nonce : Nat
  block_hash : String
deriving DecidableEq, Repr

structure BlockAnalyzer where
  ok : Bool
  mode : String
  block_header : AnalyzedBlockHeader
  tx_count : Nat
  coinbase : CoinBaseInfo
  transactions : List TxnAnalyzer
  block_stats : BlockStats
deriving DecidableEq, Repr

/-- The statement `m[key]++` on a `std::map<std::string, uint64_t>`: an absent key is
inserted with the value 0 first. -/
def map_incr : List (String × Nat) → String → List (String × Nat)
  | [], key => [(key, u64 (0 + 1))]
  | (k, v) :: rest, key =>
    if k = key then (k, u64 (v + 1)) :: rest else (k, v) :: map_incr rest key

/-- The value stored under `key`, 0 when the key is absent. -/
def map_get : List (String × Nat) → String → Nat
  | [], _ => 0
  | (k, v) :: rest, key => if k = key then v else map_get rest key

/-- The function `BlockAnalyzer::analyze_header`; `std::equal` compares the bytes of
`computed` with the bytes of the header's root at the same positions. -/
def analyze_header (env : Env) (block : Block) : AnalyzedBlockHeader :=
  let hdr := block.getHeader
  let bits_val := hdr.getBits
  let bits_bytes : Bytes :=
    [toByte (bits_val >>> 24), toByte (bits_val >>> 16), toByte (bits_val >>> 8), toByte bits_val]
  let computed := block.calcMerkleRoot env
  let header_root := hdr.getMerkleRoot
  { version := hdr.getVersion,
    timestamp := hdr.getTimestamp,
    nonce := hdr.getNonce,
    block_hash := hdr.getHashStr,
    prev_block_hash := bytes_to_hex (reverse_32 hdr.getPreviousBlock),
    merkle_root := bytes_to_hex (reverse_32 hdr.getMerkleRoot),
    bits := bytes_to_hex bits_bytes,
    merkle_root_valid :=
      (List.range computed.length).all (fun i => at_ computed i == at_ header_root i) }

/-- The function `BlockAnalyzer::analyze_coinbase`. The height loop
`for (i = 0; i < push_len; ++i) h |= (uint32_t)script[1 + i] << (8 * i)` is the loop of
`read_le` from offset 1; the total is a `uint64_t` accumulator. -/
def analyze_coinbase (cb_tx : Transaction) : Res CoinBaseInfo :=
  match cb_tx.inputs with
  | [] => .error (.runtime_error "Coinbase has no inputs")
  | txin :: _ =>
    let script := txin.scriptSig
    let bip34_height :=
      if ¬ script.isEmpty then
        let push_len := (at_ script 0).val
        if push_len ≥ 1 ∧ push_len ≤ 4 ∧ script.length ≥ 1 + push_len then
          read_le script 1 push_len
        else 0
      else 0
    .ok { bip34_height := bip34_height,
          coinbase_script_hex := bytes_to_hex script,
          total_output_sats := cb_tx.outputs.foldl (fun total out => u64 (total + out.amount)) 0 }

/-- The inner loop of `analyze_transactions` building the prevouts of one transaction from
its inputs and the coins of its undo entry (both of the same size, checked before). -/
def build_prevouts (inputs : List TxIn) (undo_inputs : List UndoCoin) : List Prevout :=
  List.zipWith
    (fun txin coin =>
      { txid := reverse_32 txin.prevTxId, vout := txin.vout, value_sats := coin.value,
        script_pubkey_hex := coin.scriptPubKey })
    inputs undo_inputs

/-- The loop `for (i = 1; i < txs.size(); ++i)` of `analyze_transactions`, on the
transactions from index `i` on and the undo entries from index `i - 1` on. Running out of
undo entries is the out-of-range access `undo_txs[i - 1]`, which the size check before the
loop excludes. -/
def analyze_transactions_loop (env : Env) (network : String) :
    List Transaction → List UndoTx → Res (List TxnAnalyzer)
  | [], _ => .ok []
  | _ :: _, [] => .error .undefined
  | tx :: txs, undo_tx :: undo_txs =>
    let inputs := tx.inputs
    let undo_inputs := undo_tx.getInputs
    if inputs.length ≠ undo_inputs.length then
      .error (.runtime_error "Undo mismatch: input count mismatch")
    else
      match TxnAnalyzer.construct env tx (build_prevouts inputs undo_inputs) network with
      | .error e => .error e
      | .ok ta =>
        match analyze_transactions_loop env network txs undo_txs with
        | .error e => .error e
        | .ok rest => .ok (ta :: rest)

/-- The function `BlockAnalyzer::analyze_transactions`; `txs.size() - 1` is computed in
`size_t`, and `txs[0]` on an empty vector is undefined. -/
def analyze_transactions (env : Env) (block : Block) (undo : UndoBlock) (network : String) :
    Res (List TxnAnalyzer) :=
  let txs := block.getTransactions
  let undo_txs := undo.getTransactions
  if undo_txs.length ≠ sz (txs.length + 2 ^ 64 - 1) then
    .error (.runtime_error "Undo mismatch: tx count does not match")
  else
    match txs with
    | [] => .error .undefined
    | cb :: rest =>
      match TxnAnalyzer.construct env cb [] network with
      | .error e => .error e
      | .ok ta =>
        match analyze_transactions_loop env network rest undo_txs with
        | .error e => .error e
        | .ok tas => .ok (ta :: tas)

/-- The loop of `compute_block_stats` from index `i` on (the `double` average and the
`total_vbytes` it is computed from are left out). -/
def compute_block_stats_loop : List TxnAnalyzer → Nat → BlockStats → BlockStats
  | [], _, stats => stats
  | ta :: rest, i, stats =>
    compute_block_stats_loop rest (i + 1)
      { total_weight := u64 (stats.total_weight + ta.weight),
        total_fees_sats :=
          if i > 0 then u64 (stats.total_fees_sats + ta.fee_sats) else stats.total_fees_sats,
        script_type_summary :=
          ta.vout.foldl (fun m out => map_incr m out.script_type) stats.script_type_summary }

def compute_block_stats (transactions : List TxnAnalyzer) : BlockStats :=
  compute_block_stats_loop transactions 0
    { total_fees_sats := 0, total_weight := 0, script_type_summary := [] }

/-- The constructor `BlockAnalyzer::BlockAnalyzer(block, undo, network)`, that is
`analyze`. -/
def BlockAnalyzer.construct (env : Env) (block : Block) (undo : UndoBlock) (network : String) :
    Res BlockAnalyzer :=
  let block_header := analyze_header env block
  let txs := block.getTransactions
  match txs with
  | [] => .error (.runtime_error "Block has no transactions")
  | cb :: _ =>
    let tx_count := u64 txs.length
    match analyze_coinbase cb with
    | .error e => .error e
    | .ok coinbase =>
      match analyze_transactions env block undo network with
      | .error e => .error e
      | .ok transactions =>
        .ok { ok := true, mode := "block", block_header := block_header, tx_count := tx_count,
              coinbase := coinbase, transactions := transactions,
              block_stats := compute_block_stats transactions }

/-! ## block_parser.cpp -/

/-- The test `undo.getTxCount() == block.getTransactionCount() - 1` of `BlockParser::run`:
the right-hand side is computed in 32-bit unsigned arithmetic. -/
def pair_matches (block : Block) (undo : UndoBlock) : Bool :=
  decide (undo.getTxCount = (block.getTransactionCount + 2 ^ 32 - 1) % 2 ^ 32)

/-- The body of `if (undo.getTxCount() == block.getTransactionCount() - 1)` in
`BlockParser::run`: the analysis, and the output file `out_dir/<block hash>.json`, which
`can_open` tells whether it can be opened. The result stands for the JSON document written
(`block_to_json(analyzer)`) and its path. -/
def analyze_and_write (env : Env) (can_open : String → Bool) (out_dir : String)
    (block : Block) (undo : UndoBlock) : Res (BlockAnalyzer × String) :=
  match BlockAnalyzer.construct env block undo "mainnet" with
  | .error e => .error e
  | .ok analyzer =>
    let out_path := (out_dir ++ "/") ++ analyzer.block_header.block_hash ++ ".json"
    if ¬ can_open out_path then
      .error (.runtime_error "Cannot open output")
    else
      .ok (analyzer, out_path)

/-- The loop `while (blk_off < blk_raw.size() && rev_off < rev_raw.size())` of
`BlockParser::run` with the `throw` that follows it, with `fuel` iterations left. The
totals `8 + blk_size` and `8 + rev_size + 32` are computed in 32-bit unsigned arithmetic
before they are stored in a `size_t`. -/
def scan_loop (env : Env) (can_open : String → Bool) (out_dir : String)
    (blk_raw rev_raw : Bytes) : Nat → Nat → Nat → Res (BlockAnalyzer × String)
  | 0, _, _ => .error (.runtime_error "No matching block/undo pair found")
  | fuel + 1, blk_off, rev_off =>
    if ¬ (blk_off < blk_raw.length ∧ rev_off < rev_raw.length) then
      .error (.runtime_error "No matching block/undo pair found")
    else
      let blk_start := blk_off
      if sz (blk_off + 8) > blk_raw.length then
        .error (.runtime_error "blk truncated")
      else
        match read_uint32_le blk_raw blk_off with
        | .error e => .error e
        | .ok _ =>
          let blk_off := sz (blk_off + 4)
          match read_uint32_le blk_raw blk_off with
          | .error e => .error e
          | .ok blk_size =>
            let blk_total := (8 + blk_size) % 2 ^ 32
            if sz (blk_start + blk_total) > blk_raw.length then
              .error (.runtime_error "blk record overflow")
            else
              let blk_record := slice blk_raw blk_start blk_total
              let blk_off := sz (blk_start + blk_total)
              let rev_start := rev_off
              if sz (rev_off + 8) > rev_raw.length then
                .error (.runtime_error "rev truncated")
              else
                match read_uint32_le rev_raw rev_off with
                | .error e => .error e
                | .ok _ =>
                  let rev_off := sz (rev_off + 4)
                  match read_uint32_le rev_raw rev_off with
                  | .error e => .error e
                  | .ok rev_size =>
                    let rev_total := (8 + rev_size + 32) % 2 ^ 32
                    if sz (rev_start + rev_total) > rev_raw.length then
                      .error (.runtime_error "rev record overflow")
                    else
                      let rev_record := slice rev_raw rev_start rev_total
                      let rev_off := sz (rev_start + rev_total)
                      match Block.construct env blk_record with
                      | .error e => .error e
                      | .ok block =>
                        match UndoBlock.construct env rev_record with
                        | .error e => .error e
                        | .ok undo =>
                          if pair_matches block undo then
                            analyze_and_write env can_open out_dir block undo
                          else
                            scan_loop env can_open out_dir blk_raw rev_raw fuel blk_off rev_off

/-- The part of `BlockParser::run` after the two files have been read and decoded into
`blk_raw` and `rev_raw`. An iteration that does not leave the loop has decoded a block of at
least 88 bytes and moved `blk_off` past it, so `blk_raw.size()` iterations exhaust the
loop. -/
def BlockParser.scan (env : Env) (can_open : String → Bool) (out_dir : String)
    (blk_raw rev_raw : Bytes) : Res (BlockAnalyzer × String) :=
  scan_loop env can_open out_dir blk_raw rev_raw blk_raw.length 0 0

/-! ## Notions used in the statements -/

/-- The prevout `p` is the output that the input `txin` spends: its `(txid, vout)` pair is
`(reverse_32(txin.prevTxId), txin.vout)`. -/
def Prevout.spends (p : Prevout) (txin : TxIn) : Bool :=
  decide (p.txid = reverse_32 txin.prevTxId) && decide (p.vout = txin.vout)

/-- The `(txid, vout)` pair of a prevout. -/
def Prevout.outpoint (p : Prevout) : Bytes × Nat := (p.txid, p.vout)

/-- The buffer `data` holds the bytes `x` at offset `off`. -/
def holds_at (data : Bytes) (off : Nat) (x : Bytes) : Prop :=
  off + x.length ≤ data.length ∧ slice data off x.length = x

/-- The input has the shape of a coinbase input: `prevTxId` is 32 zero bytes and `vout` is
`0xFFFFFFFF`. -/
def coinbase_shape (txin : TxIn) : Bool :=
  decide (txin.prevTxId = List.replicate 32 0) && decide (txin.vout = 0xFFFFFFFF)

/-- The value of the first supplied prevout that the input spends (0 when there is none). -/
def resolved_value (prevouts : List Prevout) (txin : TxIn) : Nat :=
  match prevouts.find? (fun p => p.spends txin) with
  | some p => p.value_sats
  | none => 0

/-- The mathematical sum of the resolved prevout values of the inputs that do not have the
coinbase shape. -/
def input_sum (prevouts : List Prevout) (tx : Transaction) : Nat :=
  ((tx.inputs.filter (fun txin => !coinbase_shape txin)).map (resolved_value prevouts)).sum

/-- The mathematical sum of the output amounts. -/
def output_sum (tx : Transaction) : Nat := (tx.outputs.map (fun o => o.amount)).sum

/-- The input is a value of the C++ type `TxIn`: a 32-byte array and two 32-bit words. -/
def TxIn.wf (txin : TxIn) : Bool :=
  decide (txin.prevTxId.length = 32) && decide (txin.vout < 2 ^ 32) &&
    decide (txin.sequence < 2 ^ 32)

/-- The transaction is a value of the C++ type `Transaction` as far as its fixed-width
members go: 32-bit version, locktime, output indices and sequences, 64-bit amounts, 32-byte
previous transaction ids. -/
def Transaction.wf (tx : Transaction) : Bool :=
  decide (tx.version < 2 ^ 32) && decide (tx.locktime < 2 ^ 32) &&
    tx.inputs.all TxIn.wf && tx.outputs.all (fun o => decide (o.amount < 2 ^ 64))

/-- The prevout is a value of the C++ type `Prevout`: a 32-byte array, a 32-bit index and a
64-bit value. -/
def Prevout.wf (p : Prevout) : Bool :=
  decide (p.txid.length = 32) && decide (p.vout < 2 ^ 32) && decide (p.value_sats < 2 ^ 64)

/-- The address encoders never report failure. -/
def Env.encoders_succeed (env : Env) : Prop :=
  (∀ version data, env.b58check_enc version data ≠ none) ∧
  (∀ program hrp version, ∃ address, env.bech32_address_encode program hrp version = .ok address)

/-- An environment for the examples: constant digests and addresses. -/
def sample_env : Env :=
  { sha256 := fun _ => List.replicate 32 0,
    b58check_enc := fun _ _ => some "address",
    bech32_address_encode := fun _ _ _ => .ok "address",
    fee_rate_gt_200 := fun fee vb => decide (fee > 200 * vb),
    opcode_map := fun _ => none,
    pubkey_uncompress := fun _ => none }

/-- The positions of the fixed opcode and push-length bytes of the five standard templates
(every position outside the 20- or 32-byte payload). -/
def template_fixed : OutputScriptType → List Nat
  | .P2PKH => [0, 1, 2, 23, 24]
  | .P2SH => [0, 1, 22]
  | .P2WPKH => [0, 1]
  | .P2WSH => [0, 1]
  | .P2TR => [0, 1]
  | _ => []

/-- The five standard templates. -/
def standard_templates : List OutputScriptType := [.P2PKH, .P2SH, .P2WPKH, .P2WSH, .P2TR]

/-- A segwit transaction with one input carrying one witness item, and one output. -/
def sample_segwit_tx : Transaction :=
  { version := 2,
    outputs := [{ amount := 1000, scriptPubKey := [0x51] }],
    inputs := [{ prevTxId := List.replicate 32 7, vout := 1, scriptSig := [],
                 sequence := 0xFFFFFFFD, witness := [[0xAA, 0xBB]] }],
    locktime := 0, isSegwit := true, TxIdHash := [], WTxIdHash := [] }

/-- A transaction whose two outputs carry `2^63` satoshis each and whose single input
spends the prevout of `prevouts_overflow`. -/
def tx_overflow : Transaction :=
  { version := 1,
    outputs := [{ amount := 2 ^ 63, scriptPubKey := [] },
                { amount := 2 ^ 63, scriptPubKey := [] }],
    inputs := [{ prevTxId := List.replicate 32 1, vout := 0, scriptSig := [],
                 sequence := 0xFFFFFFFF, witness := [] }],
    locktime := 0, isSegwit := false, TxIdHash := [], WTxIdHash := [] }

/-- The prevout spent by `tx_overflow`, worth 5 satoshis. -/
def prevouts_overflow : List Prevout :=
  [{ txid := List.replicate 32 1, vout := 0, value_sats := 5, script_pubkey_hex := [] }]

/-- A transaction with a coinbase-shaped input, an input spending `sample_prevouts`, one
P2WPKH output of 545 satoshis and one OP_RETURN output of zero satoshis. -/
def sample_tx : Transaction :=
  { version := 2,
    outputs := [{ amount := 545, scriptPubKey := [0x00, 0x14] ++ List.replicate 20 9 },
                { amount := 0, scriptPubKey := [0x6a, 0x01, 0x41] }],
    inputs := [{ prevTxId := List.replicate 32 0, vout := 0xFFFFFFFF, scriptSig := [0x01, 0x2a],
                 sequence := 0xFFFFFFFF, witness := [] },
               { prevTxId := List.replicate 32 3, vout := 1, scriptSig := [],
                 sequence := 0xFFFFFFFD, witness := [] }],
    locktime := 0, isSegwit := false, TxIdHash := [], WTxIdHash := [] }

/-- The prevout spent by the second input of `sample_tx`, worth 1000 satoshis. -/
def sample_prevouts : List Prevout :=
  [{ txid := List.replicate 32 3, vout := 1, value_sats := 1000,
     script_pubkey_hex := [0x00, 0x14] ++ List.replicate 20 8 }]

/-- The value of a result, for the examples (the empty analysis stands for a failure). -/
def analysis_of (res : Res TxnAnalyzer) : TxnAnalyzer :=
  match res with
  | .ok r => r
  | .error _ =>
    { tx_ := sample_segwit_tx, network_ := "", total_input_sats_ := 0,
      total_output_sats_ := 0, fee_sats_ := 0,
      segwit_savings_ := { witness_bytes := 0, non_witness_bytes := 0, total_bytes := 0,
                           weight_actual := 0, weight_if_legacy := 0 },
      inputs_ := [], outputs_ := [], warnings_ := [] }

/-- The analysis of `sample_tx` with `sample_prevouts`. -/
def sample_analysis : TxnAnalyzer :=
  analysis_of (TxnAnalyzer.construct sample_env sample_tx sample_prevouts "mainnet")

/-- A 21-byte buffer: version 1, no input, an output count of 1 written in the three-byte
form `FD 01 00`, one output of 0 satoshis with an empty script, locktime 0. -/
def raw_ambiguous : Bytes :=
  [1, 0, 0, 0, 0, 0xFD, 1, 0, 0, 0, 0, 0, 0, 0, 0, 0, 0, 0, 0, 0, 0]

/-- A 50-byte buffer: version 1, one input with a zero `prevTxId` and `vout` 0 whose script
length is the nine-byte CompactSize `FF FF FF FF FF FF FF FF FF`, that is `2^64 - 1`, and
nothing after it. -/
def raw_overflow : Bytes :=
  [1, 0, 0, 0, 1] ++ List.replicate 32 0 ++ [0, 0, 0, 0] ++ [0xFF] ++ List.replicate 8 0xFF

/-- The witness serialization of `sample_segwit_tx` (67 bytes). -/
def sample_raw : Bytes := sample_segwit_tx.serialize_with_witness

/-- The digest function returns 32 bytes (its C++ type is `std::array<uint8_t, 32>`). -/
def Env.digest32 (env : Env) : Prop := ∀ data, (env.sha256 data).length = 32

/-- The little-endian value of four bytes: `b[0] + 2^8 b[1] + 2^16 b[2] + 2^24 b[3]`. -/
def le32 (b : Bytes) : Nat :=
  (at_ b 0).val + 2 ^ 8 * (at_ b 1).val + 2 ^ 16 * (at_ b 2).val + 2 ^ 24 * (at_ b 3).val

/-- One level of the reference Merkle fold with hash function `H`: adjacent nodes are
paired, and the last node of a level of odd size is paired with itself. -/
def merkle_pairs (H : Bytes → Bytes) : List Bytes → List Bytes
  | [] => []
  | [a] => [H (a ++ a)]
  | a :: b :: rest => H (a ++ b) :: merkle_pairs H rest

/-- The levels of the reference Merkle fold: level 0 is the list of leaves, each further
level pairs the one before. -/
def merkle_level (H : Bytes → Bytes) (leaves : List Bytes) (k : Nat) : List Bytes :=
  (merkle_pairs H)^[k] leaves

/-- The reference Merkle root of a non-empty list of `n` leaves: the node of level
`⌈log₂ n⌉`, the first level that has one node. -/
def merkle_reference (H : Bytes → Bytes) (leaves : List Bytes) : Bytes :=
  (merkle_level H leaves (Nat.clog 2 leaves.length)).getD 0 []

/-- The leaf of a transaction: its id in wire order. -/
def merkle_leaf (tx : Transaction) : Bytes := reverse_32 tx.get_txid

/-- A block holding the transactions `txs` (the other members do not enter the Merkle
root). -/
def block_of (txs : List Transaction) : Block :=
  { magic := 0, blockSize := 0,
    blockHeader := { version := 0, prevBlock := [], merkleRoot := [], timestamp := 0,
                     bits := 0, nonce := 0, blockHash := [] },
    txnCounter := txs.length, txs := txs }

/-- An 80-byte header for the examples: the bytes 1, 2, ..., 80. -/
def sample_header : Bytes := (List.range 80).map (fun i => toByte (i + 1))

/-- The loop of the reference encoder of the bit-packed varint: while `n > 0x7F`, set
`n := (n >> 7) - 1` and put `(n & 0x7F) | 0x80` in front of the bytes produced so far. -/
def cvarint_enc_loop (n : Nat) (acc : Bytes) : Bytes :=
  if n > 0x7F then
    cvarint_enc_loop ((n >>> 7) - 1) (toByte ((((n >>> 7) - 1) &&& 0x7F) ||| 0x80) :: acc)
  else
    acc
termination_by n
decreasing_by
  rw [Nat.shiftRight_eq_div_pow]
  omega

/-- The reference encoding of the bit-packed varint: `n & 0x7F` is the last byte, and the
loop puts the continuation bytes in front of it. -/
def cvarint_enc (n : Nat) : Bytes := cvarint_enc_loop n [toByte (n &&& 0x7F)]

/-- The loop of the reference `CompressAmount`: strip trailing decimal zeros, at most
`fuel` of them, counting them in `e`. -/
def compress_strip : Nat → Nat → Nat → Nat × Nat
  | 0, n, e => (n, e)
  | fuel + 1, n, e =>
    if n % 10 = 0 ∧ e < 9 then compress_strip fuel (n / 10) (e + 1) else (n, e)

/-- The reference `CompressAmount` of Bitcoin Core: 0 for 0; otherwise strip up to 9
trailing decimal zeros giving the exponent `e`; if `e < 9` split off the last digit `d` (not
zero) and return `1 + (n * 9 + d - 1) * 10 + e`, else return `1 + (n - 1) * 10 + 9`. -/
def compress_amount (n : Nat) : Nat :=
  if n = 0 then 0
  else
    let (n, e) := compress_strip 9 n 0
    if e < 9 then
      let d := n % 10
      let n := n / 10
      1 + (n * 9 + d - 1) * 10 + e
    else
      1 + (n - 1) * 10 + 9

/-- An undo record for the examples: magic `F9 BE B4 D9`, payload size 25, one transaction
with one spent coin (code 0, compressed amount 9, script type 0 and a 20-byte hash). -/
def sample_undo_raw : Bytes :=
  [0xF9, 0xBE, 0xB4, 0xD9] ++ [25, 0, 0, 0] ++ [1] ++ [1, 0x00, 0x09, 0x00] ++
    List.replicate 20 0x11

/-- The undo block that `sample_undo_raw` decodes to. -/
def sample_undo : UndoBlock :=
  { magic := 0xD9B4BEF9, undoPayloadSize := 25, txCount := 1,
    transactions :=
      [{ spentOutputs :=
          [{ height := 0, isCoinbase := false, value := 100000000,
             scriptPubKey := [0x76, 0xa9, 0x14] ++ List.replicate 20 0x11 ++ [0x88, 0xac] }] }] }

/-- A push operation of a script: the bytes of its opcode and length prefix, and the bytes
it pushes. -/
structure PushOp where
  header : Bytes
  data : Bytes
deriving DecidableEq, Repr

/-- The push operation is well formed: a direct push `0x01`-`0x4B` of that many bytes, or
PUSHDATA1, PUSHDATA2, PUSHDATA4 (`4C`, `4D`, `4E`) with a little-endian length prefix of 1, 2
or 4 bytes and that many bytes. -/
def PushOp.wf (p : PushOp) : Prop :=
  (∃ op : Byte, 0x01 ≤ op.val ∧ op.val ≤ 0x4B ∧ p.header = [op] ∧ p.data.length = op.val) ∨
  (∃ n : Byte, p.header = [0x4C, n] ∧ p.data.length = n.val) ∨
  (∃ b0 b1 : Byte, p.header = [0x4D, b0, b1] ∧ p.data.length = b0.val + 2 ^ 8 * b1.val) ∨
  (∃ b0 b1 b2 b3 : Byte, p.header = [0x4E, b0, b1, b2, b3] ∧
    p.data.length = b0.val + 2 ^ 8 * b1.val + 2 ^ 16 * b2.val + 2 ^ 24 * b3.val)

/-- The bytes of a push operation in a script. -/
def PushOp.bytes (p : PushOp) : Bytes := p.header ++ p.data

/-- The script is, from its first byte to its last, the sequence `ops` of well-formed push
operations. -/
def parses_as_pushes (s : Bytes) (ops : List PushOp) : Prop :=
  (∀ p ∈ ops, p.wf) ∧ s = ops.flatMap PushOp.bytes

/-- The element pushed last by `ops`, or `dflt` when there is no push. -/
def last_pushed (ops : List PushOp) (dflt : Bytes) : Bytes :=
  match ops.getLast? with
  | some p => p.data
  | none => dflt

/-- The unlocking script `16 00 14 <20 bytes>`: one direct push of a 22-byte redeem
script. -/
def sample_p2sh_p2wpkh_sig : Bytes := [0x16, 0x00, 0x14] ++ List.replicate 20 0x22

/-- A P2SH locking script `a9 14 <20 bytes> 87`. -/
def sample_p2sh_script : Bytes := [0xa9, 0x14] ++ List.replicate 20 0x33 ++ [0x87]

/-- The bytes `r` begin with the push operations `ops`, all well formed, and what follows
them, `tail`, does not begin with a complete well-formed push: it is empty, or begins with an
opcode that is no push, or with a push whose length prefix or data run past the end. So
`ops` is the maximal leading run of complete pushes of `r`. -/
def leading_pushes (r : Bytes) (ops : List PushOp) (tail : Bytes) : Prop :=
  (∀ p ∈ ops, p.wf) ∧ r = ops.flatMap PushOp.bytes ++ tail ∧
  ∀ p : PushOp, ∀ rest : Bytes, p.wf → tail ≠ p.bytes ++ rest

/-- An OP_RETURN script: `6A`, a direct push of `omni`, a PUSHDATA1 of one byte, and a
PUSHDATA2 whose length prefix is cut off. -/
def sample_op_return_script : Bytes :=
  [0x6A, 0x04, 0x6F, 0x6D, 0x6E, 0x69, 0x4C, 0x01, 0x21, 0x4D, 0x05]

/-- The complete pushes of `sample_op_return_script`. -/
def sample_op_return_ops : List PushOp :=
  [{ header := [0x04], data := [0x6F, 0x6D, 0x6E, 0x69] }, { header := [0x4C, 0x01], data := [0x21] }]

/-- A Unicode scalar value: a code point up to U+10FFFF that is no surrogate
(U+D800 to U+DFFF). -/
def is_scalar_value (c : Nat) : Prop := c ≤ 0x10FFFF ∧ ¬ (0xD800 ≤ c ∧ c ≤ 0xDFFF)

/-- The UTF-8 encoding of a code point in its shortest form: one byte below U+0080, two
below U+0800, three below U+10000, four above. -/
def utf8_encode (c : Nat) : Bytes :=
  if c < 0x80 then [toByte c]
  else if c < 0x800 then [toByte (0xC0 + c / 64), toByte (0x80 + c % 64)]
  else if c < 0x10000 then
    [toByte (0xE0 + c / 4096), toByte (0x80 + c / 64 % 64), toByte (0x80 + c % 64)]
  else
    [toByte (0xF0 + c / 262144), toByte (0x80 + c / 4096 % 64), toByte (0x80 + c / 64 % 64),
      toByte (0x80 + c % 64)]

/-- Strict well-formedness in the words of the specification: the bytes are, from first to
last, the shortest-form encodings of Unicode scalar values (so no overlong form, no
surrogate, nothing above U+10FFFF, no truncated sequence). -/
def strict_utf8 (d : Bytes) : Prop :=
  ∃ cps : List Nat, (∀ c ∈ cps, is_scalar_value c) ∧ d = cps.flatMap utf8_encode

/-- The little-endian unsigned integer formed by the bytes: `b[0] + 2^8 b[1] + ...`. -/
def le_value : Bytes → Nat
  | [] => 0
  | b :: rest => b.val + 256 * le_value rest

/-- A coinbase transaction at height 200000 (script `03 40 0D 03`) whose two outputs carry
`2^63` satoshis each. -/
def coinbase_overflow : Transaction :=
  { version := 1,
    outputs := [{ amount := 2 ^ 63, scriptPubKey := [] },
                { amount := 2 ^ 63, scriptPubKey := [] }],
    inputs := [{ prevTxId := List.replicate 32 0, vout := 0xFFFFFFFF,
                 scriptSig := [0x03, 0x40, 0x0D, 0x03], sequence := 0xFFFFFFFF, witness := [] }],
    locktime := 0, isSegwit := false, TxIdHash := [], WTxIdHash := [] }

/-- A block header of zero bytes with a zero hash. -/
def zero_header : BlockHeader :=
  { version := 0, prevBlock := List.replicate 32 0, merkleRoot := List.replicate 32 0,
    timestamp := 0, bits := 0, nonce := 0, blockHash := List.replicate 32 0 }

/-- A transaction with one input spending output `vout` of the transaction `01..01` and one
output of 1000 satoshis with an empty script. -/
def spend_tx (vout : Nat) : Transaction :=
  { version := 1,
    outputs := [{ amount := 1000, scriptPubKey := [] }],
    inputs := [{ prevTxId := List.replicate 32 1, vout := vout, scriptSig := [],
                 sequence := 0xFFFFFFFF, witness := [] }],
    locktime := 0, isSegwit := false, TxIdHash := [], WTxIdHash := [] }

/-- A block of three transactions: the coinbase `coinbase_overflow` and two spends. -/
def sample_block : Block :=
  { magic := 0xD9B4BEF9, blockSize := 0, blockHeader := zero_header, txnCounter := 3,
    txs := [coinbase_overflow, spend_tx 0, spend_tx 1] }

/-- An undo coin worth `9223372037000000000` satoshis (the decompressed amount of
`92233720370`), above `2^63`, with an empty script. -/
def big_coin : UndoCoin :=
  { height := 1, isCoinbase := false, value := 9223372037000000000, scriptPubKey := [] }

/-- The undo data of `sample_block`: one coin of `big_coin` for each of the two spends. -/
def sample_block_undo : UndoBlock :=
  { magic := 0xD9B4BEF9, undoPayloadSize := 0, txCount := 2,
    transactions := [{ spentOutputs := [big_coin] }, { spentOutputs := [big_coin] }] }

/-- All accounted outputs of the analysed transactions, in order. -/
def all_outputs (transactions : List TxnAnalyzer) : List AccountedOutput :=
  transactions.flatMap TxnAnalyzer.vout

/-- The result of a decoder run on the suffix of a buffer from `off` on, with its final
offset counted from the start of the buffer. -/
def shift_offset {α : Type} (off : Nat) : Res (α × Nat) → Res (α × Nat)
  | .ok (a, n) => .ok (a, off + n)
  | .error e => .error e

/-- A buffer of 43 bytes: version 1, one input with a zero `prevTxId` and `vout` 0 whose
script is declared 5 bytes long, and a single byte after that. -/
def raw_truncated_script : Bytes :=
  [1, 0, 0, 0, 1] ++ List.replicate 32 0 ++ [0, 0, 0, 0] ++ [5, 0xAA]

/-- A block record of a stream: 8 bytes of header, whose bytes 4 to 7 hold the payload size
in little-endian order, and a payload of that size; shorter than `2^32` bytes. -/
def blk_record_wf (r : Bytes) : Prop :=
  r.length = 8 + le32 (slice r 4 4) ∧ r.length < 2 ^ 32

/-- An undo record of a stream: 8 bytes of header, whose bytes 4 to 7 hold the payload size,
a payload of that size and 32 bytes of checksum; shorter than `2^32` bytes. -/
def rev_record_wf (r : Bytes) : Prop :=
  r.length = 8 + le32 (slice r 4 4) + 32 ∧ r.length < 2 ^ 32

/-- The transaction counts of a pair are aligned: the undo record counts one transaction
less than the block record. -/
def counts_align (block : Block) (undo : UndoBlock) : Prop :=
  undo.txCount + 1 = block.txnCounter

/-- The scan in the words of the specification, on the records of the two streams: the first
pair whose counts pass the test is analysed, the pairs before it are skipped, and with no
such pair before a stream ends the scan fails with the no-matching-pair error. A record that
does not decode ends the scan with the error of the decoder. -/
def scan_records (env : Env) (can_open : String → Bool) (out_dir : String) :
    List Bytes → List Bytes → Res (BlockAnalyzer × String)
  | b :: bs, r :: rs =>
    match Block.construct env b with
    | .error e => .error e
    | .ok block =>
      match UndoBlock.construct env r with
      | .error e => .error e
      | .ok undo =>
        if pair_matches block undo then analyze_and_write env can_open out_dir block undo
        else scan_records env can_open out_dir bs rs
  | _, _ => .error (.runtime_error "No matching block/undo pair found")

/-- A block record with an empty payload: magic `F9 BE B4 D9` and size 0. -/
def empty_blk_record : Bytes := [0xF9, 0xBE, 0xB4, 0xD9, 0, 0, 0, 0]

/-- An undo record with an empty payload: magic, size 0 and 32 bytes of checksum. -/
def empty_rev_record : Bytes := [0xF9, 0xBE, 0xB4, 0xD9, 0, 0, 0, 0] ++ List.replicate 32 0

/-- A coinbase transaction at height 200000 paying 50 BTC to the script `51`. -/
def sample_coinbase_tx : Transaction :=
  { version := 1,
    outputs := [{ amount := 5000000000, scriptPubKey := [0x51] }],
    inputs := [{ prevTxId := List.replicate 32 0, vout := 0xFFFFFFFF,
                 scriptSig := [0x03, 0x40, 0x0D, 0x03], sequence := 0xFFFFFFFF, witness := [] }],
    locktime := 0, isSegwit := false, TxIdHash := [], WTxIdHash := [] }

/-- A block record: magic, payload size, the header `sample_header`, the count 1 and the
serialization of `sample_coinbase_tx`. -/
def sample_blk_record : Bytes :=
  write_le [] 0xD9B4BEF9 4 ++ write_le [] (81 + sample_coinbase_tx.serialize_legacy.length) 4 ++
    sample_header ++ [1] ++ sample_coinbase_tx.serialize_legacy

/-- An undo record counting one transaction: `sample_undo_raw` and 32 bytes of checksum. -/
def sample_rev_record_one : Bytes := sample_undo_raw ++ List.replicate 32 0

/-- An undo record counting no transaction: magic, payload size 1, the count 0 and 32 bytes
of checksum. -/
def sample_rev_record_zero : Bytes :=
  write_le [] 0xD9B4BEF9 4 ++ write_le [] 1 4 ++ [0] ++ List.replicate 32 0

/-- An undo coin record whose code is `2^33` (`9E FE FE FF 00`), followed by the compressed
amount 0 and the script type 6 (an empty literal script). -/
def coin_record_wide_code : Bytes := [0x9E, 0xFE, 0xFE, 0xFF, 0x00, 0x00, 0x06]

/-- An undo coin record whose code is `400001` (`97 B4 01`, height 200000, coinbase),
followed by the dummy byte `d`, the compressed amount 0 and the script type 6. -/
def coin_record_dummy (d : Byte) : Bytes := [0x97, 0xB4, 0x01, d, 0x00, 0x06]

/-- The bytes of `e` are one complete bit-packed varint: every byte but the last has the
continuation bit, and the last has not. -/
def cvarint_complete : Bytes → Bool
  | [] => false
  | b :: rest => if b.val &&& 0x80 ≠ 0 then cvarint_complete rest else rest.isEmpty

/-- The accumulation of `read_cvarint` over integers of no fixed width, from the value `n`:
what the loop computes when nothing is lost to the 64 bits of the accumulator. -/
def cvarint_wide (n : Nat) : Bytes → Nat
  | [] => n
  | b :: rest =>
    if b.val &&& 0x80 ≠ 0 then cvarint_wide (((n <<< 7) ||| (b.val &&& 0x7F)) + 1) rest
    else (n <<< 7) ||| (b.val &&& 0x7F)

/-- The input without its witness stack: `prevTxId`, `vout`, `scriptSig`, `sequence`. -/
def TxIn.strip (txin : TxIn) : TxIn := { txin with witness := [] }

/-- A transaction with one input of the coinbase shape and one output of 1000 satoshis with
an empty script. -/
def null_spend_tx : Transaction :=
  { version := 1,
    outputs := [{ amount := 1000, scriptPubKey := [] }],
    inputs := [{ prevTxId := List.replicate 32 0, vout := 0xFFFFFFFF, scriptSig := [],
                 sequence := 0xFFFFFFFF, witness := [] }],
    locktime := 0, isSegwit := false, TxIdHash := [], WTxIdHash := [] }

/-- An undo coin worth 5000 satoshis with the script `51`. -/
def small_coin : UndoCoin :=
  { height := 1, isCoinbase := false, value := 5000, scriptPubKey := [0x51] }

/-- A transaction with two inputs that spend the same output. -/
def double_spend_tx : Transaction :=
  { version := 1,
    outputs := [{ amount := 1000, scriptPubKey := [] }],
    inputs := [{ prevTxId := List.replicate 32 1, vout := 0, scriptSig := [],
                 sequence := 0xFFFFFFFF, witness := [] },
               { prevTxId := List.replicate 32 1, vout := 0, scriptSig := [],
                 sequence := 0xFFFFFFFF, witness := [] }],
    locktime := 0, isSegwit := false, TxIdHash := [], WTxIdHash := [] }

/-! # Theorems -/

/-! ## Little-endian words and CompactSize -/

theorem sz_of_lt {n : Nat} (h : n < 2 ^ 64) : sz n = n := Nat.mod_eq_of_lt h

theorem toByte_val (n : Nat) : (toByte n).val = n % 256 := rfl

theorem at_append_right (pre post : Bytes) (i : Nat) :
    at_ (pre ++ post) (pre.length + i) = at_ post i := by
  simp [at_, List.getD_eq_getElem?_getD, List.getElem?_append_right]

theorem at_append_length (pre post : Bytes) : at_ (pre ++ post) pre.length = at_ post 0 := by
  simpa using at_append_right pre post 0

theorem at_append_left (pre post : Bytes) (i : Nat) (h : i < pre.length) :
    at_ (pre ++ post) i = at_ pre i := by
  simp [at_, List.getD_eq_getElem?_getD, List.getElem?_append_left h]

theorem length_slice (data : Bytes) (first len : Nat) (h : first + len ≤ data.length) :
    (slice data first len).length = len := by
  simp [slice]; omega

theorem write_le_eq (buffer : Bytes) (value n : Nat) :
    write_le buffer value n = buffer ++ write_le [] value n := by
  induction n with
  | zero => simp [write_le]
  | succ n ih => rw [write_le, ih, write_le, List.append_assoc]

theorem length_write_le (buffer : Bytes) (value n : Nat) :
    (write_le buffer value n).length = buffer.length + n := by
  induction n with
  | zero => simp [write_le]
  | succ n ih => simp [write_le, ih, Nat.add_assoc]

theorem or_shiftLeft_of_lt {a k : Nat} (b : Nat) (h : a < 2 ^ k) :
    a ||| (b <<< k) = a + b * 2 ^ k := by
  rw [Nat.shiftLeft_eq, Nat.or_comm, Nat.mul_comm b, ← Nat.mul_add_lt_is_or h, Nat.add_comm]

/-- Reading back `n` bytes written by `write_le` gives the low `8 n` bits of the value. -/
theorem read_le_write_le (pre post : Bytes) (value n : Nat) :
    read_le (pre ++ write_le [] value n ++ post) pre.length n = value % 2 ^ (8 * n) := by
  induction n generalizing post with
  | zero => simp [read_le, Nat.mod_one]
  | succ n ih =>
    have hdata : pre ++ write_le [] value (n + 1) ++ post
        = pre ++ write_le [] value n ++ (toByte (value >>> (n * 8)) :: post) := by
      simp [write_le, List.append_assoc]
    rw [hdata, read_le, ih]
    have hat : at_ (pre ++ write_le [] value n ++ (toByte (value >>> (n * 8)) :: post))
        (pre.length + n) = toByte (value >>> (n * 8)) := by
      have h := at_append_right (pre ++ write_le [] value n)
        (toByte (value >>> (n * 8)) :: post) 0
      simp only [List.length_append, length_write_le, List.length_nil, Nat.zero_add,
        Nat.add_zero] at h
      rw [h]; rfl
    rw [hat, toByte_val, Nat.mul_comm n 8,
      or_shiftLeft_of_lt _ (Nat.mod_lt _ (Nat.pos_pow_of_pos _ (by decide))),
      Nat.shiftRight_eq_div_pow]
    have hpow : 2 ^ (8 * (n + 1)) = 2 ^ (8 * n) * 256 := by
      rw [Nat.mul_add, Nat.pow_add]
    rw [hpow, Nat.mod_mul, Nat.mul_comm (2 ^ (8 * n))]

theorem read_le_write_le_of_lt (pre post : Bytes) (value n : Nat) (h : value < 2 ^ (8 * n)) :
    read_le (pre ++ write_le [] value n ++ post) pre.length n = value := by
  rw [read_le_write_le, Nat.mod_eq_of_lt h]

theorem read_uint16_le_eq (data : Bytes) (offset : Nat) :
    read_uint16_le data offset =
      if sz (offset + 2) > data.length then
        .error (.out_of_range "read_uint16_le: not enough bytes")
      else .ok (read_le data offset 2) := by
  simp [read_uint16_le, read_le]

theorem read_uint16_le_write (pre post : Bytes) (value : Nat) (hv : value < 2 ^ 16)
    (hlen : pre.length + 2 < 2 ^ 64) :
    read_uint16_le (pre ++ write_le [] value 2 ++ post) pre.length = .ok value := by
  rw [read_uint16_le_eq, sz_of_lt hlen, read_le_write_le_of_lt _ _ _ _ (by simpa using hv)]
  simp [length_write_le]

theorem read_uint32_le_write (pre post : Bytes) (value : Nat) (hv : value < 2 ^ 32)
    (hlen : pre.length + 4 < 2 ^ 64) :
    read_uint32_le (pre ++ write_le [] value 4 ++ post) pre.length = .ok value := by
  rw [read_uint32_le, sz_of_lt hlen, read_le_write_le_of_lt _ _ _ _ (by simpa using hv)]
  simp [length_write_le]

theorem read_uint64_le_write (pre post : Bytes) (value : Nat) (hv : value < 2 ^ 64)
    (hlen : pre.length + 8 < 2 ^ 64) :
    read_uint64_le (pre ++ write_le [] value 8 ++ post) pre.length = .ok value := by
  rw [read_uint64_le, sz_of_lt hlen, read_le_write_le_of_lt _ _ _ _ (by simpa using hv)]
  simp [length_write_le]

theorem write_varint_eq (buffer : Bytes) (value : Nat) :
    write_varint buffer value = buffer ++ write_varint [] value := by
  unfold write_varint
  split
  · simp
  · split
    · rw [write_le_eq, write_le_eq ([] ++ _)]; simp
    · split
      · rw [write_le_eq, write_le_eq ([] ++ _)]; simp
      · rw [write_le_eq, write_le_eq ([] ++ _)]; simp

/-- The number of bytes of the CompactSize encoding of a value. -/
theorem length_write_varint (value : Nat) :
    (write_varint [] value).length =
      if value < 0xFD then 1 else if value ≤ 0xFFFF then 3
      else if value ≤ 0xFFFFFFFF then 5 else 9 := by
  unfold write_varint
  split
  · simp
  · split
    · simp [length_write_le]
    · split
      · simp [length_write_le]
      · simp [length_write_le]

/-- Reading a CompactSize where `write_varint` has put one returns the value and
advances the offset past the encoding, whatever surrounds it. -/
theorem read_varint_write_varint (pre post : Bytes) (value : Nat) (hv : value < 2 ^ 64)
    (hlen : pre.length + 9 < 2 ^ 64) :
    read_varint (pre ++ write_varint [] value ++ post) pre.length
      = .ok (value, pre.length + (write_varint [] value).length) := by
  have h1 : sz (pre.length + 1) = pre.length + 1 := sz_of_lt (by omega)
  rw [length_write_varint]
  unfold write_varint
  by_cases c1 : value < 0xFD
  · have hb : (toByte value).val = value := by rw [toByte_val]; omega
    have hat : at_ (pre ++ ([] ++ [toByte value]) ++ post) pre.length = toByte value := by
      rw [List.append_assoc, at_append_length]; rfl
    simp only [c1, if_true]
    unfold read_varint
    rw [hat, hb, h1]
    simp [c1]
  · simp only [c1, if_false]
    by_cases c2 : value ≤ 0xFFFF
    · simp only [c2, if_true]
      have hd : pre ++ write_le ([] ++ [0xFD]) value 2 ++ post
          = (pre ++ [0xFD]) ++ write_le [] value 2 ++ post := by
        rw [write_le_eq]; simp
      have hat : at_ ((pre ++ [0xFD]) ++ write_le [] value 2 ++ post) pre.length = 0xFD := by
        rw [List.append_assoc, List.append_assoc, at_append_length]; rfl
      have hr := read_uint16_le_write (pre ++ [0xFD]) post value (by omega)
        (by simp; omega)
      simp only [List.length_append, List.length_singleton] at hr
      rw [hd]
      unfold read_varint
      have h3 : sz (pre.length + 1 + 2) = pre.length + 3 := sz_of_lt (by omega)
      have hlt : ¬ (pre.length ≥ ((pre ++ [0xFD]) ++ write_le [] value 2 ++ post).length) := by
        simp
      simp only [hlt, if_false, hat, h1, hr, h3]
      simp [show (((253 : Byte) : Fin 256) : Nat) = 253 from rfl]
    · simp only [c2, if_false]
      by_cases c3 : value ≤ 0xFFFFFFFF
      · simp only [c3, if_true]
        have hd : pre ++ write_le ([] ++ [0xFE]) value 4 ++ post
            = (pre ++ [0xFE]) ++ write_le [] value 4 ++ post := by
          rw [write_le_eq]; simp
        have hat : at_ ((pre ++ [0xFE]) ++ write_le [] value 4 ++ post) pre.length = 0xFE := by
          rw [List.append_assoc, List.append_assoc, at_append_length]; rfl
        have hr := read_uint32_le_write (pre ++ [0xFE]) post value (by omega)
          (by simp; omega)
        simp only [List.length_append, List.length_singleton] at hr
        rw [hd]
        unfold read_varint
        have h3 : sz (pre.length + 1 + 4) = pre.length + 5 := sz_of_lt (by omega)
        have hlt : ¬ (pre.length ≥ ((pre ++ [0xFE]) ++ write_le [] value 4 ++ post).length) := by
          simp
        simp only [hlt, if_false, hat, h1, hr, h3]
        simp [show (((254 : Byte) : Fin 256) : Nat) = 254 from rfl]
      · simp only [c3, if_false]
        have hd : pre ++ write_le ([] ++ [0xFF]) value 8 ++ post
            = (pre ++ [0xFF]) ++ write_le [] value 8 ++ post := by
          rw [write_le_eq]; simp
        have hat : at_ ((pre ++ [0xFF]) ++ write_le [] value 8 ++ post) pre.length = 0xFF := by
          rw [List.append_assoc, List.append_assoc, at_append_length]; rfl
        have hr := read_uint64_le_write (pre ++ [0xFF]) post value hv
          (by simp; omega)
        simp only [List.length_append, List.length_singleton] at hr
        rw [hd]
        unfold read_varint
        have h3 : sz (pre.length + 1 + 8) = pre.length + 9 := sz_of_lt (by omega)
        have hlt : ¬ (pre.length ≥ ((pre ++ [0xFF]) ++ write_le [] value 8 ++ post).length) := by
          simp
        simp only [hlt, if_false, hat, h1, hr, h3]
        simp [show (((255 : Byte) : Fin 256) : Nat) = 255 from rfl]

/-! ## Serialized sizes -/

theorem serialize_input_eq (out : Bytes) (txin : TxIn) :
    serialize_input out txin = out ++ serialize_input [] txin := by
  simp only [serialize_input, write_uint32_le]
  rw [write_le_eq, write_varint_eq, write_le_eq (out ++ _),
    write_le_eq (write_varint _ _ ++ _), write_varint_eq (write_le _ _ _),
    write_le_eq ([] ++ _)]
  simp [List.append_assoc]

theorem serialize_inputs_eq (out : Bytes) (ins : List TxIn) :
    serialize_inputs out ins = out ++ serialize_inputs [] ins := by
  induction ins generalizing out with
  | nil => simp [serialize_inputs]
  | cons txin rest ih =>
    rw [serialize_inputs, ih, serialize_inputs, ih (serialize_input [] txin),
      serialize_input_eq, List.append_assoc]

theorem serialize_output_eq (out : Bytes) (o : TxOut) :
    serialize_output out o = out ++ serialize_output [] o := by
  simp only [serialize_output, write_uint64_le]
  rw [write_varint_eq, write_le_eq, write_varint_eq (write_le [] _ _)]
  simp [List.append_assoc]

theorem serialize_outputs_eq (out : Bytes) (outs : List TxOut) :
    serialize_outputs out outs = out ++ serialize_outputs [] outs := by
  induction outs generalizing out with
  | nil => simp [serialize_outputs]
  | cons o rest ih =>
    rw [serialize_outputs, ih, serialize_outputs, ih (serialize_output [] o),
      serialize_output_eq, List.append_assoc]

theorem serialize_witness_items_eq (out : Bytes) (items : List Bytes) :
    serialize_witness_items out items = out ++ serialize_witness_items [] items := by
  induction items generalizing out with
  | nil => simp [serialize_witness_items]
  | cons item rest ih =>
    rw [serialize_witness_items, ih, serialize_witness_items,
      ih (write_varint [] _ ++ _), write_varint_eq]
    simp [List.append_assoc]

theorem serialize_witnesses_eq (out : Bytes) (ins : List TxIn) :
    serialize_witnesses out ins = out ++ serialize_witnesses [] ins := by
  induction ins generalizing out with
  | nil => simp [serialize_witnesses]
  | cons txin rest ih =>
    rw [serialize_witnesses, ih, serialize_witnesses,
      ih (serialize_witness_items _ _), serialize_witness_items_eq, write_varint_eq,
      serialize_witness_items_eq (write_varint [] _)]
    simp [List.append_assoc]

/-- The legacy serialization as a concatenation of its fields. -/
theorem serialize_legacy_eq (tx : Transaction) :
    tx.serialize_legacy =
      write_le [] tx.version 4 ++ (write_varint [] tx.inputs.length ++
        (serialize_inputs [] tx.inputs ++ (write_varint [] tx.outputs.length ++
          (serialize_outputs [] tx.outputs ++ write_le [] tx.locktime 4)))) := by
  simp only [Transaction.serialize_legacy, write_uint32_le]
  rw [write_le_eq, serialize_outputs_eq, write_varint_eq, serialize_inputs_eq,
    write_varint_eq]
  simp [List.append_assoc]

/-- The witness serialization of a segwit transaction as a concatenation of its fields. -/
theorem serialize_with_witness_eq (tx : Transaction) (h : tx.isSegwit = true) :
    tx.serialize_with_witness =
      write_le [] tx.version 4 ++ ([0x00, 0x01] ++ (write_varint [] tx.inputs.length ++
        (serialize_inputs [] tx.inputs ++ (write_varint [] tx.outputs.length ++
          (serialize_outputs [] tx.outputs ++ (serialize_witnesses [] tx.inputs ++
            write_le [] tx.locktime 4)))))) := by
  simp only [Transaction.serialize_with_witness, h, write_uint32_le]
  rw [write_le_eq, serialize_witnesses_eq, serialize_outputs_eq, write_varint_eq,
    serialize_inputs_eq, write_varint_eq]
  simp [List.append_assoc]

theorem serialize_with_witness_of_not_segwit (tx : Transaction) (h : tx.isSegwit = false) :
    tx.serialize_with_witness = tx.serialize_legacy := by
  simp [Transaction.serialize_with_witness, h]

/-- Each witness stack takes at least the byte of its item count. -/
theorem length_le_length_serialize_witnesses (ins : List TxIn) :
    ins.length ≤ (serialize_witnesses [] ins).length := by
  induction ins with
  | nil => simp [serialize_witnesses]
  | cons txin rest ih =>
    rw [serialize_witnesses, serialize_witnesses_eq, serialize_witness_items_eq]
    have h := length_write_varint txin.witness.length
    simp only [List.length_append, List.length_cons]
    split_ifs at h <;> omega

/-- The witness serialization is the legacy one plus, for a segwit transaction, the two
marker bytes and the witness stacks. -/
theorem length_serialize_with_witness (tx : Transaction) :
    tx.serialize_with_witness.length =
      tx.serialize_legacy.length +
        (if tx.isSegwit then 2 + (serialize_witnesses [] tx.inputs).length else 0) := by
  cases h : tx.isSegwit with
  | false => simp [serialize_with_witness_of_not_segwit tx h]
  | true =>
    rw [serialize_with_witness_eq tx h, serialize_legacy_eq]
    simp only [List.length_append, List.length_cons, List.length_nil, if_true]
    omega

theorem length_serialize_legacy_ge (tx : Transaction) : 10 ≤ tx.serialize_legacy.length := by
  rw [serialize_legacy_eq]
  have h1 := length_write_varint tx.inputs.length
  have h2 := length_write_varint tx.outputs.length
  simp only [List.length_append, length_write_le, List.length_nil]
  split_ifs at h1 <;> split_ifs at h2 <;> omega

/-! ## Decoding what was encoded -/

theorem holds_at_mid (pre x post : Bytes) : holds_at (pre ++ x ++ post) pre.length x := by
  unfold holds_at slice
  simp

theorem holds_at_iff (data : Bytes) (off : Nat) (x : Bytes) :
    holds_at data off x ↔ data = data.take off ++ x ++ data.drop (off + x.length) ∧
      off + x.length ≤ data.length := by
  constructor
  · rintro ⟨h1, h2⟩
    refine ⟨?_, h1⟩
    unfold slice at h2
    conv_lhs => rw [← List.take_append_drop off data,
      ← List.take_append_drop x.length (data.drop off)]
    rw [h2, List.drop_drop, List.append_assoc]
  · rintro ⟨h1, h2⟩
    have hl : (data.take off).length = off := by simp; omega
    have h := holds_at_mid (data.take off) x (data.drop (off + x.length))
    rw [← h1, hl] at h
    exact h

theorem holds_at_append (data : Bytes) (off : Nat) (x y : Bytes) :
    holds_at data off (x ++ y) ↔ holds_at data off x ∧ holds_at data (off + x.length) y := by
  unfold holds_at slice
  simp only [List.length_append]
  constructor
  · rintro ⟨h1, h2⟩
    have h3 := congrArg (List.take x.length) h2
    have h4 := congrArg (List.drop x.length) h2
    rw [List.take_take, Nat.min_eq_left (Nat.le_add_right _ _), List.take_left' rfl] at h3
    rw [List.drop_take, List.drop_left' rfl, List.drop_drop, Nat.add_sub_cancel_left] at h4
    refine ⟨⟨by omega, h3⟩, by omega, ?_⟩
    exact h4
  · rintro ⟨⟨h1, h2⟩, h3, h4⟩
    refine ⟨by omega, ?_⟩
    rw [List.take_add, h2, List.drop_drop, h4]

theorem holds_at_decomp {data : Bytes} {off : Nat} {x : Bytes} (h : holds_at data off x) :
    ∃ pre post, data = pre ++ x ++ post ∧ pre.length = off := by
  obtain ⟨hd, hl⟩ := (holds_at_iff data off x).mp h
  exact ⟨data.take off, data.drop (off + x.length), hd, by simp; omega⟩

theorem read_uint32_le_holds {data : Bytes} {off value : Nat}
    (h : holds_at data off (write_le [] value 4)) (hv : value < 2 ^ 32)
    (hlen : data.length < 2 ^ 63) : read_uint32_le data off = .ok value := by
  obtain ⟨pre, post, rfl, rfl⟩ := holds_at_decomp h
  exact read_uint32_le_write pre post value hv (by simp at hlen; omega)

theorem read_uint64_le_holds {data : Bytes} {off value : Nat}
    (h : holds_at data off (write_le [] value 8)) (hv : value < 2 ^ 64)
    (hlen : data.length < 2 ^ 63) : read_uint64_le data off = .ok value := by
  obtain ⟨pre, post, rfl, rfl⟩ := holds_at_decomp h
  exact read_uint64_le_write pre post value hv (by simp at hlen; omega)

theorem read_varint_holds {data : Bytes} {off value : Nat}
    (h : holds_at data off (write_varint [] value)) (hv : value < 2 ^ 64)
    (hlen : data.length < 2 ^ 63) :
    read_varint data off = .ok (value, off + (write_varint [] value).length) := by
  obtain ⟨pre, post, rfl, rfl⟩ := holds_at_decomp h
  exact read_varint_write_varint pre post value hv (by simp at hlen; omega)

theorem at_holds {data : Bytes} {off : Nat} {b : Byte} {rest : Bytes}
    (h : holds_at data off (b :: rest)) : at_ data off = b := by
  obtain ⟨pre, post, rfl, rfl⟩ := holds_at_decomp h
  rw [List.append_assoc, at_append_length]
  rfl

theorem serialize_input_flat (txin : TxIn) :
    serialize_input [] txin =
      txin.prevTxId ++ (write_le [] txin.vout 4 ++ (write_varint [] txin.scriptSig.length ++
        (txin.scriptSig ++ write_le [] txin.sequence 4))) := by
  simp only [serialize_input, write_uint32_le]
  rw [write_le_eq, write_varint_eq, write_le_eq ([] ++ _)]
  simp [List.append_assoc]

theorem serialize_output_flat (o : TxOut) :
    serialize_output [] o =
      write_le [] o.amount 8 ++ (write_varint [] o.scriptPubKey.length ++ o.scriptPubKey) := by
  simp only [serialize_output, write_uint64_le]
  rw [write_varint_eq]
  simp [List.append_assoc]

theorem txin_wf_iff (txin : TxIn) :
    txin.wf = true ↔ txin.prevTxId.length = 32 ∧ txin.vout < 2 ^ 32 ∧ txin.sequence < 2 ^ 32 := by
  simp [TxIn.wf, and_assoc]

/-- Decoding one serialized input gives the input back, without its witness. -/
theorem parse_input_serialize {data : Bytes} {off : Nat} {txin : TxIn}
    (h : holds_at data off (serialize_input [] txin)) (hwf : txin.wf = true)
    (hlen : data.length < 2 ^ 63) :
    parse_input data off =
      .ok ({ txin with witness := [] }, off + (serialize_input [] txin).length) := by
  obtain ⟨w1, w2, w3⟩ := (txin_wf_iff txin).mp hwf
  have hbound := h.1
  rw [serialize_input_flat] at h hbound ⊢
  simp only [holds_at_append, List.length_append, length_write_le, List.length_nil,
    Nat.zero_add, w1] at h hbound ⊢
  obtain ⟨h1, h2, h3, h4, h5⟩ := h
  have hv := length_write_varint txin.scriptSig.length
  have hvl : (write_varint [] txin.scriptSig.length).length ≤ 9 := by
    rw [hv]; split_ifs <;> omega
  have s1 : sz (off + 32) = off + 32 := sz_of_lt (by omega)
  have s2 : sz (off + 32 + 4) = off + 32 + 4 := sz_of_lt (by omega)
  have s3 : sz (off + 32 + 4 + (write_varint [] txin.scriptSig.length).length
      + txin.scriptSig.length)
      = off + 32 + 4 + (write_varint [] txin.scriptSig.length).length
        + txin.scriptSig.length := sz_of_lt (by omega)
  have s4 : sz (off + 32 + 4 + (write_varint [] txin.scriptSig.length).length
      + txin.scriptSig.length + 4)
      = off + 32 + 4 + (write_varint [] txin.scriptSig.length).length
        + txin.scriptSig.length + 4 := sz_of_lt (by omega)
  have e1 : slice data off 32 = txin.prevTxId := by rw [← w1]; exact h1.2
  have e2 := read_uint32_le_holds h2 w2 hlen
  have e3 := read_varint_holds h3 (by omega) hlen
  have e4 := h4.2
  have e5 := read_uint32_le_holds h5 w3 hlen
  unfold parse_input
  simp only [s1, s2, e1, e2, e3, s3, e4, e5, s4]
  have c1 : ¬ (off + 32 > data.length) := by omega
  have c2 : ¬ (off + 32 + 4 > data.length) := by omega
  have c3 : ¬ (off + 32 + 4 + (write_varint [] txin.scriptSig.length).length
      + txin.scriptSig.length > data.length) := by omega
  have c4 : ¬ (off + 32 + 4 + (write_varint [] txin.scriptSig.length).length
      + txin.scriptSig.length ≥ 2 ^ 64) := by omega
  have c5 : ¬ (off + 32 + 4 + (write_varint [] txin.scriptSig.length).length
      + txin.scriptSig.length + 4 > data.length) := by omega
  simp only [c1, c2, c3, c4, c5, if_false]
  congr 2
  omega

theorem serialize_inputs_cons (txin : TxIn) (rest : List TxIn) :
    serialize_inputs [] (txin :: rest) = serialize_input [] txin ++ serialize_inputs [] rest := by
  rw [serialize_inputs, serialize_inputs_eq]

theorem serialize_outputs_cons (o : TxOut) (rest : List TxOut) :
    serialize_outputs [] (o :: rest) = serialize_output [] o ++ serialize_outputs [] rest := by
  rw [serialize_outputs, serialize_outputs_eq]

theorem serialize_witness_items_cons (item : Bytes) (rest : List Bytes) :
    serialize_witness_items [] (item :: rest) =
      (write_varint [] item.length ++ item) ++ serialize_witness_items [] rest := by
  rw [serialize_witness_items, serialize_witness_items_eq]

theorem serialize_witnesses_cons (txin : TxIn) (rest : List TxIn) :
    serialize_witnesses [] (txin :: rest) =
      (write_varint [] txin.witness.length ++ serialize_witness_items [] txin.witness)
        ++ serialize_witnesses [] rest := by
  rw [serialize_witnesses, serialize_witnesses_eq, serialize_witness_items_eq]

/-- An input without its witness stack, as the input loop of the decoder leaves it. -/
theorem parse_inputs_serialize {data : Bytes} (ins : List TxIn) :
    ∀ {off : Nat}, holds_at data off (serialize_inputs [] ins) →
      (∀ txin ∈ ins, txin.wf = true) → data.length < 2 ^ 63 →
      parse_inputs data ins.length off =
        .ok (ins.map (fun txin => { txin with witness := [] }),
             off + (serialize_inputs [] ins).length) := by
  induction ins with
  | nil => intro off _ _ _; simp [parse_inputs, serialize_inputs]
  | cons txin rest ih =>
    intro off h hwf hlen
    rw [serialize_inputs_cons, holds_at_append] at h
    rw [List.length_cons, parse_inputs,
      parse_input_serialize h.1 (hwf txin (List.mem_cons_self _ _)) hlen]
    simp only
    rw [ih h.2 (fun t ht => hwf t (List.mem_cons_of_mem _ ht)) hlen]
    simp only [List.map_cons, serialize_inputs_cons, List.length_append, Nat.add_assoc]

theorem parse_output_serialize {data : Bytes} {off : Nat} {o : TxOut}
    (h : holds_at data off (serialize_output [] o)) (hwf : o.amount < 2 ^ 64)
    (hlen : data.length < 2 ^ 63) :
    parse_output data off = .ok (o, off + (serialize_output [] o).length) := by
  have hbound := h.1
  rw [serialize_output_flat] at h hbound ⊢
  simp only [holds_at_append, List.length_append, length_write_le, List.length_nil,
    Nat.zero_add] at h hbound ⊢
  obtain ⟨h1, h2, h3⟩ := h
  have hv := length_write_varint o.scriptPubKey.length
  have hvl : (write_varint [] o.scriptPubKey.length).length ≤ 9 := by
    rw [hv]; split_ifs <;> omega
  have s1 : sz (off + 8) = off + 8 := sz_of_lt (by omega)
  have s2 : sz (off + 8 + (write_varint [] o.scriptPubKey.length).length
      + o.scriptPubKey.length)
      = off + 8 + (write_varint [] o.scriptPubKey.length).length
        + o.scriptPubKey.length := sz_of_lt (by omega)
  have e1 := read_uint64_le_holds h1 hwf hlen
  have e2 := read_varint_holds h2 (by omega) hlen
  have e3 := h3.2
  unfold parse_output
  simp only [s1, e1, e2, s2, e3]
  have c1 : ¬ (off + 8 > data.length) := by omega
  have c2 : ¬ (off + 8 + (write_varint [] o.scriptPubKey.length).length
      + o.scriptPubKey.length > data.length) := by omega
  have c3 : ¬ (off + 8 + (write_varint [] o.scriptPubKey.length).length
      + o.scriptPubKey.length ≥ 2 ^ 64) := by omega
  simp only [c1, c2, c3, if_false]
  congr 2
  omega

theorem parse_outputs_serialize {data : Bytes} (outs : List TxOut) :
    ∀ {off : Nat}, holds_at data off (serialize_outputs [] outs) →
      (∀ o ∈ outs, o.amount < 2 ^ 64) → data.length < 2 ^ 63 →
      parse_outputs data outs.length off =
        .ok (outs, off + (serialize_outputs [] outs).length) := by
  induction outs with
  | nil => intro off _ _ _; simp [parse_outputs, serialize_outputs]
  | cons o rest ih =>
    intro off h hwf hlen
    rw [serialize_outputs_cons, holds_at_append] at h
    rw [List.length_cons, parse_outputs,
      parse_output_serialize h.1 (hwf o (List.mem_cons_self _ _)) hlen]
    simp only
    rw [ih h.2 (fun t ht => hwf t (List.mem_cons_of_mem _ ht)) hlen]
    simp only [serialize_outputs_cons, List.length_append, Nat.add_assoc]

theorem parse_witness_item_serialize {data : Bytes} {off : Nat} {item : Bytes}
    (h : holds_at data off (write_varint [] item.length ++ item))
    (hlen : data.length < 2 ^ 63) :
    parse_witness_item data off =
      .ok (item, off + (write_varint [] item.length ++ item).length) := by
  have hbound := h.1
  simp only [holds_at_append, List.length_append] at h hbound ⊢
  obtain ⟨h1, h2⟩ := h
  have s1 : sz (off + (write_varint [] item.length).length + item.length)
      = off + (write_varint [] item.length).length + item.length := sz_of_lt (by omega)
  have e1 := read_varint_holds h1 (by omega) hlen
  have e2 := h2.2
  unfold parse_witness_item
  simp only [e1, s1, e2]
  have c1 : ¬ (off + (write_varint [] item.length).length + item.length > data.length) := by
    omega
  have c2 : ¬ (off + (write_varint [] item.length).length + item.length ≥ 2 ^ 64) := by omega
  simp only [c1, c2, if_false]
  congr 2
  omega

theorem parse_witness_items_serialize {data : Bytes} (items : List Bytes) :
    ∀ {off : Nat}, holds_at data off (serialize_witness_items [] items) →
      data.length < 2 ^ 63 →
      parse_witness_items data items.length off =
        .ok (items, off + (serialize_witness_items [] items).length) := by
  induction items with
  | nil => intro off _ _; simp [parse_witness_items, serialize_witness_items]
  | cons item rest ih =>
    intro off h hlen
    rw [serialize_witness_items_cons, holds_at_append] at h
    rw [List.length_cons, parse_witness_items, parse_witness_item_serialize h.1 hlen]
    simp only
    rw [ih h.2 hlen]
    simp only [serialize_witness_items_cons, List.length_append, Nat.add_assoc]

theorem length_le_length_serialize_witness_items (items : List Bytes) :
    items.length ≤ (serialize_witness_items [] items).length := by
  induction items with
  | nil => simp [serialize_witness_items]
  | cons item rest ih =>
    rw [serialize_witness_items_cons]
    have h := length_write_varint item.length
    simp only [List.length_append, List.length_cons]
    split_ifs at h <;> omega

/-- Decoding the serialized witness stacks restores the witness of every input. -/
theorem parse_witnesses_serialize {data : Bytes} (ins : List TxIn) :
    ∀ {off : Nat}, holds_at data off (serialize_witnesses [] ins) →
      data.length < 2 ^ 63 →
      parse_witnesses data (ins.map (fun txin => { txin with witness := [] })) off =
        .ok (ins, off + (serialize_witnesses [] ins).length) := by
  induction ins with
  | nil => intro off _ _; simp [parse_witnesses, serialize_witnesses]
  | cons txin rest ih =>
    intro off h hlen
    have hbound := h.1
    rw [serialize_witnesses_cons] at h hbound
    simp only [holds_at_append, List.length_append] at h hbound
    obtain ⟨⟨h1, h2⟩, h3⟩ := h
    rw [← Nat.add_assoc] at h3
    have hitems := length_le_length_serialize_witness_items txin.witness
    rw [List.map_cons, parse_witnesses, read_varint_holds h1 (by omega) hlen]
    simp only
    rw [parse_witness_items_serialize txin.witness h2 hlen]
    simp only
    rw [ih h3 hlen]
    simp only [List.nil_append, serialize_witnesses_cons, List.length_append, Nat.add_assoc]

theorem length_le_length_serialize_inputs (ins : List TxIn) :
    ins.length ≤ (serialize_inputs [] ins).length := by
  induction ins with
  | nil => simp [serialize_inputs]
  | cons txin rest ih =>
    rw [serialize_inputs_cons, serialize_input_flat]
    simp only [List.length_append, List.length_cons, length_write_le]
    omega

theorem length_le_length_serialize_outputs (outs : List TxOut) :
    outs.length ≤ (serialize_outputs [] outs).length := by
  induction outs with
  | nil => simp [serialize_outputs]
  | cons o rest ih =>
    rw [serialize_outputs_cons, serialize_output_flat]
    simp only [List.length_append, List.length_cons, length_write_le]
    omega

/-- The first byte of a CompactSize encoding. -/
theorem write_varint_head (value : Nat) :
    ∃ rest, write_varint [] value =
      (if value < 0xFD then toByte value else if value ≤ 0xFFFF then 0xFD
        else if value ≤ 0xFFFFFFFF then 0xFE else 0xFF) :: rest := by
  unfold write_varint
  split
  · exact ⟨[], rfl⟩
  · split
    · exact ⟨write_le [] value 2, by rw [write_le_eq]; rfl⟩
    · split
      · exact ⟨write_le [] value 4, by rw [write_le_eq]; rfl⟩
      · exact ⟨write_le [] value 8, by rw [write_le_eq]; rfl⟩

theorem write_varint_head_eq_zero {value : Nat} {rest : Bytes}
    (h : write_varint [] value = 0 :: rest) : value = 0 := by
  obtain ⟨r, hr⟩ := write_varint_head value
  rw [hr] at h
  have hb := (List.cons.inj h).1
  split_ifs at hb with c1 c2 c3
  · have := congrArg Fin.val hb
    rw [toByte_val] at this
    simp at this
    omega
  · exact absurd hb (by decide)
  · exact absurd hb (by decide)
  · exact absurd hb (by decide)

theorem write_varint_head_eq_one {value : Nat} {rest : Bytes}
    (h : write_varint [] value = 1 :: rest) : value = 1 := by
  obtain ⟨r, hr⟩ := write_varint_head value
  rw [hr] at h
  have hb := (List.cons.inj h).1
  split_ifs at hb with c1 c2 c3
  · have := congrArg Fin.val hb
    rw [toByte_val] at this
    simp at this
    omega
  · exact absurd hb (by decide)
  · exact absurd hb (by decide)
  · exact absurd hb (by decide)

theorem at_zero_cons (b : Byte) (rest : Bytes) : at_ (b :: rest) 0 = b := rfl

/-- The legacy serialization of a transaction does not start, after the version, with the
bytes `00 01`, unless the transaction has no input and exactly one output. -/
theorem no_marker_in_legacy (t : Transaction)
    (hamb : ¬ (t.inputs = [] ∧ t.outputs.length = 1)) :
    ¬ (at_ t.serialize_legacy 4 = 0 ∧ at_ t.serialize_legacy 5 = 1) := by
  rintro ⟨h0, h1⟩
  rw [serialize_legacy_eq] at h0 h1
  have hl4 : (write_le [] t.version 4).length = 4 := by simp [length_write_le]
  have a0 := at_append_right (write_le [] t.version 4)
    (write_varint [] t.inputs.length ++ (serialize_inputs [] t.inputs ++
      (write_varint [] t.outputs.length ++
        (serialize_outputs [] t.outputs ++ write_le [] t.locktime 4)))) 0
  have a1 := at_append_right (write_le [] t.version 4)
    (write_varint [] t.inputs.length ++ (serialize_inputs [] t.inputs ++
      (write_varint [] t.outputs.length ++
        (serialize_outputs [] t.outputs ++ write_le [] t.locktime 4)))) 1
  rw [hl4] at a0 a1
  rw [a0] at h0
  rw [a1] at h1
  obtain ⟨r, hr⟩ := write_varint_head t.inputs.length
  have hr' := hr
  rw [hr, List.cons_append, at_zero_cons] at h0
  have hzero : t.inputs.length = 0 := write_varint_head_eq_zero (hr'.trans (by rw [h0]))
  have hnil : t.inputs = [] := List.length_eq_zero.mp hzero
  rw [hnil] at h1
  have e0 : write_varint [] ([] : List TxIn).length = [0] := by decide
  rw [e0] at h1
  simp only [serialize_inputs, List.nil_append, List.cons_append] at h1
  obtain ⟨r2, hr2⟩ := write_varint_head t.outputs.length
  have hr2' := hr2
  rw [hr2] at h1
  have h1' : (if t.outputs.length < 0xFD then toByte t.outputs.length
      else if t.outputs.length ≤ 0xFFFF then 0xFD
      else if t.outputs.length ≤ 0xFFFFFFFF then 0xFE else 0xFF) = (1 : Byte) := h1
  exact hamb ⟨hnil, write_varint_head_eq_one (hr2'.trans (by rw [h1']))⟩

theorem strip_witness_of_empty (ins : List TxIn) (h : ∀ txin ∈ ins, txin.witness = []) :
    ins.map (fun txin => { txin with witness := [] }) = ins := by
  induction ins with
  | nil => rfl
  | cons txin rest ih =>
    rw [List.map_cons, ih (fun t ht => h t (List.mem_cons_of_mem _ ht))]
    have hw := h txin (List.mem_cons_self _ _)
    cases txin
    simp only at hw
    simp [hw]

theorem tx_wf_iff (t : Transaction) :
    t.wf = true ↔ t.version < 2 ^ 32 ∧ t.locktime < 2 ^ 32 ∧
      (∀ txin ∈ t.inputs, txin.wf = true) ∧ (∀ o ∈ t.outputs, o.amount < 2 ^ 64) := by
  simp [Transaction.wf, and_assoc]

theorem holds_at_self (x : Bytes) : holds_at x 0 x := by
  have h := holds_at_mid [] x []
  simpa using h

/-- Encode, then decode, a segwit transaction. -/
theorem construct_serialize_segwit (env : Env) (t : Transaction) (hwf : t.wf = true)
    (hseg : t.isSegwit = true) (hlen : t.serialize_with_witness.length < 2 ^ 63) :
    Transaction.construct env t.serialize_with_witness =
      .ok (Transaction.with_hashes env { t with TxIdHash := [], WTxIdHash := [] }) := by
  obtain ⟨w1, w2, w3, w4⟩ := (tx_wf_iff t).mp hwf
  have hd := serialize_with_witness_eq t hseg
  generalize t.serialize_with_witness = data at hd hlen ⊢
  have hself : holds_at data 0
      (write_le [] t.version 4 ++ ([0x00, 0x01] ++ (write_varint [] t.inputs.length ++
        (serialize_inputs [] t.inputs ++ (write_varint [] t.outputs.length ++
          (serialize_outputs [] t.outputs ++ (serialize_witnesses [] t.inputs ++
            write_le [] t.locktime 4))))))) := by
    rw [← hd]; exact holds_at_self data
  have hb := hself.1
  obtain ⟨p1, q1⟩ := (holds_at_append _ _ _ _).mp hself
  have l1 : 0 + (write_le [] t.version 4).length = 4 := by simp [length_write_le]
  rw [l1] at q1
  obtain ⟨p2, q2⟩ := (holds_at_append _ _ _ _).mp q1
  have l2 : 4 + ([0x00, 0x01] : Bytes).length = 6 := rfl
  rw [l2] at q2
  obtain ⟨p3, q3⟩ := (holds_at_append _ _ _ _).mp q2
  obtain ⟨p4, q4⟩ := (holds_at_append _ _ _ _).mp q3
  obtain ⟨p5, q5⟩ := (holds_at_append _ _ _ _).mp q4
  obtain ⟨p6, q6⟩ := (holds_at_append _ _ _ _).mp q5
  obtain ⟨p7, p8⟩ := (holds_at_append _ _ _ _).mp q6
  have hm : holds_at data 4 ([0x00] ++ [0x01]) := p2
  obtain ⟨m1, m2⟩ := (holds_at_append _ _ _ _).mp hm
  have a4 : at_ data 4 = 0 := at_holds m1
  have a5 : at_ data (4 + 1) = 1 := at_holds m2
  simp only [List.length_append, length_write_le, List.length_cons, List.length_nil] at hb
  have n1 := length_le_length_serialize_inputs t.inputs
  have n2 := length_le_length_serialize_outputs t.outputs
  have e1 := read_uint32_le_holds p1 w1 hlen
  have e3 := read_varint_holds p3 (by omega) hlen
  have e4 := parse_inputs_serialize t.inputs p4 w3 hlen
  have e5 := read_varint_holds p5 (by omega) hlen
  have e6 := parse_outputs_serialize t.outputs p6 w4 hlen
  have e7 := parse_witnesses_serialize t.inputs p7 hlen
  have e8 := read_uint32_le_holds p8 w2 hlen
  have s5 : sz (4 + 1) = 5 := by decide
  have s6 : sz (4 + 2) = 6 := by decide
  have c0 : ¬ (data.length < 4) := by omega
  have c5 : (5 < data.length) := by omega
  have c8 : ¬ (sz (6 + (write_varint [] t.inputs.length).length
      + (serialize_inputs [] t.inputs).length + (write_varint [] t.outputs.length).length
      + (serialize_outputs [] t.outputs).length + (serialize_witnesses [] t.inputs).length + 4)
        > data.length) := by
    rw [sz_of_lt (by omega)]; omega
  unfold Transaction.construct
  simp only [c0, if_false, e1, s5, s6, c5, a4, a5, decide_True, beq_self_eq_true, Bool.and_self,
    if_true, e3, e4, e5, e6, e7, c8, e8]
  congr 2
  cases t
  simp only at hseg
  simp [hseg]

/-- Encode, then decode, a transaction without the segwit flag. -/
theorem construct_serialize_legacy (env : Env) (t : Transaction) (hwf : t.wf = true)
    (hseg : t.isSegwit = false) (hwit : ∀ txin ∈ t.inputs, txin.witness = [])
    (hamb : ¬ (t.inputs = [] ∧ t.outputs.length = 1))
    (hlen : t.serialize_with_witness.length < 2 ^ 63) :
    Transaction.construct env t.serialize_with_witness =
      .ok (Transaction.with_hashes env { t with TxIdHash := [], WTxIdHash := [] }) := by
  obtain ⟨w1, w2, w3, w4⟩ := (tx_wf_iff t).mp hwf
  rw [serialize_with_witness_of_not_segwit t hseg] at hlen ⊢
  have hmark := no_marker_in_legacy t hamb
  have hd := serialize_legacy_eq t
  generalize t.serialize_legacy = data at hd hlen hmark ⊢
  have hself : holds_at data 0
      (write_le [] t.version 4 ++ (write_varint [] t.inputs.length ++
        (serialize_inputs [] t.inputs ++ (write_varint [] t.outputs.length ++
          (serialize_outputs [] t.outputs ++ write_le [] t.locktime 4))))) := by
    rw [← hd]; exact holds_at_self data
  have hb := hself.1
  obtain ⟨p1, q1⟩ := (holds_at_append _ _ _ _).mp hself
  have l1 : 0 + (write_le [] t.version 4).length = 4 := by simp [length_write_le]
  rw [l1] at q1
  obtain ⟨p3, q3⟩ := (holds_at_append _ _ _ _).mp q1
  obtain ⟨p4, q4⟩ := (holds_at_append _ _ _ _).mp q3
  obtain ⟨p5, q5⟩ := (holds_at_append _ _ _ _).mp q4
  obtain ⟨p6, p8⟩ := (holds_at_append _ _ _ _).mp q5
  simp only [List.length_append, length_write_le, List.length_cons, List.length_nil] at hb
  have n1 := length_le_length_serialize_inputs t.inputs
  have n2 := length_le_length_serialize_outputs t.outputs
  have e1 := read_uint32_le_holds p1 w1 hlen
  have e3 := read_varint_holds p3 (by omega) hlen
  have e4 := parse_inputs_serialize t.inputs p4 w3 hlen
  rw [strip_witness_of_empty t.inputs hwit] at e4
  have e5 := read_varint_holds p5 (by omega) hlen
  have e6 := parse_outputs_serialize t.outputs p6 w4 hlen
  have e8 := read_uint32_le_holds p8 w2 hlen
  have s5 : sz (4 + 1) = 5 := by decide
  have c0 : ¬ (data.length < 4) := by omega
  have hdet : (decide (5 < data.length) && (at_ data 4 == 0x00 && at_ data (4 + 1) == 0x01))
      = false := by
    rw [Bool.eq_false_iff]
    intro hc
    simp only [Bool.and_eq_true, decide_eq_true_eq, beq_iff_eq] at hc
    exact hmark ⟨hc.2.1, hc.2.2⟩
  have c8 : ¬ (sz (4 + (write_varint [] t.inputs.length).length
      + (serialize_inputs [] t.inputs).length + (write_varint [] t.outputs.length).length
      + (serialize_outputs [] t.outputs).length + 4) > data.length) := by
    rw [sz_of_lt (by omega)]; omega
  unfold Transaction.construct
  simp only [c0, if_false, e1, s5, hdet, Bool.false_eq_true, e3, e4, e5, e6, c8, e8]
  congr 2
  cases t
  simp only at hseg
  simp [hseg]

/-- Encode, then decode: the standalone decoder applied to the witness serialization of a
well-formed transaction returns that transaction (with its two hashes computed), provided
that witness stacks are empty when the segwit flag is off and that the transaction is not a
non-segwit one with no input and exactly one output. -/
theorem construct_serialize (env : Env) (t : Transaction) (hwf : t.wf = true)
    (hwit : t.isSegwit = false → ∀ txin ∈ t.inputs, txin.witness = [])
    (hamb : ¬ (t.isSegwit = false ∧ t.inputs = [] ∧ t.outputs.length = 1))
    (hlen : t.serialize_with_witness.length < 2 ^ 63) :
    Transaction.construct env t.serialize_with_witness =
      .ok (Transaction.with_hashes env { t with TxIdHash := [], WTxIdHash := [] }) := by
  by_cases hseg : t.isSegwit = true
  · exact construct_serialize_segwit env t hwf hseg hlen
  · have hseg' : t.isSegwit = false := by simpa using hseg
    exact construct_serialize_legacy env t hwf hseg' (hwit hseg')
      (fun h => hamb ⟨hseg', h.1, h.2⟩) hlen

/-! ## What a successful decoding has read -/

theorem read_le_lt (data : Bytes) (off n : Nat) : read_le data off n < 2 ^ (8 * n) := by
  induction n with
  | zero => simp [read_le]
  | succ n ih =>
    rw [read_le, Nat.mul_comm n 8, or_shiftLeft_of_lt _ ih]
    have hb := (at_ data (off + n)).isLt
    have hpow : 2 ^ (8 * (n + 1)) = 2 ^ (8 * n) * 256 := by
      rw [Nat.mul_add, Nat.pow_add]
    rw [hpow]
    nlinarith

theorem read_uint16_le_ok {data : Bytes} {off v : Nat} (h : read_uint16_le data off = .ok v) :
    v < 2 ^ 16 ∧ sz (off + 2) ≤ data.length := by
  rw [read_uint16_le_eq] at h
  split at h
  · cases h
  · cases h
    exact ⟨read_le_lt data off 2, by omega⟩

theorem read_uint32_le_ok {data : Bytes} {off v : Nat} (h : read_uint32_le data off = .ok v) :
    v < 2 ^ 32 ∧ sz (off + 4) ≤ data.length := by
  unfold read_uint32_le at h
  split at h
  · cases h
  · cases h
    exact ⟨read_le_lt data off 4, by omega⟩

theorem read_uint64_le_ok {data : Bytes} {off v : Nat} (h : read_uint64_le data off = .ok v) :
    v < 2 ^ 64 ∧ sz (off + 8) ≤ data.length := by
  unfold read_uint64_le at h
  split at h
  · cases h
  · cases h
    exact ⟨read_le_lt data off 8, by omega⟩

/-- A successful `read_varint` has read a 64-bit value, has advanced the offset inside the
buffer, and has consumed at least as many bytes as `write_varint` uses for that value. -/
theorem read_varint_ok {data : Bytes} {off v off' : Nat}
    (h : read_varint data off = .ok (v, off')) (hlen : data.length < 2 ^ 63) :
    off < off' ∧ off' ≤ data.length ∧ v < 2 ^ 64 ∧
      (write_varint [] v).length ≤ off' - off := by
  unfold read_varint at h
  split at h
  · cases h
  · rename_i hoff
    have s1 : sz (off + 1) = off + 1 := sz_of_lt (by omega)
    simp only [s1] at h
    have hv := length_write_varint v
    split at h
    · rename_i hp
      cases h
      rw [hv]
      have := (at_ data off).isLt
      simp only [hp, if_true]
      omega
    · split at h
      · split at h
        · cases h
        · rename_i value hval
          cases h
          obtain ⟨b1, b2⟩ := read_uint16_le_ok hval
          have s2 : sz (off + 1 + 2) = off + 1 + 2 := sz_of_lt (by omega)
          rw [s2] at b2 ⊢
          rw [hv]
          split_ifs <;> omega
      · split at h
        · split at h
          · cases h
          · rename_i value hval
            cases h
            obtain ⟨b1, b2⟩ := read_uint32_le_ok hval
            have s2 : sz (off + 1 + 4) = off + 1 + 4 := sz_of_lt (by omega)
            rw [s2] at b2 ⊢
            rw [hv]
            split_ifs <;> omega
        · split at h
          · cases h
          · rename_i value hval
            cases h
            obtain ⟨b1, b2⟩ := read_uint64_le_ok hval
            have s2 : sz (off + 1 + 8) = off + 1 + 8 := sz_of_lt (by omega)
            rw [s2] at b2 ⊢
            rw [hv]
            split_ifs <;> omega

/-- A successfully decoded input is well formed, carries no witness yet, and its
serialization is no longer than what the decoder consumed. -/
theorem parse_input_ok {data : Bytes} {off off' : Nat} {txin : TxIn}
    (h : parse_input data off = .ok (txin, off')) (hlen : data.length < 2 ^ 63)
    (hoff : off ≤ data.length) :
    txin.wf = true ∧ txin.witness = [] ∧ off ≤ off' ∧ off' ≤ data.length ∧
      (serialize_input [] txin).length ≤ off' - off := by
  unfold parse_input at h
  have s1 : sz (off + 32) = off + 32 := sz_of_lt (by omega)
  simp only [s1] at h
  split at h
  · cases h
  · rename_i c1
    have s2 : sz (off + 32 + 4) = off + 32 + 4 := sz_of_lt (by omega)
    simp only [s2] at h
    split at h
    · cases h
    · rename_i c2
      split at h
      · cases h
      · rename_i vout hvout
        split at h
        · cases h
        · rename_i script_len o3 hvar
          obtain ⟨v1, v2, v3, v4⟩ := read_varint_ok hvar hlen
          split at h
          · cases h
          · rename_i c3
            split at h
            · cases h
            · rename_i c4
              have s3 : sz (o3 + script_len) = o3 + script_len := sz_of_lt (by omega)
              simp only [s3] at h c3
              have s4 : sz (o3 + script_len + 4) = o3 + script_len + 4 := sz_of_lt (by omega)
              simp only [s4] at h
              split at h
              · cases h
              · rename_i c5
                split at h
                · cases h
                · rename_i sequence hseq
                  cases h
                  have l1 : (slice data off 32).length = 32 := length_slice _ _ _ (by omega)
                  have l2 : (slice data o3 script_len).length = script_len :=
                    length_slice _ _ _ (by omega)
                  refine ⟨?_, rfl, by omega, by omega, ?_⟩
                  · rw [txin_wf_iff]
                    exact ⟨l1, (read_uint32_le_ok hvout).1, (read_uint32_le_ok hseq).1⟩
                  · rw [serialize_input_flat]
                    simp only [List.length_append, length_write_le, List.length_nil, l1, l2]
                    omega

theorem parse_inputs_ok {data : Bytes} (hlen : data.length < 2 ^ 63) :
    ∀ (n : Nat) {off off' : Nat} {ins : List TxIn},
      parse_inputs data n off = .ok (ins, off') → off ≤ data.length →
      ins.length = n ∧ (∀ txin ∈ ins, txin.wf = true) ∧ (∀ txin ∈ ins, txin.witness = []) ∧
        off ≤ off' ∧ off' ≤ data.length ∧ (serialize_inputs [] ins).length ≤ off' - off := by
  intro n
  induction n with
  | zero =>
    intro off off' ins h hoff
    simp only [parse_inputs, Except.ok.injEq, Prod.mk.injEq] at h
    obtain ⟨rfl, rfl⟩ := h
    simp [serialize_inputs, hoff]
  | succ n ih =>
    intro off off' ins h hoff
    simp only [parse_inputs] at h
    split at h
    · cases h
    · rename_i txin o1 h1
      split at h
      · cases h
      · rename_i rest o2 h2
        cases h
        obtain ⟨a1, a2, a3, a4, a5⟩ := parse_input_ok h1 hlen hoff
        obtain ⟨b1, b2, b3, b4, b5, b6⟩ := ih h2 a4
        refine ⟨by simp [b1], ?_, ?_, by omega, b5, ?_⟩
        · intro t ht
          rcases List.mem_cons.mp ht with rfl | ht
          · exact a1
          · exact b2 t ht
        · intro t ht
          rcases List.mem_cons.mp ht with rfl | ht
          · exact a2
          · exact b3 t ht
        · rw [serialize_inputs_cons, List.length_append]
          omega

theorem parse_output_ok {data : Bytes} {off off' : Nat} {o : TxOut}
    (h : parse_output data off = .ok (o, off')) (hlen : data.length < 2 ^ 63)
    (hoff : off ≤ data.length) :
    o.amount < 2 ^ 64 ∧ off ≤ off' ∧ off' ≤ data.length ∧
      (serialize_output [] o).length ≤ off' - off := by
  unfold parse_output at h
  have s1 : sz (off + 8) = off + 8 := sz_of_lt (by omega)
  simp only [s1] at h
  split at h
  · cases h
  · rename_i c1
    split at h
    · cases h
    · rename_i amount hamount
      split at h
      · cases h
      · rename_i script_len o3 hvar
        obtain ⟨v1, v2, v3, v4⟩ := read_varint_ok hvar hlen
        split at h
        · cases h
        · rename_i c3
          split at h
          · cases h
          · rename_i c4
            have s3 : sz (o3 + script_len) = o3 + script_len := sz_of_lt (by omega)
            simp only [s3] at h c3
            cases h
            have l2 : (slice data o3 script_len).length = script_len :=
              length_slice _ _ _ (by omega)
            refine ⟨(read_uint64_le_ok hamount).1, by omega, by omega, ?_⟩
            rw [serialize_output_flat]
            simp only [List.length_append, length_write_le, List.length_nil, l2]
            omega

theorem parse_outputs_ok {data : Bytes} (hlen : data.length < 2 ^ 63) :
    ∀ (n : Nat) {off off' : Nat} {outs : List TxOut},
      parse_outputs data n off = .ok (outs, off') → off ≤ data.length →
      outs.length = n ∧ (∀ o ∈ outs, o.amount < 2 ^ 64) ∧
        off ≤ off' ∧ off' ≤ data.length ∧ (serialize_outputs [] outs).length ≤ off' - off := by
  intro n
  induction n with
  | zero =>
    intro off off' outs h hoff
    simp only [parse_outputs, Except.ok.injEq, Prod.mk.injEq] at h
    obtain ⟨rfl, rfl⟩ := h
    simp [serialize_outputs, hoff]
  | succ n ih =>
    intro off off' outs h hoff
    simp only [parse_outputs] at h
    split at h
    · cases h
    · rename_i o o1 h1
      split at h
      · cases h
      · rename_i rest o2 h2
        cases h
        obtain ⟨a1, a3, a4, a5⟩ := parse_output_ok h1 hlen hoff
        obtain ⟨b1, b2, b4, b5, b6⟩ := ih h2 a4
        refine ⟨by simp [b1], ?_, by omega, b5, ?_⟩
        · intro t ht
          rcases List.mem_cons.mp ht with rfl | ht
          · exact a1
          · exact b2 t ht
        · rw [serialize_outputs_cons, List.length_append]
          omega

theorem parse_witness_item_ok {data : Bytes} {off off' : Nat} {item : Bytes}
    (h : parse_witness_item data off = .ok (item, off')) (hlen : data.length < 2 ^ 63) :
    off ≤ off' ∧ off' ≤ data.length ∧
      (write_varint [] item.length ++ item).length ≤ off' - off := by
  unfold parse_witness_item at h
  split at h
  · cases h
  · rename_i item_len o1 hvar
    obtain ⟨v1, v2, v3, v4⟩ := read_varint_ok hvar hlen
    split at h
    · cases h
    · rename_i c3
      split at h
      · cases h
      · rename_i c4
        have s3 : sz (o1 + item_len) = o1 + item_len := sz_of_lt (by omega)
        simp only [s3] at h c3
        cases h
        have l2 : (slice data o1 item_len).length = item_len := length_slice _ _ _ (by omega)
        simp only [List.length_append, l2]
        omega

theorem parse_witness_items_ok {data : Bytes} (hlen : data.length < 2 ^ 63) :
    ∀ (n : Nat) {off off' : Nat} {items : List Bytes},
      parse_witness_items data n off = .ok (items, off') → off ≤ data.length →
      items.length = n ∧ off ≤ off' ∧ off' ≤ data.length ∧
        (serialize_witness_items [] items).length ≤ off' - off := by
  intro n
  induction n with
  | zero =>
    intro off off' items h hoff
    simp only [parse_witness_items, Except.ok.injEq, Prod.mk.injEq] at h
    obtain ⟨rfl, rfl⟩ := h
    simp [serialize_witness_items, hoff]
  | succ n ih =>
    intro off off' items h hoff
    simp only [parse_witness_items] at h
    split at h
    · cases h
    · rename_i item o1 h1
      split at h
      · cases h
      · rename_i rest o2 h2
        cases h
        obtain ⟨a3, a4, a5⟩ := parse_witness_item_ok h1 hlen
        obtain ⟨b1, b4, b5, b6⟩ := ih h2 a4
        refine ⟨by simp [b1], by omega, b5, ?_⟩
        rw [serialize_witness_items_cons, List.length_append]
        omega

/-- The witness loop changes nothing but the witness stacks, and the serialization of the
stacks it has read is no longer than what it consumed. -/
theorem parse_witnesses_ok {data : Bytes} (hlen : data.length < 2 ^ 63) :
    ∀ (ins : List TxIn) {off off' : Nat} {ins' : List TxIn},
      parse_witnesses data ins off = .ok (ins', off') → off ≤ data.length →
      (∀ txin ∈ ins, txin.witness = []) →
      ins'.map (fun txin => { txin with witness := [] }) = ins ∧ off ≤ off' ∧
        off' ≤ data.length ∧ (serialize_witnesses [] ins').length ≤ off' - off := by
  intro ins
  induction ins with
  | nil =>
    intro off off' ins' h hoff _
    simp only [parse_witnesses, Except.ok.injEq, Prod.mk.injEq] at h
    obtain ⟨rfl, rfl⟩ := h
    simp [serialize_witnesses, hoff]
  | cons txin rest ih =>
    intro off off' ins' h hoff hw
    simp only [parse_witnesses] at h
    split at h
    · cases h
    · rename_i item_count o1 hvar
      obtain ⟨v1, v2, v3, v4⟩ := read_varint_ok hvar hlen
      split at h
      · cases h
      · rename_i items o2 hitems
        obtain ⟨i1, i2, i3, i4⟩ := parse_witness_items_ok hlen item_count hitems v2
        split at h
        · cases h
        · rename_i rest' o3 hrest
          cases h
          obtain ⟨r1, r2, r3, r4⟩ := ih hrest i3 (fun t ht => hw t (List.mem_cons_of_mem _ ht))
          have hw0 := hw txin (List.mem_cons_self _ _)
          refine ⟨?_, by omega, r3, ?_⟩
          · rw [List.map_cons, r1]
            congr 1
            cases txin
            simp only at hw0
            simp [hw0]
          · rw [serialize_witnesses_cons]
            simp only [List.length_append, hw0, List.nil_append, i1]
            omega

theorem serialize_inputs_strip (ins : List TxIn) :
    serialize_inputs [] (ins.map (fun txin => { txin with witness := [] }))
      = serialize_inputs [] ins := by
  induction ins with
  | nil => rfl
  | cons txin rest ih =>
    rw [List.map_cons, serialize_inputs_cons, serialize_inputs_cons, ih]
    rfl

theorem wf_of_strip {ins ins' : List TxIn}
    (h : ins'.map (fun txin => { txin with witness := [] }) = ins)
    (hwf : ∀ txin ∈ ins, txin.wf = true) : ∀ txin ∈ ins', txin.wf = true := by
  intro txin hmem
  have : ({ txin with witness := [] } : TxIn) ∈ ins := by
    rw [← h]; exact List.mem_map.mpr ⟨txin, hmem, rfl⟩
  exact hwf { txin with witness := [] } this

theorem with_hashes_fields (env : Env) (t : Transaction) :
    (Transaction.with_hashes env t).version = t.version ∧
    (Transaction.with_hashes env t).inputs = t.inputs ∧
    (Transaction.with_hashes env t).outputs = t.outputs ∧
    (Transaction.with_hashes env t).locktime = t.locktime ∧
    (Transaction.with_hashes env t).isSegwit = t.isSegwit ∧
    (Transaction.with_hashes env t).serialize_legacy = t.serialize_legacy ∧
    (Transaction.with_hashes env t).serialize_with_witness = t.serialize_with_witness :=
  ⟨rfl, rfl, rfl, rfl, rfl, rfl, rfl⟩

/-- What a successful decoding returns: a well-formed transaction, without witness stacks
unless the segwit flag is set, whose witness serialization is no longer than the buffer, and
whose two hashes are those of its serializations. -/
theorem construct_inv {env : Env} {raw : Bytes} {t : Transaction}
    (h : Transaction.construct env raw = .ok t) (hlen : raw.length < 2 ^ 63) :
    t.wf = true ∧ (t.isSegwit = false → ∀ txin ∈ t.inputs, txin.witness = []) ∧
      t.serialize_with_witness.length ≤ raw.length ∧
      Transaction.with_hashes env { t with TxIdHash := [], WTxIdHash := [] } = t := by
  unfold Transaction.construct at h
  split at h
  · cases h
  · rename_i c0
    split at h
    · cases h
    · rename_i version hver
      simp only at h
      generalize hs : (decide (sz (4 + 1) < raw.length) &&
        (at_ raw 4 == 0x00 && at_ raw (4 + 1) == 0x01)) = seg at h
      have s6 : sz (4 + 2) = 6 := by decide
      simp only [s6] at h
      split at h
      · cases h
      · rename_i input_count o1 hvar1
        obtain ⟨v1, v2, v3, v4⟩ := read_varint_ok hvar1 hlen
        split at h
        · cases h
        · rename_i ins o2 hin
          obtain ⟨i1, i2, i3, i4, i5, i6⟩ := parse_inputs_ok hlen input_count hin v2
          split at h
          · cases h
          · rename_i output_count o3 hvar2
            obtain ⟨u1, u2, u3, u4⟩ := read_varint_ok hvar2 hlen
            split at h
            · cases h
            · rename_i outs o4 hout
              obtain ⟨j1, j2, j4, j5, j6⟩ := parse_outputs_ok hlen output_count hout u2
              split at h
              · cases h
              · rename_i ins' o5 hwits
                have s7 : sz (o5 + 4) = o5 + 4 := by
                  cases seg
                  · simp only [Bool.false_eq_true, if_false, Except.ok.injEq,
                      Prod.mk.injEq] at hwits
                    obtain ⟨-, rfl⟩ := hwits
                    exact sz_of_lt (by omega)
                  · simp only [if_true] at hwits
                    obtain ⟨-, -, r3, -⟩ := parse_witnesses_ok hlen ins hwits j5 i3
                    exact sz_of_lt (by omega)
                simp only [s7] at h
                split at h
                · cases h
                · rename_i c8
                  split at h
                  · cases h
                  · rename_i locktime hlock
                    cases h
                    obtain ⟨f1, f2, f3, f4, f5, f6, f7⟩ := with_hashes_fields env
                      { version := version, outputs := outs, inputs := ins',
                        locktime := locktime, isSegwit := seg, TxIdHash := [], WTxIdHash := [] }
                    simp only at f1 f2 f3 f4 f5
                    have hv4 := length_write_varint ins.length
                    have hlen4 : (write_le [] version 4).length = 4 := by simp [length_write_le]
                    refine ⟨?_, ?_, ?_, rfl⟩
                    · rw [tx_wf_iff, f1, f2, f3, f4]
                      refine ⟨(read_uint32_le_ok hver).1, (read_uint32_le_ok hlock).1, ?_, j2⟩
                      cases seg
                      · simp only [Bool.false_eq_true, if_false, Except.ok.injEq,
                          Prod.mk.injEq] at hwits
                        obtain ⟨rfl, -⟩ := hwits
                        exact i2
                      · simp only [if_true] at hwits
                        obtain ⟨r1, -, -, -⟩ := parse_witnesses_ok hlen ins hwits j5 i3
                        exact wf_of_strip r1 i2
                    · rw [f5, f2]
                      intro hseg
                      subst hseg
                      simp only [Bool.false_eq_true, if_false, Except.ok.injEq,
                        Prod.mk.injEq] at hwits
                      obtain ⟨rfl, -⟩ := hwits
                      exact i3
                    · rw [f7, length_serialize_with_witness, serialize_legacy_eq]
                      simp only [List.length_append, length_write_le, List.length_nil,
                        Nat.zero_add]
                      cases seg
                      · simp only [Bool.false_eq_true, if_false, Except.ok.injEq,
                          Prod.mk.injEq] at hwits v1 v2 v4 ⊢
                        obtain ⟨rfl, rfl⟩ := hwits
                        rw [i1, j1]
                        omega
                      · simp only [if_true] at hwits v1 v2 v4 ⊢
                        obtain ⟨r1, r2, r3, r4⟩ := parse_witnesses_ok hlen ins hwits j5 i3
                        have hl : ins'.length = ins.length := by
                          rw [← r1, List.length_map]
                        have hs' : serialize_inputs [] ins' = serialize_inputs [] ins := by
                          rw [← r1, serialize_inputs_strip]
                        rw [hl, hs', i1, j1]
                        omega

/-- The decoder consults the environment for the two hashes only. -/
theorem construct_env_irrelevant {α : Type} (env env' : Env) (raw : Bytes)
    (g : Transaction → α)
    (hg : ∀ t, g t = g { t with TxIdHash := [], WTxIdHash := [] }) :
    (Transaction.construct env raw).map g = (Transaction.construct env' raw).map g := by
  unfold Transaction.construct
  split
  · rfl
  · split
    · rfl
    · simp only
      split
      · rfl
      · split
        · rfl
        · split
          · rfl
          · split
            · rfl
            · split
              · rfl
              · split
                · rfl
                · split
                  · rfl
                  · simp only [Except.map]
                    congr 1
                    rw [hg, hg (Transaction.with_hashes env' _)]
                    rfl

/-! ## Output script templates -/

theorem at_eq_getElem (l : Bytes) (i : Nat) (h : i < l.length) : at_ l i = l[i] := by
  simp [at_, List.getD_eq_getElem?_getD, List.getElem?_eq_getElem h]

theorem bytes_ext (l1 l2 : Bytes) (hl : l1.length = l2.length)
    (h : ∀ i, i < l2.length → at_ l1 i = at_ l2 i) : l1 = l2 := by
  apply List.ext_getElem hl
  intro i h1 h2
  rw [← at_eq_getElem l1 i h1, ← at_eq_getElem l2 i h2]
  exact h i h2

theorem at_take (s : Bytes) (k i : Nat) (h : i < k) : at_ (s.take k) i = at_ s i := by
  simp [at_, List.getD_eq_getElem?_getD, List.getElem?_take, h]

theorem at_drop (s : Bytes) (k i : Nat) : at_ (s.drop k) i = at_ s (k + i) := by
  simp [at_, List.getD_eq_getElem?_getD, List.getElem?_drop]

/-- A script is `p`, then `n` free bytes, then `q` exactly when it has the length of that
and carries the bytes of `p` and `q` at their places. -/
theorem template_iff (p q s : Bytes) (n : Nat) :
    (∃ h : Bytes, h.length = n ∧ s = p ++ h ++ q) ↔
      s.length = p.length + n + q.length ∧ (∀ i, i < p.length → at_ s i = at_ p i) ∧
        (∀ i, i < q.length → at_ s (p.length + n + i) = at_ q i) := by
  constructor
  · rintro ⟨h, hn, rfl⟩
    refine ⟨by simp [hn]; omega, ?_, ?_⟩
    · intro i hi
      rw [List.append_assoc, at_append_left _ _ _ hi]
    · intro i _
      have := at_append_right (p ++ h) q i
      simpa [hn] using this
  · rintro ⟨hlen, hp, hq⟩
    refine ⟨(s.drop p.length).take n, ?_, ?_⟩
    · simp; omega
    · have hs : s = s.take p.length ++ ((s.drop p.length).take n ++ s.drop (p.length + n)) := by
        conv_lhs => rw [← List.take_append_drop p.length s,
          ← List.take_append_drop n (s.drop p.length)]
        rw [List.drop_drop]
      have h1 : s.take p.length = p := by
        apply bytes_ext
        · simp; omega
        · intro i hi
          rw [at_take _ _ _ hi, hp i hi]
      have h2 : s.drop (p.length + n) = q := by
        apply bytes_ext
        · simp; omega
        · intro i hi
          rw [at_drop, hq i hi]
      rw [h1, h2] at hs
      rw [List.append_assoc]
      exact hs

theorem forall_lt_one (P : Nat → Prop) : (∀ i, i < 1 → P i) ↔ P 0 := by
  constructor
  · intro h; exact h 0 (by omega)
  · intro h i hi
    have : i = 0 := by omega
    subst this; exact h

theorem forall_lt_two (P : Nat → Prop) : (∀ i, i < 2 → P i) ↔ P 0 ∧ P 1 := by
  constructor
  · intro h; exact ⟨h 0 (by omega), h 1 (by omega)⟩
  · rintro ⟨h0, h1⟩ i hi
    interval_cases i <;> assumption

theorem forall_lt_three (P : Nat → Prop) : (∀ i, i < 3 → P i) ↔ P 0 ∧ P 1 ∧ P 2 := by
  constructor
  · intro h; exact ⟨h 0 (by omega), h 1 (by omega), h 2 (by omega)⟩
  · rintro ⟨h0, h1, h2⟩ i hi
    interval_cases i <;> assumption

theorem p2pkh_shape_iff (s : Bytes) :
    (∃ h : Bytes, h.length = 20 ∧ s = [0x76, 0xA9, 0x14] ++ h ++ [0x88, 0xAC]) ↔
      s.length = 25 ∧ at_ s 0 = 0x76 ∧ at_ s 1 = 0xA9 ∧ at_ s 2 = 0x14 ∧
        at_ s 23 = 0x88 ∧ at_ s 24 = 0xAC := by
  rw [template_iff]
  simp only [List.length_cons, List.length_nil, forall_lt_three, forall_lt_two]
  simp [at_, and_assoc]

theorem p2sh_shape_iff (s : Bytes) :
    (∃ h : Bytes, h.length = 20 ∧ s = [0xA9, 0x14] ++ h ++ [0x87]) ↔
      s.length = 23 ∧ at_ s 0 = 0xA9 ∧ at_ s 1 = 0x14 ∧ at_ s 22 = 0x87 := by
  rw [template_iff]
  simp only [List.length_cons, List.length_nil, forall_lt_two, forall_lt_one]
  simp [at_, and_assoc]

theorem witness_program_shape_iff (s : Bytes) (a b : Byte) (n : Nat) :
    (∃ h : Bytes, h.length = n ∧ s = [a, b] ++ h) ↔
      s.length = 2 + n ∧ at_ s 0 = a ∧ at_ s 1 = b := by
  have h := template_iff [a, b] [] s n
  simp only [List.append_nil, List.length_cons, List.length_nil, forall_lt_two] at h
  rw [h]
  simp [at_, and_assoc]

theorem op_return_shape_iff (s : Bytes) :
    (∃ rest : Bytes, s = 0x6A :: rest) ↔ ¬ s.isEmpty ∧ at_ s 0 = 0x6A := by
  cases s with
  | nil => simp
  | cons a rest => simp [at_]

/-- The classifier in terms of the length and of the bytes at the fixed positions. -/
theorem classify_output_script_iff_at (s : Bytes) :
    (classify_output_script s = .P2PKH ↔
      s.length = 25 ∧ at_ s 0 = 0x76 ∧ at_ s 1 = 0xA9 ∧ at_ s 2 = 0x14 ∧
        at_ s 23 = 0x88 ∧ at_ s 24 = 0xAC) ∧
    (classify_output_script s = .P2SH ↔
      s.length = 23 ∧ at_ s 0 = 0xA9 ∧ at_ s 1 = 0x14 ∧ at_ s 22 = 0x87) ∧
    (classify_output_script s = .P2WPKH ↔ s.length = 22 ∧ at_ s 0 = 0x00 ∧ at_ s 1 = 0x14) ∧
    (classify_output_script s = .P2WSH ↔ s.length = 34 ∧ at_ s 0 = 0x00 ∧ at_ s 1 = 0x20) ∧
    (classify_output_script s = .P2TR ↔ s.length = 34 ∧ at_ s 0 = 0x51 ∧ at_ s 1 = 0x20) ∧
    (classify_output_script s = .OP_RETURN ↔ ¬ s.isEmpty ∧ at_ s 0 = 0x6A) ∧
    (classify_output_script s = .UNKNOWN ↔
      ¬ (s.length = 25 ∧ at_ s 0 = 0x76 ∧ at_ s 1 = 0xA9 ∧ at_ s 2 = 0x14 ∧
        at_ s 23 = 0x88 ∧ at_ s 24 = 0xAC) ∧
      ¬ (s.length = 23 ∧ at_ s 0 = 0xA9 ∧ at_ s 1 = 0x14 ∧ at_ s 22 = 0x87) ∧
      ¬ (s.length = 22 ∧ at_ s 0 = 0x00 ∧ at_ s 1 = 0x14) ∧
      ¬ (s.length = 34 ∧ at_ s 0 = 0x00 ∧ at_ s 1 = 0x20) ∧
      ¬ (s.length = 34 ∧ at_ s 0 = 0x51 ∧ at_ s 1 = 0x20) ∧
      ¬ (¬ s.isEmpty ∧ at_ s 0 = 0x6A)) := by
  simp only [classify_output_script, OP_DUP, OP_HASH160, OP_EQUALVERIFY, OP_CHECKSIG, OP_EQUAL,
    OP_0, OP_1, OP_RETURN]
  refine ⟨?_, ?_, ?_, ?_, ?_, ?_, ?_⟩ <;> split_ifs <;> simp_all

theorem at_set (s : Bytes) (i j : Nat) (b : Byte) :
    at_ (s.set i b) j = if i = j ∧ i < s.length then b else at_ s j := by
  simp only [at_, List.getD_eq_getElem?_getD, List.getElem?_set]
  by_cases h : i = j
  · subst h
    by_cases h2 : i < s.length
    · simp [h2]
    · simp [h2, List.getElem?_eq_none (Nat.le_of_not_lt h2)]
  · simp [h]

/-! ## The prevout key -/

theorem toDigitsCore_append (fuel n : Nat) (ds : List Char) :
    Nat.toDigitsCore 10 fuel n ds = Nat.toDigitsCore 10 fuel n [] ++ ds := by
  induction fuel generalizing n ds with
  | zero => simp [Nat.toDigitsCore]
  | succ fuel ih =>
    simp only [Nat.toDigitsCore]
    split
    · simp
    · rw [ih, ih (n / 10) [_]]
      simp

theorem toDigitsCore_fuel (n : Nat) : ∀ (fuel : Nat) (ds : List Char), n < fuel →
    Nat.toDigitsCore 10 fuel n ds = Nat.toDigitsCore 10 (n + 1) n ds := by
  induction n using Nat.strong_induction_on with
  | _ n ih =>
    intro fuel ds hlt
    obtain ⟨f, rfl⟩ : ∃ f, fuel = f + 1 := ⟨fuel - 1, by omega⟩
    simp only [Nat.toDigitsCore]
    split
    · rfl
    · rename_i hne
      have h1 : n / 10 < n := by omega
      rw [ih (n / 10) h1 f _ (by omega), ih (n / 10) h1 n _ h1]

theorem toDigits_rec (n : Nat) :
    Nat.toDigits 10 n =
      if n < 10 then [Nat.digitChar n] else Nat.toDigits 10 (n / 10) ++ [Nat.digitChar (n % 10)] := by
  unfold Nat.toDigits
  rw [Nat.toDigitsCore]
  by_cases h : n < 10
  · have h0 : n / 10 = 0 := by omega
    have h1 : n % 10 = n := by omega
    simp [h, h0, h1]
  · have h0 : ¬ n / 10 = 0 := by omega
    simp only [h, h0, if_false]
    rw [toDigitsCore_append, toDigitsCore_fuel (n / 10) n [] (by omega)]

theorem toDigits_ne_nil (n : Nat) : Nat.toDigits 10 n ≠ [] := by
  rw [toDigits_rec]
  split <;> simp

theorem digitChar_inj : ∀ a b : Fin 10,
    Nat.digitChar a.val = Nat.digitChar b.val → a = b := by
  decide

theorem digitChar_inj_of_lt {a b : Nat} (ha : a < 10) (hb : b < 10)
    (h : Nat.digitChar a = Nat.digitChar b) : a = b := by
  have := digitChar_inj ⟨a, ha⟩ ⟨b, hb⟩ h
  exact congrArg Fin.val this

theorem toDigits_injective (n : Nat) : ∀ m, Nat.toDigits 10 n = Nat.toDigits 10 m → n = m := by
  induction n using Nat.strong_induction_on with
  | _ n ih =>
    intro m h
    rw [toDigits_rec n, toDigits_rec m] at h
    by_cases hn : n < 10 <;> by_cases hm : m < 10
    · simp only [hn, hm, if_true, List.cons.injEq, and_true] at h
      exact digitChar_inj_of_lt hn hm h
    · simp only [hn, hm, if_true, if_false] at h
      have h' := congrArg List.length h
      have hne := toDigits_ne_nil (m / 10)
      have : (Nat.toDigits 10 (m / 10)).length ≠ 0 := by
        intro h0; exact hne (List.length_eq_zero.mp h0)
      simp only [List.length_append, List.length_singleton, List.length_cons,
        List.length_nil] at h'
      omega
    · simp only [hn, hm, if_true, if_false] at h
      have h' := congrArg List.length h
      have hne := toDigits_ne_nil (n / 10)
      have : (Nat.toDigits 10 (n / 10)).length ≠ 0 := by
        intro h0; exact hne (List.length_eq_zero.mp h0)
      simp only [List.length_append, List.length_singleton, List.length_cons,
        List.length_nil] at h'
      omega
    · simp only [hn, hm, if_false] at h
      obtain ⟨h1, h2⟩ := List.append_inj' h rfl
      have e1 := ih (n / 10) (by omega) (m / 10) h1
      have e2 := digitChar_inj_of_lt (Nat.mod_lt n (by decide)) (Nat.mod_lt m (by decide))
        (by simpa using h2)
      omega

theorem to_string_injective {n m : Nat} (h : to_string n = to_string m) : n = m := by
  apply toDigits_injective
  have h' := congrArg String.data h
  simpa [to_string, toString, Nat.repr, List.asString] using h'

theorem hex_char_inj : ∀ a b : Fin 16, hex_char a.val = hex_char b.val → a = b := by
  decide

theorem byte_hi_lo (b : Byte) :
    b.val >>> 4 < 16 ∧ b.val &&& 0x0F < 16 ∧ b.val = (b.val >>> 4) * 16 + (b.val &&& 0x0F) := by
  have h1 : b.val &&& 0x0F = b.val % 16 := Nat.and_pow_two_sub_one_eq_mod b.val 4
  have h2 : b.val >>> 4 = b.val / 16 := Nat.shiftRight_eq_div_pow b.val 4
  have h3 := b.isLt
  rw [h1, h2]
  omega

theorem hex_pair_inj (a b : Byte)
    (h1 : hex_char (a.val >>> 4) = hex_char (b.val >>> 4))
    (h2 : hex_char (a.val &&& 0x0F) = hex_char (b.val &&& 0x0F)) : a = b := by
  obtain ⟨a1, a2, a3⟩ := byte_hi_lo a
  obtain ⟨b1, b2, b3⟩ := byte_hi_lo b
  have e1 := congrArg Fin.val (hex_char_inj ⟨_, a1⟩ ⟨_, b1⟩ h1)
  have e2 := congrArg Fin.val (hex_char_inj ⟨_, a2⟩ ⟨_, b2⟩ h2)
  simp only at e1 e2
  apply Fin.ext
  omega

theorem bytes_to_hex_data (a : Bytes) :
    (bytes_to_hex a).data =
      a.flatMap (fun b => [hex_char (b.val >>> 4), hex_char (b.val &&& 0x0F)]) := rfl

theorem length_bytes_to_hex (a : Bytes) : (bytes_to_hex a).data.length = 2 * a.length := by
  rw [bytes_to_hex_data]
  induction a with
  | nil => rfl
  | cons x rest ih =>
    simp only [List.flatMap_cons, List.length_append, List.length_cons, List.length_nil, ih]
    omega

theorem bytes_to_hex_injective (a : Bytes) : ∀ b : Bytes, bytes_to_hex a = bytes_to_hex b → a = b := by
  induction a with
  | nil =>
    intro b h
    have hl := congrArg (fun s => s.data.length) h
    simp only [length_bytes_to_hex, List.length_nil] at hl
    exact (List.length_eq_zero.mp (by omega)).symm
  | cons x rest ih =>
    intro b h
    cases b with
    | nil =>
      have hl := congrArg (fun s => s.data.length) h
      simp only [length_bytes_to_hex, List.length_nil, List.length_cons] at hl
      omega
    | cons y rest' =>
      have hd := congrArg String.data h
      simp only [bytes_to_hex_data, List.flatMap_cons, List.cons_append, List.nil_append,
        List.cons.injEq] at hd
      obtain ⟨h1, h2, h3⟩ := hd
      rw [hex_pair_inj x y h1 h2, ih rest' (String.ext h3)]

/-- Two prevout keys built from identifiers of the same length agree only if the
identifiers and the output indices agree. -/
theorem prevout_key_inj {a b : Bytes} {v w : Nat} (hlen : a.length = b.length)
    (h : prevout_key (bytes_to_hex a) v = prevout_key (bytes_to_hex b) w) : a = b ∧ v = w := by
  have hd := congrArg String.data h
  simp only [prevout_key, String.data_append, List.append_assoc] at hd
  obtain ⟨h1, h2⟩ := List.append_inj hd (by rw [length_bytes_to_hex, length_bytes_to_hex, hlen])
  refine ⟨bytes_to_hex_injective a b (String.ext h1), ?_⟩
  obtain ⟨-, h3⟩ := List.append_inj h2 rfl
  exact to_string_injective (String.ext h3)

/-! ## The prevout map -/

theorem lookup_append (k : String) (l1 l2 : List (String × Prevout)) :
    (l1 ++ l2).lookup k = match l1.lookup k with
      | some v => some v
      | none => l2.lookup k := by
  induction l1 with
  | nil => simp
  | cons x rest ih =>
    obtain ⟨k', v⟩ := x
    simp only [List.cons_append, List.lookup_cons]
    cases h : (k == k') <;> simp [ih]

theorem lookup_isSome_iff (k : String) (l : List (String × Prevout)) :
    (l.lookup k).isSome = true ↔ k ∈ l.map Prod.fst := by
  induction l with
  | nil => simp
  | cons x rest ih =>
    obtain ⟨k', v⟩ := x
    simp only [List.lookup_cons, List.map_cons, List.mem_cons]
    by_cases h : k = k'
    · subst h; simp
    · have : (k == k') = false := by simpa using h
      simp [this, ih, h]

theorem build_prevout_map_error (ps : List Prevout) :
    ∀ (acc : List (String × Prevout)) (e : Fault),
      build_prevout_map ps acc = .error e → ∃ msg, e = .runtime_error msg := by
  induction ps with
  | nil => intro acc e h; simp [build_prevout_map] at h
  | cons p rest ih =>
    intro acc e h
    simp only [build_prevout_map] at h
    split at h
    · exact ⟨_, (Except.error.inj h).symm⟩
    · exact ih _ e h

/-- A successful construction of the map has stored every prevout under its key, the keys
being pairwise different. -/
theorem build_prevout_map_ok (ps : List Prevout) :
    ∀ (acc m : List (String × Prevout)), build_prevout_map ps acc = .ok m →
      m = acc ++ ps.map (fun p => (p.key, p)) ∧ (ps.map Prevout.key).Nodup ∧
        ∀ q ∈ ps, q.key ∉ acc.map Prod.fst := by
  induction ps with
  | nil => intro acc m h; simp [build_prevout_map] at h; simp [h]
  | cons p rest ih =>
    intro acc m h
    simp only [build_prevout_map] at h
    split at h
    · simp at h
    · rename_i hnot
      rw [lookup_isSome_iff] at hnot
      obtain ⟨h1, h2, h3⟩ := ih _ m h
      refine ⟨by simp [h1], ?_, ?_⟩
      · simp only [List.map_cons, List.nodup_cons, h2, and_true, List.mem_map, not_exists,
          not_and]
        intro q hq heq
        have := h3 q hq
        simp [heq] at this
      · intro q hq
        rcases List.mem_cons.mp hq with rfl | hq
        · exact hnot
        · have := h3 q hq
          simp only [List.map_append, List.mem_append, not_or] at this
          exact this.1

theorem build_prevout_map_of_nodup (ps : List Prevout) :
    ∀ (acc : List (String × Prevout)), (ps.map Prevout.key).Nodup →
      (∀ q ∈ ps, q.key ∉ acc.map Prod.fst) →
      build_prevout_map ps acc = .ok (acc ++ ps.map (fun p => (p.key, p))) := by
  induction ps with
  | nil => intro acc _ _; simp [build_prevout_map]
  | cons p rest ih =>
    intro acc hnd hacc
    simp only [build_prevout_map]
    have h1 : ¬ ((acc.lookup p.key).isSome = true) := by
      rw [lookup_isSome_iff]; exact hacc p (List.mem_cons_self _ _)
    simp only [h1, if_false]
    rw [List.map_cons, List.nodup_cons] at hnd
    rw [ih _ hnd.2]
    · simp
    · intro q hq
      simp only [List.map_append, List.map_cons, List.map_nil, List.mem_append,
        List.mem_singleton, not_or]
      refine ⟨hacc q (List.mem_cons_of_mem _ hq), ?_⟩
      intro heq
      exact hnd.1 (List.mem_map.mpr ⟨q, hq, heq⟩)

theorem length_reverse_32 (data : Bytes) : (reverse_32 data).length = 32 := by
  simp [reverse_32]

/-- For a prevout with a 32-byte identifier, equality of keys is `spends`. -/
theorem key_beq_eq_spends (p : Prevout) (txin : TxIn) (hp : p.txid.length = 32) :
    (txin.key == p.key) = p.spends txin := by
  by_cases h : p.spends txin = true
  · rw [h]
    simp only [Prevout.spends, Bool.and_eq_true, decide_eq_true_eq] at h
    simp [TxIn.key, Prevout.key, h.1, h.2]
  · have hf : p.spends txin = false := by simpa using h
    rw [hf]
    simp only [beq_eq_false_iff_ne, ne_eq]
    intro heq
    apply h
    have := prevout_key_inj (by rw [length_reverse_32, hp]) heq
    simp [Prevout.spends, this.1, this.2]

/-- Looking an input up in the map of well-formed prevouts finds the first prevout that the
input spends. -/
theorem lookup_map_key (txin : TxIn) (ps : List Prevout)
    (hwf : ∀ p ∈ ps, p.txid.length = 32) :
    (ps.map (fun p => (p.key, p))).lookup txin.key = ps.find? (fun p => p.spends txin) := by
  induction ps with
  | nil => rfl
  | cons p rest ih =>
    simp only [List.map_cons, List.lookup_cons, List.find?_cons]
    rw [key_beq_eq_spends p txin (hwf p (List.mem_cons_self _ _)),
      ih (fun q hq => hwf q (List.mem_cons_of_mem _ hq))]

theorem key_nodup_iff (ps : List Prevout) (hwf : ∀ p ∈ ps, p.txid.length = 32) :
    (ps.map Prevout.key).Nodup ↔ (ps.map Prevout.outpoint).Nodup := by
  have hk : ps.map Prevout.key
      = (ps.map Prevout.outpoint).map (fun o => prevout_key (bytes_to_hex o.1) o.2) := by
    simp [List.map_map, Function.comp_def, Prevout.key, Prevout.outpoint]
  rw [hk]
  constructor
  · exact List.Nodup.of_map _
  · intro h
    apply List.Nodup.map_on _ h
    intro x hx y hy hxy
    obtain ⟨p, hp, rfl⟩ := List.mem_map.mp hx
    obtain ⟨q, hq, rfl⟩ := List.mem_map.mp hy
    have := prevout_key_inj (by simp [Prevout.outpoint, hwf p hp, hwf q hq]) hxy
    exact Prod.ext this.1 this.2

/-! ## The accounting loops -/

theorem encode_p2pkh_address_error {env : Env} {hash20 : Bytes} {e : Fault}
    (h : encode_p2pkh_address env hash20 = .error e) : ∃ msg, e = .runtime_error msg := by
  unfold encode_p2pkh_address at h
  split at h
  · exact ⟨_, (Except.error.inj h).symm⟩
  · split at h
    · exact ⟨_, (Except.error.inj h).symm⟩
    · cases h

theorem encode_p2sh_address_error {env : Env} {hash20 : Bytes} {e : Fault}
    (h : encode_p2sh_address env hash20 = .error e) : ∃ msg, e = .runtime_error msg := by
  unfold encode_p2sh_address at h
  split at h
  · exact ⟨_, (Except.error.inj h).symm⟩
  · split at h
    · exact ⟨_, (Except.error.inj h).symm⟩
    · cases h

theorem encode_segwit_address_error {env : Env} {version : Nat} {program : Bytes} {e : Fault}
    (h : encode_segwit_address env version program = .error e) :
    ∃ msg, e = .runtime_error msg := by
  unfold encode_segwit_address at h
  split at h
  · exact ⟨_, (Except.error.inj h).symm⟩
  · cases h

theorem process_output_script_error {env : Env} {script : Bytes} {e : Fault}
    (h : process_output_script env script = .error e) : ∃ msg, e = .runtime_error msg := by
  unfold process_output_script at h
  cases hc : classify_output_script script <;> simp only [hc] at h
  · split at h
    · rename_i heq; cases h; exact encode_p2pkh_address_error heq
    · cases h
  · split at h
    · rename_i heq; cases h; exact encode_p2sh_address_error heq
    · cases h
  · split at h
    · rename_i heq; cases h; exact encode_segwit_address_error heq
    · cases h
  · split at h
    · rename_i heq; cases h; exact encode_segwit_address_error heq
    · cases h
  · split at h
    · rename_i heq; cases h; exact encode_segwit_address_error heq
    · cases h
  · cases h
  · cases h

theorem process_output_script_type {env : Env} {script : Bytes} {pspk : ProcessedScriptPubKey}
    (h : process_output_script env script = .ok pspk) :
    pspk.type = classify_output_script script := by
  unfold process_output_script at h
  cases hc : classify_output_script script <;> simp only [hc] at h
  all_goals first
    | (split at h
       · cases h
       · cases h; rfl)
    | (cases h; rfl)

theorem process_output_script_ok (env : Env) (script : Bytes) (henc : env.encoders_succeed) :
    ∃ pspk, process_output_script env script = .ok pspk := by
  obtain ⟨h1, h2, h3, h4, h5, -, -⟩ := classify_output_script_iff_at script
  obtain ⟨hb, hs⟩ := henc
  unfold process_output_script
  cases hc : classify_output_script script <;> simp only
  · have hl := length_slice script 3 20 (by have := (h1.1 hc).1; omega)
    cases hx : env.b58check_enc 0 (slice script 3 20) with
    | none => exact absurd hx (hb _ _)
    | some a => simp [encode_p2pkh_address, hl, hx]
  · have hl := length_slice script 2 20 (by have := (h2.1 hc).1; omega)
    cases hx : env.b58check_enc 5 (slice script 2 20) with
    | none => exact absurd hx (hb _ _)
    | some a => simp [encode_p2sh_address, hl, hx]
  · obtain ⟨a, ha⟩ := hs (slice script 2 20) "bc" 0
    simp [encode_segwit_address, ha]
  · obtain ⟨a, ha⟩ := hs (slice script 2 32) "bc" 0
    simp [encode_segwit_address, ha]
  · obtain ⟨a, ha⟩ := hs (slice script 2 32) "bc" 1
    simp [encode_segwit_address, ha]
  · exact ⟨_, rfl⟩
  · exact ⟨_, rfl⟩

theorem input_script_type_str_ne_coinbase (ist : InputScriptType) :
    input_script_type_str ist ≠ "coinbase" := by
  cases ist <;> decide

theorem output_script_type_str_eq_op_return (t : OutputScriptType) :
    output_script_type_str t = "op_return" ↔ t = .OP_RETURN := by
  cases t <;> decide

theorem output_script_type_str_eq_unknown (t : OutputScriptType) :
    output_script_type_str t = "unknown" ↔ t = .UNKNOWN := by
  cases t <;> decide

/-- `is_coinbase` on a 32-byte identifier is the coinbase shape. -/
theorem is_coinbase_eq_shape (txin : TxIn) (h : txin.prevTxId.length = 32) :
    is_coinbase txin = coinbase_shape txin := by
  have key : ((List.range 32).all (fun b => decide (at_ txin.prevTxId b = 0)) = true)
      ↔ txin.prevTxId = List.replicate 32 0 := by
    constructor
    · intro hall
      apply bytes_ext
      · simp [h]
      · intro i hi
        simp only [List.length_replicate] at hi
        have := (List.all_eq_true.mp hall) i (List.mem_range.mpr hi)
        rw [decide_eq_true_eq] at this
        rw [this, at_eq_getElem _ _ (by rw [List.length_replicate]; exact hi),
          List.getElem_replicate]
    · intro heq
      rw [heq]
      decide
  unfold is_coinbase coinbase_shape
  by_cases hz : txin.prevTxId = List.replicate 32 0
  · rw [key.mpr hz]; simp [hz]
  · have hn : ¬ ((List.range 32).all (fun b => decide (at_ txin.prevTxId b = 0)) = true) :=
      fun h' => hz (key.mp h')
    rw [Bool.eq_false_iff.mpr hn, decide_eq_false hz]
    simp only [Bool.and_false, Bool.false_and]

theorem build_input_coinbase (env : Env) (m : List (String × Prevout)) (txin : TxIn)
    (h : is_coinbase txin = true) :
    ∃ ai, build_input env m txin = .ok ai ∧ ai.script_type = "coinbase" ∧
      ai.prevout_value_sats = 0 := by
  simp [build_input, h]

theorem build_input_error {env : Env} {m : List (String × Prevout)} {txin : TxIn} {e : Fault}
    (h : build_input env m txin = .error e) : ∃ msg, e = .runtime_error msg := by
  unfold build_input at h
  simp only at h
  split at h
  · cases h
  · split at h
    · exact ⟨_, (Except.error.inj h).symm⟩
    · split at h
      · rename_i heq; cases h; exact process_output_script_error heq
      · cases h

theorem build_input_missing {env : Env} {m : List (String × Prevout)} {txin : TxIn}
    (hcb : is_coinbase txin = false) (h : m.lookup txin.key = none) :
    ∃ msg, build_input env m txin = .error (.runtime_error msg) := by
  simp [build_input, hcb, h]

theorem build_input_found {env : Env} {m : List (String × Prevout)} {txin : TxIn}
    {prev : Prevout} (hcb : is_coinbase txin = false) (h : m.lookup txin.key = some prev)
    (henc : env.encoders_succeed) :
    ∃ ai, build_input env m txin = .ok ai := by
  obtain ⟨pspk, hp⟩ := process_output_script_ok env prev.script_pubkey_hex henc
  simp [build_input, hcb, h, hp]

theorem build_input_not_coinbase {env : Env} {m : List (String × Prevout)} {txin : TxIn}
    {ai : AccountedInput} (hcb : is_coinbase txin = false)
    (h : build_input env m txin = .ok ai) :
    ∃ prev, m.lookup txin.key = some prev ∧ ai.prevout_value_sats = prev.value_sats ∧
      ai.script_type ≠ "coinbase" := by
  unfold build_input at h
  simp only [hcb, Bool.false_eq_true, if_false] at h
  split at h
  · cases h
  · rename_i prev hl
    split at h
    · cases h
    · cases h
      exact ⟨prev, hl, rfl, input_script_type_str_ne_coinbase _⟩

theorem build_inputs_ok_iff (env : Env) (m : List (String × Prevout)) (ins : List TxIn) :
    ∀ ais, build_inputs env m ins = .ok ais ↔
      List.Forall₂ (fun txin ai => build_input env m txin = .ok ai) ins ais := by
  induction ins with
  | nil =>
    intro ais
    simp only [build_inputs, Except.ok.injEq, List.forall₂_nil_left_iff]
    exact eq_comm
  | cons txin rest ih =>
    intro ais
    simp only [build_inputs]
    constructor
    · intro h
      split at h
      · cases h
      · rename_i ai hai
        split at h
        · cases h
        · rename_i ais' hais
          cases h
          exact List.Forall₂.cons hai ((ih ais').mp hais)
    · intro h
      cases h with
      | cons hai hrest =>
        rw [hai]
        simp only
        rw [(ih _).mpr hrest]

theorem build_inputs_error {env : Env} {m : List (String × Prevout)} (ins : List TxIn)
    {e : Fault} (h : build_inputs env m ins = .error e) : ∃ msg, e = .runtime_error msg := by
  induction ins with
  | nil => cases h
  | cons txin rest ih =>
    simp only [build_inputs] at h
    split at h
    · rename_i heq; cases h; exact build_input_error heq
    · split at h
      · rename_i heq; cases h; exact ih heq
      · cases h

theorem build_inputs_of_forall {env : Env} {m : List (String × Prevout)} (ins : List TxIn)
    (h : ∀ txin ∈ ins, ∃ ai, build_input env m txin = .ok ai) :
    ∃ ais, build_inputs env m ins = .ok ais := by
  induction ins with
  | nil => exact ⟨[], rfl⟩
  | cons txin rest ih =>
    obtain ⟨ai, hai⟩ := h txin (List.mem_cons_self _ _)
    obtain ⟨ais, hais⟩ := ih (fun t ht => h t (List.mem_cons_of_mem _ ht))
    exact ⟨ai :: ais, by simp [build_inputs, hai, hais]⟩

theorem build_inputs_of_failing {env : Env} {m : List (String × Prevout)} (ins : List TxIn)
    (h : ∃ txin ∈ ins, ∃ e, build_input env m txin = .error e) :
    ∃ msg, build_inputs env m ins = .error (.runtime_error msg) := by
  cases hres : build_inputs env m ins with
  | error e =>
    obtain ⟨msg, rfl⟩ := build_inputs_error ins hres
    exact ⟨msg, rfl⟩
  | ok ais =>
    exfalso
    obtain ⟨txin, hmem, e, he⟩ := h
    have hall := (build_inputs_ok_iff env m ins ais).mp hres
    clear hres
    induction hall with
    | nil => cases hmem
    | cons hhead _ ih =>
      rcases List.mem_cons.mp hmem with rfl | hm
      · rw [he] at hhead; cases hhead
      · exact ih hm

theorem build_output_ok {env : Env} {i : Nat} {o : TxOut} {ao : AccountedOutput}
    (h : build_output env i o = .ok ao) :
    ao.value_sats = o.amount ∧
      ao.script_type = output_script_type_str (classify_output_script o.scriptPubKey) := by
  unfold build_output at h
  split at h
  · cases h
  · rename_i pspk hp
    cases h
    exact ⟨rfl, by rw [process_output_script_type hp]⟩

theorem build_output_error {env : Env} {i : Nat} {o : TxOut} {e : Fault}
    (h : build_output env i o = .error e) : ∃ msg, e = .runtime_error msg := by
  unfold build_output at h
  split at h
  · rename_i heq; cases h; exact process_output_script_error heq
  · cases h

theorem build_output_of_encoders (env : Env) (i : Nat) (o : TxOut)
    (henc : env.encoders_succeed) : ∃ ao, build_output env i o = .ok ao := by
  obtain ⟨pspk, hp⟩ := process_output_script_ok env o.scriptPubKey henc
  simp [build_output, hp]

theorem build_outputs_ok {env : Env} (outs : List TxOut) :
    ∀ (i : Nat) (aos : List AccountedOutput), build_outputs env i outs = .ok aos →
      List.Forall₂ (fun o ao => ao.value_sats = o.amount ∧
        ao.script_type = output_script_type_str (classify_output_script o.scriptPubKey))
        outs aos := by
  induction outs with
  | nil =>
    intro i aos h
    simp only [build_outputs, Except.ok.injEq] at h
    subst h
    exact List.Forall₂.nil
  | cons o rest ih =>
    intro i aos h
    simp only [build_outputs] at h
    split at h
    · cases h
    · rename_i ao hao
      split at h
      · cases h
      · rename_i aos' haos
        cases h
        exact List.Forall₂.cons (build_output_ok hao) (ih _ _ haos)

theorem build_outputs_error {env : Env} (outs : List TxOut) :
    ∀ (i : Nat) (e : Fault), build_outputs env i outs = .error e →
      ∃ msg, e = .runtime_error msg := by
  induction outs with
  | nil => intro i e h; cases h
  | cons o rest ih =>
    intro i e h
    simp only [build_outputs] at h
    split at h
    · rename_i heq; cases h; exact build_output_error heq
    · split at h
      · rename_i heq; cases h; exact ih _ _ heq
      · cases h

theorem build_outputs_of_encoders (env : Env) (outs : List TxOut)
    (henc : env.encoders_succeed) : ∀ i, ∃ aos, build_outputs env i outs = .ok aos := by
  induction outs with
  | nil => intro i; exact ⟨[], rfl⟩
  | cons o rest ih =>
    intro i
    obtain ⟨ao, hao⟩ := build_output_of_encoders env i o henc
    obtain ⟨aos, haos⟩ := ih (i + 1)
    exact ⟨ao :: aos, by simp [build_outputs, hao, haos]⟩

/-- A 64-bit accumulation is the mathematical sum reduced modulo `2^64`. -/
theorem foldl_u64 {α : Type} (c : α → Bool) (f : α → Nat) (l : List α) :
    ∀ acc, l.foldl (fun total x => if c x then u64 (total + f x) else total) acc % 2 ^ 64
      = (acc + ((l.filter c).map f).sum) % 2 ^ 64 := by
  induction l with
  | nil => intro acc; simp
  | cons x rest ih =>
    intro acc
    simp only [List.foldl_cons, List.filter_cons]
    rw [ih]
    cases c x
    · simp
    · simp only [if_true, List.map_cons, List.sum_cons, u64]
      omega

theorem foldl_u64_lt {α : Type} (c : α → Bool) (f : α → Nat) (l : List α) :
    ∀ acc, acc < 2 ^ 64 →
      l.foldl (fun total x => if c x then u64 (total + f x) else total) acc < 2 ^ 64 := by
  induction l with
  | nil => intro acc h; simpa using h
  | cons x rest ih =>
    intro acc h
    simp only [List.foldl_cons]
    apply ih
    cases c x
    · simpa using h
    · simp only [if_true, u64]
      exact Nat.mod_lt _ (by decide)

theorem sum_input_sats_eq (ais : List AccountedInput) :
    sum_input_sats ais =
      (((ais.filter (fun ai => !decide (ai.script_type = "coinbase"))).map
        (fun ai => ai.prevout_value_sats)).sum) % 2 ^ 64 := by
  have h1 := foldl_u64 (fun ai : AccountedInput => !decide (ai.script_type = "coinbase"))
    (fun ai => ai.prevout_value_sats) ais 0
  have h2 := foldl_u64_lt (fun ai : AccountedInput => !decide (ai.script_type = "coinbase"))
    (fun ai => ai.prevout_value_sats) ais 0 (by decide)
  simp only [Nat.zero_add] at h1 h2
  rw [Nat.mod_eq_of_lt h2] at h1
  simpa [sum_input_sats] using h1

theorem sum_output_sats_eq (aos : List AccountedOutput) :
    sum_output_sats aos = ((aos.map (fun ao => ao.value_sats)).sum) % 2 ^ 64 := by
  have h1 := foldl_u64 (fun _ : AccountedOutput => true) (fun ao => ao.value_sats) aos 0
  have h2 := foldl_u64_lt (fun _ : AccountedOutput => true) (fun ao => ao.value_sats) aos 0
    (by decide)
  simp only [if_true, Nat.zero_add, List.filter_true] at h1 h2
  rw [Nat.mod_eq_of_lt h2] at h1
  simpa [sum_output_sats] using h1

/-- The parts of a successful analysis. -/
theorem construct_ok {env : Env} {tx : Transaction} {prevouts : List Prevout}
    {network : String} {r : TxnAnalyzer}
    (h : TxnAnalyzer.construct env tx prevouts network = .ok r) :
    ∃ m, build_prevout_map prevouts [] = .ok m ∧
      build_inputs env m tx.inputs = .ok r.inputs_ ∧
      build_outputs env 0 tx.outputs = .ok r.outputs_ ∧
      r.total_input_sats_ = sum_input_sats r.inputs_ ∧
      r.total_output_sats_ = sum_output_sats r.outputs_ ∧
      r.fee_sats_ = fee_of r.total_input_sats_ r.total_output_sats_ ∧
      r.warnings_ = build_warnings env tx r.fee_sats_ r.outputs_ := by
  unfold TxnAnalyzer.construct at h
  split at h
  · cases h
  · rename_i m hm
    split at h
    · cases h
    · rename_i ais hais
      split at h
      · cases h
      · rename_i aos haos
        cases h
        exact ⟨m, hm, hais, haos, rfl, rfl, rfl, rfl⟩

theorem construct_error {env : Env} {tx : Transaction} {prevouts : List Prevout}
    {network : String} {e : Fault}
    (h : TxnAnalyzer.construct env tx prevouts network = .error e) :
    ∃ msg, e = .runtime_error msg := by
  unfold TxnAnalyzer.construct at h
  split at h
  · rename_i heq; cases h; exact build_prevout_map_error _ _ _ heq
  · split at h
    · rename_i heq; cases h; exact build_inputs_error _ heq
    · split at h
      · rename_i heq; cases h; exact build_outputs_error _ _ _ heq
      · cases h

theorem prevout_wf_length {p : Prevout} (h : p.wf = true) : p.txid.length = 32 := by
  simp only [Prevout.wf, Bool.and_eq_true, decide_eq_true_eq] at h
  exact h.1.1

theorem txin_wf_length {txin : TxIn} (h : txin.wf = true) : txin.prevTxId.length = 32 := by
  simp only [TxIn.wf, Bool.and_eq_true, decide_eq_true_eq] at h
  exact h.1.1

theorem tx_wf_inputs {tx : Transaction} (h : tx.wf = true) :
    ∀ txin ∈ tx.inputs, txin.prevTxId.length = 32 := by
  simp only [Transaction.wf, Bool.and_eq_true, List.all_eq_true] at h
  exact fun txin hmem => txin_wf_length (h.1.2 txin hmem)

/-- What a successful `build_inputs` has put in each accounted input. -/
theorem inputs_resolved {env : Env} {prevouts : List Prevout} {m : List (String × Prevout)}
    {ins : List TxIn} {ais : List AccountedInput}
    (hm : build_prevout_map prevouts [] = .ok m)
    (hp : ∀ p ∈ prevouts, p.txid.length = 32)
    (hins : ∀ txin ∈ ins, txin.prevTxId.length = 32)
    (h : build_inputs env m ins = .ok ais) :
    List.Forall₂ (fun txin ai =>
      (coinbase_shape txin = true → ai.script_type = "coinbase" ∧ ai.prevout_value_sats = 0) ∧
      (coinbase_shape txin = false → ai.script_type ≠ "coinbase" ∧
        ∃ p, prevouts.find? (fun p => p.spends txin) = some p ∧
          ai.prevout_value_sats = p.value_sats)) ins ais := by
  have hmap := (build_prevout_map_ok prevouts [] m hm).1
  rw [List.nil_append] at hmap
  have hall := (build_inputs_ok_iff env m ins ais).mp h
  clear h
  induction hall with
  | nil => exact List.Forall₂.nil
  | @cons txin ai ins' ais' hhead _ ih =>
    refine List.Forall₂.cons ?_ (ih (fun t ht => hins t (List.mem_cons_of_mem _ ht)))
    have hshape := is_coinbase_eq_shape txin (hins txin (List.mem_cons_self _ _))
    constructor
    · intro hc
      obtain ⟨ai', h1, h2, h3⟩ := build_input_coinbase env m txin (hshape.trans hc)
      rw [hhead] at h1
      cases h1
      exact ⟨h2, h3⟩
    · intro hc
      obtain ⟨prev, h1, h2, h3⟩ := build_input_not_coinbase (hshape.trans hc) hhead
      rw [hmap, lookup_map_key txin prevouts hp] at h1
      exact ⟨h3, prev, h1, h2⟩

theorem resolved_sum {prevouts : List Prevout} {ins : List TxIn} {ais : List AccountedInput}
    (h : List.Forall₂ (fun txin ai =>
      (coinbase_shape txin = true → ai.script_type = "coinbase" ∧ ai.prevout_value_sats = 0) ∧
      (coinbase_shape txin = false → ai.script_type ≠ "coinbase" ∧
        ∃ p, prevouts.find? (fun p => p.spends txin) = some p ∧
          ai.prevout_value_sats = p.value_sats)) ins ais) :
    ((ais.filter (fun ai => !decide (ai.script_type = "coinbase"))).map
        (fun ai => ai.prevout_value_sats)).sum
      = ((ins.filter (fun txin => !coinbase_shape txin)).map (resolved_value prevouts)).sum := by
  induction h with
  | nil => rfl
  | @cons txin ai ins' ais' hhead _ ih =>
    simp only [List.filter_cons]
    cases hc : coinbase_shape txin
    · obtain ⟨h1, p, h2, h3⟩ := hhead.2 hc
      simp [h1, ih, resolved_value, h2, h3]
    · obtain ⟨h1, _⟩ := hhead.1 hc
      simp [h1, ih]

theorem outputs_sum {outs : List TxOut} {aos : List AccountedOutput}
    (h : List.Forall₂ (fun o ao => ao.value_sats = o.amount ∧
        ao.script_type = output_script_type_str (classify_output_script o.scriptPubKey))
        outs aos) :
    (aos.map (fun ao => ao.value_sats)).sum = (outs.map (fun o => o.amount)).sum := by
  induction h with
  | nil => rfl
  | cons hhead _ ih => simp [hhead.1, ih]

/-! ## Block headers -/

theorem slice_succ (data : Bytes) (off n : Nat) (h : off + n < data.length) :
    slice data off (n + 1) = slice data off n ++ [at_ data (off + n)] := by
  have hn : n < (data.drop off).length := by simp; omega
  simp only [slice]
  rw [List.take_succ, List.getElem?_eq_getElem hn]
  simp [at_, List.getD_eq_getElem?_getD, List.getElem?_eq_getElem h]

theorem slice_append_slice (data : Bytes) (off m k : Nat) :
    slice data off m ++ slice data (off + m) k = slice data off (m + k) := by
  simp only [slice]
  rw [← List.drop_drop, List.take_add]

theorem slice_zero_length (data : Bytes) : slice data 0 data.length = data := by
  simp [slice]

/-- The bytes written by `write_le` depend on the low `8 n` bits of the value only. -/
theorem write_le_mod (buffer : Bytes) (value n : Nat) :
    write_le buffer (value % 2 ^ (8 * n)) n = write_le buffer value n := by
  induction n generalizing value with
  | zero => simp [write_le]
  | succ n ih =>
    have hpow : 2 ^ (8 * (n + 1)) = 2 ^ (8 * n) * 256 := by
      rw [Nat.mul_add, Nat.pow_add]
    rw [write_le, write_le, ← ih (value % 2 ^ (8 * (n + 1))), ← ih value]
    have h1 : value % 2 ^ (8 * (n + 1)) % 2 ^ (8 * n) = value % 2 ^ (8 * n) := by
      rw [hpow]; exact Nat.mod_mul_right_mod _ _ _
    have h2 : toByte ((value % 2 ^ (8 * (n + 1))) >>> (n * 8)) = toByte (value >>> (n * 8)) := by
      apply Fin.ext
      rw [toByte_val, toByte_val, Nat.shiftRight_eq_div_pow, Nat.shiftRight_eq_div_pow, hpow,
        Nat.mul_comm n 8, Nat.mod_mul_right_div_self, Nat.mod_mod]
    rw [h1, h2]

/-- Writing back the `n` bytes that `read_le` has read reproduces them. -/
theorem write_le_read_le (data : Bytes) (off n : Nat) (h : off + n ≤ data.length) :
    write_le [] (read_le data off n) n = slice data off n := by
  induction n with
  | zero => simp [write_le, slice]
  | succ n ih =>
    have hr := read_le_lt data off n
    have hv : read_le data off (n + 1)
        = read_le data off n + (at_ data (off + n)).val * 2 ^ (8 * n) := by
      rw [read_le, Nat.mul_comm n 8, or_shiftLeft_of_lt _ hr]
    rw [write_le, slice_succ data off n (by omega), ← write_le_mod [] (read_le data off (n + 1)) n,
      hv, Nat.add_mul_mod_self_right, Nat.mod_eq_of_lt hr, ih (by omega)]
    congr 2
    apply Fin.ext
    rw [toByte_val, Nat.shiftRight_eq_div_pow, Nat.mul_comm n 8,
      Nat.add_mul_div_right _ _ (Nat.pos_pow_of_pos _ (by decide)),
      Nat.div_eq_of_lt hr, Nat.zero_add]
    exact Nat.mod_eq_of_lt (at_ data (off + n)).isLt

theorem w32_read_le (buf data : Bytes) (off : Nat) (h : off + 4 ≤ data.length) :
    w32 buf (read_le data off 4) = buf ++ slice data off 4 := by
  rw [w32, write_le_eq, write_le_read_le data off 4 h]

/-- The four-byte reader computes the little-endian value of the four bytes it reads. -/
theorem read_le_four (data : Bytes) (off : Nat) :
    read_le data off 4 = le32 (slice data off 4) := by
  have hat : ∀ i, i < 4 → at_ (slice data off 4) i = at_ data (off + i) := by
    intro i hi
    rw [slice, at_take _ _ _ hi, at_drop]
  have h0 := (at_ data (off + 0)).isLt
  have h1 := (at_ data (off + 1)).isLt
  have h2 := (at_ data (off + 2)).isLt
  have h3 := (at_ data (off + 3)).isLt
  rw [le32, hat 0 (by decide), hat 1 (by decide), hat 2 (by decide), hat 3 (by decide)]
  simp only [read_le, Nat.zero_mul, Nat.shiftLeft_zero, Nat.zero_or, Nat.one_mul]
  rw [or_shiftLeft_of_lt (k := 8) _ (by omega)]
  rw [show 2 * 8 = 16 from rfl, or_shiftLeft_of_lt (k := 16) _ (by omega)]
  rw [show 3 * 8 = 24 from rfl, or_shiftLeft_of_lt (k := 24) _ (by omega)]
  omega

theorem read_uint32_le_of_le (data : Bytes) (off : Nat) (h : off + 4 ≤ data.length)
    (hlen : data.length < 2 ^ 64) : read_uint32_le data off = .ok (read_le data off 4) := by
  rw [read_uint32_le, sz_of_lt (by omega), if_neg (by omega)]

/-- The buffer of `calcBlockHash` built from the fields that the constructor reads off an
80-byte header is that header. -/
theorem calcBlockHash_buf_of_header (h : Bytes) (hlen : h.length = 80) (blockHash : Bytes) :
    BlockHeader.calcBlockHash_buf
      { version := read_le h 0 4, prevBlock := slice h 4 32, merkleRoot := slice h 36 32,
        timestamp := read_le h 68 4, bits := read_le h 72 4, nonce := read_le h 76 4,
        blockHash := blockHash } = h := by
  simp only [BlockHeader.calcBlockHash_buf]
  rw [w32_read_le _ h 76 (by omega), w32_read_le _ h 72 (by omega),
    w32_read_le _ h 68 (by omega), w32_read_le _ h 0 (by omega), List.nil_append]
  rw [slice_append_slice h 0 4 32, slice_append_slice h 0 36 32, slice_append_slice h 0 68 4,
    slice_append_slice h 0 72 4, slice_append_slice h 0 76 4]
  have := slice_zero_length h
  rw [hlen] at this
  exact this

theorem header_construct_eq (env : Env) (h : Bytes) (hlen : h.length = 80) :
    BlockHeader.construct env h = .ok (BlockHeader.calcBlockHash env
      { version := read_le h 0 4, prevBlock := slice h 4 32, merkleRoot := slice h 36 32,
        timestamp := read_le h 68 4, bits := read_le h 72 4, nonce := read_le h 76 4,
        blockHash := [] }) := by
  have hl : h.length < 2 ^ 64 := by rw [hlen]; decide
  simp only [BlockHeader.construct, Nat.zero_add]
  rw [read_uint32_le_of_le h 0 (by omega) hl]
  simp only []
  rw [read_uint32_le_of_le h 68 (by omega) hl]
  simp only []
  rw [read_uint32_le_of_le h 72 (by omega) hl]
  simp only []
  rw [read_uint32_le_of_le h 76 (by omega) hl]

/-! ## The Merkle fold -/

theorem reverse_32_reverse_32 (x : Bytes) (h : x.length = 32) :
    reverse_32 (reverse_32 x) = x := by
  apply List.ext_getElem
  · rw [length_reverse_32, h]
  · intro i h1 h2
    have hi : i < 32 := by rw [length_reverse_32] at h1; exact h1
    have h3 : (reverse_32 x).length = 32 := length_reverse_32 x
    simp only [reverse_32, List.getElem_map, List.getElem_range]
    rw [at_eq_getElem _ _ (by simp; omega)]
    simp only [List.getElem_map, List.getElem_range]
    rw [at_eq_getElem x _ (by omega)]
    congr 1
    omega

theorem merkle_dup_cons_cons (a b : Bytes) (rest : List Bytes) :
    merkle_dup (a :: b :: rest) = a :: b :: merkle_dup rest := by
  cases rest with
  | nil => simp [merkle_dup]
  | cons c rest =>
    simp only [merkle_dup, List.length_cons]
    have hlast : (a :: b :: c :: rest).getLastD [] = (c :: rest).getLastD [] := by
      simp [List.getLastD]
    rw [hlast]
    by_cases hpar : (rest.length + 1) % 2 = 0
    · rw [if_neg (by omega), if_neg (by omega)]
    · rw [if_pos (by omega), if_pos (by omega)]; simp

theorem merkle_next_cons_cons (env : Env) (a b : Bytes) (rest : List Bytes) :
    merkle_next env (a :: b :: rest) = double_sha256 env (a ++ b) :: merkle_next env rest := by
  simp only [merkle_next, List.length_cons]
  have hlen : (rest.length + 1 + 1 + 1) / 2 = (rest.length + 1) / 2 + 1 := by omega
  rw [hlen, List.range_succ_eq_map, List.map_cons, List.map_map]
  congr 1

/-- The index loop of `calcMerkleRoot`, after the duplication step, pairs the nodes as the
reference level does. -/
theorem merkle_next_dup (env : Env) (layer : List Bytes) :
    merkle_next env (merkle_dup layer) = merkle_pairs (double_sha256 env) layer := by
  induction layer using merkle_pairs.induct (double_sha256 env) with
  | case1 => simp [merkle_next, merkle_dup, merkle_pairs]
  | case2 a => simp [merkle_next, merkle_dup, merkle_pairs, List.range_succ]
  | case3 a b rest ih =>
    rw [merkle_dup_cons_cons, merkle_next_cons_cons, ih, merkle_pairs]

theorem length_merkle_pairs (H : Bytes → Bytes) (layer : List Bytes) :
    (merkle_pairs H layer).length = (layer.length + 1) / 2 := by
  induction layer using merkle_pairs.induct H with
  | case1 => simp [merkle_pairs]
  | case2 a => simp [merkle_pairs]
  | case3 a b rest ih =>
    rw [merkle_pairs, List.length_cons, ih]
    simp only [List.length_cons]
    omega

theorem merkle_level_succ (H : Bytes → Bytes) (leaves : List Bytes) (k : Nat) :
    merkle_level H leaves (k + 1) = merkle_level H (merkle_pairs H leaves) k := by
  simp [merkle_level, Function.iterate_succ_apply]

/-- With at least as many iterations as nodes, the loop of `calcMerkleRoot` ends on level
`⌈log₂ n⌉` of the reference fold. -/
theorem merkle_loop_eq_level (env : Env) (fuel : Nat) (layer : List Bytes)
    (h : layer.length ≤ fuel) :
    merkle_loop env fuel layer =
      merkle_level (double_sha256 env) layer (Nat.clog 2 layer.length) := by
  induction fuel generalizing layer with
  | zero =>
    have h0 : layer.length = 0 := by omega
    rw [h0]
    simp [merkle_loop, merkle_level]
  | succ fuel ih =>
    rw [merkle_loop]
    by_cases h1 : layer.length > 1
    · have hl := length_merkle_pairs (double_sha256 env) layer
      rw [if_pos h1, merkle_next_dup, ih _ (by omega), hl,
        Nat.clog_of_two_le (b := 2) (n := layer.length) (by decide) (by omega),
        merkle_level_succ, show (layer.length + 2 - 1) / 2 = (layer.length + 1) / 2 by omega]
    · rw [if_neg h1, Nat.clog_of_right_le_one (by omega)]
      simp [merkle_level]

/-- The reference fold reaches a single node at level `⌈log₂ n⌉` and not before. -/
theorem merkle_level_length (H : Bytes → Bytes) (n : Nat) :
    ∀ leaves : List Bytes, leaves.length = n → 1 ≤ n →
      (merkle_level H leaves (Nat.clog 2 n)).length = 1 ∧
      ∀ k, k < Nat.clog 2 n → 1 < (merkle_level H leaves k).length := by
  induction n using Nat.strong_induction_on with
  | _ n ih =>
    intro leaves hlen hn
    by_cases h1 : n = 1
    · subst h1
      rw [Nat.clog_of_right_le_one (by omega)]
      exact ⟨by simpa [merkle_level] using hlen, fun k hk => absurd hk (by omega)⟩
    · have hc := Nat.clog_of_two_le (b := 2) (by decide) (show 2 ≤ n by omega)
      have hc' : Nat.clog 2 n = Nat.clog 2 ((n + 1) / 2) + 1 := by
        rw [hc, show (n + 2 - 1) / 2 = (n + 1) / 2 by omega]
      obtain ⟨ih1, ih2⟩ := ih ((n + 1) / 2) (by omega) (merkle_pairs H leaves)
        (by rw [length_merkle_pairs, hlen]) (by omega)
      rw [hc']
      refine ⟨by rw [merkle_level_succ]; exact ih1, ?_⟩
      intro k hk
      cases k with
      | zero => simp only [merkle_level, Function.iterate_zero, id]; omega
      | succ j => rw [merkle_level_succ]; exact ih2 j (by omega)

/-! ## The bit-packed varint -/

theorem cvarint_enc_loop_eq (n : Nat) (acc : Bytes) :
    cvarint_enc_loop n acc = cvarint_enc_loop n [] ++ acc := by
  induction n using Nat.strong_induction_on generalizing acc with
  | _ n ih =>
    rw [cvarint_enc_loop, cvarint_enc_loop.eq_1 n []]
    by_cases h : n > 0x7F
    · have hlt : (n >>> 7) - 1 < n := by rw [Nat.shiftRight_eq_div_pow]; omega
      rw [if_pos h, if_pos h, ih _ hlt, ih _ hlt [_]]
      simp
    · rw [if_neg h, if_neg h]; simp

/-- The continuation bytes of the reference encoding. -/
theorem cvarint_enc_loop_step (n : Nat) (h : n > 0x7F) :
    cvarint_enc_loop n [] =
      cvarint_enc_loop ((n >>> 7) - 1) [] ++ [toByte ((((n >>> 7) - 1) &&& 0x7F) ||| 0x80)] := by
  rw [cvarint_enc_loop, if_pos h, cvarint_enc_loop_eq]

theorem cvarint_enc_loop_small (n : Nat) (h : ¬ n > 0x7F) : cvarint_enc_loop n [] = [] := by
  rw [cvarint_enc_loop, if_neg h]

theorem cvarint_enc_eq (n : Nat) :
    cvarint_enc n = cvarint_enc_loop n [] ++ [toByte (n &&& 0x7F)] := by
  rw [cvarint_enc, cvarint_enc_loop_eq]

theorem cont_byte_bits : ∀ x : Fin 128,
    ((x.val ||| 0x80) % 256) &&& 0x80 ≠ 0 ∧ ((x.val ||| 0x80) % 256) &&& 0x7F = x.val := by
  decide

theorem last_byte_bits : ∀ x : Fin 128,
    (x.val % 256) &&& 0x80 = 0 ∧ (x.val % 256) &&& 0x7F = x.val := by
  decide

theorem shift_or_low (m : Nat) : ((m >>> 7) <<< 7) ||| (m % 128) = m := by
  have h := or_shiftLeft_of_lt (m >>> 7) (show m % 128 < 2 ^ 7 from Nat.mod_lt _ (by decide))
  rw [Nat.or_comm, h, Nat.shiftRight_eq_div_pow]
  omega

theorem u64_of_lt {n : Nat} (h : n < 2 ^ 64) : u64 n = n := Nat.mod_eq_of_lt h

theorem read_cvarint_loop_cont (data : Bytes) (fuel off v : Nat) (h : off < data.length)
    (hb : (at_ data off).val &&& 0x80 ≠ 0) :
    read_cvarint_loop data (fuel + 1) off v =
      read_cvarint_loop data fuel (off + 1)
        (u64 (u64 ((v <<< 7) ||| ((at_ data off).val &&& 0x7F)) + 1)) := by
  rw [read_cvarint_loop, if_neg (by omega)]
  simp only [hb, ne_eq, not_false_eq_true, if_true]

theorem read_cvarint_loop_last (data : Bytes) (fuel off v : Nat) (h : off < data.length)
    (hb : (at_ data off).val &&& 0x80 = 0) :
    read_cvarint_loop data (fuel + 1) off v =
      .ok (u64 ((v <<< 7) ||| ((at_ data off).val &&& 0x7F)), off + 1) := by
  rw [read_cvarint_loop, if_neg (by omega)]
  simp only [hb, ne_eq, not_true_eq_false, if_false]


/-- Decoding the continuation bytes of the reference encoding of `n`, from the value 0,
leaves the loop at the byte after them with the value `n >> 7`. -/
theorem read_cvarint_loop_prefix (n : Nat) :
    ∀ (data : Bytes) (off : Nat) (tail : Bytes), n < 2 ^ 64 →
      holds_at data off (cvarint_enc_loop n [] ++ tail) →
      read_cvarint_loop data (data.length - off) off 0 =
        read_cvarint_loop data (data.length - (off + (cvarint_enc_loop n []).length))
          (off + (cvarint_enc_loop n []).length) (n >>> 7) := by
  induction n using Nat.strong_induction_on with
  | _ n ih =>
    intro data off tail hn h
    by_cases hbig : n > 0x7F
    · have hm : (n >>> 7) - 1 < n := by rw [Nat.shiftRight_eq_div_pow]; omega
      have hn7 : n >>> 7 = n / 128 := by rw [Nat.shiftRight_eq_div_pow]
      rw [cvarint_enc_loop_step n hbig] at h ⊢
      generalize hmdef : (n >>> 7) - 1 = m at h hm ⊢
      rw [hn7] at hmdef
      rw [List.append_assoc] at h
      rw [ih m hm data off _ (by omega) h]
      obtain ⟨hpre, hrest⟩ := (holds_at_append data off _ _).1 h
      have hc := at_holds hrest
      have hlt : off + (cvarint_enc_loop m []).length < data.length := by
        have := hrest.1
        simp only [List.length_append, List.length_cons, List.length_nil] at this
        omega
      have hx : (m &&& 0x7F) = m % 128 := Nat.and_pow_two_sub_one_eq_mod m 7
      obtain ⟨hb1, hb2⟩ := cont_byte_bits ⟨m % 128, Nat.mod_lt _ (by decide)⟩
      simp only at hb1 hb2
      have hfuel : data.length - (off + (cvarint_enc_loop m []).length)
          = (data.length - (off + (cvarint_enc_loop m []).length + 1)) + 1 := by omega
      rw [hfuel, read_cvarint_loop_cont _ _ _ _ hlt (by rw [hc, toByte_val, hx]; exact hb1),
        hc, toByte_val, hx, hb2, Nat.shiftRight_eq_div_pow m 7]
      have h2 := shift_or_low m
      rw [Nat.shiftRight_eq_div_pow] at h2
      rw [h2, u64_of_lt (n := m) (by omega), u64_of_lt (n := m + 1) (by omega)]
      simp only [List.length_append, List.length_cons, List.length_nil]
      have hval : m + 1 = n >>> 7 := by rw [hn7]; omega
      rw [hval, Nat.add_assoc]
    · rw [cvarint_enc_loop_small n hbig]
      have : n >>> 7 = 0 := by rw [Nat.shiftRight_eq_div_pow]; omega
      rw [this]; simp

/-! ## Compressed amounts -/

theorem mul10_loop_eq (e n : Nat) (h : n * 10 ^ e < 2 ^ 64) : mul10_loop e n = n * 10 ^ e := by
  induction e generalizing n with
  | zero => simp [mul10_loop]
  | succ e ih =>
    have h1 : n * 10 * 10 ^ e = n * 10 ^ (e + 1) := by rw [Nat.pow_succ]; ring
    have h2 : n * 10 < 2 ^ 64 := by
      have : 1 ≤ 10 ^ e := Nat.one_le_pow _ _ (by decide)
      calc n * 10 = n * 10 * 1 := by ring
        _ ≤ n * 10 * 10 ^ e := Nat.mul_le_mul_left _ this
        _ < 2 ^ 64 := by rw [h1]; exact h
    rw [mul10_loop, u64_of_lt h2, ih _ (by rw [h1]; exact h), h1]

/-- What the stripping loop returns: the stripped number times the power of ten is the
number it started from, the exponent is at most 9, and below 9 the last digit is not zero. -/
theorem compress_strip_spec (fuel n e : Nat) (hfuel : e + fuel = 9) (hn : 0 < n) :
    ∃ m k, compress_strip fuel n e = (m, e + k) ∧ n = m * 10 ^ k ∧ e + k ≤ 9 ∧ 0 < m ∧
      (e + k < 9 → m % 10 ≠ 0) := by
  induction fuel generalizing n e with
  | zero => exact ⟨n, 0, by simp [compress_strip], by simp, by omega, hn, by omega⟩
  | succ fuel ih =>
    rw [compress_strip]
    by_cases hc : n % 10 = 0 ∧ e < 9
    · rw [if_pos hc]
      obtain ⟨m, k, h1, h2, h3, h4, h5⟩ := ih (n / 10) (e + 1) (by omega) (by omega)
      refine ⟨m, k + 1, ?_, ?_, by omega, h4, ?_⟩
      · rw [h1]; congr 1; omega
      · have := Nat.div_add_mod n 10
        rw [Nat.pow_succ, ← Nat.mul_assoc, ← h2]; omega
      · intro h; exact h5 (by omega)
    · rw [if_neg hc]
      exact ⟨n, 0, by simp, by simp, by omega, hn, by intro h; omega⟩

theorem decompress_amount_pos (c : Nat) (hc : c ≠ 0) :
    decompress_amount c =
      mul10_loop ((c - 1) % 10)
        (if (c - 1) % 10 < 9 then u64 ((c - 1) / 10 / 9 * 10 + ((c - 1) / 10 % 9 + 1))
         else u64 ((c - 1) / 10 + 1)) := by
  simp [decompress_amount, hc]

/-! ## Undo records -/

theorem parse_undo_txs_length (env : Env) (raw : Bytes) (n : Nat) :
    ∀ (off : Nat) (txs : List UndoTx) (off' : Nat),
      parse_undo_txs env raw n off = .ok (txs, off') → txs.length = n := by
  induction n with
  | zero =>
    intro off txs off' h
    simp only [parse_undo_txs] at h
    cases h; rfl
  | succ n ih =>
    intro off txs off' h
    rw [parse_undo_txs] at h
    cases h1 : UndoTx.construct env raw off with
    | error e => rw [h1] at h; cases h
    | ok r =>
      obtain ⟨t, off1⟩ := r
      rw [h1] at h
      simp only at h
      cases h2 : parse_undo_txs env raw n off1 with
      | error e => rw [h2] at h; cases h
      | ok r2 =>
        obtain ⟨rest, off2⟩ := r2
        rw [h2] at h
        simp only [Except.ok.injEq, Prod.mk.injEq] at h
        obtain ⟨rfl, rfl⟩ := h
        simp [ih off1 rest off2 h2]

/-! ## Push operations -/

theorem at_of_drop_eq {s : Bytes} {i : Nat} {x : Bytes} (h : s.drop i = x) (k : Nat) :
    at_ s (i + k) = at_ x k := by
  rw [← h, at_drop]

theorem length_of_drop_eq {s : Bytes} {i : Nat} {x : Bytes} (h : s.drop i = x) (hx : x ≠ []) :
    s.length = i + x.length := by
  have h1 : (s.drop i).length = x.length := by rw [h]
  have h2 : 0 < x.length := List.length_pos.2 hx
  rw [List.length_drop] at h1
  omega

theorem drop_eq_slice_append (s : Bytes) (i n : Nat) :
    s.drop i = slice s i n ++ s.drop (i + n) := by
  rw [slice, ← List.drop_drop, List.take_append_drop]

theorem slice_one (s : Bytes) (i : Nat) (h : i + 1 ≤ s.length) : slice s i 1 = [at_ s i] := by
  rw [slice_succ s i 0 (by omega)]; simp [slice]

theorem slice_two (s : Bytes) (i : Nat) (h : i + 2 ≤ s.length) :
    slice s i 2 = [at_ s i, at_ s (i + 1)] := by
  rw [slice_succ s i 1 (by omega), slice_one s i (by omega)]; simp

theorem slice_three (s : Bytes) (i : Nat) (h : i + 3 ≤ s.length) :
    slice s i 3 = [at_ s i, at_ s (i + 1), at_ s (i + 2)] := by
  rw [slice_succ s i 2 (by omega), slice_two s i (by omega)]; simp

theorem slice_five (s : Bytes) (i : Nat) (h : i + 5 ≤ s.length) :
    slice s i 5 = [at_ s i, at_ s (i + 1), at_ s (i + 2), at_ s (i + 3), at_ s (i + 4)] := by
  rw [slice_succ s i 4 (by omega), slice_succ s i 3 (by omega), slice_three s i (by omega)]
  simp

theorem read_uint16_le_of_le (data : Bytes) (off : Nat) (h : off + 2 ≤ data.length) :
    read_uint16_le data off =
      .ok ((at_ data off).val + 2 ^ 8 * (at_ data (off + 1)).val) := by
  have hsz : sz (off + 2) ≤ off + 2 := Nat.mod_le _ _
  rw [read_uint16_le, if_neg (by omega),
    or_shiftLeft_of_lt (k := 8) _ (at_ data off).isLt, Nat.mul_comm]

theorem read_uint32_le_of_le' (data : Bytes) (off : Nat) (h : off + 4 ≤ data.length) :
    read_uint32_le data off =
      .ok ((at_ data off).val + 2 ^ 8 * (at_ data (off + 1)).val +
        2 ^ 16 * (at_ data (off + 2)).val + 2 ^ 24 * (at_ data (off + 3)).val) := by
  have hsz : sz (off + 4) ≤ off + 4 := Nat.mod_le _ _
  have hat : ∀ i, i < 4 → at_ (slice data off 4) i = at_ data (off + i) := by
    intro i hi
    rw [slice, at_take _ _ _ hi, at_drop]
  rw [read_uint32_le, if_neg (by omega), read_le_four, le32, hat 0 (by decide),
    hat 1 (by decide), hat 2 (by decide), hat 3 (by decide)]
  rfl

/-- Where a well-formed push lies at `i`, the loop body decodes its length and finds its
data. -/
theorem push_length_of_wf (s : Bytes) (i : Nat) (p : PushOp) (tail : Bytes) (hp : p.wf)
    (h : s.drop i = p.header ++ p.data ++ tail) :
    i < s.length ∧
    push_length s (at_ s i) (i + 1) = some (p.data.length, i + p.header.length) ∧
    i + p.header.length + p.data.length ≤ s.length ∧
    slice s (i + p.header.length) p.data.length = p.data ∧
    s.drop (i + p.header.length + p.data.length) = tail := by
  have hne : p.header ≠ [] := by
    rcases hp with ⟨op, -, -, h1, -⟩ | ⟨n, h1, -⟩ | ⟨b0, b1, h1, -⟩ | ⟨b0, b1, b2, b3, h1, -⟩ <;>
      simp [h1]
  have hlen := length_of_drop_eq h (by simp [hne])
  simp only [List.length_append] at hlen
  have hpos : 0 < p.header.length := List.length_pos.2 hne
  have hslice : slice s (i + p.header.length) p.data.length = p.data := by
    rw [slice, ← List.drop_drop, h, List.append_assoc, List.drop_left, List.take_left]
  have hdrop : s.drop (i + p.header.length + p.data.length) = tail := by
    rw [Nat.add_assoc, ← List.drop_drop, h, ← List.length_append, List.drop_left]
  refine ⟨by omega, ?_, by omega, hslice, hdrop⟩
  have hat : ∀ k, at_ s (i + k) = at_ (p.header ++ p.data ++ tail) k := at_of_drop_eq h
  have hat0 := hat 0
  rw [Nat.add_zero] at hat0
  rcases hp with ⟨op, h1, h2, h3, h4⟩ | ⟨n, h3, h4⟩ | ⟨b0, b1, h3, h4⟩ | ⟨b0, b1, b2, b3, h3, h4⟩
  · rw [h3] at hat0 ⊢
    have h0 : at_ s i = op := by rw [hat0]; rfl
    rw [h0, push_length, if_pos ⟨h1, h2⟩, h4]
    rfl
  · rw [h3] at hat0 hlen hat ⊢
    have h0 : at_ s i = 0x4C := by rw [hat0]; rfl
    have h1 : at_ s (i + 1) = n := by rw [hat 1]; rfl
    simp only [List.length_cons, List.length_nil] at hlen
    rw [h0, push_length, if_neg (by decide), if_pos (by decide), if_neg (by omega), h1, h4]
    rfl
  · rw [h3] at hat0 hlen hat ⊢
    have h0 : at_ s i = 0x4D := by rw [hat0]; rfl
    have h1 : at_ s (i + 1) = b0 := by rw [hat 1]; rfl
    have h2 : at_ s (i + 1 + 1) = b1 := by rw [Nat.add_assoc, hat 2]; rfl
    simp only [List.length_cons, List.length_nil] at hlen
    rw [h0, push_length, if_neg (by decide), if_neg (by decide), if_pos (by decide),
      if_neg (by omega), read_uint16_le_of_le s (i + 1) (by omega), h1, h2, h4]
    rfl
  · rw [h3] at hat0 hlen hat ⊢
    have h0 : at_ s i = 0x4E := by rw [hat0]; rfl
    have h1 : at_ s (i + 1) = b0 := by rw [hat 1]; rfl
    have h2 : at_ s (i + 1 + 1) = b1 := by rw [Nat.add_assoc, hat 2]; rfl
    have h5 : at_ s (i + 1 + 2) = b2 := by rw [Nat.add_assoc, hat 3]; rfl
    have h6 : at_ s (i + 1 + 3) = b3 := by rw [Nat.add_assoc, hat 4]; rfl
    simp only [List.length_cons, List.length_nil] at hlen
    rw [h0, push_length, if_neg (by decide), if_neg (by decide), if_neg (by decide),
      if_pos (by decide), if_neg (by omega), read_uint32_le_of_le' s (i + 1) (by omega), h1, h2,
      h5, h6, h4]
    rfl

/-- Where the loop body decodes a push at `i` whose data lie within the script, the bytes
from `i` on are a well-formed push followed by the rest of the script. -/
theorem wf_of_push_length (s : Bytes) (i len j : Nat) (hi : i < s.length)
    (h : push_length s (at_ s i) (i + 1) = some (len, j)) (hj : j + len ≤ s.length) :
    ∃ p : PushOp, p.wf ∧ p.data = slice s j len ∧ i + p.header.length = j ∧
      s.drop i = p.header ++ p.data ++ s.drop (j + len) := by
  have hdata : (slice s j len).length = len := length_slice s j len hj
  have hsplit : ∀ n, i + n = j → s.drop i = slice s i n ++ slice s j len ++ s.drop (j + len) := by
    intro n hn
    rw [List.append_assoc, ← drop_eq_slice_append s j len, ← hn, ← drop_eq_slice_append s i n]
  unfold push_length at h
  split at h
  · rename_i hop
    simp only [Option.some.injEq, Prod.mk.injEq] at h
    obtain ⟨rfl, rfl⟩ := h
    refine ⟨⟨slice s i 1, slice s (i + 1) (at_ s i).val⟩, Or.inl ⟨at_ s i, hop.1, hop.2, ?_, hdata⟩,
      rfl, ?_, hsplit 1 rfl⟩
    · exact slice_one s i (by omega)
    · simp [slice_one s i (by omega)]
  · split at h
    · rename_i hop
      split at h
      · cases h
      · rename_i hlt
        simp only [Option.some.injEq, Prod.mk.injEq] at h
        obtain ⟨rfl, rfl⟩ := h
        have hs := slice_two s i (by omega)
        refine ⟨⟨slice s i 2, slice s (i + 1 + 1) (at_ s (i + 1)).val⟩,
          Or.inr (Or.inl ⟨at_ s (i + 1), ?_, hdata⟩), rfl, ?_, hsplit 2 rfl⟩
        · simp only [hs, hop]; rfl
        · simp [hs]
    · split at h
      · rename_i hop
        split at h
        · cases h
        · rename_i hlt
          rw [read_uint16_le_of_le s (i + 1) (by omega)] at h
          simp only [Option.some.injEq, Prod.mk.injEq] at h
          obtain ⟨rfl, rfl⟩ := h
          have hs := slice_three s i (by omega)
          refine ⟨⟨slice s i 3, slice s (i + 1 + 2) _⟩,
            Or.inr (Or.inr (Or.inl ⟨at_ s (i + 1), at_ s (i + 2), ?_, hdata⟩)), rfl, ?_,
            hsplit 3 rfl⟩
          · simp only [hs, hop]; rfl
          · simp [hs]
      · split at h
        · rename_i hop
          split at h
          · cases h
          · rename_i hlt
            rw [read_uint32_le_of_le' s (i + 1) (by omega)] at h
            simp only [Option.some.injEq, Prod.mk.injEq] at h
            obtain ⟨rfl, rfl⟩ := h
            have hs := slice_five s i (by omega)
            refine ⟨⟨slice s i 5, slice s (i + 1 + 4) _⟩,
              Or.inr (Or.inr (Or.inr ⟨at_ s (i + 1), at_ s (i + 2), at_ s (i + 3),
                at_ s (i + 4), ?_, hdata⟩)), rfl, ?_, hsplit 5 rfl⟩
            · simp only [hs, hop]; rfl
            · simp [hs]
        · cases h

theorem wf_header_ne_nil {p : PushOp} (hp : p.wf) : p.header ≠ [] := by
  rcases hp with ⟨op, -, -, h1, -⟩ | ⟨n, h1, -⟩ | ⟨b0, b1, h1, -⟩ | ⟨b0, b1, b2, b3, h1, -⟩ <;>
    simp [h1]

theorem last_pushed_nil (dflt : Bytes) : last_pushed [] dflt = dflt := rfl

theorem last_pushed_cons (p : PushOp) (rest : List PushOp) (dflt : Bytes) :
    last_pushed (p :: rest) dflt = last_pushed rest p.data := by
  cases rest with
  | nil => rfl
  | cons q r =>
    have h1 : (q :: r).getLast? = some ((q :: r).getLast (List.cons_ne_nil _ _)) :=
      List.getLast?_eq_getLast _ _
    simp only [last_pushed, List.getLast?_cons_cons, h1]

theorem extract_last_push_loop_end (s : Bytes) (fuel i : Nat) (last : Bytes)
    (h : s.length ≤ i) : extract_last_push_loop s fuel i last = some last := by
  cases fuel with
  | zero => rfl
  | succ fuel => rw [extract_last_push_loop, if_pos (by omega)]

/-- On a script that is a sequence of well-formed pushes from `i` on, the loop of
`extract_last_push` runs to the end and returns the data of the last push. -/
theorem extract_last_push_loop_of_pushes (s : Bytes) (ops : List PushOp) :
    (∀ p ∈ ops, p.wf) → ∀ (i fuel : Nat) (last : Bytes),
      s.drop i = ops.flatMap PushOp.bytes → s.length - i ≤ fuel →
      extract_last_push_loop s fuel i last = some (last_pushed ops last) := by
  induction ops with
  | nil =>
    intro _ i fuel last h _
    have : s.length ≤ i := by
      simpa [List.drop_eq_nil_iff] using h
    rw [extract_last_push_loop_end s fuel i last this, last_pushed_nil]
  | cons p rest ih =>
    intro hwf i fuel last h hfuel
    have hp := hwf p (List.mem_cons_self _ _)
    have h' : s.drop i = p.header ++ p.data ++ rest.flatMap PushOp.bytes := by
      rw [h, List.flatMap_cons, PushOp.bytes]
    obtain ⟨hi, hpl, hle, hslice, hdrop⟩ := push_length_of_wf s i p _ hp h'
    have hpos : 0 < p.header.length := List.length_pos.2 (wf_header_ne_nil hp)
    cases fuel with
    | zero => omega
    | succ fuel =>
      rw [extract_last_push_loop, if_neg (by omega), hpl]
      simp only []
      rw [if_neg (by omega), hslice, last_pushed_cons]
      exact ih (fun q hq => hwf q (List.mem_cons_of_mem _ hq)) _ fuel p.data hdrop (by omega)

/-- Where the loop of `extract_last_push` returns a value, the script from `i` on is a
sequence of well-formed pushes, and the value is the data of the last of them. -/
theorem pushes_of_extract_last_push_loop (s : Bytes) (fuel : Nat) :
    ∀ (i : Nat) (last r : Bytes), extract_last_push_loop s fuel i last = some r →
      s.length - i ≤ fuel →
      ∃ ops, (∀ p ∈ ops, p.wf) ∧ s.drop i = ops.flatMap PushOp.bytes ∧
        r = last_pushed ops last := by
  induction fuel with
  | zero =>
    intro i last r h hfuel
    rw [extract_last_push_loop] at h
    cases h
    exact ⟨[], by simp, by simp [List.drop_eq_nil_iff]; omega, rfl⟩
  | succ fuel ih =>
    intro i last r h hfuel
    rw [extract_last_push_loop] at h
    by_cases hi : i < s.length
    · rw [if_neg (by omega)] at h
      cases hpl : push_length s (at_ s i) (i + 1) with
      | none => rw [hpl] at h; cases h
      | some lj =>
        obtain ⟨len, j⟩ := lj
        rw [hpl] at h
        simp only [] at h
        by_cases hj : j + len > s.length
        · rw [if_pos hj] at h; cases h
        · rw [if_neg hj] at h
          obtain ⟨p, hp, hdata, hhdr, hdrop⟩ := wf_of_push_length s i len j hi hpl (by omega)
          have hpos : 0 < p.header.length := List.length_pos.2 (wf_header_ne_nil hp)
          obtain ⟨ops, hwf, hrest, hr⟩ := ih (j + len) (slice s j len) r h (by omega)
          refine ⟨p :: ops, ?_, ?_, ?_⟩
          · intro q hq
            rcases List.mem_cons.1 hq with rfl | hq
            · exact hp
            · exact hwf q hq
          · rw [hdrop, hrest, List.flatMap_cons, PushOp.bytes]
          · rw [last_pushed_cons, hdata]; exact hr
    · rw [if_pos hi] at h
      cases h
      exact ⟨[], by simp, by simp [List.drop_eq_nil_iff]; omega, rfl⟩

/-- The function `extract_last_push` returns a value exactly on the scripts that are a
sequence of well-formed pushes whose last pushed element is not empty, and the value is that
element. -/
theorem extract_last_push_iff (s r : Bytes) :
    extract_last_push s = some r ↔
      ∃ ops, parses_as_pushes s ops ∧ last_pushed ops [] = r ∧ r ≠ [] := by
  unfold extract_last_push
  constructor
  · intro h
    cases hl : extract_last_push_loop s s.length 0 [] with
    | none => rw [hl] at h; cases h
    | some last =>
      rw [hl] at h
      simp only [] at h
      split at h
      · cases h
      · rename_i hne
        cases h
        obtain ⟨ops, hwf, hdrop, hr⟩ := pushes_of_extract_last_push_loop s s.length 0 [] _ hl
          (by omega)
        refine ⟨ops, ⟨hwf, by simpa using hdrop⟩, hr.symm, ?_⟩
        intro he; rw [he] at hne; exact hne rfl
  · rintro ⟨ops, ⟨hwf, hs⟩, hr, hne⟩
    rw [extract_last_push_loop_of_pushes s ops hwf 0 s.length [] (by simpa using hs) (by omega),
      hr]
    simp only []
    rw [if_neg (by simpa using hne)]

theorem extract_last_push_loop_fuel (s : Bytes) (i fuel1 fuel2 : Nat) (last : Bytes)
    (h1 : s.length - i ≤ fuel1) (h2 : s.length - i ≤ fuel2) :
    extract_last_push_loop s fuel1 i last = extract_last_push_loop s fuel2 i last := by
  have key : ∀ f1 f2 r, s.length - i ≤ f1 → s.length - i ≤ f2 →
      extract_last_push_loop s f1 i last = some r →
      extract_last_push_loop s f2 i last = some r := by
    intro f1 f2 r hf1 hf2 h
    obtain ⟨ops, hwf, hdrop, hr⟩ := pushes_of_extract_last_push_loop s f1 i last r h hf1
    rw [extract_last_push_loop_of_pushes s ops hwf i f2 last hdrop hf2, hr]
  cases hc : extract_last_push_loop s fuel1 i last with
  | some r => exact (key fuel1 fuel2 r h1 h2 hc).symm
  | none =>
    cases hd : extract_last_push_loop s fuel2 i last with
    | none => rfl
    | some r => rw [key fuel2 fuel1 r h2 h1 hd] at hc; cases hc

theorem last_pushed_eq_iff (ops : List PushOp) (r : Bytes) (hr : r ≠ []) :
    last_pushed ops [] = r ↔ ∃ last, ops.getLast? = some last ∧ last.data = r := by
  unfold last_pushed
  cases h : ops.getLast? with
  | none => simp only []; constructor
            · intro he; exact absurd he.symm hr
            · rintro ⟨last, hl, -⟩; cases hl
  | some p => simp

theorem classify_input_p2sh_eq (p s : Bytes) (w : List Bytes)
    (hp : classify_output_script p = .P2SH) :
    classify_input p s w =
      match extract_last_push s with
      | none => .UNKNOWN
      | some redeem =>
        if redeem.length = 22 ∧ at_ redeem 0 = 0x00 ∧ at_ redeem 1 = 0x14 then .P2SH_P2WPKH
        else if redeem.length = 34 ∧ at_ redeem 0 = 0x00 ∧ at_ redeem 1 = 0x20 then .P2SH_P2WSH
        else .UNKNOWN := by
  unfold classify_input
  rw [hp]
  rfl

/-- The nested-segwit classification in terms of the value of `extract_last_push`. -/
theorem classify_input_p2sh_iff (p s : Bytes) (w : List Bytes)
    (hp : classify_output_script p = .P2SH) (t : InputScriptType) (n : Nat) (b : Byte)
    (ht : (t = .P2SH_P2WPKH ∧ n = 22 ∧ b = 0x14) ∨ (t = .P2SH_P2WSH ∧ n = 34 ∧ b = 0x20)) :
    classify_input p s w = t ↔
      ∃ ops last, parses_as_pushes s ops ∧ ops.getLast? = some last ∧
        last.data.length = n ∧ at_ last.data 0 = 0x00 ∧ at_ last.data 1 = b := by
  rw [classify_input_p2sh_eq p s w hp]
  constructor
  · intro h
    cases he : extract_last_push s with
    | none => rw [he] at h; rcases ht with ⟨rfl, -, -⟩ | ⟨rfl, -, -⟩ <;> cases h
    | some redeem =>
      rw [he] at h
      obtain ⟨ops, hparse, hlast, hne⟩ := (extract_last_push_iff s redeem).1 he
      obtain ⟨last, hl, hd⟩ := (last_pushed_eq_iff ops redeem hne).1 hlast
      refine ⟨ops, last, hparse, hl, ?_⟩
      rw [hd]
      simp only [] at h
      rcases ht with ⟨rfl, rfl, rfl⟩ | ⟨rfl, rfl, rfl⟩
      · split at h
        · assumption
        · split at h <;> cases h
      · split at h
        · cases h
        · split at h
          · assumption
          · cases h
  · rintro ⟨ops, last, hparse, hl, hlen, h0, h1⟩
    have hne : last.data ≠ [] := by
      intro he
      rw [he] at hlen
      rcases ht with ⟨-, rfl, -⟩ | ⟨-, rfl, -⟩ <;> cases hlen
    have he : extract_last_push s = some last.data :=
      (extract_last_push_iff s last.data).2
        ⟨ops, hparse, (last_pushed_eq_iff ops _ hne).2 ⟨last, hl, rfl⟩, hne⟩
    rw [he]
    simp only []
    rcases ht with ⟨rfl, rfl, rfl⟩ | ⟨rfl, rfl, rfl⟩
    · rw [if_pos ⟨hlen, h0, h1⟩]
    · rw [if_neg (by rw [hlen]; simp), if_pos ⟨hlen, h0, h1⟩]

theorem classify_input_p2sh_cases (p s : Bytes) (w : List Bytes)
    (hp : classify_output_script p = .P2SH) :
    classify_input p s w = .P2SH_P2WPKH ∨ classify_input p s w = .P2SH_P2WSH ∨
      classify_input p s w = .UNKNOWN := by
  rw [classify_input_p2sh_eq p s w hp]
  cases extract_last_push s with
  | none => simp
  | some redeem =>
    simp only []
    split
    · simp
    · split <;> simp

/-! ## The disassembler -/

theorem read_at_of_lt (s : Bytes) (i : Nat) (h : i < s.length) : read_at s i = .ok (at_ s i) := by
  rw [read_at, if_pos h]

theorem avail_eq (s : Bytes) (i : Nat) (hlen : s.length < 2 ^ 64) (hi : i ≤ s.length) :
    sz (s.length + 2 ^ 64 - i) = s.length - i := by
  have h : s.length + 2 ^ 64 - i = (s.length - i) + 2 ^ 64 := by omega
  rw [sz, h, Nat.add_mod_right, Nat.mod_eq_of_lt (by omega)]

theorem range_at_clamp (s : Bytes) (i take : Nat) (h : i + take ≤ s.length) :
    range_at s i (i + take) = .ok (slice s i take) := by
  rw [range_at, if_pos ⟨by omega, h⟩, Nat.add_sub_cancel_left]

/-- Within a script shorter than `2^64` bytes, every element read and every range taken by
the loop of `disassemble_script` lies inside the script: the checked loop returns what the
loop returns. -/
theorem disassemble_loop_checked_eq (env : Env) (script : Bytes) (hlen : script.length < 2 ^ 64) :
    ∀ (fuel i : Nat) (result : String), i ≤ script.length →
      disassemble_loop_checked env script fuel i result =
        .ok (disassemble_loop env script fuel i result) := by
  intro fuel
  induction fuel with
  | zero => intro i result _; rfl
  | succ fuel ih =>
    intro i result hi
    rw [disassemble_loop_checked, disassemble_loop]
    by_cases h : i < script.length
    · rw [if_neg (by omega), if_neg (by omega), read_at_of_lt script i h]
      simp only []
      have ha1 := avail_eq script (i + 1) hlen (by omega)
      by_cases h1 : 0x01 ≤ (at_ script i).val ∧ (at_ script i).val ≤ 0x4b
      · rw [if_pos h1, if_pos h1, ha1]
        rw [range_at_clamp script (i + 1) _ (by split <;> omega)]
        simp only []
        exact ih _ _ (by split <;> omega)
      · rw [if_neg h1, if_neg h1]
        by_cases h2 : at_ script i = OP_PUSHDATA1
        · rw [if_pos h2, if_pos h2]
          by_cases h3 : i + 1 ≥ script.length
          · rw [if_pos h3, if_pos h3]
          · rw [if_neg h3, if_neg h3, read_at_of_lt script (i + 1) (by omega)]
            simp only []
            rw [avail_eq script (i + 1 + 1) hlen (by omega),
              range_at_clamp script (i + 1 + 1) _ (by split <;> omega)]
            simp only []
            exact ih _ _ (by split <;> omega)
        · rw [if_neg h2, if_neg h2]
          by_cases h4 : at_ script i = OP_PUSHDATA2
          · rw [if_pos h4, if_pos h4]
            by_cases h3 : i + 1 + 2 > script.length
            · rw [if_pos h3, if_pos h3]
            · rw [if_neg h3, if_neg h3, read_uint16_le_of_le script (i + 1) (by omega)]
              simp only []
              rw [avail_eq script (i + 1 + 2) hlen (by omega),
                range_at_clamp script (i + 1 + 2) _ (by split <;> omega)]
              simp only []
              exact ih _ _ (by split <;> omega)
          · rw [if_neg h4, if_neg h4]
            by_cases h5 : at_ script i = OP_PUSHDATA4
            · rw [if_pos h5, if_pos h5]
              by_cases h3 : i + 1 + 4 > script.length
              · rw [if_pos h3, if_pos h3]
              · rw [if_neg h3, if_neg h3, read_uint32_le_of_le' script (i + 1) (by omega)]
                simp only []
                rw [avail_eq script (i + 1 + 4) hlen (by omega),
                  range_at_clamp script (i + 1 + 4) _ (by split <;> omega)]
                simp only []
                exact ih _ _ (by split <;> omega)
            · rw [if_neg h5, if_neg h5]
              exact ih _ _ (by omega)
    · rw [if_pos (by omega), if_pos (by omega)]

theorem disassemble_loop_end (env : Env) (script : Bytes) (fuel i : Nat) (result : String)
    (h : script.length ≤ i) : disassemble_loop env script fuel i result = result := by
  cases fuel with
  | zero => rfl
  | succ fuel => rw [disassemble_loop, if_pos (by omega)]

/-- Every iteration of the loop of `disassemble_script` advances the index, so the loop ends
within `script.size() - i` iterations: more iterations change nothing. -/
theorem disassemble_loop_fuel (env : Env) (script : Bytes) :
    ∀ (n i fuel : Nat) (result : String), script.length - i ≤ n → n ≤ fuel →
      disassemble_loop env script fuel i result = disassemble_loop env script n i result := by
  intro n
  induction n with
  | zero =>
    intro i fuel result h _
    rw [disassemble_loop_end env script fuel i result (by omega),
      disassemble_loop_end env script 0 i result (by omega)]
  | succ n ih =>
    intro i fuel result h hf
    cases fuel with
    | zero => omega
    | succ fuel =>
      rw [disassemble_loop, disassemble_loop]
      by_cases hi : i < script.length
      · have hnn : ¬ ¬ (i < script.length) := by omega
        rw [if_neg hnn, if_neg hnn]
        simp only []
        by_cases h1 : 0x01 ≤ (at_ script i).val ∧ (at_ script i).val ≤ 0x4b
        · rw [if_pos h1, if_pos h1]
          exact ih _ _ _ (by omega) (by omega)
        · rw [if_neg h1, if_neg h1]
          by_cases h2 : at_ script i = OP_PUSHDATA1
          · rw [if_pos h2, if_pos h2]
            by_cases h3 : i + 1 ≥ script.length
            · rw [if_pos h3, if_pos h3]
            · rw [if_neg h3, if_neg h3]
              exact ih _ _ _ (by omega) (by omega)
          · rw [if_neg h2, if_neg h2]
            by_cases h4 : at_ script i = OP_PUSHDATA2
            · rw [if_pos h4, if_pos h4]
              by_cases h3 : i + 1 + 2 > script.length
              · rw [if_pos h3, if_pos h3]
              · rw [if_neg h3, if_neg h3]
                cases read_uint16_le script (i + 1) with
                | error e => rfl
                | ok length => exact ih _ _ _ (by omega) (by omega)
            · rw [if_neg h4, if_neg h4]
              by_cases h5 : at_ script i = OP_PUSHDATA4
              · rw [if_pos h5, if_pos h5]
                by_cases h3 : i + 1 + 4 > script.length
                · rw [if_pos h3, if_pos h3]
                · rw [if_neg h3, if_neg h3]
                  cases read_uint32_le script (i + 1) with
                  | error e => rfl
                  | ok length => exact ih _ _ _ (by omega) (by omega)
              · rw [if_neg h5, if_neg h5]
                exact ih _ _ _ (by omega) (by omega)
      · rw [if_pos hi, if_pos hi]

theorem slice_to_end (s : Bytes) (i n : Nat) (h : s.length - i ≤ n) :
    slice s i n = s.drop i := by
  rw [slice, List.take_of_length_le (by rw [List.length_drop]; exact h)]

/-- One iteration on a push whose declared length `n`, read behind a prefix that ends at
`j`, exceeds the bytes left: the text gets the hex of the bytes left and the loop ends. -/
theorem disassemble_loop_clamp (env : Env) (script : Bytes) (fuel j n : Nat) (result : String)
    (hj : j ≤ script.length) (hn : script.length - j < n) :
    disassemble_loop env script fuel
        (j + (if n ≤ script.length - j then n else script.length - j))
        (if j + (if n ≤ script.length - j then n else script.length - j) < script.length then
          (result ++ bytes_to_hex
            (slice script j (if n ≤ script.length - j then n else script.length - j))) ++ " "
         else result ++ bytes_to_hex
            (slice script j (if n ≤ script.length - j then n else script.length - j))) =
      result ++ bytes_to_hex (script.drop j) := by
  rw [if_neg (by omega), if_neg (by omega), slice_to_end script j _ (by omega),
    disassemble_loop_end env script fuel _ _ (by omega)]

theorem disassemble_loop_pushbytes_clamp (env : Env) (script : Bytes) (fuel i : Nat)
    (result : String) (hi : i < script.length)
    (h1 : 0x01 ≤ (at_ script i).val ∧ (at_ script i).val ≤ 0x4b)
    (hn : script.length - (i + 1) < (at_ script i).val) :
    disassemble_loop env script (fuel + 1) i result =
      ((result ++ ("OP_PUSHBYTES_" ++ to_string (at_ script i).val)) ++ " ") ++
        bytes_to_hex (script.drop (i + 1)) := by
  have hnn : ¬ ¬ (i < script.length) := by omega
  rw [disassemble_loop, if_neg hnn]
  simp only []
  rw [if_pos h1]
  exact disassemble_loop_clamp env script fuel (i + 1) _ _ (by omega) hn

theorem disassemble_loop_pushdata1_clamp (env : Env) (script : Bytes) (fuel i : Nat)
    (result : String) (hi : i + 1 < script.length) (h2 : at_ script i = OP_PUSHDATA1)
    (hn : script.length - (i + 1 + 1) < (at_ script (i + 1)).val) :
    disassemble_loop env script (fuel + 1) i result =
      (result ++ "OP_PUSHDATA1 ") ++ bytes_to_hex (script.drop (i + 1 + 1)) := by
  have hnn : ¬ ¬ (i < script.length) := by omega
  have h1 : ¬ (0x01 ≤ (at_ script i).val ∧ (at_ script i).val ≤ 0x4b) := by
    rw [h2]; decide
  rw [disassemble_loop, if_neg hnn]
  simp only []
  rw [if_neg h1, if_pos h2, if_neg (by omega)]
  exact disassemble_loop_clamp env script fuel (i + 1 + 1) _ _ (by omega) hn

theorem disassemble_loop_pushdata2_clamp (env : Env) (script : Bytes) (fuel i : Nat)
    (result : String) (hi : i + 1 + 2 ≤ script.length) (h2 : at_ script i = OP_PUSHDATA2)
    (hn : script.length - (i + 1 + 2)
      < (at_ script (i + 1)).val + 2 ^ 8 * (at_ script (i + 1 + 1)).val) :
    disassemble_loop env script (fuel + 1) i result =
      (result ++ "OP_PUSHDATA2 ") ++ bytes_to_hex (script.drop (i + 1 + 2)) := by
  have hnn : ¬ ¬ (i < script.length) := by omega
  have h1 : ¬ (0x01 ≤ (at_ script i).val ∧ (at_ script i).val ≤ 0x4b) := by
    rw [h2]; decide
  have h3 : ¬ at_ script i = OP_PUSHDATA1 := by rw [h2]; decide
  rw [disassemble_loop, if_neg hnn]
  simp only []
  rw [if_neg h1, if_neg h3, if_pos h2, if_neg (by omega),
    read_uint16_le_of_le script (i + 1) (by omega)]
  exact disassemble_loop_clamp env script fuel (i + 1 + 2) _ _ (by omega) hn

theorem disassemble_loop_pushdata4_clamp (env : Env) (script : Bytes) (fuel i : Nat)
    (result : String) (hi : i + 1 + 4 ≤ script.length) (h2 : at_ script i = OP_PUSHDATA4)
    (hn : script.length - (i + 1 + 4)
      < (at_ script (i + 1)).val + 2 ^ 8 * (at_ script (i + 1 + 1)).val +
        2 ^ 16 * (at_ script (i + 1 + 2)).val + 2 ^ 24 * (at_ script (i + 1 + 3)).val) :
    disassemble_loop env script (fuel + 1) i result =
      (result ++ "OP_PUSHDATA4 ") ++ bytes_to_hex (script.drop (i + 1 + 4)) := by
  have hnn : ¬ ¬ (i < script.length) := by omega
  have h1 : ¬ (0x01 ≤ (at_ script i).val ∧ (at_ script i).val ≤ 0x4b) := by
    rw [h2]; decide
  have h3 : ¬ at_ script i = OP_PUSHDATA1 := by rw [h2]; decide
  have h4 : ¬ at_ script i = OP_PUSHDATA2 := by rw [h2]; decide
  rw [disassemble_loop, if_neg hnn]
  simp only []
  rw [if_neg h1, if_neg h3, if_neg h4, if_pos h2, if_neg (by omega),
    read_uint32_le_of_le' script (i + 1) (by omega)]
  exact disassemble_loop_clamp env script fuel (i + 1 + 4) _ _ (by omega) hn

/-- One iteration on a PUSHDATA opcode whose length prefix is cut short by the end of the
script: the text gets the name of the opcode and the loop ends. -/
theorem disassemble_loop_prefix_cut (env : Env) (script : Bytes) (fuel i : Nat)
    (result : String) (hi : i < script.length) :
    (at_ script i = OP_PUSHDATA1 → i + 1 ≥ script.length →
      disassemble_loop env script (fuel + 1) i result = result ++ "OP_PUSHDATA1") ∧
    (at_ script i = OP_PUSHDATA2 → i + 1 + 2 > script.length →
      disassemble_loop env script (fuel + 1) i result = result ++ "OP_PUSHDATA2") ∧
    (at_ script i = OP_PUSHDATA4 → i + 1 + 4 > script.length →
      disassemble_loop env script (fuel + 1) i result = result ++ "OP_PUSHDATA4") := by
  have hnn : ¬ ¬ (i < script.length) := by omega
  refine ⟨?_, ?_, ?_⟩
  · intro h2 h3
    have h1 : ¬ (0x01 ≤ (at_ script i).val ∧ (at_ script i).val ≤ 0x4b) := by
      rw [h2]; decide
    rw [disassemble_loop, if_neg hnn]
    simp only []
    rw [if_neg h1, if_pos h2, if_pos h3]
  · intro h2 h3
    have h1 : ¬ (0x01 ≤ (at_ script i).val ∧ (at_ script i).val ≤ 0x4b) := by
      rw [h2]; decide
    have h4 : ¬ at_ script i = OP_PUSHDATA1 := by rw [h2]; decide
    rw [disassemble_loop, if_neg hnn]
    simp only []
    rw [if_neg h1, if_neg h4, if_pos h2, if_pos h3]
  · intro h2 h3
    have h1 : ¬ (0x01 ≤ (at_ script i).val ∧ (at_ script i).val ≤ 0x4b) := by
      rw [h2]; decide
    have h4 : ¬ at_ script i = OP_PUSHDATA1 := by rw [h2]; decide
    have h5 : ¬ at_ script i = OP_PUSHDATA2 := by rw [h2]; decide
    rw [disassemble_loop, if_neg hnn]
    simp only []
    rw [if_neg h1, if_neg h4, if_neg h5, if_pos h2, if_pos h3]

/-! ## OP_RETURN payloads -/

theorem not_push_nil (p : PushOp) (rest : Bytes) (hp : p.wf) : ([] : Bytes) ≠ p.bytes ++ rest := by
  intro h
  have := wf_header_ne_nil hp
  simp [PushOp.bytes] at h
  exact this h.1

/-- From index `i` the loop gathers the data of a maximal run of complete pushes. -/
theorem parse_op_return_loop_run (s : Bytes) :
    ∀ (fuel i : Nat) (data : Bytes), i ≤ s.length → s.length ≤ i + fuel →
      ∃ ops tail, leading_pushes (s.drop i) ops tail ∧
        parse_op_return_loop s fuel i data = data ++ ops.flatMap PushOp.data := by
  intro fuel
  induction fuel with
  | zero =>
    intro i data h1 h2
    refine ⟨[], [], ⟨by simp, ?_, fun p rest hp => not_push_nil p rest hp⟩, by simp [parse_op_return_loop]⟩
    simp [List.drop_eq_nil_iff]; omega
  | succ fuel ih =>
    intro i data h1 h2
    by_cases hi : i < s.length
    · rw [parse_op_return_loop, if_neg (by omega)]
      cases hpl : push_length s (at_ s i) (i + 1) with
      | none =>
        refine ⟨[], s.drop i, ⟨by simp, by simp, ?_⟩, by simp⟩
        intro p rest hp h
        have := (push_length_of_wf s i p rest hp (by rw [h, PushOp.bytes])).2.1
        rw [hpl] at this
        cases this
      | some lj =>
        obtain ⟨len, j⟩ := lj
        by_cases hj : j + len > s.length
        · simp only [if_pos hj]
          refine ⟨[], s.drop i, ⟨by simp, by simp, ?_⟩, by simp⟩
          intro p rest hp h
          have h' := push_length_of_wf s i p rest hp (by rw [h, PushOp.bytes])
          rw [hpl] at h'
          have h3 := h'.2.1
          simp only [Option.some.injEq, Prod.mk.injEq] at h3
          have h4 := h'.2.2.1
          omega
        · simp only [if_neg hj]
          obtain ⟨p, hp, hd, hh, hdrop⟩ := wf_of_push_length s i len j hi hpl (by omega)
          have hpos : 0 < p.header.length := List.length_pos.2 (wf_header_ne_nil hp)
          obtain ⟨ops, tail, ⟨hw, hr, hm⟩, hl⟩ :=
            ih (j + len) (data ++ slice s j len) (by omega) (by omega)
          refine ⟨p :: ops, tail, ⟨?_, ?_, hm⟩, ?_⟩
          · intro q hq
            rcases List.mem_cons.1 hq with rfl | hq
            · exact hp
            · exact hw q hq
          · rw [hdrop, hr, List.flatMap_cons, PushOp.bytes]
            simp [List.append_assoc]
          · rw [hl, List.flatMap_cons, hd, List.append_assoc]
    · have hi' : i = s.length := by omega
      refine ⟨[], [], ⟨by simp, ?_, fun p rest hp => not_push_nil p rest hp⟩, ?_⟩
      · simp [List.drop_eq_nil_iff]; omega
      · rw [parse_op_return_loop, if_pos (by omega)]; simp

/-- A well-formed push is determined by the bytes it begins. -/
theorem push_prefix_unique (p q : PushOp) (r r' : Bytes) (hp : p.wf) (hq : q.wf)
    (h : p.bytes ++ r = q.bytes ++ r') : p = q ∧ r = r' := by
  have h1 := push_length_of_wf (p.bytes ++ r) 0 p r hp (by simp [PushOp.bytes])
  have h2 := push_length_of_wf (p.bytes ++ r) 0 q r' hq (by rw [h]; simp [PushOp.bytes])
  have e := h1.2.1.symm.trans h2.2.1
  simp only [Option.some.injEq, Prod.mk.injEq, Nat.zero_add] at e
  obtain ⟨e1, e2⟩ := e
  simp only [PushOp.bytes, List.append_assoc] at h
  have hh : p.header = q.header := List.append_inj_left h e2
  rw [hh] at h
  have h' := List.append_cancel_left h
  have hd : p.data = q.data := List.append_inj_left h' e1
  rw [hd] at h'
  refine ⟨?_, List.append_cancel_left h'⟩
  cases p; cases q; simp_all

/-- The maximal leading run of complete pushes is unique. -/
theorem leading_pushes_unique : ∀ (ops ops' : List PushOp) (r tail tail' : Bytes),
    leading_pushes r ops tail → leading_pushes r ops' tail' → ops = ops' ∧ tail = tail' := by
  intro ops
  induction ops with
  | nil =>
    intro ops' r tail tail' h h'
    cases ops' with
    | nil =>
      refine ⟨rfl, ?_⟩
      have := h.2.1.symm.trans h'.2.1
      simpa using this
    | cons q ops' =>
      exfalso
      have e := h.2.1.symm.trans h'.2.1
      simp only [List.flatMap_nil, List.nil_append, List.flatMap_cons, List.append_assoc] at e
      exact h.2.2 q _ (h'.1 q (List.mem_cons_self _ _)) (by rw [e])
  | cons p ops ih =>
    intro ops' r tail tail' h h'
    cases ops' with
    | nil =>
      exfalso
      have e := h'.2.1.symm.trans h.2.1
      simp only [List.flatMap_nil, List.nil_append, List.flatMap_cons, List.append_assoc] at e
      exact h'.2.2 p _ (h.1 p (List.mem_cons_self _ _)) (by rw [e])
    | cons q ops' =>
      have e := h.2.1.symm.trans h'.2.1
      simp only [List.flatMap_cons, List.append_assoc] at e
      obtain ⟨rfl, er⟩ := push_prefix_unique p q _ _ (h.1 p (List.mem_cons_self _ _))
        (h'.1 q (List.mem_cons_self _ _)) e
      have := ih ops' (ops.flatMap PushOp.bytes ++ tail) tail tail'
        ⟨fun x hx => h.1 x (List.mem_cons_of_mem _ hx), rfl, h.2.2⟩
        ⟨fun x hx => h'.1 x (List.mem_cons_of_mem _ hx), er, h'.2.2⟩
      exact ⟨by rw [this.1], this.2⟩

theorem prefix_four_iff (a b c d : Byte) (data : Bytes) :
    (data.length ≥ 4 ∧ at_ data 0 = a ∧ at_ data 1 = b ∧ at_ data 2 = c ∧ at_ data 3 = d) ↔
      [a, b, c, d] <+: data := by
  match data with
  | [] => simp
  | [_] => simp
  | [_, _] => simp
  | [_, _, _] => simp
  | x0 :: x1 :: x2 :: x3 :: rest =>
    simp [at_, List.cons_prefix_cons, eq_comm]

theorem prefix_five_iff (a b c d e : Byte) (data : Bytes) :
    (data.length ≥ 5 ∧ at_ data 0 = a ∧ at_ data 1 = b ∧ at_ data 2 = c ∧ at_ data 3 = d ∧
        at_ data 4 = e) ↔ [a, b, c, d, e] <+: data := by
  match data with
  | [] => simp
  | [_] => simp
  | [_, _] => simp
  | [_, _, _] => simp
  | [_, _, _, _] => simp
  | x0 :: x1 :: x2 :: x3 :: x4 :: rest =>
    simp [at_, List.cons_prefix_cons, eq_comm]

/-! ## UTF-8 -/

theorem utf8_encode_ne_nil (c : Nat) : utf8_encode c ≠ [] := by
  unfold utf8_encode
  split_ifs <;> simp

/-- The loop accepts the shortest-form encodings of scalar values. -/
theorem is_valid_utf8_loop_of_encoded (data : Bytes) :
    ∀ (fuel : Nat) (cps : List Nat) (i : Nat), (∀ c ∈ cps, is_scalar_value c) →
      data.drop i = cps.flatMap utf8_encode → is_valid_utf8_loop data fuel i = true := by
  intro fuel
  induction fuel with
  | zero => intro cps i _ _; rfl
  | succ fuel ih =>
    intro cps i hsc hd
    rw [is_valid_utf8_loop]
    by_cases hi : i < data.length
    · rw [if_neg (by omega)]
      cases cps with
      | nil =>
        exfalso
        simp [List.drop_eq_nil_iff] at hd
        omega
      | cons c cs =>
        rw [List.flatMap_cons] at hd
        have hlen := length_of_drop_eq hd (by simp [utf8_encode_ne_nil])
        have hat := at_of_drop_eq hd
        have hat0 := hat 0
        rw [Nat.add_zero] at hat0
        have hsc' : ∀ c ∈ cs, is_scalar_value c := fun x hx => hsc x (List.mem_cons_of_mem _ hx)
        have hc := (hsc c (List.mem_cons_self _ _)).1
        have hnext : ∀ n, (utf8_encode c).length = n →
            data.drop (i + n) = cs.flatMap utf8_encode := by
          intro n hn
          rw [← List.drop_drop, hd, ← hn, List.drop_left]
        simp only [List.length_append] at hlen
        unfold utf8_encode at hd hlen hat hat0 hnext
        by_cases h1 : c < 0x80
        · simp only [if_pos h1] at hd hlen hat hat0 hnext
          have e0 : (at_ data i).val = c := by
            rw [hat0]; simp [at_, toByte_val]; omega
          simp only [e0]
          rw [if_pos (by omega)]
          exact ih cs (i + 1) hsc' (hnext 1 rfl)
        · simp only [if_neg h1] at hd hlen hat hat0 hnext
          by_cases h2 : c < 0x800
          · simp only [if_pos h2] at hd hlen hat hat0 hnext
            have e0 : (at_ data i).val = 0xC0 + c / 64 := by
              rw [hat0]; simp [at_, toByte_val]; omega
            have e1 : (at_ data (i + 1)).val = 0x80 + c % 64 := by
              rw [hat 1]; simp [at_, toByte_val]; omega
            simp only [e0, e1, Nat.shiftRight_eq_div_pow]
            simp only [List.length_cons, List.length_nil] at hlen
            rw [if_neg (by omega), if_pos (by omega), if_neg (by omega), if_neg (by omega)]
            exact ih cs (i + 2) hsc' (hnext 2 rfl)
          · simp only [if_neg h2] at hd hlen hat hat0 hnext
            by_cases h3 : c < 0x10000
            · simp only [if_pos h3] at hd hlen hat hat0 hnext
              have e0 : (at_ data i).val = 0xE0 + c / 4096 := by
                rw [hat0]; simp [at_, toByte_val]; omega
              have e1 : (at_ data (i + 1)).val = 0x80 + c / 64 % 64 := by
                rw [hat 1]; simp [at_, toByte_val]; omega
              have e2 : (at_ data (i + 2)).val = 0x80 + c % 64 := by
                rw [hat 2]; simp [at_, toByte_val]; omega
              simp only [e0, e1, e2, Nat.shiftRight_eq_div_pow]
              simp only [List.length_cons, List.length_nil] at hlen
              rw [if_neg (by omega), if_neg (by omega), if_pos (by omega), if_neg (by omega),
                if_neg (by omega), if_neg (by omega)]
              exact ih cs (i + 3) hsc' (hnext 3 rfl)
            · simp only [if_neg h3] at hd hlen hat hat0 hnext
              have e0 : (at_ data i).val = 0xF0 + c / 262144 := by
                rw [hat0]; simp [at_, toByte_val]; omega
              have e1 : (at_ data (i + 1)).val = 0x80 + c / 4096 % 64 := by
                rw [hat 1]; simp [at_, toByte_val]; omega
              have e2 : (at_ data (i + 2)).val = 0x80 + c / 64 % 64 := by
                rw [hat 2]; simp [at_, toByte_val]; omega
              have e3 : (at_ data (i + 3)).val = 0x80 + c % 64 := by
                rw [hat 3]; simp [at_, toByte_val]; omega
              simp only [e0, e1, e2, e3, Nat.shiftRight_eq_div_pow]
              simp only [List.length_cons, List.length_nil] at hlen
              rw [if_neg (by omega), if_neg (by omega), if_neg (by omega), if_pos (by omega),
                if_neg (by omega), if_neg (by omega), if_neg (by omega), if_neg (by omega)]
              exact ih cs (i + 4) hsc' (hnext 4 rfl)
    · rw [if_pos (by omega)]

/-- No shortest-form encoding of a scalar value begins with a byte `C0`, `C1` or above
`F4`, and none is cut short. -/
theorem utf8_encode_head (c : Nat) (hc : is_scalar_value c) :
    ∃ b rest, utf8_encode c = b :: rest ∧ b.val ≠ 0xC0 ∧ b.val ≠ 0xC1 ∧ b.val ≤ 0xF4 ∧
      (b.val = 0xE0 → ∃ b1 rest', rest = b1 :: rest' ∧ 0xA0 ≤ b1.val) ∧
      (b.val = 0xED → ∃ b1 rest', rest = b1 :: rest' ∧ b1.val ≤ 0x9F) ∧
      (b.val = 0xF0 → ∃ b1 rest', rest = b1 :: rest' ∧ 0x90 ≤ b1.val) ∧
      (b.val = 0xF4 → ∃ b1 rest', rest = b1 :: rest' ∧ b1.val ≤ 0x8F) := by
  obtain ⟨h1, h2⟩ := hc
  unfold utf8_encode
  split_ifs with a b c'
  · refine ⟨_, _, rfl, ?_⟩
    simp only [toByte_val]
    omega
  · refine ⟨_, _, rfl, ?_⟩
    simp only [toByte_val]
    omega
  · refine ⟨_, _, rfl, ?_⟩
    simp only [toByte_val]
    refine ⟨by omega, by omega, by omega, ?_, ?_, ?_, ?_⟩
    · intro h; exact ⟨_, _, rfl, by simp only [toByte_val]; omega⟩
    · intro h; exact ⟨_, _, rfl, by simp only [toByte_val]; omega⟩
    · intro h; omega
    · intro h; omega
  · refine ⟨_, _, rfl, ?_⟩
    simp only [toByte_val]
    refine ⟨by omega, by omega, by omega, ?_, ?_, ?_, ?_⟩
    · intro h; omega
    · intro h; omega
    · intro h; exact ⟨_, _, rfl, by simp only [toByte_val]; omega⟩
    · intro h; exact ⟨_, _, rfl, by simp only [toByte_val]; omega⟩

/-! ## Block analysis -/

theorem le_value_append_singleton (l : Bytes) (b : Byte) :
    le_value (l ++ [b]) = le_value l + b.val * 2 ^ (8 * l.length) := by
  induction l with
  | nil => simp [le_value]
  | cons a rest ih =>
    have hp : 2 ^ (8 * (rest.length + 1)) = 256 * 2 ^ (8 * rest.length) := by
      rw [Nat.mul_add, Nat.pow_add]; norm_num [Nat.mul_comm]
    show le_value (a :: (rest ++ [b])) = _
    rw [le_value, ih, le_value, List.length_cons, hp]
    ring

/-- The loop of the `read_uintN_le` functions reads the little-endian value of the bytes it
covers. -/
theorem read_le_eq_le_value (data : Bytes) (off : Nat) :
    ∀ n, off + n ≤ data.length → read_le data off n = le_value (slice data off n) := by
  intro n
  induction n with
  | zero => intro _; simp [read_le, slice, le_value]
  | succ n ih =>
    intro h
    rw [read_le, Nat.mul_comm n 8, or_shiftLeft_of_lt _ (read_le_lt data off n),
      slice_succ data off n (by omega), le_value_append_singleton, ih (by omega),
      length_slice data off n (by omega)]

theorem construct_tx {env : Env} {tx : Transaction} {prevouts : List Prevout}
    {network : String} {r : TxnAnalyzer}
    (h : TxnAnalyzer.construct env tx prevouts network = .ok r) :
    r.tx_ = tx ∧ r.segwit_savings_ = build_segwit_savings tx ∧
      r.outputs_.length = tx.outputs.length := by
  have hlen := (construct_ok h).choose_spec.2.2.1
  have hl := (build_outputs_ok tx.outputs 0 r.outputs_ hlen).length_eq
  unfold TxnAnalyzer.construct at h
  split at h
  · cases h
  · split at h
    · cases h
    · split at h
      · cases h
      · cases h
        exact ⟨rfl, rfl, hl.symm⟩

theorem analyze_coinbase_ok (cb_tx : Transaction) (h : cb_tx.inputs ≠ []) :
    ∃ info, analyze_coinbase cb_tx = .ok info := by
  unfold analyze_coinbase
  cases hi : cb_tx.inputs with
  | nil => exact absurd hi h
  | cons a t => exact ⟨_, rfl⟩

theorem analyze_coinbase_error {cb_tx : Transaction} {e : Fault}
    (h : analyze_coinbase cb_tx = .error e) : ∃ msg, e = .runtime_error msg := by
  unfold analyze_coinbase at h
  split at h
  · exact ⟨_, (Except.error.inj h).symm⟩
  · cases h

/-- What a successful run of the loop over the non-coinbase transactions has checked and
built. -/
theorem analyze_transactions_loop_ok (env : Env) (network : String) :
    ∀ (txs : List Transaction) (undo_txs : List UndoTx) (tas : List TxnAnalyzer),
      analyze_transactions_loop env network txs undo_txs = .ok tas →
      txs.length ≤ undo_txs.length ∧
      List.Forall₂ (fun tx ta => ta.tx_ = tx ∧ ta.outputs_.length = tx.outputs.length) txs tas ∧
      ∀ (i : Nat) (tx : Transaction) (u : UndoTx), txs[i]? = some tx → undo_txs[i]? = some u →
        tx.inputs.length = u.getInputs.length := by
  intro txs
  induction txs with
  | nil =>
    intro undo_txs tas h
    simp only [analyze_transactions_loop, Except.ok.injEq] at h
    subst h
    exact ⟨by simp, List.Forall₂.nil, by simp⟩
  | cons tx rest ih =>
    intro undo_txs tas h
    cases undo_txs with
    | nil => rw [analyze_transactions_loop] at h; cases h
    | cons u urest =>
      rw [analyze_transactions_loop] at h
      by_cases hlen : tx.inputs.length ≠ u.getInputs.length
      · rw [if_pos hlen] at h; cases h
      · rw [if_neg hlen] at h
        cases hta : TxnAnalyzer.construct env tx (build_prevouts tx.inputs u.getInputs) network with
        | error e => rw [hta] at h; cases h
        | ok ta =>
          cases htas : analyze_transactions_loop env network rest urest with
          | error e => rw [hta, htas] at h; cases h
          | ok tas' =>
            rw [hta, htas] at h
            cases h
            obtain ⟨h1, h2, h3⟩ := ih urest tas' htas
            have hc := construct_tx hta
            refine ⟨by simp only [List.length_cons]; omega,
              List.Forall₂.cons ⟨hc.1, hc.2.2⟩ h2, ?_⟩
            intro i tx' u' hi hu
            cases i with
            | zero =>
              simp only [List.getElem?_cons_zero, Option.some.injEq] at hi hu
              subst hi hu
              simpa using hlen
            | succ i =>
              simp only [List.getElem?_cons_succ] at hi hu
              exact h3 i tx' u' hi hu

theorem analyze_transactions_loop_error (env : Env) (network : String) :
    ∀ (txs : List Transaction) (undo_txs : List UndoTx) (e : Fault),
      txs.length ≤ undo_txs.length →
      analyze_transactions_loop env network txs undo_txs = .error e →
      ∃ msg, e = .runtime_error msg := by
  intro txs
  induction txs with
  | nil => intro undo_txs e _ h; cases h
  | cons tx rest ih =>
    intro undo_txs e hle h
    cases undo_txs with
    | nil => simp at hle
    | cons u urest =>
      rw [analyze_transactions_loop] at h
      by_cases hlen : tx.inputs.length ≠ u.getInputs.length
      · rw [if_pos hlen] at h; exact ⟨_, (Except.error.inj h).symm⟩
      · rw [if_neg hlen] at h
        cases hta : TxnAnalyzer.construct env tx (build_prevouts tx.inputs u.getInputs) network with
        | error e' => rw [hta] at h; cases h; exact construct_error hta
        | ok ta =>
          cases htas : analyze_transactions_loop env network rest urest with
          | error e' =>
            rw [hta, htas] at h
            cases h
            exact ih urest _ (by simpa using hle) htas
          | ok tas' => rw [hta, htas] at h; cases h

/-- The parts of a successful block analysis. -/
theorem block_construct_ok {env : Env} {block : Block} {undo : UndoBlock} {network : String}
    {r : BlockAnalyzer} (h : BlockAnalyzer.construct env block undo network = .ok r) :
    ∃ cb rest ta tas, block.txs = cb :: rest ∧
      undo.transactions.length = sz (block.txs.length + 2 ^ 64 - 1) ∧
      analyze_coinbase cb = .ok r.coinbase ∧
      TxnAnalyzer.construct env cb [] network = .ok ta ∧
      analyze_transactions_loop env network rest undo.transactions = .ok tas ∧
      r.transactions = ta :: tas ∧
      r.block_stats = compute_block_stats r.transactions ∧
      r.block_header = analyze_header env block ∧
      r.tx_count = u64 block.txs.length := by
  unfold BlockAnalyzer.construct at h
  simp only [Block.getTransactions] at h
  cases htx : block.txs with
  | nil => rw [htx] at h; cases h
  | cons cb rest =>
    simp only [htx] at h
    split at h
    · cases h
    · rename_i info hinfo
      split at h
      · cases h
      · rename_i transactions htr
        cases h
        unfold analyze_transactions at htr
        simp only [Block.getTransactions, UndoBlock.getTransactions, htx] at htr
        split at htr
        · cases htr
        · rename_i hcount
          split at htr
          · cases htr
          · rename_i ta hta
            split at htr
            · cases htr
            · rename_i tas htas
              cases htr
              exact ⟨cb, rest, ta, tas, rfl, not_not.1 hcount, hinfo, hta, htas, rfl, rfl, rfl, rfl⟩

/-- A block analysis that fails throws. -/
theorem block_construct_error {env : Env} {block : Block} {undo : UndoBlock} {network : String}
    {e : Fault} (hsize : block.txs.length < 2 ^ 64)
    (h : BlockAnalyzer.construct env block undo network = .error e) :
    ∃ msg, e = .runtime_error msg := by
  unfold BlockAnalyzer.construct at h
  simp only [Block.getTransactions] at h
  cases htx : block.txs with
  | nil => rw [htx] at h; exact ⟨_, (Except.error.inj h).symm⟩
  | cons cb rest =>
    rw [htx] at hsize
    simp only [htx] at h
    split at h
    · rename_i heq; cases h; exact analyze_coinbase_error heq
    · split at h
      · rename_i e' htr
        cases h
        unfold analyze_transactions at htr
        simp only [Block.getTransactions, UndoBlock.getTransactions, htx] at htr
        split at htr
        · exact ⟨_, (Except.error.inj htr).symm⟩
        · rename_i hcount
          have hcount' : undo.transactions.length = rest.length := by
            have := not_not.1 hcount
            simp only [List.length_cons, sz] at this hsize
            omega
          split at htr
          · rename_i heq; cases htr; exact construct_error heq
          · split at htr
            · rename_i heq
              cases htr
              exact analyze_transactions_loop_error env network rest _ _ (by omega) heq
            · cases htr
      · cases h

theorem compute_block_stats_loop_weight :
    ∀ (tas : List TxnAnalyzer) (i : Nat) (s : BlockStats),
      (compute_block_stats_loop tas i s).total_weight =
        tas.foldl (fun t ta => if true then u64 (t + ta.weight) else t) s.total_weight := by
  intro tas
  induction tas with
  | nil => intro i s; rfl
  | cons ta rest ih =>
    intro i s
    rw [compute_block_stats_loop, ih]
    rfl

theorem compute_block_stats_loop_fees :
    ∀ (tas : List TxnAnalyzer) (i : Nat) (s : BlockStats),
      (compute_block_stats_loop tas (i + 1) s).total_fees_sats =
        tas.foldl (fun t ta => if true then u64 (t + ta.fee_sats) else t) s.total_fees_sats := by
  intro tas
  induction tas with
  | nil => intro i s; rfl
  | cons ta rest ih =>
    intro i s
    rw [compute_block_stats_loop, ih]
    simp

theorem compute_block_stats_loop_summary :
    ∀ (tas : List TxnAnalyzer) (i : Nat) (s : BlockStats),
      (compute_block_stats_loop tas i s).script_type_summary =
        (all_outputs tas).foldl (fun m out => map_incr m out.script_type)
          s.script_type_summary := by
  intro tas
  induction tas with
  | nil => intro i s; rfl
  | cons ta rest ih =>
    intro i s
    rw [compute_block_stats_loop, ih]
    simp only [all_outputs, List.flatMap_cons, List.foldl_append]

theorem map_get_le_sum (m : List (String × Nat)) (key : String) :
    map_get m key ≤ (m.map Prod.snd).sum := by
  induction m with
  | nil => simp [map_get]
  | cons kv rest ih =>
    obtain ⟨k, v⟩ := kv
    simp only [map_get, List.map_cons, List.sum_cons]
    split_ifs <;> omega

/-- The effect of `m[key]++` on the values, short of the wrap-around. -/
theorem map_incr_spec (m : List (String × Nat)) (key : String)
    (h : (m.map Prod.snd).sum + 1 < 2 ^ 64) :
    ((map_incr m key).map Prod.snd).sum = (m.map Prod.snd).sum + 1 ∧
    ∀ key', map_get (map_incr m key) key' = map_get m key' + (if key = key' then 1 else 0) := by
  induction m with
  | nil =>
    refine ⟨by simp [map_incr, u64], ?_⟩
    intro key'
    simp only [map_incr, map_get, u64]
    split_ifs <;> simp
  | cons kv rest ih =>
    obtain ⟨k, v⟩ := kv
    simp only [List.map_cons, List.sum_cons] at h
    by_cases hk : k = key
    · subst hk
      have hv : u64 (v + 1) = v + 1 := Nat.mod_eq_of_lt (by omega)
      refine ⟨by simp only [map_incr, if_true, List.map_cons, List.sum_cons, hv]; omega, ?_⟩
      intro key'
      simp only [map_incr, if_true, map_get, hv]
      split_ifs <;> simp
    · obtain ⟨ih1, ih2⟩ := ih (by omega)
      refine ⟨by simp only [map_incr, if_neg hk, List.map_cons, List.sum_cons, ih1]; omega, ?_⟩
      intro key'
      simp only [map_incr, if_neg hk, map_get]
      by_cases hk' : k = key'
      · have hne : ¬ key = key' := fun hx => hk (hk'.trans hx.symm)
        simp [hk', hne]
      · simp only [if_neg hk']
        exact ih2 key'

/-- The histogram loop counts every output once under its `script_type`, short of the
wrap-around. -/
theorem histogram_spec :
    ∀ (outs : List AccountedOutput) (m : List (String × Nat)),
      (m.map Prod.snd).sum + outs.length < 2 ^ 64 →
      ((outs.foldl (fun m out => map_incr m out.script_type) m).map Prod.snd).sum =
        (m.map Prod.snd).sum + outs.length ∧
      ∀ key, map_get (outs.foldl (fun m out => map_incr m out.script_type) m) key =
        map_get m key + outs.countP (fun out => out.script_type = key) := by
  intro outs
  induction outs with
  | nil => intro m _; simp
  | cons out rest ih =>
    intro m h
    simp only [List.length_cons] at h
    obtain ⟨h1, h2⟩ := map_incr_spec m out.script_type (by omega)
    obtain ⟨h3, h4⟩ := ih (map_incr m out.script_type) (by omega)
    simp only [List.foldl_cons, List.length_cons]
    refine ⟨by omega, ?_⟩
    intro key
    rw [h4, h2, List.countP_cons]
    by_cases hk : out.script_type = key
    · simp [hk]; omega
    · simp [hk]

theorem foldl_u64_all {α : Type} (f : α → Nat) (l : List α) :
    l.foldl (fun t x => if true then u64 (t + f x) else t) 0 = (l.map f).sum % 2 ^ 64 := by
  have h1 := foldl_u64 (fun _ : α => true) f l 0
  have h2 := foldl_u64_lt (fun _ : α => true) f l 0 (by decide)
  simp only [if_true, Nat.zero_add, List.filter_true] at h1 h2 ⊢
  rw [Nat.mod_eq_of_lt h2] at h1
  exact h1

theorem all_outputs_length (tas : List TxnAnalyzer) :
    (all_outputs tas).length = (tas.map (fun ta => ta.outputs_.length)).sum := by
  induction tas with
  | nil => rfl
  | cons ta rest ih =>
    simp only [all_outputs, List.flatMap_cons, List.length_append, List.map_cons,
      List.sum_cons] at ih ⊢
    rw [ih]
    rfl

theorem forall₂_tx_maps {txs : List Transaction} {tas : List TxnAnalyzer}
    (h : List.Forall₂ (fun tx ta => ta.tx_ = tx ∧ ta.outputs_.length = tx.outputs.length)
      txs tas) :
    tas.map (fun ta => ta.tx_) = txs ∧
    tas.map (fun ta => ta.outputs_.length) = txs.map (fun tx => tx.outputs.length) := by
  induction h with
  | nil => exact ⟨rfl, rfl⟩
  | cons hab _ ih =>
    simp only [List.map_cons, hab.1, hab.2, ih.1, ih.2, and_self]

/-! ## The constructor on a cursor -/

theorem construct_eq_map (env : Env) (raw : Bytes) :
    Transaction.construct env raw = (Transaction.construct_offset env raw).map Prod.fst := by
  unfold Transaction.construct Transaction.construct_offset
  by_cases h4 : raw.length < 4
  · rw [if_pos h4, if_pos h4]; rfl
  · rw [if_neg h4, if_neg h4]
    cases h1 : read_uint32_le raw 0 with
    | error e => rfl
    | ok version =>
      simp only []
      generalize (if (decide (sz (4 + 1) < raw.length) && (at_ raw 4 == 0x00 &&
          at_ raw (4 + 1) == 0x01)) = true then sz (4 + 2) else 4) = o1
      generalize (decide (sz (4 + 1) < raw.length) && (at_ raw 4 == 0x00 &&
          at_ raw (4 + 1) == 0x01)) = seg
      cases h2 : read_varint raw o1 with
      | error e => rfl
      | ok p2 =>
        obtain ⟨input_count, o2⟩ := p2
        simp only []
        cases h3 : parse_inputs raw input_count o2 with
        | error e => rfl
        | ok p3 =>
          obtain ⟨inputs, o3⟩ := p3
          simp only []
          cases h5 : read_varint raw o3 with
          | error e => rfl
          | ok p5 =>
            obtain ⟨output_count, o5⟩ := p5
            simp only []
            cases h6 : parse_outputs raw output_count o5 with
            | error e => rfl
            | ok p6 =>
              obtain ⟨outputs, o6⟩ := p6
              simp only []
              cases h7 : (if seg = true then parse_witnesses raw inputs o6
                  else .ok (inputs, o6)) with
              | error e => rfl
              | ok p7 =>
                obtain ⟨inputs', o7⟩ := p7
                simp only []
                by_cases h8 : sz (o7 + 4) > raw.length
                · rw [if_pos h8, if_pos h8]; rfl
                · rw [if_neg h8, if_neg h8]
                  cases h9 : read_uint32_le raw o7 with
                  | error e => rfl
                  | ok locktime => rfl

/-- On success the input decoder on the cursor does what the standalone one does. -/
theorem parse_input_at_ok_iff (raw : Bytes) (i : Nat) (r : TxIn × Nat)
    (hlen : raw.length < 2 ^ 64) :
    parse_input_at raw i = .ok r ↔ parse_input raw i = .ok r := by
  unfold parse_input_at parse_input
  by_cases h1 : sz (i + 32) > raw.length
  · rw [if_pos h1, if_pos h1]
  · rw [if_neg h1, if_neg h1]
    simp only []
    generalize sz (i + 32) = o1
    by_cases h2 : sz (o1 + 4) > raw.length
    · rw [if_pos h2]
      have : read_uint32_le raw o1 = .error (.out_of_range "read_uint32_le: not enough bytes") := by
        rw [read_uint32_le, if_pos h2]
      rw [this]
      simp
    · rw [if_neg h2]
      cases hv : read_uint32_le raw o1 with
      | error e => simp
      | ok vout =>
        simp only []
        cases hs : read_varint raw (sz (o1 + 4)) with
        | error e => simp
        | ok p =>
          obtain ⟨script_len, o2⟩ := p
          simp only []
          by_cases h3 : o2 + script_len > raw.length
          · rw [if_pos h3]
            by_cases h4 : sz (o2 + script_len) > raw.length
            · rw [if_pos h4]; simp
            · rw [if_neg h4, if_pos (by simp only [sz] at h4; omega)]
          · have e1 : sz (o2 + script_len) = o2 + script_len := sz_of_lt (by omega)
            rw [if_neg h3, e1, if_neg h3, if_neg (by omega)]
            by_cases h5 : sz (o2 + script_len + 4) > raw.length
            · rw [if_pos h5]
              have : read_uint32_le raw (o2 + script_len)
                  = .error (.out_of_range "read_uint32_le: not enough bytes") := by
                rw [read_uint32_le, if_pos h5]
              rw [this]
              simp
            · rw [if_neg h5]

theorem parse_inputs_at_ok_iff (raw : Bytes) (hlen : raw.length < 2 ^ 64) :
    ∀ (n i : Nat) (r : List TxIn × Nat),
      parse_inputs_at raw n i = .ok r ↔ parse_inputs raw n i = .ok r := by
  intro n
  induction n with
  | zero => intro i r; rfl
  | succ n ih =>
    intro i r
    rw [parse_inputs_at, parse_inputs]
    cases h1 : parse_input_at raw i with
    | error e =>
      cases h2 : parse_input raw i with
      | error e' => simp
      | ok p => rw [← parse_input_at_ok_iff raw i p hlen, h1] at h2; cases h2
    | ok p =>
      rw [(parse_input_at_ok_iff raw i p hlen).1 h1]
      obtain ⟨txin, o⟩ := p
      simp only []
      cases h3 : parse_inputs_at raw n o with
      | error e =>
        cases h4 : parse_inputs raw n o with
        | error e' => simp
        | ok q => rw [← ih o q, h3] at h4; cases h4
      | ok q => rw [(ih o q).1 h3]

/-- On success the output decoder on the cursor does what the standalone one does. -/
theorem parse_output_at_ok_iff (raw : Bytes) (i : Nat) (r : TxOut × Nat)
    (hlen : raw.length < 2 ^ 64) :
    parse_output_at raw i = .ok r ↔ parse_output raw i = .ok r := by
  unfold parse_output_at parse_output
  by_cases h1 : sz (i + 8) > raw.length
  · rw [if_pos h1]
    have : read_uint64_le raw i = .error (.out_of_range "read_uint64_le: not enough bytes") := by
      rw [read_uint64_le, if_pos h1]
    rw [this]
    simp
  · rw [if_neg h1]
    cases hv : read_uint64_le raw i with
    | error e => simp
    | ok amount =>
      simp only []
      cases hs : read_varint raw (sz (i + 8)) with
      | error e => simp
      | ok p =>
        obtain ⟨script_len, o2⟩ := p
        simp only []
        by_cases h3 : o2 + script_len > raw.length
        · rw [if_pos h3]
          by_cases h4 : sz (o2 + script_len) > raw.length
          · rw [if_pos h4]; simp
          · rw [if_neg h4, if_pos (by simp only [sz] at h4; omega)]
        · have e1 : sz (o2 + script_len) = o2 + script_len := sz_of_lt (by omega)
          rw [if_neg h3, e1, if_neg h3, if_neg (by omega)]

theorem parse_outputs_at_ok_iff (raw : Bytes) (hlen : raw.length < 2 ^ 64) :
    ∀ (n i : Nat) (r : List TxOut × Nat),
      parse_outputs_at raw n i = .ok r ↔ parse_outputs raw n i = .ok r := by
  intro n
  induction n with
  | zero => intro i r; rfl
  | succ n ih =>
    intro i r
    rw [parse_outputs_at, parse_outputs]
    cases h1 : parse_output_at raw i with
    | error e =>
      cases h2 : parse_output raw i with
      | error e' => simp
      | ok p => rw [← parse_output_at_ok_iff raw i p hlen, h1] at h2; cases h2
    | ok p =>
      rw [(parse_output_at_ok_iff raw i p hlen).1 h1]
      obtain ⟨txin, o⟩ := p
      simp only []
      cases h3 : parse_outputs_at raw n o with
      | error e =>
        cases h4 : parse_outputs raw n o with
        | error e' => simp
        | ok q => rw [← ih o q, h3] at h4; cases h4
      | ok q => rw [(ih o q).1 h3]

/-- On success the constructor on a cursor at 0 does what the standalone constructor does,
and leaves the cursor where the standalone constructor stopped. -/
theorem construct_at_zero_ok_iff (env : Env) (raw : Bytes) (r : Transaction × Nat)
    (hlen : raw.length < 2 ^ 64) :
    Transaction.construct_at env raw 0 = .ok r ↔ Transaction.construct_offset env raw = .ok r := by
  unfold Transaction.construct_at Transaction.construct_offset
  by_cases h4 : raw.length < 4
  · rw [if_pos h4]
    have : read_uint32_le raw 0 = .error (.out_of_range "read_uint32_le: not enough bytes") := by
      rw [read_uint32_le, if_pos (by simp only [sz]; omega)]
    rw [this]
    simp
  · rw [if_neg h4]
    cases h1 : read_uint32_le raw 0 with
    | error e => simp
    | ok version =>
      simp only []
      have e4 : sz (0 + 4) = 4 := rfl
      rw [e4]
      generalize (decide (sz (4 + 1) < raw.length) && (at_ raw 4 == 0x00 &&
          at_ raw (4 + 1) == 0x01)) = seg
      generalize (if seg = true then sz (4 + 2) else 4) = o1
      cases h2 : read_varint raw o1 with
      | error e => simp
      | ok p2 =>
        obtain ⟨input_count, o2⟩ := p2
        simp only []
        cases h3 : parse_inputs_at raw input_count o2 with
        | error e =>
          cases h3' : parse_inputs raw input_count o2 with
          | error e' => simp
          | ok q => rw [← parse_inputs_at_ok_iff raw hlen _ _ q, h3] at h3'; cases h3'
        | ok p3 =>
          rw [(parse_inputs_at_ok_iff raw hlen _ _ p3).1 h3]
          obtain ⟨inputs, o3⟩ := p3
          simp only []
          cases h5 : read_varint raw o3 with
          | error e => simp
          | ok p5 =>
            obtain ⟨output_count, o5⟩ := p5
            simp only []
            cases h6 : parse_outputs_at raw output_count o5 with
            | error e =>
              cases h6' : parse_outputs raw output_count o5 with
              | error e' => simp
              | ok q => rw [← parse_outputs_at_ok_iff raw hlen _ _ q, h6] at h6'; cases h6'
            | ok p6 =>
              rw [(parse_outputs_at_ok_iff raw hlen _ _ p6).1 h6]
              obtain ⟨outputs, o6⟩ := p6
              simp only []
              cases h7 : (if seg = true then parse_witnesses raw inputs o6
                  else .ok (inputs, o6)) with
              | error e => simp
              | ok p7 =>
                obtain ⟨inputs', o7⟩ := p7
                simp only []
                by_cases h8 : sz (o7 + 4) > raw.length
                · rw [if_pos h8]
                  have : read_uint32_le raw o7
                      = .error (.out_of_range "read_uint32_le: not enough bytes") := by
                    rw [read_uint32_le, if_pos h8]
                  rw [this]
                  simp
                · rw [if_neg h8]

theorem read_le_shift (raw : Bytes) (off i : Nat) :
    ∀ n, read_le raw (off + i) n = read_le (raw.drop off) i n := by
  intro n
  induction n with
  | zero => rfl
  | succ n ih => rw [read_le, read_le, ih, at_drop, Nat.add_assoc]

theorem slice_shift (raw : Bytes) (off i n : Nat) :
    slice raw (off + i) n = slice (raw.drop off) i n := by
  rw [slice, slice, List.drop_drop, Nat.add_comm]

theorem read_uint16_le_shift (raw : Bytes) (off i : Nat) (hlen : raw.length < 2 ^ 63)
    (ho : off + i ≤ raw.length) :
    read_uint16_le raw (off + i) = read_uint16_le (raw.drop off) i := by
  rw [read_uint16_le_eq, read_uint16_le_eq, read_le_shift, List.length_drop,
    sz_of_lt (n := off + i + 2) (by omega), sz_of_lt (n := i + 2) (by omega)]
  by_cases h : off + i + 2 > raw.length
  · rw [if_pos h, if_pos (by omega)]
  · rw [if_neg h, if_neg (by omega)]

theorem read_uint32_le_shift (raw : Bytes) (off i : Nat) (hlen : raw.length < 2 ^ 63)
    (ho : off + i ≤ raw.length) :
    read_uint32_le raw (off + i) = read_uint32_le (raw.drop off) i := by
  rw [read_uint32_le, read_uint32_le, read_le_shift, List.length_drop,
    sz_of_lt (n := off + i + 4) (by omega), sz_of_lt (n := i + 4) (by omega)]
  by_cases h : off + i + 4 > raw.length
  · rw [if_pos h, if_pos (by omega)]
  · rw [if_neg h, if_neg (by omega)]

theorem read_uint64_le_shift (raw : Bytes) (off i : Nat) (hlen : raw.length < 2 ^ 63)
    (ho : off + i ≤ raw.length) :
    read_uint64_le raw (off + i) = read_uint64_le (raw.drop off) i := by
  rw [read_uint64_le, read_uint64_le, read_le_shift, List.length_drop,
    sz_of_lt (n := off + i + 8) (by omega), sz_of_lt (n := i + 8) (by omega)]
  by_cases h : off + i + 8 > raw.length
  · rw [if_pos h, if_pos (by omega)]
  · rw [if_neg h, if_neg (by omega)]

/-- Reading a CompactSize at `off + i` is reading it at `i` in the suffix from `off`. -/
theorem read_varint_shift (raw : Bytes) (off i : Nat) (hlen : raw.length < 2 ^ 63)
    (ho : off + i ≤ raw.length) :
    read_varint raw (off + i) = shift_offset off (read_varint (raw.drop off) i) := by
  unfold read_varint
  rw [List.length_drop, at_drop]
  by_cases h : off + i ≥ raw.length
  · have h' : i ≥ raw.length - off := by omega
    rw [if_pos h, if_pos h']; rfl
  · have h' : ¬ i ≥ raw.length - off := by omega
    rw [if_neg h, if_neg h']
    simp only []
    have e1 : sz (off + i + 1) = off + (i + 1) := by rw [sz_of_lt (by omega)]; omega
    have e2 : sz (i + 1) = i + 1 := sz_of_lt (by omega)
    rw [e1, e2]
    by_cases c1 : (at_ raw (off + i)).val < 0xFD
    · rw [if_pos c1, if_pos c1]; rfl
    · rw [if_neg c1, if_neg c1]
      by_cases c2 : (at_ raw (off + i)).val = 0xFD
      · rw [if_pos c2, if_pos c2, read_uint16_le_shift raw off (i + 1) hlen (by omega)]
        cases hr : read_uint16_le (raw.drop off) (i + 1) with
        | error e => rfl
        | ok v =>
          have hb := (read_uint16_le_ok hr).2
          rw [List.length_drop, sz_of_lt (by omega)] at hb
          simp only [shift_offset]
          rw [sz_of_lt (n := off + (i + 1) + 2) (by omega), sz_of_lt (n := i + 1 + 2) (by omega),
            Nat.add_assoc off]
      · rw [if_neg c2, if_neg c2]
        by_cases c3 : (at_ raw (off + i)).val = 0xFE
        · rw [if_pos c3, if_pos c3, read_uint32_le_shift raw off (i + 1) hlen (by omega)]
          cases hr : read_uint32_le (raw.drop off) (i + 1) with
          | error e => rfl
          | ok v =>
            have hb := (read_uint32_le_ok hr).2
            rw [List.length_drop, sz_of_lt (by omega)] at hb
            simp only [shift_offset]
            rw [sz_of_lt (n := off + (i + 1) + 4) (by omega),
              sz_of_lt (n := i + 1 + 4) (by omega), Nat.add_assoc off]
        · rw [if_neg c3, if_neg c3, read_uint64_le_shift raw off (i + 1) hlen (by omega)]
          cases hr : read_uint64_le (raw.drop off) (i + 1) with
          | error e => rfl
          | ok v =>
            have hb := (read_uint64_le_ok hr).2
            rw [List.length_drop, sz_of_lt (by omega)] at hb
            simp only [shift_offset]
            rw [sz_of_lt (n := off + (i + 1) + 8) (by omega),
              sz_of_lt (n := i + 1 + 8) (by omega), Nat.add_assoc off]

theorem shift_offset_ok {α : Type} (off : Nat) (a : α) (n : Nat) :
    shift_offset off (.ok (a, n)) = .ok (a, off + n) := rfl

theorem shift_offset_error {α : Type} (off : Nat) (e : Fault) :
    shift_offset off (.error e : Res (α × Nat)) = .error e := rfl

theorem parse_input_at_shift (raw : Bytes) (off i : Nat) (hlen : raw.length < 2 ^ 63)
    (ho : off + i ≤ raw.length) :
    parse_input_at raw (off + i) = shift_offset off (parse_input_at (raw.drop off) i) := by
  have hs : (raw.drop off).length < 2 ^ 63 := by rw [List.length_drop]; omega
  unfold parse_input_at
  rw [List.length_drop, sz_of_lt (n := off + i + 32) (by omega),
    sz_of_lt (n := i + 32) (by omega)]
  by_cases h1 : off + i + 32 > raw.length
  · have h1' : i + 32 > raw.length - off := by omega
    rw [if_pos h1, if_pos h1']; rfl
  · have h1' : ¬ i + 32 > raw.length - off := by omega
    rw [if_neg h1, if_neg h1']
    simp only []
    rw [Nat.add_assoc off i 32, read_uint32_le_shift raw off (i + 32) hlen (by omega),
      slice_shift]
    cases hv : read_uint32_le (raw.drop off) (i + 32) with
    | error e => rfl
    | ok vout =>
      have hb := (read_uint32_le_ok hv).2
      rw [List.length_drop, sz_of_lt (by omega)] at hb
      simp only []
      rw [sz_of_lt (n := off + (i + 32) + 4) (by omega), sz_of_lt (n := i + 32 + 4) (by omega),
        Nat.add_assoc off (i + 32) 4, read_varint_shift raw off (i + 32 + 4) hlen (by omega)]
      cases hvar : read_varint (raw.drop off) (i + 32 + 4) with
      | error e => rfl
      | ok p =>
        obtain ⟨script_len, o2⟩ := p
        have hb2 := (read_varint_ok hvar hs).2.1
        rw [List.length_drop] at hb2
        rw [shift_offset_ok]
        simp only []
        by_cases h3 : off + o2 + script_len > raw.length
        · have h3' : o2 + script_len > raw.length - off := by omega
          rw [if_pos h3, if_pos h3']; rfl
        · have h3' : ¬ o2 + script_len > raw.length - off := by omega
          rw [if_neg h3, if_neg h3', sz_of_lt (n := off + o2 + script_len) (by omega),
            sz_of_lt (n := o2 + script_len) (by omega), Nat.add_assoc off o2 script_len,
            read_uint32_le_shift raw off (o2 + script_len) hlen (by omega), slice_shift]
          cases hq : read_uint32_le (raw.drop off) (o2 + script_len) with
          | error e => rfl
          | ok sequence =>
            have hb3 := (read_uint32_le_ok hq).2
            rw [List.length_drop, sz_of_lt (by omega)] at hb3
            simp only []
            rw [sz_of_lt (n := off + (o2 + script_len) + 4) (by omega),
              sz_of_lt (n := o2 + script_len + 4) (by omega), shift_offset_ok,
              Nat.add_assoc off]

theorem parse_input_at_le {raw : Bytes} {i : Nat} {r : TxIn × Nat}
    (h : parse_input_at raw i = .ok r) (hlen : raw.length < 2 ^ 63) (hi : i ≤ raw.length) :
    i ≤ r.2 ∧ r.2 ≤ raw.length := by
  obtain ⟨txin, o⟩ := r
  have h' := (parse_input_at_ok_iff raw i (txin, o) (by omega)).1 h
  have := parse_input_ok h' hlen hi
  exact ⟨this.2.2.1, this.2.2.2.1⟩

theorem parse_inputs_at_shift (raw : Bytes) (off : Nat) (hlen : raw.length < 2 ^ 63) :
    ∀ (n i : Nat), off + i ≤ raw.length →
      parse_inputs_at raw n (off + i) = shift_offset off (parse_inputs_at (raw.drop off) n i) := by
  have hs : (raw.drop off).length < 2 ^ 63 := by rw [List.length_drop]; omega
  intro n
  induction n with
  | zero => intro i _; rfl
  | succ n ih =>
    intro i ho
    rw [parse_inputs_at, parse_inputs_at, parse_input_at_shift raw off i hlen ho]
    cases h1 : parse_input_at (raw.drop off) i with
    | error e => rfl
    | ok p =>
      obtain ⟨txin, o⟩ := p
      have hb := (parse_input_at_le h1 hs (by rw [List.length_drop]; omega)).2
      simp only [List.length_drop] at hb
      rw [shift_offset_ok]
      simp only []
      rw [ih o (by omega)]
      cases h2 : parse_inputs_at (raw.drop off) n o with
      | error e => rfl
      | ok q => obtain ⟨rest, o'⟩ := q; rfl

theorem parse_output_at_shift (raw : Bytes) (off i : Nat) (hlen : raw.length < 2 ^ 63)
    (ho : off + i ≤ raw.length) :
    parse_output_at raw (off + i) = shift_offset off (parse_output_at (raw.drop off) i) := by
  have hs : (raw.drop off).length < 2 ^ 63 := by rw [List.length_drop]; omega
  unfold parse_output_at
  rw [read_uint64_le_shift raw off i hlen ho]
  cases hv : read_uint64_le (raw.drop off) i with
  | error e => rfl
  | ok amount =>
    have hb := (read_uint64_le_ok hv).2
    rw [List.length_drop, sz_of_lt (by omega)] at hb
    simp only []
    rw [sz_of_lt (n := off + i + 8) (by omega), sz_of_lt (n := i + 8) (by omega),
      Nat.add_assoc off i 8, read_varint_shift raw off (i + 8) hlen (by omega)]
    cases hvar : read_varint (raw.drop off) (i + 8) with
    | error e => rfl
    | ok p =>
      obtain ⟨script_len, o2⟩ := p
      have hb2 := (read_varint_ok hvar hs).2.1
      rw [List.length_drop] at hb2
      rw [shift_offset_ok]
      simp only []
      rw [List.length_drop]
      by_cases h3 : off + o2 + script_len > raw.length
      · have h3' : o2 + script_len > raw.length - off := by omega
        rw [if_pos h3, if_pos h3']; rfl
      · have h3' : ¬ o2 + script_len > raw.length - off := by omega
        rw [if_neg h3, if_neg h3', sz_of_lt (n := off + o2 + script_len) (by omega),
          sz_of_lt (n := o2 + script_len) (by omega), shift_offset_ok, slice_shift,
          Nat.add_assoc off]

theorem parse_output_at_le {raw : Bytes} {i : Nat} {r : TxOut × Nat}
    (h : parse_output_at raw i = .ok r) (hlen : raw.length < 2 ^ 63) (hi : i ≤ raw.length) :
    i ≤ r.2 ∧ r.2 ≤ raw.length := by
  obtain ⟨o, n⟩ := r
  have h' := (parse_output_at_ok_iff raw i (o, n) (by omega)).1 h
  have := parse_output_ok h' hlen hi
  exact ⟨this.2.1, this.2.2.1⟩

theorem parse_outputs_at_shift (raw : Bytes) (off : Nat) (hlen : raw.length < 2 ^ 63) :
    ∀ (n i : Nat), off + i ≤ raw.length →
      parse_outputs_at raw n (off + i) =
        shift_offset off (parse_outputs_at (raw.drop off) n i) := by
  have hs : (raw.drop off).length < 2 ^ 63 := by rw [List.length_drop]; omega
  intro n
  induction n with
  | zero => intro i _; rfl
  | succ n ih =>
    intro i ho
    rw [parse_outputs_at, parse_outputs_at, parse_output_at_shift raw off i hlen ho]
    cases h1 : parse_output_at (raw.drop off) i with
    | error e => rfl
    | ok p =>
      obtain ⟨txout, o⟩ := p
      have hb := (parse_output_at_le h1 hs (by rw [List.length_drop]; omega)).2
      simp only [List.length_drop] at hb
      rw [shift_offset_ok]
      simp only []
      rw [ih o (by omega)]
      cases h2 : parse_outputs_at (raw.drop off) n o with
      | error e => rfl
      | ok q => obtain ⟨rest, o'⟩ := q; rfl

/-- On success, decoding a witness item at `off + i` is decoding it at `i` in the suffix
from `off`. -/
theorem parse_witness_item_shift (raw : Bytes) (off i : Nat) (hlen : raw.length < 2 ^ 63)
    (ho : off + i ≤ raw.length) (r : Bytes × Nat) :
    parse_witness_item raw (off + i) = .ok r ↔
      shift_offset off (parse_witness_item (raw.drop off) i) = .ok r := by
  have hs : (raw.drop off).length < 2 ^ 63 := by rw [List.length_drop]; omega
  unfold parse_witness_item
  rw [read_varint_shift raw off i hlen ho]
  cases hvar : read_varint (raw.drop off) i with
  | error e => exact Iff.rfl
  | ok p =>
    obtain ⟨item_len, o2⟩ := p
    have hb2 := (read_varint_ok hvar hs).2.1
    rw [List.length_drop] at hb2
    rw [shift_offset_ok]
    simp only []
    rw [List.length_drop]
    by_cases h3 : off + o2 + item_len ≤ raw.length
    · have a1 : ¬ sz (off + o2 + item_len) > raw.length := by
        rw [sz_of_lt (by omega)]; omega
      have a2 : ¬ off + o2 + item_len ≥ 2 ^ 64 := by omega
      have b1 : ¬ sz (o2 + item_len) > raw.length - off := by
        rw [sz_of_lt (by omega)]; omega
      have b2 : ¬ o2 + item_len ≥ 2 ^ 64 := by omega
      rw [if_neg a1, if_neg a2, if_neg b1, if_neg b2, shift_offset_ok,
        sz_of_lt (n := off + o2 + item_len) (by omega),
        sz_of_lt (n := o2 + item_len) (by omega), slice_shift, Nat.add_assoc off]
    · constructor
      · intro h
        exfalso
        by_cases a1 : sz (off + o2 + item_len) > raw.length
        · rw [if_pos a1] at h; cases h
        · have a2 : off + o2 + item_len ≥ 2 ^ 64 := by
            simp only [sz] at a1; omega
          rw [if_neg a1, if_pos a2] at h; cases h
      · intro h
        exfalso
        by_cases b1 : sz (o2 + item_len) > raw.length - off
        · rw [if_pos b1] at h; cases h
        · have b2 : o2 + item_len ≥ 2 ^ 64 := by
            simp only [sz] at b1; omega
          rw [if_neg b1, if_pos b2] at h; cases h

theorem parse_witness_items_shift (raw : Bytes) (off : Nat) (hlen : raw.length < 2 ^ 63) :
    ∀ (n i : Nat) (r : List Bytes × Nat), off + i ≤ raw.length →
      (parse_witness_items raw n (off + i) = .ok r ↔
        shift_offset off (parse_witness_items (raw.drop off) n i) = .ok r) := by
  have hs : (raw.drop off).length < 2 ^ 63 := by rw [List.length_drop]; omega
  intro n
  induction n with
  | zero => intro i r _; exact Iff.rfl
  | succ n ih =>
    intro i r ho
    rw [parse_witness_items, parse_witness_items]
    cases h1 : parse_witness_item (raw.drop off) i with
    | error e =>
      cases h1' : parse_witness_item raw (off + i) with
      | error e' => simp [shift_offset]
      | ok p =>
        have := (parse_witness_item_shift raw off i hlen ho p).1 h1'
        rw [h1] at this
        cases this
    | ok p =>
      obtain ⟨item, o⟩ := p
      have h1' : parse_witness_item raw (off + i) = .ok (item, off + o) :=
        (parse_witness_item_shift raw off i hlen ho _).2 (by rw [h1]; rfl)
      have hb := (parse_witness_item_ok h1 hs).2.1
      rw [List.length_drop] at hb
      rw [h1']
      simp only []
      cases h2 : parse_witness_items (raw.drop off) n o with
      | error e =>
        cases h2' : parse_witness_items raw n (off + o) with
        | error e' => simp [shift_offset]
        | ok q =>
          have := (ih o q (by omega)).1 h2'
          rw [h2] at this
          cases this
      | ok q =>
        obtain ⟨rest, o'⟩ := q
        have h2' : parse_witness_items raw n (off + o) = .ok (rest, off + o') :=
          (ih o _ (by omega)).2 (by rw [h2]; rfl)
        rw [h2']
        exact Iff.rfl

theorem parse_witnesses_shift (raw : Bytes) (off : Nat) (hlen : raw.length < 2 ^ 63) :
    ∀ (ins : List TxIn) (i : Nat) (r : List TxIn × Nat), off + i ≤ raw.length →
      (parse_witnesses raw ins (off + i) = .ok r ↔
        shift_offset off (parse_witnesses (raw.drop off) ins i) = .ok r) := by
  have hs : (raw.drop off).length < 2 ^ 63 := by rw [List.length_drop]; omega
  intro ins
  induction ins with
  | nil => intro i r _; exact Iff.rfl
  | cons txin rest ih =>
    intro i r ho
    rw [parse_witnesses, parse_witnesses, read_varint_shift raw off i hlen ho]
    cases hvar : read_varint (raw.drop off) i with
    | error e => exact Iff.rfl
    | ok p =>
      obtain ⟨item_count, o1⟩ := p
      have hb1 := (read_varint_ok hvar hs).2.1
      rw [List.length_drop] at hb1
      rw [shift_offset_ok]
      simp only []
      cases h1 : parse_witness_items (raw.drop off) item_count o1 with
      | error e =>
        cases h1' : parse_witness_items raw item_count (off + o1) with
        | error e' => simp [shift_offset]
        | ok q =>
          have := (parse_witness_items_shift raw off hlen _ o1 q (by omega)).1 h1'
          rw [h1] at this
          cases this
      | ok q =>
        obtain ⟨items, o2⟩ := q
        have h1' : parse_witness_items raw item_count (off + o1) = .ok (items, off + o2) :=
          (parse_witness_items_shift raw off hlen _ o1 _ (by omega)).2 (by rw [h1]; rfl)
        have hb2 := (parse_witness_items_ok hs item_count h1
          (by rw [List.length_drop]; omega)).2.2.1
        rw [List.length_drop] at hb2
        rw [h1']
        simp only []
        cases h2 : parse_witnesses (raw.drop off) rest o2 with
        | error e =>
          cases h2' : parse_witnesses raw rest (off + o2) with
          | error e' => simp [shift_offset]
          | ok q' =>
            have := (ih o2 q' (by omega)).1 h2'
            rw [h2] at this
            cases this
        | ok q' =>
          obtain ⟨rest', o3⟩ := q'
          have h2' : parse_witnesses raw rest (off + o2) = .ok (rest', off + o3) :=
            (ih o2 _ (by omega)).2 (by rw [h2]; rfl)
          rw [h2']
          exact Iff.rfl

/-- On success, the constructor on a cursor at `off` is the same constructor on the suffix
from `off`, started at 0. -/
theorem construct_at_shift (env : Env) (raw : Bytes) (off : Nat) (hlen : raw.length < 2 ^ 63)
    (ho : off ≤ raw.length) (r : Transaction × Nat) :
    Transaction.construct_at env raw off = .ok r ↔
      shift_offset off (Transaction.construct_at env (raw.drop off) 0) = .ok r := by
  have hs : (raw.drop off).length < 2 ^ 63 := by rw [List.length_drop]; omega
  unfold Transaction.construct_at
  have e0 := read_uint32_le_shift raw off 0 hlen (by omega)
  rw [Nat.add_zero] at e0
  rw [e0]
  cases hv : read_uint32_le (raw.drop off) 0 with
  | error e => exact Iff.rfl
  | ok version =>
    have hb := (read_uint32_le_ok hv).2
    rw [List.length_drop, sz_of_lt (by omega)] at hb
    simp only []
    have e4 : sz (0 + 4) = 4 := rfl
    rw [e4, sz_of_lt (n := off + 4) (by omega)]
    have hseg : (decide (sz (off + 4 + 1) < raw.length) &&
        (at_ raw (off + 4) == 0x00 && at_ raw (off + 4 + 1) == 0x01)) =
        (decide (sz (4 + 1) < (raw.drop off).length) &&
          (at_ (raw.drop off) 4 == 0x00 && at_ (raw.drop off) (4 + 1) == 0x01)) := by
      rw [at_drop, at_drop, List.length_drop, sz_of_lt (n := off + 4 + 1) (by omega),
        sz_of_lt (n := 4 + 1) (by omega)]
      congr 1
      simp only [decide_eq_decide]
      omega
    rw [hseg]
    generalize hg : (decide (sz (4 + 1) < (raw.drop off).length) &&
          (at_ (raw.drop off) 4 == 0x00 && at_ (raw.drop off) (4 + 1) == 0x01)) = seg
    have hsb : seg = true → 4 + 2 ≤ raw.length - off := by
      intro hseg'
      rw [hseg'] at hg
      simp only [Bool.and_eq_true, decide_eq_true_eq, List.length_drop] at hg
      have := hg.1
      rw [sz_of_lt (by omega)] at this
      omega
    have eo : (if seg = true then sz (off + 4 + 2) else off + 4)
        = off + (if seg = true then sz (4 + 2) else 4) := by
      cases seg with
      | false => rfl
      | true =>
        have := hsb rfl
        rw [if_pos rfl, if_pos rfl, sz_of_lt (n := off + 4 + 2) (by omega),
          sz_of_lt (n := 4 + 2) (by omega)]
    have ho1 : (if seg = true then sz (4 + 2) else 4) ≤ raw.length - off := by
      cases seg with
      | false => rw [if_neg (by decide)]; omega
      | true => rw [if_pos rfl, sz_of_lt (by omega)]; exact hsb rfl
    rw [eo]
    generalize (if seg = true then sz (4 + 2) else 4) = o1 at ho1 ⊢
    rw [read_varint_shift raw off o1 hlen (by omega)]
    cases h2 : read_varint (raw.drop off) o1 with
    | error e => exact Iff.rfl
    | ok p2 =>
      obtain ⟨input_count, o2⟩ := p2
      have hb2 := (read_varint_ok h2 hs).2.1
      rw [List.length_drop] at hb2
      rw [shift_offset_ok]
      simp only []
      rw [parse_inputs_at_shift raw off hlen input_count o2 (by omega)]
      cases h3 : parse_inputs_at (raw.drop off) input_count o2 with
      | error e => exact Iff.rfl
      | ok p3 =>
        obtain ⟨inputs, o3⟩ := p3
        have hb3 : o3 ≤ raw.length - off := by
          have h3' := (parse_inputs_at_ok_iff _ (by omega) _ _ _).1 h3
          have := (parse_inputs_ok hs input_count h3' (by rw [List.length_drop]; omega)).2.2.2.2.1
          rwa [List.length_drop] at this
        rw [shift_offset_ok]
        simp only []
        rw [read_varint_shift raw off o3 hlen (by omega)]
        cases h5 : read_varint (raw.drop off) o3 with
        | error e => exact Iff.rfl
        | ok p5 =>
          obtain ⟨output_count, o5⟩ := p5
          have hb5 := (read_varint_ok h5 hs).2.1
          rw [List.length_drop] at hb5
          rw [shift_offset_ok]
          simp only []
          rw [parse_outputs_at_shift raw off hlen output_count o5 (by omega)]
          cases h6 : parse_outputs_at (raw.drop off) output_count o5 with
          | error e => exact Iff.rfl
          | ok p6 =>
            obtain ⟨outputs, o6⟩ := p6
            have hb6 : o6 ≤ raw.length - off := by
              have h6' := (parse_outputs_at_ok_iff _ (by omega) _ _ _).1 h6
              have := (parse_outputs_ok hs output_count h6'
                (by rw [List.length_drop]; omega)).2.2.2.1
              rwa [List.length_drop] at this
            rw [shift_offset_ok]
            simp only []
            have key : ∀ (o7 : Nat) (inputs' : List TxIn), o7 ≤ raw.length - off →
                ((match read_uint32_le raw (off + o7) with
                  | .error e => (.error e : Res (Transaction × Nat))
                  | .ok locktime =>
                    .ok (Transaction.with_hashes env
                      { version := version, outputs := outputs, inputs := inputs',
                        locktime := locktime, isSegwit := seg,
                        TxIdHash := [], WTxIdHash := [] }, sz (off + o7 + 4))) = .ok r ↔
                shift_offset off
                  (match read_uint32_le (raw.drop off) o7 with
                  | .error e => (.error e : Res (Transaction × Nat))
                  | .ok locktime =>
                    .ok (Transaction.with_hashes env
                      { version := version, outputs := outputs, inputs := inputs',
                        locktime := locktime, isSegwit := seg,
                        TxIdHash := [], WTxIdHash := [] }, sz (o7 + 4))) = .ok r) := by
              intro o7 inputs' hb7
              rw [read_uint32_le_shift raw off o7 hlen (by omega)]
              cases h9 : read_uint32_le (raw.drop off) o7 with
              | error e => exact Iff.rfl
              | ok locktime =>
                have hb9 := (read_uint32_le_ok h9).2
                rw [List.length_drop, sz_of_lt (by omega)] at hb9
                simp only []
                rw [sz_of_lt (n := off + o7 + 4) (by omega), sz_of_lt (n := o7 + 4) (by omega),
                  shift_offset_ok, Nat.add_assoc off]
            cases seg with
            | false =>
              simp only [Bool.false_eq_true, if_false]
              exact key o6 inputs hb6
            | true =>
              simp only [if_true]
              cases h7 : parse_witnesses (raw.drop off) inputs o6 with
              | error e =>
                cases h7' : parse_witnesses raw inputs (off + o6) with
                | error e' => simp [shift_offset]
                | ok q =>
                  have := (parse_witnesses_shift raw off hlen inputs o6 q (by omega)).1 h7'
                  rw [h7] at this
                  cases this
              | ok q =>
                obtain ⟨inputs', o7⟩ := q
                have h7' : parse_witnesses raw inputs (off + o6) = .ok (inputs', off + o7) :=
                  (parse_witnesses_shift raw off hlen inputs o6 _ (by omega)).2
                    (by rw [h7]; rfl)
                have hb7 : o7 ≤ raw.length - off := by
                  have h3' := (parse_inputs_at_ok_iff _ (by omega) _ _ _).1 h3
                  have hw := (parse_inputs_ok hs input_count h3'
                    (by rw [List.length_drop]; omega)).2.2.1
                  have := (parse_witnesses_ok hs inputs h7
                    (by rw [List.length_drop]; omega) hw).2.2.1
                  rwa [List.length_drop] at this
                rw [h7']
                simp only []
                exact key o7 inputs' hb7

/-! ## The scan of the block and undo streams -/

theorem slice_append_left (b t : Bytes) (i n : Nat) (h : i + n ≤ b.length) :
    slice (b ++ t) i n = slice b i n := by
  unfold slice
  rw [List.drop_append_of_le_length (by omega), List.take_append_of_le_length]
  rw [List.length_drop]
  omega

/-- What the loop reads at the start of a record of a stream: its size word, the record and
the rest of the stream. -/
theorem record_at (raw : Bytes) (off : Nat) (b : Bytes) (rest : Bytes) (hlen : raw.length < 2 ^ 63)
    (h8 : 8 ≤ b.length) (hd : raw.drop off = b ++ rest) :
    off < raw.length ∧ ¬ sz (off + 8) > raw.length ∧
    (∃ magic, read_uint32_le raw off = .ok magic) ∧
    read_uint32_le raw (sz (off + 4)) = .ok (le32 (slice b 4 4)) ∧
    off + b.length ≤ raw.length ∧
    slice raw off b.length = b ∧
    raw.drop (off + b.length) = rest := by
  have hl := length_of_drop_eq hd (by
    intro hnil
    have := congrArg List.length hnil
    simp only [List.length_append, List.length_nil] at this
    omega)
  rw [List.length_append] at hl
  have e4 : sz (off + 4) = off + 4 := sz_of_lt (by omega)
  refine ⟨by omega, by rw [sz_of_lt (by omega)]; omega,
    ⟨_, read_uint32_le_of_le raw off (by omega) (by omega)⟩, ?_, by omega, ?_, ?_⟩
  · rw [e4, read_uint32_le_of_le raw (off + 4) (by omega) (by omega), read_le_four,
      slice_shift, hd, slice_append_left b rest 4 4 (by omega)]
  · rw [slice, hd, List.take_left]
  · rw [← List.drop_drop, hd, List.drop_left]

theorem blk_record_wf_length {b : Bytes} (h : blk_record_wf b) :
    8 ≤ b.length ∧ (8 + le32 (slice b 4 4)) % 2 ^ 32 = b.length := by
  obtain ⟨h1, h2⟩ := h
  refine ⟨by omega, ?_⟩
  rw [← h1, Nat.mod_eq_of_lt h2]

theorem rev_record_wf_length {r : Bytes} (h : rev_record_wf r) :
    8 ≤ r.length ∧ (8 + le32 (slice r 4 4) + 32) % 2 ^ 32 = r.length := by
  obtain ⟨h1, h2⟩ := h
  refine ⟨by omega, ?_⟩
  rw [← h1, Nat.mod_eq_of_lt h2]

theorem scan_records_nil_left (env : Env) (can_open : String → Bool) (out_dir : String)
    (rs : List Bytes) :
    scan_records env can_open out_dir [] rs =
      .error (.runtime_error "No matching block/undo pair found") := by
  cases rs <;> rfl

theorem scan_records_nil_right (env : Env) (can_open : String → Bool) (out_dir : String)
    (bs : List Bytes) :
    scan_records env can_open out_dir bs [] =
      .error (.runtime_error "No matching block/undo pair found") := by
  cases bs <;> rfl

/-- On streams made of well-formed records the loop is the scan of the records, whatever
the number of iterations allowed beyond the number of block records. -/
theorem scan_loop_records (env : Env) (can_open : String → Bool) (out_dir : String)
    (blk_raw rev_raw : Bytes) (hbl : blk_raw.length < 2 ^ 63) (hrl : rev_raw.length < 2 ^ 63) :
    ∀ (bs rs : List Bytes) (fuel blk_off rev_off : Nat),
      (∀ b ∈ bs, blk_record_wf b) → (∀ r ∈ rs, rev_record_wf r) →
      blk_raw.drop blk_off = bs.flatten → rev_raw.drop rev_off = rs.flatten →
      bs.length ≤ fuel →
      scan_loop env can_open out_dir blk_raw rev_raw fuel blk_off rev_off =
        scan_records env can_open out_dir bs rs := by
  intro bs
  induction bs with
  | nil =>
    intro rs fuel blk_off rev_off _ _ hdb _ _
    rw [scan_records_nil_left]
    cases fuel with
    | zero => rfl
    | succ fuel =>
      have : ¬ blk_off < blk_raw.length := by
        have := List.drop_eq_nil_iff.1 (by simpa using hdb)
        omega
      rw [scan_loop, if_pos (fun h => this h.1)]
  | cons b bs ih =>
    intro rs fuel blk_off rev_off hwb hwr hdb hdr hfuel
    cases fuel with
    | zero => simp at hfuel
    | succ fuel =>
      cases rs with
      | nil =>
        rw [scan_records_nil_right]
        have : ¬ rev_off < rev_raw.length := by
          have := List.drop_eq_nil_iff.1 (by simpa using hdr)
          omega
        rw [scan_loop, if_pos (fun h => this h.2)]
      | cons r rs =>
        rw [List.flatten_cons] at hdb hdr
        obtain ⟨hb8, hbt⟩ := blk_record_wf_length (hwb b (List.mem_cons_self _ _))
        obtain ⟨hr8, hrt⟩ := rev_record_wf_length (hwr r (List.mem_cons_self _ _))
        obtain ⟨b1, b2, ⟨bm, b3⟩, b4, b5, b6, b7⟩ :=
          record_at blk_raw blk_off b bs.flatten hbl hb8 hdb
        obtain ⟨r1, r2, ⟨rm, r3⟩, r4, r5, r6, r7⟩ :=
          record_at rev_raw rev_off r rs.flatten hrl hr8 hdr
        have hc : ¬ ¬ (blk_off < blk_raw.length ∧ rev_off < rev_raw.length) :=
          not_not.2 ⟨b1, r1⟩
        have eb : sz (blk_off + b.length) = blk_off + b.length := sz_of_lt (by omega)
        have er : sz (rev_off + r.length) = rev_off + r.length := sz_of_lt (by omega)
        rw [scan_loop, if_neg hc, if_neg b2, b3]
        simp only []
        rw [b4]
        simp only []
        rw [hbt, eb, if_neg (by omega), if_neg r2, r3]
        simp only []
        rw [r4]
        simp only []
        rw [hrt, er, if_neg (by omega), b6, r6, scan_records]
        cases hB : Block.construct env b with
        | error e => rfl
        | ok block =>
          cases hU : UndoBlock.construct env r with
          | error e => rfl
          | ok undo =>
            simp only []
            rw [ih rs fuel (blk_off + b.length) (rev_off + r.length)
              (fun x hx => hwb x (List.mem_cons_of_mem _ hx))
              (fun x hx => hwr x (List.mem_cons_of_mem _ hx)) b7 r7 (by simpa using hfuel)]

/-- The scan of the records stops at the first pair that passes the test. -/
theorem scan_records_first (env : Env) (can_open : String → Bool) (out_dir : String) :
    ∀ (k : Nat) (bs rs : List Bytes) (bk rk : Bytes) (block : Block) (undo : UndoBlock),
      bs[k]? = some bk → rs[k]? = some rk →
      (∀ (j : Nat) (bj rj : Bytes), j < k → bs[j]? = some bj → rs[j]? = some rj →
        ∃ b u, Block.construct env bj = .ok b ∧ UndoBlock.construct env rj = .ok u ∧
          pair_matches b u = false) →
      Block.construct env bk = .ok block → UndoBlock.construct env rk = .ok undo →
      pair_matches block undo = true →
      scan_records env can_open out_dir bs rs =
        analyze_and_write env can_open out_dir block undo := by
  intro k
  induction k with
  | zero =>
    intro bs rs bk rk block undo hb hr _ hB hU hm
    cases bs with
    | nil => cases hb
    | cons b bs =>
      cases rs with
      | nil => cases hr
      | cons r rs =>
        simp only [List.getElem?_cons_zero, Option.some.injEq] at hb hr
        subst hb hr
        rw [scan_records, hB, hU]
        simp only [hm, if_true]
  | succ k ih =>
    intro bs rs bk rk block undo hb hr hskip hB hU hm
    cases bs with
    | nil => cases hb
    | cons b bs =>
      cases rs with
      | nil => cases hr
      | cons r rs =>
        simp only [List.getElem?_cons_succ] at hb hr
        obtain ⟨b0, u0, h0b, h0u, h0m⟩ := hskip 0 b r (by omega) (by simp) (by simp)
        rw [scan_records, h0b, h0u]
        simp only [h0m, Bool.false_eq_true, if_false]
        exact ih bs rs bk rk block undo hb hr
          (fun j bj rj hj hbj hrj => hskip (j + 1) bj rj (by omega) (by simpa using hbj) (by simpa using hrj)) hB hU hm

/-- With no pair passing the test the scan of the records fails with the no-matching-pair
error. -/
theorem scan_records_none (env : Env) (can_open : String → Bool) (out_dir : String) :
    ∀ (bs rs : List Bytes),
      (∀ (j : Nat) (bj rj : Bytes), bs[j]? = some bj → rs[j]? = some rj →
        ∃ b u, Block.construct env bj = .ok b ∧ UndoBlock.construct env rj = .ok u ∧
          pair_matches b u = false) →
      scan_records env can_open out_dir bs rs =
        .error (.runtime_error "No matching block/undo pair found") := by
  intro bs
  induction bs with
  | nil => intro rs _; exact scan_records_nil_left env can_open out_dir rs
  | cons b bs ih =>
    intro rs h
    cases rs with
    | nil => rfl
    | cons r rs =>
      obtain ⟨b0, u0, h0b, h0u, h0m⟩ := h 0 b r (by simp) (by simp)
      rw [scan_records, h0b, h0u]
      simp only [h0m, Bool.false_eq_true, if_false]
      exact ih rs (fun j bj rj hbj hrj => h (j + 1) bj rj (by simpa using hbj) (by simpa using hrj))

/-- The 32-bit test of the scan is the alignment of the counts, for counts below `2^32`. -/
theorem pair_matches_iff (block : Block) (undo : UndoBlock) (hb : block.txnCounter < 2 ^ 32)
    (hu : undo.txCount + 1 < 2 ^ 32) :
    pair_matches block undo = true ↔ counts_align block undo := by
  simp only [pair_matches, counts_align, UndoBlock.getTxCount, Block.getTransactionCount,
    decide_eq_true_eq]
  rw [Nat.mod_eq_of_lt hb]
  omega

theorem length_le_length_flatten (bs : List Bytes) (h : ∀ b ∈ bs, 1 ≤ b.length) :
    bs.length ≤ bs.flatten.length := by
  induction bs with
  | nil => simp
  | cons b bs ih =>
    have h1 := h b (List.mem_cons_self _ _)
    have h2 := ih (fun x hx => h x (List.mem_cons_of_mem _ hx))
    simp only [List.flatten_cons, List.length_append, List.length_cons]
    omega

/-! ## The duplicated last leaf -/

/-- A level of odd size and the same level with its last node repeated are paired into the
same next level. -/
theorem merkle_pairs_dup_last (H : Bytes → Bytes) (layer : List Bytes) :
    layer.length % 2 = 1 →
      merkle_pairs H (layer ++ [layer.getLastD []]) = merkle_pairs H layer := by
  induction layer using merkle_pairs.induct H with
  | case1 => intro h; simp at h
  | case2 a => intro _; rfl
  | case3 a b rest ih =>
    intro h
    have hr : rest.length % 2 = 1 := by
      simp only [List.length_cons] at h
      omega
    have hne : rest ≠ [] := by
      intro h0
      rw [h0] at hr
      simp at hr
    have hl : (a :: b :: rest).getLastD [] = rest.getLastD [] := by
      cases rest with
      | nil => exact absurd rfl hne
      | cons c rest' => simp [List.getLastD]
    rw [hl, List.cons_append, List.cons_append, merkle_pairs, merkle_pairs, ih hr]

theorem clog_succ_of_odd (n : Nat) (hodd : n % 2 = 1) (h3 : 3 ≤ n) :
    Nat.clog 2 (n + 1) = Nat.clog 2 n := by
  rw [Nat.clog_of_two_le (by decide) (show 2 ≤ n + 1 by omega),
    Nat.clog_of_two_le (by decide) (show 2 ≤ n by omega)]
  have : (n + 1 + 2 - 1) / 2 = (n + 2 - 1) / 2 := by omega
  rw [this]

/-- The Merkle root in terms of the reference levels of the leaves. -/
theorem calcMerkleRoot_eq_level (env : Env) (b : Block) (h : b.txs ≠ []) :
    b.calcMerkleRoot env =
      (merkle_level (double_sha256 env) (b.txs.map merkle_leaf)
        (Nat.clog 2 b.txs.length)).getD 0 [] := by
  have he : b.txs.isEmpty = false := by
    cases hb : b.txs with
    | nil => exact absurd hb h
    | cons a t => rfl
  unfold Block.calcMerkleRoot
  rw [he]
  simp only [Bool.false_eq_true, if_false]
  have hm : (b.txs.map fun tx => reverse_32 tx.get_txid) = b.txs.map merkle_leaf := rfl
  rw [hm, merkle_loop_eq_level env _ _ (Nat.le_refl _), List.length_map]

/-! ## Compressed scripts -/

/-- The lambda `read_n` where the bytes are there. -/
theorem read_n_of_le (data : Bytes) (off n : Nat) (h : off + n ≤ data.length)
    (hlen : data.length < 2 ^ 64) :
    read_n data off n = .ok (slice data off n, off + n) := by
  rw [read_n, sz_of_lt (by omega), if_neg (by omega), if_neg (by omega)]

/-- The lambda `read_n` where bytes are missing and the sum does not wrap. -/
theorem read_n_short (data : Bytes) (off n : Nat) (h : data.length < off + n)
    (hsum : off + n < 2 ^ 64) :
    read_n data off n = .error (.runtime_error "decompress_script: underflow") := by
  rw [read_n, sz_of_lt hsum, if_pos h]

/-- The lambda `read_n` where the sum wraps: the test passes and the range is reversed. -/
theorem read_n_wrap (data : Bytes) (off n : Nat) (hoff : off ≤ data.length)
    (hlen : data.length < 2 ^ 64) (hn : n < 2 ^ 64) (hsum : 2 ^ 64 ≤ off + n) :
    read_n data off n = .error .undefined := by
  have hs : sz (off + n) = off + n - 2 ^ 64 := by
    simp only [sz]
    omega
  rw [read_n, hs, if_neg (by omega), if_pos hsum]

theorem process_output_script_p2pkh (env : Env) (h : Bytes) (hh : h.length = 20) :
    classify_output_script ([0x76, 0xA9, 0x14] ++ h ++ [0x88, 0xAC]) = .P2PKH ∧
    slice ([0x76, 0xA9, 0x14] ++ h ++ [0x88, 0xAC]) 3 20 = h ∧
    process_output_script env ([0x76, 0xA9, 0x14] ++ h ++ [0x88, 0xAC]) =
      match encode_p2pkh_address env h with
      | .error e => .error e
      | .ok address => .ok { type := .P2PKH, address := some address, op_return := none } := by
  have hc : classify_output_script ([0x76, 0xA9, 0x14] ++ h ++ [0x88, 0xAC]) = .P2PKH :=
    (classify_output_script_iff_at _).1.2 ((p2pkh_shape_iff _).1 ⟨h, hh, rfl⟩)
  have hs : slice ([0x76, 0xA9, 0x14] ++ h ++ [0x88, 0xAC]) 3 20 = h := by
    simp [slice, ← hh]
  refine ⟨hc, hs, ?_⟩
  unfold process_output_script
  simp only [hc, hs]

theorem process_output_script_p2sh (env : Env) (h : Bytes) (hh : h.length = 20) :
    classify_output_script ([0xA9, 0x14] ++ h ++ [0x87]) = .P2SH ∧
    slice ([0xA9, 0x14] ++ h ++ [0x87]) 2 20 = h ∧
    process_output_script env ([0xA9, 0x14] ++ h ++ [0x87]) =
      match encode_p2sh_address env h with
      | .error e => .error e
      | .ok address => .ok { type := .P2SH, address := some address, op_return := none } := by
  have hc : classify_output_script ([0xA9, 0x14] ++ h ++ [0x87]) = .P2SH :=
    (classify_output_script_iff_at _).2.1.2 ((p2sh_shape_iff _).1 ⟨h, hh, rfl⟩)
  have hs : slice ([0xA9, 0x14] ++ h ++ [0x87]) 2 20 = h := by
    simp [slice, ← hh]
  refine ⟨hc, hs, ?_⟩
  unfold process_output_script
  simp only [hc, hs]

/-! ## Undo coins -/

/-- A successful read of a bit-packed varint has consumed at least one byte, and bytes of
the buffer only. -/
theorem read_cvarint_loop_gt (data : Bytes) :
    ∀ (fuel off n v o : Nat), read_cvarint_loop data fuel off n = .ok (v, o) →
      off < o ∧ o ≤ data.length := by
  intro fuel
  induction fuel with
  | zero => intro off n v o h; cases h
  | succ fuel ih =>
    intro off n v o h
    rw [read_cvarint_loop] at h
    by_cases h1 : off ≥ data.length
    · rw [if_pos h1] at h; cases h
    · rw [if_neg h1] at h
      simp only at h
      by_cases h2 : (at_ data off).val &&& 0x80 ≠ 0
      · rw [if_pos h2] at h
        have := ih _ _ _ _ h
        omega
      · rw [if_neg h2] at h
        cases h
        omega

/-- The loop of `read_cvarint` looks at the bytes from `off` on only. -/
theorem read_cvarint_loop_suffix (d1 d2 : Bytes) (hl : d1.length = d2.length) :
    ∀ (fuel off n : Nat), (∀ i, off ≤ i → at_ d1 i = at_ d2 i) →
      read_cvarint_loop d1 fuel off n = read_cvarint_loop d2 fuel off n := by
  intro fuel
  induction fuel with
  | zero => intro off n _; rfl
  | succ fuel ih =>
    intro off n h
    rw [read_cvarint_loop, read_cvarint_loop, hl, h off (Nat.le_refl _)]
    simp only [ih (off + 1) _ (fun i hi => h i (by omega))]

/-- The loop of `read_cvarint` looks at the bytes below the offset it returns only. -/
theorem read_cvarint_loop_prefix_only (d1 d2 : Bytes) (hl : d1.length = d2.length) :
    ∀ (fuel off n v o : Nat), read_cvarint_loop d1 fuel off n = .ok (v, o) →
      (∀ i, off ≤ i → i < o → at_ d1 i = at_ d2 i) →
      read_cvarint_loop d2 fuel off n = .ok (v, o) := by
  intro fuel
  induction fuel with
  | zero => intro off n v o h _; cases h
  | succ fuel ih =>
    intro off n v o h hag
    have hgt := (read_cvarint_loop_gt d1 _ _ _ _ _ h).1
    rw [read_cvarint_loop] at h ⊢
    rw [← hl, ← hag off (Nat.le_refl _) hgt]
    by_cases h1 : off ≥ d1.length
    · rw [if_pos h1] at h; cases h
    · rw [if_neg h1] at h ⊢
      simp only at h ⊢
      by_cases h2 : (at_ d1 off).val &&& 0x80 ≠ 0
      · rw [if_pos h2] at h ⊢
        exact ih _ _ _ _ h (fun i hi hio => hag i (by omega) hio)
      · rw [if_neg h2] at h ⊢
        exact h

theorem slice_suffix (d1 d2 : Bytes) (hl : d1.length = d2.length) (off n : Nat)
    (h : ∀ i, off ≤ i → at_ d1 i = at_ d2 i) : slice d1 off n = slice d2 off n := by
  have hd : d1.drop off = d2.drop off := by
    apply bytes_ext
    · rw [List.length_drop, List.length_drop, hl]
    · intro i _
      rw [at_drop, at_drop]
      exact h _ (by omega)
  rw [slice, slice, hd]

/-- The function `decompress_script` looks at the bytes from `off` on only. -/
theorem decompress_script_suffix (env : Env) (d1 d2 : Bytes) (hl : d1.length = d2.length)
    (ty off : Nat) (h : ∀ i, off ≤ i → at_ d1 i = at_ d2 i) :
    decompress_script env ty d1 off = decompress_script env ty d2 off := by
  have hr : ∀ n, read_n d1 off n = read_n d2 off n := by
    intro n
    rw [read_n, read_n, hl, slice_suffix d1 d2 hl off n h]
  unfold decompress_script
  simp only [hr]

theorem read_cvarint_gt (data : Bytes) (off v o : Nat)
    (h : read_cvarint data off = .ok (v, o)) : off < o ∧ o ≤ data.length :=
  read_cvarint_loop_gt data _ _ _ _ _ h

/-- Overwriting a byte below the cursor does not change what `read_cvarint` reads. -/
theorem read_cvarint_set_below (data : Bytes) (k : Nat) (b : Byte) (off : Nat) (h : k < off) :
    read_cvarint (data.set k b) off = read_cvarint data off := by
  rw [read_cvarint, read_cvarint, List.length_set]
  apply read_cvarint_loop_suffix _ _ (List.length_set _ _ _)
  intro i hi
  rw [at_set, if_neg (by omega)]

/-- Overwriting a byte at or after the end of a varint does not change what was read. -/
theorem read_cvarint_set_above (data : Bytes) (k : Nat) (b : Byte) (off v o : Nat)
    (h : read_cvarint data off = .ok (v, o)) (hk : o ≤ k) :
    read_cvarint (data.set k b) off = .ok (v, o) := by
  rw [read_cvarint, List.length_set]
  apply read_cvarint_loop_prefix_only data _ (List.length_set _ _ _).symm _ _ _ _ _ h
  intro i _ hi
  rw [at_set, if_neg (by omega)]

theorem decompress_script_set_below (env : Env) (data : Bytes) (k : Nat) (b : Byte)
    (ty off : Nat) (h : k < off) :
    decompress_script env ty (data.set k b) off = decompress_script env ty data off := by
  apply decompress_script_suffix env _ _ (List.length_set _ _ _)
  intro i hi
  rw [at_set, if_neg (by omega)]

/-- What `UndoTx::UndoTx` does with one coin once the code has been read. -/
theorem parse_undo_coin_of_code (env : Env) (data : Bytes) (off c o1 : Nat)
    (hc : read_cvarint data off = .ok (c, o1)) :
    parse_undo_coin env data off =
      if (c >>> 1) % 2 ^ 32 > 0 ∧ o1 ≥ data.length then
        .error (.runtime_error "dummy underflow")
      else
        match read_cvarint data (if (c >>> 1) % 2 ^ 32 > 0 then o1 + 1 else o1) with
        | .error e => .error e
        | .ok (compressed, o3) =>
          match read_cvarint data o3 with
          | .error e => .error e
          | .ok (script_type, o4) =>
            match decompress_script env script_type data o4 with
            | .error e => .error e
            | .ok (scriptPubKey, o) =>
              .ok ({ height := (c >>> 1) % 2 ^ 32, isCoinbase := decide (c &&& 1 ≠ 0),
                     value := decompress_amount compressed,
                     scriptPubKey := scriptPubKey }, o) := by
  unfold parse_undo_coin
  rw [hc]
  simp only []
  by_cases h1 : (c >>> 1) % 2 ^ 32 > 0
  · by_cases h2 : o1 ≥ data.length
    · rw [if_pos h1, if_pos h2, if_pos ⟨h1, h2⟩]
    · rw [if_pos h1, if_neg h2, if_neg (fun h => h2 h.2), if_pos h1]
  · rw [if_neg h1, if_neg (fun h => h1 h.1), if_neg h1]

/-! ## The bit-packed varint is canonical -/

set_option maxRecDepth 8192 in
theorem byte_msb_iff : ∀ b : Byte, b.val &&& 0x80 ≠ 0 ↔ 128 ≤ b.val := by decide

set_option maxRecDepth 8192 in
theorem byte_low7 : ∀ b : Byte, b.val &&& 0x7F = b.val % 128 := by decide

theorem shl7_or (n x : Nat) (hx : x < 128) : (n <<< 7) ||| x = n * 128 + x := by
  have h := shift_or_low (n * 128 + x)
  have h1 : (n * 128 + x) >>> 7 = n := by
    rw [Nat.shiftRight_eq_div_pow]
    omega
  have h2 : (n * 128 + x) % 128 = x := by omega
  rw [h1, h2] at h
  exact h

theorem acc_step (n : Nat) (b : Byte) :
    (n <<< 7) ||| (b.val &&& 0x7F) = n * 128 + b.val % 128 := by
  rw [byte_low7, shl7_or _ _ (Nat.mod_lt _ (by decide))]

theorem cvarint_wide_ge (e : Bytes) : ∀ n, n ≤ cvarint_wide n e := by
  induction e with
  | nil => intro n; exact Nat.le_refl _
  | cons b rest ih =>
    intro n
    rw [cvarint_wide, acc_step]
    by_cases h : b.val &&& 0x80 ≠ 0
    · rw [if_pos h]
      have := ih (n * 128 + b.val % 128 + 1)
      omega
    · rw [if_neg h]
      omega

/-- With fuel enough for the rest of the buffer, more fuel changes nothing: the loop of
`read_cvarint` ends within the buffer. -/
theorem read_cvarint_loop_fuel (data : Bytes) :
    ∀ (f1 f2 off n : Nat), data.length - off ≤ f1 → data.length - off ≤ f2 →
      read_cvarint_loop data f1 off n = read_cvarint_loop data f2 off n := by
  intro f1
  induction f1 with
  | zero =>
    intro f2 off n h1 _
    cases f2 with
    | zero => rfl
    | succ f2 => rw [read_cvarint_loop, read_cvarint_loop, if_pos (by omega)]
  | succ f1 ih =>
    intro f2 off n h1 h2
    cases f2 with
    | zero => rw [read_cvarint_loop, read_cvarint_loop, if_pos (by omega)]
    | succ f2 =>
      rw [read_cvarint_loop, read_cvarint_loop]
      simp only [ih f2 (off + 1) _ (by omega) (by omega)]

theorem read_cvarint_loop_fault (data : Bytes) :
    ∀ (fuel off n : Nat) (e : Fault), read_cvarint_loop data fuel off n = .error e →
      e = .runtime_error "read_cvarint: underflow" := by
  intro fuel
  induction fuel with
  | zero => intro off n e h; cases h; rfl
  | succ fuel ih =>
    intro off n e h
    rw [read_cvarint_loop] at h
    by_cases h1 : off ≥ data.length
    · rw [if_pos h1] at h; cases h; rfl
    · rw [if_neg h1] at h
      simp only at h
      by_cases h2 : (at_ data off).val &&& 0x80 ≠ 0
      · rw [if_pos h2] at h
        exact ih _ _ _ h
      · rw [if_neg h2] at h
        cases h

/-- The loop fails exactly when every byte from `off` to the end has the continuation bit. -/
theorem read_cvarint_loop_error_iff (data : Bytes) :
    ∀ (fuel off n : Nat), data.length - off ≤ fuel →
      ((∃ e, read_cvarint_loop data fuel off n = .error e) ↔
        ∀ i, off ≤ i → i < data.length → (at_ data i).val &&& 0x80 ≠ 0) := by
  intro fuel
  induction fuel with
  | zero =>
    intro off n h
    constructor
    · intro _ i h1 h2
      omega
    · intro _
      exact ⟨_, rfl⟩
  | succ fuel ih =>
    intro off n h
    rw [read_cvarint_loop]
    by_cases h1 : off ≥ data.length
    · rw [if_pos h1]
      constructor
      · intro _ i h2 h3
        omega
      · intro _
        exact ⟨_, rfl⟩
    · rw [if_neg h1]
      simp only []
      by_cases h2 : (at_ data off).val &&& 0x80 ≠ 0
      · rw [if_pos h2, ih (off + 1) _ (by omega)]
        constructor
        · intro h3 i hi hl
          by_cases h4 : i = off
          · rw [h4]; exact h2
          · exact h3 i (by omega) hl
        · intro h3 i hi hl
          exact h3 i (by omega) hl
      · rw [if_neg h2]
        constructor
        · rintro ⟨e, h3⟩
          cases h3
        · intro h3
          exact absurd (h3 off (Nat.le_refl _) (by omega)) h2

/-- On a complete varint whose value fits 64 bits the loop returns that value and stops at
the end of the buffer. -/
theorem read_cvarint_loop_complete (data : Bytes) :
    ∀ (fuel off n : Nat), data.length - off ≤ fuel →
      cvarint_complete (data.drop off) = true → cvarint_wide n (data.drop off) < 2 ^ 64 →
      read_cvarint_loop data fuel off n = .ok (cvarint_wide n (data.drop off), data.length) := by
  intro fuel
  induction fuel with
  | zero =>
    intro off n h hc _
    rw [List.drop_eq_nil_of_le (by omega)] at hc
    cases hc
  | succ fuel ih =>
    intro off n h hc hv
    have hlt : off < data.length := by
      by_contra h1
      rw [List.drop_eq_nil_of_le (by omega)] at hc
      cases hc
    have hd : data.drop off = at_ data off :: data.drop (off + 1) := by
      rw [at_eq_getElem data off hlt]
      exact List.drop_eq_getElem_cons hlt
    rw [hd] at hc hv ⊢
    rw [cvarint_complete] at hc
    rw [cvarint_wide] at hv ⊢
    rw [read_cvarint_loop, if_neg (by omega)]
    simp only []
    by_cases h2 : (at_ data off).val &&& 0x80 ≠ 0
    · rw [if_pos h2] at hc hv
      rw [if_pos h2, if_pos h2]
      have hge := cvarint_wide_ge (data.drop (off + 1))
        (((n <<< 7) ||| ((at_ data off).val &&& 0x7F)) + 1)
      rw [u64_of_lt (show (n <<< 7) ||| ((at_ data off).val &&& 0x7F) < 2 ^ 64 by omega),
        u64_of_lt (by omega)]
      have hf : data.length - (off + 1) ≤ fuel := by omega
      have hres := ih (off + 1) _ hf hc hv
      rw [hres]
    · rw [if_neg h2] at hc hv
      rw [if_neg h2, if_neg h2, u64_of_lt hv]
      have hnil : data.drop (off + 1) = [] := by simpa using hc
      have : data.length ≤ off + 1 := by
        have := congrArg List.length hnil
        rw [List.length_drop] at this
        simp only [List.length_nil] at this
        omega
      rw [show off + 1 = data.length by omega]

/-- A complete varint is a run of continuation bytes and one last byte. -/
theorem cvarint_complete_split (e : Bytes) (h : cvarint_complete e = true) :
    ∃ (p : Bytes) (l : Byte), e = p ++ [l] ∧ (∀ b ∈ p, 128 ≤ b.val) ∧ l.val < 128 := by
  induction e with
  | nil => cases h
  | cons b rest ih =>
    rw [cvarint_complete] at h
    by_cases h2 : b.val &&& 0x80 ≠ 0
    · rw [if_pos h2] at h
      obtain ⟨p, l, he, hp, hl⟩ := ih h
      refine ⟨b :: p, l, by rw [he]; rfl, ?_, hl⟩
      intro x hx
      rcases List.mem_cons.1 hx with hx | hx
      · rw [hx]; exact (byte_msb_iff b).1 h2
      · exact hp x hx
    · rw [if_neg h2] at h
      have hnil : rest = [] := by simpa using h
      have hb := (byte_msb_iff b).not.1 h2
      exact ⟨[], b, by rw [hnil]; rfl, fun x hx => (by cases hx), by omega⟩

/-- The value of a run of continuation bytes and one last byte. -/
theorem cvarint_wide_split (p : Bytes) (l : Byte) (hp : ∀ b ∈ p, 128 ≤ b.val)
    (hl : l.val < 128) : ∀ n, cvarint_wide n (p ++ [l]) =
      (p.foldl (fun (a : Nat) (b : Byte) => a * 128 + b.val % 128 + 1) n) * 128 + l.val := by
  induction p with
  | nil =>
    intro n
    have h2 : ¬ (l.val &&& 0x80 ≠ 0) := (byte_msb_iff l).not.2 (by omega)
    rw [List.nil_append, cvarint_wide, if_neg h2, acc_step, Nat.mod_eq_of_lt hl]
    rfl
  | cons b rest ih =>
    intro n
    have h2 : b.val &&& 0x80 ≠ 0 := (byte_msb_iff b).2 (hp b (List.mem_cons_self _ _))
    rw [List.cons_append, cvarint_wide, if_pos h2, acc_step,
      ih (fun x hx => hp x (List.mem_cons_of_mem _ hx))]
    rfl

/-- The bias of one makes the value of a run of continuation bytes determine the run. -/
theorem cont_run_inj : ∀ (q1 q2 : Bytes), (∀ b ∈ q1, 128 ≤ b.val) → (∀ b ∈ q2, 128 ≤ b.val) →
    q1.foldr (fun (b : Byte) (a : Nat) => a * 128 + b.val % 128 + 1) 0 =
      q2.foldr (fun (b : Byte) (a : Nat) => a * 128 + b.val % 128 + 1) 0 → q1 = q2 := by
  intro q1
  induction q1 with
  | nil =>
    intro q2 _ _ h
    cases q2 with
    | nil => rfl
    | cons b r =>
      simp only [List.foldr_nil, List.foldr_cons] at h
      omega
  | cons b1 r1 ih =>
    intro q2 h1 h2 h
    cases q2 with
    | nil =>
      simp only [List.foldr_nil, List.foldr_cons] at h
      omega
    | cons b2 r2 =>
      simp only [List.foldr_cons] at h
      have hb1 := h1 b1 (List.mem_cons_self _ _)
      have hb2 := h2 b2 (List.mem_cons_self _ _)
      have hl1 := b1.isLt
      have hl2 := b2.isLt
      have hr : r1 = r2 := by
        apply ih r2 (fun x hx => h1 x (List.mem_cons_of_mem _ hx))
          (fun x hx => h2 x (List.mem_cons_of_mem _ hx))
        omega
      have hb : b1 = b2 := by
        apply Fin.ext
        omega
      rw [hr, hb]

/-- Two complete varints of the same unbounded value are the same bytes. -/
theorem cvarint_wide_inj (e1 e2 : Bytes) (h1 : cvarint_complete e1 = true)
    (h2 : cvarint_complete e2 = true) (h : cvarint_wide 0 e1 = cvarint_wide 0 e2) :
    e1 = e2 := by
  obtain ⟨p1, l1, he1, hp1, hl1⟩ := cvarint_complete_split e1 h1
  obtain ⟨p2, l2, he2, hp2, hl2⟩ := cvarint_complete_split e2 h2
  rw [he1, he2, cvarint_wide_split p1 l1 hp1 hl1, cvarint_wide_split p2 l2 hp2 hl2,
    ← List.foldr_reverse, ← List.foldr_reverse] at h
  have hq : p1.reverse = p2.reverse := by
    apply cont_run_inj _ _ (fun b hb => hp1 b (List.mem_reverse.1 hb))
      (fun b hb => hp2 b (List.mem_reverse.1 hb))
    omega
  have hl : l1 = l2 := by
    apply Fin.ext
    omega
  rw [he1, he2, List.reverse_injective hq, hl]

/-! ## How far a successful decoding has read -/

/-- The offset the standalone constructor stops at lies within the buffer, the witness
serialization of the decoded transaction is no longer than what was read, and at least ten
bytes were read. -/
theorem construct_offset_inv {env : Env} {raw : Bytes} {t : Transaction} {n : Nat}
    (h : Transaction.construct_offset env raw = .ok (t, n)) (hlen : raw.length < 2 ^ 63) :
    t.serialize_with_witness.length ≤ n ∧ n ≤ raw.length ∧ 10 ≤ n := by
  unfold Transaction.construct_offset at h
  split at h
  · cases h
  · rename_i c0
    split at h
    · cases h
    · rename_i version hver
      simp only at h
      generalize hs : (decide (sz (4 + 1) < raw.length) &&
        (at_ raw 4 == 0x00 && at_ raw (4 + 1) == 0x01)) = seg at h
      have s6 : sz (4 + 2) = 6 := by decide
      simp only [s6] at h
      split at h
      · cases h
      · rename_i input_count o1 hvar1
        obtain ⟨v1, v2, v3, v4⟩ := read_varint_ok hvar1 hlen
        split at h
        · cases h
        · rename_i ins o2 hin
          obtain ⟨i1, i2, i3, i4, i5, i6⟩ := parse_inputs_ok hlen input_count hin v2
          split at h
          · cases h
          · rename_i output_count o3 hvar2
            obtain ⟨u1, u2, u3, u4⟩ := read_varint_ok hvar2 hlen
            split at h
            · cases h
            · rename_i outs o4 hout
              obtain ⟨j1, j2, j4, j5, j6⟩ := parse_outputs_ok hlen output_count hout u2
              split at h
              · cases h
              · rename_i ins' o5 hwits
                have s7 : sz (o5 + 4) = o5 + 4 := by
                  cases seg
                  · simp only [Bool.false_eq_true, if_false, Except.ok.injEq,
                      Prod.mk.injEq] at hwits
                    obtain ⟨-, rfl⟩ := hwits
                    exact sz_of_lt (by omega)
                  · simp only [if_true] at hwits
                    obtain ⟨-, -, r3, -⟩ := parse_witnesses_ok hlen ins hwits j5 i3
                    exact sz_of_lt (by omega)
                simp only [s7] at h
                split at h
                · cases h
                · rename_i c8
                  split at h
                  · cases h
                  · rename_i locktime hlock
                    cases h
                    obtain ⟨f1, f2, f3, f4, f5, f6, f7⟩ := with_hashes_fields env
                      { version := version, outputs := outs, inputs := ins',
                        locktime := locktime, isSegwit := seg, TxIdHash := [], WTxIdHash := [] }
                    simp only at f1 f2 f3 f4 f5
                    have hv4 := length_write_varint ins.length
                    have hlen4 : (write_le [] version 4).length = 4 := by simp [length_write_le]
                    refine ⟨?_, by omega, ?_⟩
                    swap
                    · cases seg
                      · simp only [Bool.false_eq_true, if_false, Except.ok.injEq,
                          Prod.mk.injEq] at hwits v1
                        obtain ⟨-, rfl⟩ := hwits
                        omega
                      · simp only [if_true] at hwits v1
                        obtain ⟨-, r2, -, -⟩ := parse_witnesses_ok hlen ins hwits j5 i3
                        omega
                    rw [f7, length_serialize_with_witness, serialize_legacy_eq]
                    simp only [List.length_append, length_write_le, List.length_nil,
                      Nat.zero_add]
                    cases seg
                    · simp only [Bool.false_eq_true, if_false, Except.ok.injEq,
                        Prod.mk.injEq] at hwits v1 v2 v4 ⊢
                      obtain ⟨rfl, rfl⟩ := hwits
                      rw [i1, j1]
                      omega
                    · simp only [if_true] at hwits v1 v2 v4 ⊢
                      obtain ⟨r1, r2, r3, r4⟩ := parse_witnesses_ok hlen ins hwits j5 i3
                      have hl : ins'.length = ins.length := by
                        rw [← r1, List.length_map]
                      have hs' : serialize_inputs [] ins' = serialize_inputs [] ins := by
                        rw [← r1, serialize_inputs_strip]
                      rw [hl, hs', i1, j1]
                      omega

/-! ## Bytes after the transaction -/

theorem read_le_append (raw extra : Bytes) (off : Nat) :
    ∀ n, off + n ≤ raw.length → read_le (raw ++ extra) off n = read_le raw off n := by
  intro n
  induction n with
  | zero => intro _; rfl
  | succ n ih =>
    intro h
    rw [read_le, read_le, ih (by omega), at_append_left _ _ _ (by omega)]

theorem read_uint16_le_append {raw : Bytes} (extra : Bytes) {off v : Nat}
    (hlen : raw.length < 2 ^ 63) (hoff : off ≤ raw.length)
    (h : read_uint16_le raw off = .ok v) : read_uint16_le (raw ++ extra) off = .ok v := by
  have hb := (read_uint16_le_ok h).2
  rw [sz_of_lt (by omega)] at hb
  rw [read_uint16_le_eq] at h ⊢
  rw [sz_of_lt (n := off + 2) (by omega)] at h ⊢
  rw [if_neg (by omega)] at h
  rw [if_neg (by rw [List.length_append]; omega), read_le_append raw extra off 2 hb]
  exact h

theorem read_uint32_le_append {raw : Bytes} (extra : Bytes) {off v : Nat}
    (hlen : raw.length < 2 ^ 63) (hoff : off ≤ raw.length)
    (h : read_uint32_le raw off = .ok v) : read_uint32_le (raw ++ extra) off = .ok v := by
  have hb := (read_uint32_le_ok h).2
  rw [sz_of_lt (by omega)] at hb
  rw [read_uint32_le] at h ⊢
  rw [sz_of_lt (n := off + 4) (by omega)] at h ⊢
  rw [if_neg (by omega)] at h
  rw [if_neg (by rw [List.length_append]; omega), read_le_append raw extra off 4 hb]
  exact h

theorem read_uint64_le_append {raw : Bytes} (extra : Bytes) {off v : Nat}
    (hlen : raw.length < 2 ^ 63) (hoff : off ≤ raw.length)
    (h : read_uint64_le raw off = .ok v) : read_uint64_le (raw ++ extra) off = .ok v := by
  have hb := (read_uint64_le_ok h).2
  rw [sz_of_lt (by omega)] at hb
  rw [read_uint64_le] at h ⊢
  rw [sz_of_lt (n := off + 8) (by omega)] at h ⊢
  rw [if_neg (by omega)] at h
  rw [if_neg (by rw [List.length_append]; omega), read_le_append raw extra off 8 hb]
  exact h

/-- A CompactSize read from a buffer is read alike when bytes follow the buffer. -/
theorem read_varint_append {raw : Bytes} (extra : Bytes) {off : Nat} {r : Nat × Nat}
    (hlen : raw.length < 2 ^ 63)
    (h : read_varint raw off = .ok r) : read_varint (raw ++ extra) off = .ok r := by
  unfold read_varint at h ⊢
  by_cases h0 : off ≥ raw.length
  · rw [if_pos h0] at h; cases h
  · rw [if_neg h0] at h
    rw [if_neg (by rw [List.length_append]; omega), at_append_left _ _ _ (by omega)]
    simp only [] at h ⊢
    rw [sz_of_lt (n := off + 1) (by omega)] at h ⊢
    by_cases c1 : (at_ raw off).val < 0xFD
    · rw [if_pos c1] at h ⊢; exact h
    · rw [if_neg c1] at h ⊢
      by_cases c2 : (at_ raw off).val = 0xFD
      · rw [if_pos c2] at h ⊢
        cases hr : read_uint16_le raw (off + 1) with
        | error e => rw [hr] at h; cases h
        | ok v =>
          rw [hr] at h
          rw [read_uint16_le_append extra hlen (by omega) hr]
          exact h
      · rw [if_neg c2] at h ⊢
        by_cases c3 : (at_ raw off).val = 0xFE
        · rw [if_pos c3] at h ⊢
          cases hr : read_uint32_le raw (off + 1) with
          | error e => rw [hr] at h; cases h
          | ok v =>
            rw [hr] at h
            rw [read_uint32_le_append extra hlen (by omega) hr]
            exact h
        · rw [if_neg c3] at h ⊢
          cases hr : read_uint64_le raw (off + 1) with
          | error e => rw [hr] at h; cases h
          | ok v =>
            rw [hr] at h
            rw [read_uint64_le_append extra hlen (by omega) hr]
            exact h

theorem parse_input_append {raw : Bytes} (extra : Bytes) {off : Nat} {r : TxIn × Nat}
    (hlen : raw.length < 2 ^ 63) (hoff : off ≤ raw.length)
    (h : parse_input raw off = .ok r) : parse_input (raw ++ extra) off = .ok r := by
  have hla : (raw ++ extra).length = raw.length + extra.length := List.length_append _ _
  unfold parse_input at h ⊢
  rw [sz_of_lt (n := off + 32) (by omega)] at h ⊢
  by_cases h1 : off + 32 > raw.length
  · rw [if_pos h1] at h; cases h
  · rw [if_neg h1] at h
    rw [if_neg (by omega)]
    simp only [] at h ⊢
    rw [sz_of_lt (n := off + 32 + 4) (by omega)] at h ⊢
    by_cases h2 : off + 32 + 4 > raw.length
    · rw [if_pos h2] at h; cases h
    · rw [if_neg h2] at h
      rw [if_neg (by omega)]
      cases hv : read_uint32_le raw (off + 32) with
      | error e => rw [hv] at h; cases h
      | ok vout =>
        rw [hv] at h
        rw [read_uint32_le_append extra hlen (by omega) hv]
        simp only [] at h ⊢
        cases hvar : read_varint raw (off + 32 + 4) with
        | error e => rw [hvar] at h; cases h
        | ok p =>
          obtain ⟨script_len, o2⟩ := p
          rw [hvar] at h
          rw [read_varint_append extra hlen hvar]
          obtain ⟨b1, b2, b3, -⟩ := read_varint_ok hvar hlen
          simp only [] at h ⊢
          by_cases h3 : sz (o2 + script_len) > raw.length
          · rw [if_pos h3] at h; cases h
          · rw [if_neg h3] at h
            by_cases h4 : o2 + script_len ≥ 2 ^ 64
            · rw [if_pos h4] at h; cases h
            · rw [if_neg h4] at h
              rw [sz_of_lt (n := o2 + script_len) (by omega)] at h h3 ⊢
              rw [if_neg (by omega), if_neg h4]
              rw [sz_of_lt (n := o2 + script_len + 4) (by omega)] at h ⊢
              by_cases h5 : o2 + script_len + 4 > raw.length
              · rw [if_pos h5] at h; cases h
              · rw [if_neg h5] at h
                rw [if_neg (by omega)]
                cases hq : read_uint32_le raw (o2 + script_len) with
                | error e => rw [hq] at h; cases h
                | ok sequence =>
                  rw [hq] at h
                  rw [read_uint32_le_append extra hlen (by omega) hq,
                    slice_append_left raw extra off 32 (by omega),
                    slice_append_left raw extra o2 script_len (by omega)]
                  exact h

theorem parse_inputs_append {raw : Bytes} (extra : Bytes) (hlen : raw.length < 2 ^ 63) :
    ∀ (n : Nat) {off : Nat} {r : List TxIn × Nat}, off ≤ raw.length →
      parse_inputs raw n off = .ok r → parse_inputs (raw ++ extra) n off = .ok r := by
  intro n
  induction n with
  | zero => intro off r _ h; exact h
  | succ n ih =>
    intro off r hoff h
    rw [parse_inputs] at h ⊢
    cases h1 : parse_input raw off with
    | error e => rw [h1] at h; cases h
    | ok p =>
      obtain ⟨txin, o1⟩ := p
      rw [h1] at h
      rw [parse_input_append extra hlen hoff h1]
      simp only [] at h ⊢
      obtain ⟨-, -, -, b4, -⟩ := parse_input_ok h1 hlen hoff
      cases h2 : parse_inputs raw n o1 with
      | error e => rw [h2] at h; cases h
      | ok q =>
        rw [h2] at h
        rw [ih b4 h2]
        exact h

theorem parse_output_append {raw : Bytes} (extra : Bytes) {off : Nat} {r : TxOut × Nat}
    (hlen : raw.length < 2 ^ 63) (hoff : off ≤ raw.length)
    (h : parse_output raw off = .ok r) : parse_output (raw ++ extra) off = .ok r := by
  have hla : (raw ++ extra).length = raw.length + extra.length := List.length_append _ _
  unfold parse_output at h ⊢
  rw [sz_of_lt (n := off + 8) (by omega)] at h ⊢
  by_cases h1 : off + 8 > raw.length
  · rw [if_pos h1] at h; cases h
  · rw [if_neg h1] at h
    rw [if_neg (by omega)]
    cases hv : read_uint64_le raw off with
    | error e => rw [hv] at h; cases h
    | ok amount =>
      rw [hv] at h
      rw [read_uint64_le_append extra hlen (by omega) hv]
      simp only [] at h ⊢
      cases hvar : read_varint raw (off + 8) with
      | error e => rw [hvar] at h; cases h
      | ok p =>
        obtain ⟨script_len, o2⟩ := p
        rw [hvar] at h
        rw [read_varint_append extra hlen hvar]
        obtain ⟨b1, b2, b3, -⟩ := read_varint_ok hvar hlen
        simp only [] at h ⊢
        by_cases h3 : sz (o2 + script_len) > raw.length
        · rw [if_pos h3] at h; cases h
        · rw [if_neg h3] at h
          by_cases h4 : o2 + script_len ≥ 2 ^ 64
          · rw [if_pos h4] at h; cases h
          · rw [if_neg h4] at h
            rw [sz_of_lt (n := o2 + script_len) (by omega)] at h h3 ⊢
            rw [if_neg (by omega), if_neg h4,
              slice_append_left raw extra o2 script_len (by omega)]
            exact h

theorem parse_outputs_append {raw : Bytes} (extra : Bytes) (hlen : raw.length < 2 ^ 63) :
    ∀ (n : Nat) {off : Nat} {r : List TxOut × Nat}, off ≤ raw.length →
      parse_outputs raw n off = .ok r → parse_outputs (raw ++ extra) n off = .ok r := by
  intro n
  induction n with
  | zero => intro off r _ h; exact h
  | succ n ih =>
    intro off r hoff h
    rw [parse_outputs] at h ⊢
    cases h1 : parse_output raw off with
    | error e => rw [h1] at h; cases h
    | ok p =>
      obtain ⟨o, o1⟩ := p
      rw [h1] at h
      rw [parse_output_append extra hlen hoff h1]
      simp only [] at h ⊢
      obtain ⟨-, -, b3, -⟩ := parse_output_ok h1 hlen hoff
      cases h2 : parse_outputs raw n o1 with
      | error e => rw [h2] at h; cases h
      | ok q =>
        rw [h2] at h
        rw [ih b3 h2]
        exact h

theorem parse_witness_item_append {raw : Bytes} (extra : Bytes) {off : Nat} {r : Bytes × Nat}
    (hlen : raw.length < 2 ^ 63)
    (h : parse_witness_item raw off = .ok r) :
    parse_witness_item (raw ++ extra) off = .ok r := by
  have hla : (raw ++ extra).length = raw.length + extra.length := List.length_append _ _
  unfold parse_witness_item at h ⊢
  cases hvar : read_varint raw off with
  | error e => rw [hvar] at h; cases h
  | ok p =>
    obtain ⟨item_len, o2⟩ := p
    rw [hvar] at h
    rw [read_varint_append extra hlen hvar]
    obtain ⟨b1, b2, b3, -⟩ := read_varint_ok hvar hlen
    simp only [] at h ⊢
    by_cases h3 : sz (o2 + item_len) > raw.length
    · rw [if_pos h3] at h; cases h
    · rw [if_neg h3] at h
      by_cases h4 : o2 + item_len ≥ 2 ^ 64
      · rw [if_pos h4] at h; cases h
      · rw [if_neg h4] at h
        rw [sz_of_lt (n := o2 + item_len) (by omega)] at h h3 ⊢
        rw [if_neg (by omega), if_neg h4,
          slice_append_left raw extra o2 item_len (by omega)]
        exact h

theorem parse_witness_items_append {raw : Bytes} (extra : Bytes) (hlen : raw.length < 2 ^ 63) :
    ∀ (n : Nat) {off : Nat} {r : List Bytes × Nat},
      parse_witness_items raw n off = .ok r →
      parse_witness_items (raw ++ extra) n off = .ok r := by
  intro n
  induction n with
  | zero => intro off r h; exact h
  | succ n ih =>
    intro off r h
    rw [parse_witness_items] at h ⊢
    cases h1 : parse_witness_item raw off with
    | error e => rw [h1] at h; cases h
    | ok p =>
      obtain ⟨item, o1⟩ := p
      rw [h1] at h
      rw [parse_witness_item_append extra hlen h1]
      simp only [] at h ⊢
      cases h2 : parse_witness_items raw n o1 with
      | error e => rw [h2] at h; cases h
      | ok q =>
        rw [h2] at h
        rw [ih h2]
        exact h

theorem parse_witnesses_append {raw : Bytes} (extra : Bytes) (hlen : raw.length < 2 ^ 63) :
    ∀ (ins : List TxIn) {off : Nat} {r : List TxIn × Nat},
      parse_witnesses raw ins off = .ok r →
      parse_witnesses (raw ++ extra) ins off = .ok r := by
  intro ins
  induction ins with
  | nil => intro off r h; exact h
  | cons txin rest ih =>
    intro off r h
    rw [parse_witnesses] at h ⊢
    cases hvar : read_varint raw off with
    | error e => rw [hvar] at h; cases h
    | ok p =>
      obtain ⟨item_count, o1⟩ := p
      rw [hvar] at h
      rw [read_varint_append extra hlen hvar]
      simp only [] at h ⊢
      cases h1 : parse_witness_items raw item_count o1 with
      | error e => rw [h1] at h; cases h
      | ok q =>
        obtain ⟨items, o2⟩ := q
        rw [h1] at h
        rw [parse_witness_items_append extra hlen item_count h1]
        simp only [] at h ⊢
        cases h2 : parse_witnesses raw rest o2 with
        | error e => rw [h2] at h; cases h
        | ok q2 =>
          rw [h2] at h
          rw [ih h2]
          exact h

/-- The standalone constructor does not look past what it decodes: when it succeeds on a
buffer, it succeeds alike, and stops at the same offset, when bytes follow the buffer. -/
theorem construct_offset_append (env : Env) {raw : Bytes} (extra : Bytes)
    {r : Transaction × Nat} (hlen : raw.length < 2 ^ 63)
    (h : Transaction.construct_offset env raw = .ok r) :
    Transaction.construct_offset env (raw ++ extra) = .ok r := by
  have hla : (raw ++ extra).length = raw.length + extra.length := List.length_append _ _
  have h10 : 10 ≤ raw.length := by
    obtain ⟨t, n⟩ := r
    obtain ⟨-, a, b⟩ := construct_offset_inv h hlen
    omega
  unfold Transaction.construct_offset at h ⊢
  rw [if_neg (by omega)] at h
  rw [if_neg (by omega)]
  cases hv : read_uint32_le raw 0 with
  | error e => rw [hv] at h; cases h
  | ok version =>
    rw [hv] at h
    rw [read_uint32_le_append extra hlen (by omega) hv]
    simp only [] at h ⊢
    have hseg : (decide (sz (4 + 1) < (raw ++ extra).length) &&
          (at_ (raw ++ extra) 4 == 0x00 && at_ (raw ++ extra) (4 + 1) == 0x01)) =
        (decide (sz (4 + 1) < raw.length) && (at_ raw 4 == 0x00 && at_ raw (4 + 1) == 0x01)) := by
      have s5 : sz (4 + 1) = 5 := by decide
      rw [s5, at_append_left _ _ _ (by omega), at_append_left _ _ _ (by omega),
        decide_eq_true (show 5 < (raw ++ extra).length by omega),
        decide_eq_true (show 5 < raw.length by omega)]
    rw [hseg]
    generalize (decide (sz (4 + 1) < raw.length) &&
      (at_ raw 4 == 0x00 && at_ raw (4 + 1) == 0x01)) = seg at h ⊢
    have s6 : sz (4 + 2) = 6 := by decide
    rw [s6] at h ⊢
    cases h1 : read_varint raw (if seg = true then 6 else 4) with
    | error e => rw [h1] at h; cases h
    | ok p1 =>
      obtain ⟨input_count, o1⟩ := p1
      rw [h1] at h
      rw [read_varint_append extra hlen h1]
      obtain ⟨-, v2, -, -⟩ := read_varint_ok h1 hlen
      simp only [] at h ⊢
      cases h2 : parse_inputs raw input_count o1 with
      | error e => rw [h2] at h; cases h
      | ok p2 =>
        obtain ⟨ins, o2⟩ := p2
        rw [h2] at h
        rw [parse_inputs_append extra hlen input_count v2 h2]
        obtain ⟨-, -, i3, -, i5, -⟩ := parse_inputs_ok hlen input_count h2 v2
        simp only [] at h ⊢
        cases h3 : read_varint raw o2 with
        | error e => rw [h3] at h; cases h
        | ok p3 =>
          obtain ⟨output_count, o3⟩ := p3
          rw [h3] at h
          rw [read_varint_append extra hlen h3]
          obtain ⟨-, u2, -, -⟩ := read_varint_ok h3 hlen
          simp only [] at h ⊢
          cases h4 : parse_outputs raw output_count o3 with
          | error e => rw [h4] at h; cases h
          | ok p4 =>
            obtain ⟨outs, o4⟩ := p4
            rw [h4] at h
            rw [parse_outputs_append extra hlen output_count u2 h4]
            obtain ⟨-, -, -, j5, -⟩ := parse_outputs_ok hlen output_count h4 u2
            simp only [] at h ⊢
            have hw : ∀ p5 : List TxIn × Nat,
                (if seg = true then parse_witnesses raw ins o4 else .ok (ins, o4)) = .ok p5 →
                (if seg = true then parse_witnesses (raw ++ extra) ins o4 else .ok (ins, o4))
                  = .ok p5 ∧ p5.2 ≤ raw.length := by
              intro p5 h5
              cases seg
              · simp only [Bool.false_eq_true, if_false] at h5 ⊢
                refine ⟨h5, ?_⟩
                cases h5
                exact j5
              · simp only [if_true] at h5 ⊢
                refine ⟨parse_witnesses_append extra hlen ins h5, ?_⟩
                obtain ⟨ins', o5⟩ := p5
                exact (parse_witnesses_ok hlen ins h5 j5 i3).2.2.1
            cases h5 : (if seg = true then parse_witnesses raw ins o4 else .ok (ins, o4)) with
            | error e => rw [h5] at h; cases h
            | ok p5 =>
              obtain ⟨hw1, hw2⟩ := hw p5 h5
              obtain ⟨ins', o5⟩ := p5
              rw [h5] at h
              rw [hw1]
              simp only [] at h hw2 ⊢
              rw [sz_of_lt (n := o5 + 4) (by omega)] at h ⊢
              by_cases h6 : o5 + 4 > raw.length
              · rw [if_pos h6] at h; cases h
              · rw [if_neg h6] at h
                rw [if_neg (by omega)]
                cases h7 : read_uint32_le raw o5 with
                | error e => rw [h7] at h; cases h
                | ok locktime =>
                  rw [h7] at h
                  rw [read_uint32_le_append extra hlen (by omega) h7]
                  exact h

/-- The same for the decoded transaction alone. -/
theorem construct_append (env : Env) {raw : Bytes} (extra : Bytes) {t : Transaction}
    (hlen : raw.length < 2 ^ 63) (h : Transaction.construct env raw = .ok t) :
    Transaction.construct env (raw ++ extra) = .ok t := by
  rw [construct_eq_map] at h ⊢
  cases ho : Transaction.construct_offset env raw with
  | error e => rw [ho] at h; cases h
  | ok r =>
    rw [ho] at h
    rw [construct_offset_append env extra hlen ho]
    exact h

/-! ## Prevouts rebuilt from the inputs -/

theorem build_prevout_map_duplicate (ps : List Prevout) :
    ∀ (acc : List (String × Prevout)) (e : Fault),
      build_prevout_map ps acc = .error e →
      ∃ key, e = .runtime_error ("Duplicate prevout in fixture: " ++ key) := by
  induction ps with
  | nil => intro acc e h; cases h
  | cons p rest ih =>
    intro acc e h
    rw [build_prevout_map] at h
    by_cases hd : (acc.lookup p.key).isSome = true
    · rw [if_pos hd] at h
      cases h
      exact ⟨_, rfl⟩
    · rw [if_neg hd] at h
      exact ih _ e h

theorem lookup_of_mem_nodup (m : List (String × Prevout)) (hnd : (m.map Prod.fst).Nodup)
    (k : String) (v : Prevout) (h : (k, v) ∈ m) : m.lookup k = some v := by
  induction m with
  | nil => cases h
  | cons x rest ih =>
    obtain ⟨k', v'⟩ := x
    rw [List.map_cons, List.nodup_cons] at hnd
    rw [List.lookup_cons]
    rcases List.mem_cons.1 h with heq | hmem
    · cases heq
      simp
    · have hne : k ≠ k' := by
        intro hk
        apply hnd.1
        rw [← hk]
        exact List.mem_map.2 ⟨(k, v), hmem, rfl⟩
      have hb : (k == k') = false := by simpa using hne
      rw [hb]
      exact ih hnd.2 hmem

theorem build_prevouts_keys : ∀ (inputs : List TxIn) (coins : List UndoCoin),
    inputs.length = coins.length →
    (build_prevouts inputs coins).map Prevout.key = inputs.map TxIn.key := by
  intro inputs
  induction inputs with
  | nil => intro coins _; rfl
  | cons txin rest ih =>
    intro coins h
    cases coins with
    | nil => cases h
    | cons coin coins =>
      have h' : rest.length = coins.length := by simpa using h
      have := ih coins h'
      unfold build_prevouts at this ⊢
      rw [List.zipWith_cons_cons, List.map_cons, List.map_cons, this]
      rfl

theorem build_prevouts_outpoints : ∀ (inputs : List TxIn) (coins : List UndoCoin),
    inputs.length = coins.length →
    (build_prevouts inputs coins).map Prevout.outpoint =
      inputs.map (fun txin => (reverse_32 txin.prevTxId, txin.vout)) := by
  intro inputs
  induction inputs with
  | nil => intro coins _; rfl
  | cons txin rest ih =>
    intro coins h
    cases coins with
    | nil => cases h
    | cons coin coins =>
      have h' : rest.length = coins.length := by simpa using h
      have := ih coins h'
      unfold build_prevouts at this ⊢
      rw [List.zipWith_cons_cons, List.map_cons, List.map_cons, this]
      rfl

theorem build_prevouts_txid (inputs : List TxIn) (coins : List UndoCoin) :
    ∀ p ∈ build_prevouts inputs coins, p.txid.length = 32 := by
  intro p hp
  unfold build_prevouts at hp
  rw [List.mem_iff_getElem] at hp
  obtain ⟨i, hi, rfl⟩ := hp
  rw [List.getElem_zipWith]
  exact length_reverse_32 _

/-- Reversing the identifiers does not change which inputs name the same output. -/
theorem outpoint_nodup_iff (inputs : List TxIn) (h32 : ∀ txin ∈ inputs, txin.prevTxId.length = 32) :
    (inputs.map (fun txin => (reverse_32 txin.prevTxId, txin.vout))).Nodup ↔
      (inputs.map (fun txin => (txin.prevTxId, txin.vout))).Nodup := by
  have hk : inputs.map (fun txin => (reverse_32 txin.prevTxId, txin.vout))
      = (inputs.map (fun txin => (txin.prevTxId, txin.vout))).map
          (fun (o : Bytes × Nat) => (reverse_32 o.1, o.2)) := by
    simp [List.map_map, Function.comp_def]
  rw [hk]
  constructor
  · exact List.Nodup.of_map _
  · intro h
    apply List.Nodup.map_on _ h
    intro x hx y hy hxy
    obtain ⟨a, ha, rfl⟩ := List.mem_map.mp hx
    obtain ⟨b, hb, rfl⟩ := List.mem_map.mp hy
    simp only [Prod.mk.injEq] at hxy ⊢
    refine ⟨?_, hxy.2⟩
    rw [← reverse_32_reverse_32 a.prevTxId (h32 a ha),
      ← reverse_32_reverse_32 b.prevTxId (h32 b hb), hxy.1]

/-- What `build_inputs` stores as the prevout of an input: nothing for an input that passes
the test `is_coinbase`, and the value and script of the prevout found under its key
otherwise. -/
theorem build_input_prevout {env : Env} {m : List (String × Prevout)} {txin : TxIn}
    {ai : AccountedInput} (h : build_input env m txin = .ok ai) :
    (is_coinbase txin = true →
      ai.prevout_value_sats = 0 ∧ ai.prevout_script_pubkey_hex = "") ∧
    (is_coinbase txin = false → ∃ prev, m.lookup txin.key = some prev ∧
      ai.prevout_value_sats = prev.value_sats ∧
      ai.prevout_script_pubkey_hex = bytes_to_hex prev.script_pubkey_hex) := by
  unfold build_input at h
  simp only [] at h
  cases hcb : is_coinbase txin
  · rw [hcb, if_neg (by decide)] at h
    refine ⟨fun hc => (by cases hc), fun _ => ?_⟩
    cases hl : m.lookup txin.key with
    | none => rw [hl] at h; cases h
    | some prev =>
      rw [hl] at h
      simp only [] at h
      cases hp : process_output_script env prev.script_pubkey_hex with
      | error e => rw [hp] at h; cases h
      | ok pspk =>
        rw [hp] at h
        cases h
        exact ⟨prev, rfl, rfl, rfl⟩
  · rw [hcb, if_pos rfl] at h
    cases h
    exact ⟨fun _ => ⟨rfl, rfl⟩, fun hc => (by cases hc)⟩

/-- With pairwise different keys in the map, each input is given the coin of its own
index. -/
theorem build_inputs_coins (env : Env) (m : List (String × Prevout))
    (hnd : (m.map Prod.fst).Nodup) :
    ∀ (inputs : List TxIn) (coins : List UndoCoin) (ais : List AccountedInput),
      (∀ p ∈ build_prevouts inputs coins, (p.key, p) ∈ m) →
      inputs.length = coins.length →
      build_inputs env m inputs = .ok ais →
      ais.map (fun ai => (ai.prevout_value_sats, ai.prevout_script_pubkey_hex)) =
        List.zipWith (fun txin coin =>
          if is_coinbase txin = true then (0, "")
          else (coin.value, bytes_to_hex coin.scriptPubKey)) inputs coins := by
  intro inputs
  induction inputs with
  | nil =>
    intro coins ais _ _ h
    cases h
    rfl
  | cons txin rest ih =>
    intro coins ais hmem hlen h
    cases coins with
    | nil => cases hlen
    | cons coin coins =>
      have hlen' : rest.length = coins.length := by simpa using hlen
      have hbp : build_prevouts (txin :: rest) (coin :: coins) =
          { txid := reverse_32 txin.prevTxId, vout := txin.vout, value_sats := coin.value,
            script_pubkey_hex := coin.scriptPubKey } :: build_prevouts rest coins := rfl
      rw [hbp] at hmem
      rw [build_inputs] at h
      cases h1 : build_input env m txin with
      | error e => rw [h1] at h; cases h
      | ok ai =>
        rw [h1] at h
        simp only [] at h
        cases h2 : build_inputs env m rest with
        | error e => rw [h2] at h; cases h
        | ok ais' =>
          rw [h2] at h
          cases h
          rw [List.map_cons, List.zipWith_cons_cons,
            ih coins ais' (fun p hp => hmem p (List.mem_cons_of_mem _ hp)) hlen' h2]
          congr 1
          obtain ⟨hc1, hc2⟩ := build_input_prevout h1
          cases hcb : is_coinbase txin
          · obtain ⟨prev, hl, hv, hs⟩ := hc2 hcb
            have hfound := lookup_of_mem_nodup m hnd _ _ (hmem _ (List.mem_cons_self _ _))
            have hkey : Prevout.key ⟨reverse_32 txin.prevTxId, txin.vout, coin.value,
                coin.scriptPubKey⟩ = txin.key := rfl
            rw [hkey, hl] at hfound
            cases hfound
            rw [if_neg (by decide), hv, hs]
          · obtain ⟨hv, hs⟩ := hc1 hcb
            rw [if_pos rfl, hv, hs]

/-- With no prevouts at all, the first input that fails the test `is_coinbase` is reported
missing. -/
theorem build_inputs_empty_map (env : Env) :
    ∀ (inputs : List TxIn), (∃ txin ∈ inputs, is_coinbase txin = false) →
      ∃ key, build_inputs env [] inputs =
        .error (.runtime_error ("Missing prevout for input: " ++ key)) := by
  intro inputs
  induction inputs with
  | nil => rintro ⟨txin, hmem, -⟩; cases hmem
  | cons t rest ih =>
    rintro ⟨txin, hmem, hcb⟩
    rw [build_inputs]
    cases ht : is_coinbase t
    · refine ⟨t.key, ?_⟩
      have : build_input env [] t =
          .error (.runtime_error ("Missing prevout for input: " ++ t.key)) := by
        unfold build_input
        simp only []
        rw [ht, if_neg (by decide)]
        rfl
      rw [this]
    · obtain ⟨ai, hai, -⟩ := build_input_coinbase env [] t ht
      rw [hai]
      simp only []
      have hrest : ∃ txin ∈ rest, is_coinbase txin = false := by
        rcases List.mem_cons.1 hmem with heq | hmem'
        · rw [heq, ht] at hcb; cases hcb
        · exact ⟨txin, hmem', hcb⟩
      obtain ⟨key, hkey⟩ := ih hrest
      rw [hkey]
      exact ⟨key, rfl⟩

theorem duplicate_ne_missing (k1 k2 : String) :
    ("Duplicate prevout in fixture: " ++ k1 : String) ≠ "Missing prevout for input: " ++ k2 := by
  intro h
  have hd := congrArg String.data h
  simp only [String.data_append] at hd
  have h0 := congrArg List.head? hd
  simp only [List.cons_append, List.head?_cons, Option.some.injEq] at h0
  revert h0
  decide

/-! ## Claims -/

/-- C4. CompactSize round trip: after `write_varint(b, v)` with `v` a 64-bit value,
`read_varint(b, off)` at `off` = the old length of `b` returns `v` and leaves `off` at the new
length of `b`; the encoding appended to `b` is the single byte `v` when `v < 0xFD`, `0xFD` and
two bytes when `v <= 0xFFFF`, `0xFE` and four bytes when `v <= 0xFFFFFFFF`, `0xFF` and eight
bytes otherwise, the value bytes little-endian (byte `i` is `v / 256^i mod 256`). -/
theorem compactsize_round_trip (b : Bytes) (v : Nat) (hv : v < 2 ^ 64)
    (hb : b.length < 2 ^ 63) :
    read_varint (write_varint b v) b.length = .ok (v, (write_varint b v).length) ∧
    (v < 0xFD → write_varint b v = b ++ [toByte v]) ∧
    (0xFD ≤ v → v ≤ 0xFFFF →
      write_varint b v = b ++ [0xFD, toByte v, toByte (v / 256)]) ∧
    (0xFFFF < v → v ≤ 0xFFFFFFFF →
      write_varint b v =
        b ++ [0xFE, toByte v, toByte (v / 256), toByte (v / 256 ^ 2), toByte (v / 256 ^ 3)]) ∧
    (0xFFFFFFFF < v →
      write_varint b v =
        b ++ [0xFF, toByte v, toByte (v / 256), toByte (v / 256 ^ 2), toByte (v / 256 ^ 3),
          toByte (v / 256 ^ 4), toByte (v / 256 ^ 5), toByte (v / 256 ^ 6),
          toByte (v / 256 ^ 7)]) := by
  refine ⟨?_, ?_, ?_, ?_, ?_⟩
  · have h := read_varint_write_varint b [] v hv (by omega)
    rw [List.append_nil, ← write_varint_eq] at h
    have hl : (write_varint b v).length = b.length + (write_varint [] v).length := by
      conv_lhs => rw [write_varint_eq]
      exact List.length_append _ _
    rw [h, hl]
  · intro h
    simp [write_varint, h]
  · intro h1 h2
    have g1 : ¬ v < 0xFD := by omega
    simp [write_varint, g1, h2, write_le, Nat.shiftRight_eq_div_pow]
  · intro h1 h2
    have g1 : ¬ v < 0xFD := by omega
    have g2 : ¬ v ≤ 0xFFFF := by omega
    simp [write_varint, g1, g2, h2, write_le, Nat.shiftRight_eq_div_pow]
  · intro h1
    have g1 : ¬ v < 0xFD := by omega
    have g2 : ¬ v ≤ 0xFFFF := by omega
    have g3 : ¬ v ≤ 0xFFFFFFFF := by omega
    simp [write_varint, g1, g2, g3, write_le, Nat.shiftRight_eq_div_pow]

/-- Instance of C4 at the buffer `[1, 2]` and the value 300. -/
theorem compactsize_round_trip_witness :
    read_varint (write_varint [1, 2] 300) 2 = .ok (300, (write_varint [1, 2] 300).length) :=
  (compactsize_round_trip [1, 2] 300 (by decide) (by decide)).1

/-- The quotient `(w + 3) / 4` is the ceiling of `w / 4`. -/
theorem add_three_div_four_eq_ceil (w : Nat) : (w + 3) / 4 = ⌈(w : ℚ) / 4⌉₊ := by
  symm
  rcases Nat.eq_zero_or_pos w with h0 | hpos
  · subst h0; simp
  · have hn : (w + 3) / 4 ≠ 0 := by omega
    rw [Nat.ceil_eq_iff hn]
    constructor
    · rw [lt_div_iff₀ (by norm_num : (0 : ℚ) < 4)]
      have h : ((w + 3) / 4 - 1) * 4 < w := by omega
      exact_mod_cast h
    · rw [div_le_iff₀ (by norm_num : (0 : ℚ) < 4)]
      have h : w ≤ (w + 3) / 4 * 4 := by omega
      exact_mod_cast h

/-- The weight of a transaction whose serialization fits the address space, without the
64-bit reductions. -/
theorem get_weight_eq (t : Transaction) (hsize : t.serialize_with_witness.length < 2 ^ 62) :
    t.get_weight =
      4 * t.serialize_legacy.length
        + (t.serialize_with_witness.length - t.serialize_legacy.length) := by
  have hl := length_serialize_with_witness t
  simp only [Transaction.get_weight, sz]
  omega

/-- C3. For every transaction (whose serialization fits the 64-bit address space, so that
`4 * size` is representable), `get_weight` is `4 * legacy_size + (full_size - legacy_size)`
computed in the natural numbers, with `legacy_size <= full_size`; `get_size_bytes` is the
length of the witness serialization; and `get_vbytes` is the ceiling of `get_weight / 4`. -/
theorem weight_identity (t : Transaction) (hsize : t.serialize_with_witness.length < 2 ^ 62) :
    t.serialize_legacy.length ≤ t.serialize_with_witness.length ∧
    t.get_weight =
      4 * t.serialize_legacy.length
        + (t.serialize_with_witness.length - t.serialize_legacy.length) ∧
    t.get_size_bytes = t.serialize_with_witness.length ∧
    t.get_vbytes = ⌈(t.get_weight : ℚ) / 4⌉₊ := by
  have hl := length_serialize_with_witness t
  have hw := get_weight_eq t hsize
  refine ⟨by omega, hw, rfl, ?_⟩
  rw [← add_three_div_four_eq_ceil]
  have h3 : sz (t.get_weight + 3) = t.get_weight + 3 := sz_of_lt (by omega)
  simp only [Transaction.get_vbytes, h3]

/-- Instance of C3 at `sample_segwit_tx`: 61 legacy bytes, 67 bytes in all, weight 250. -/
theorem weight_identity_witness :
    sample_segwit_tx.serialize_with_witness.length < 2 ^ 62 ∧
    sample_segwit_tx.get_weight = 4 * 61 + (67 - 61) :=
  ⟨by decide, (weight_identity sample_segwit_tx (by decide)).2.1.trans (by decide)⟩

/-- C5. `classify_output_script(s)` is P2PKH iff `s` is `76 A9 14 <20 bytes> 88 AC` (25
bytes), P2SH iff `s` is `A9 14 <20 bytes> 87` (23 bytes), P2WPKH iff `s` is `00 14 <20 bytes>`
(22 bytes), P2WSH iff `s` is `00 20 <32 bytes>` (34 bytes), P2TR iff `s` is `51 20 <32 bytes>`
(34 bytes), OP_RETURN iff `s` is non-empty with first byte `6A`, and UNKNOWN exactly when `s`
has none of these six shapes. -/
theorem classify_output_script_spec (s : Bytes) :
    (classify_output_script s = .P2PKH ↔
      s.length = 25 ∧ ∃ h : Bytes, h.length = 20 ∧ s = [0x76, 0xA9, 0x14] ++ h ++ [0x88, 0xAC]) ∧
    (classify_output_script s = .P2SH ↔
      s.length = 23 ∧ ∃ h : Bytes, h.length = 20 ∧ s = [0xA9, 0x14] ++ h ++ [0x87]) ∧
    (classify_output_script s = .P2WPKH ↔
      s.length = 22 ∧ ∃ h : Bytes, h.length = 20 ∧ s = [0x00, 0x14] ++ h) ∧
    (classify_output_script s = .P2WSH ↔
      s.length = 34 ∧ ∃ h : Bytes, h.length = 32 ∧ s = [0x00, 0x20] ++ h) ∧
    (classify_output_script s = .P2TR ↔
      s.length = 34 ∧ ∃ h : Bytes, h.length = 32 ∧ s = [0x51, 0x20] ++ h) ∧
    (classify_output_script s = .OP_RETURN ↔ ∃ rest : Bytes, s = 0x6A :: rest) ∧
    (classify_output_script s = .UNKNOWN ↔
      ¬ (∃ h : Bytes, h.length = 20 ∧ s = [0x76, 0xA9, 0x14] ++ h ++ [0x88, 0xAC]) ∧
      ¬ (∃ h : Bytes, h.length = 20 ∧ s = [0xA9, 0x14] ++ h ++ [0x87]) ∧
      ¬ (∃ h : Bytes, h.length = 20 ∧ s = [0x00, 0x14] ++ h) ∧
      ¬ (∃ h : Bytes, h.length = 32 ∧ s = [0x00, 0x20] ++ h) ∧
      ¬ (∃ h : Bytes, h.length = 32 ∧ s = [0x51, 0x20] ++ h) ∧
      ¬ (∃ rest : Bytes, s = 0x6A :: rest)) := by
  obtain ⟨h1, h2, h3, h4, h5, h6, h7⟩ := classify_output_script_iff_at s
  rw [h1, h2, h3, h4, h5, h6, h7]
  simp only [p2pkh_shape_iff, p2sh_shape_iff, witness_program_shape_iff, op_return_shape_iff]
  simp

/-- C6, as stated, fails: the P2WSH script `00 20 <32 zero bytes>` with its first byte (a
fixed byte of the template) changed to `51` has the same length, differs in that byte only,
and is classified P2TR, not UNKNOWN. -/
theorem template_one_byte_change_counterexample :
    classify_output_script ([0x00, 0x20] ++ List.replicate 32 0) = .P2WSH ∧
    0 ∈ template_fixed .P2WSH ∧
    (0x51 : Byte) ≠ at_ ([0x00, 0x20] ++ List.replicate 32 0) 0 ∧
    (([0x00, 0x20] ++ List.replicate 32 0 : Bytes).set 0 0x51).length
      = ([0x00, 0x20] ++ List.replicate 32 0 : Bytes).length ∧
    classify_output_script (([0x00, 0x20] ++ List.replicate 32 0 : Bytes).set 0 0x51)
      = .P2TR := by
  decide

/-- C6, amended. Let `s` match one of the five standard templates and let `s'` be `s` with
one fixed (non-payload) byte of that template replaced by a different value. Then `s'` is
never classified as the template of `s`, and it is classified UNKNOWN except in three cases,
all of them a change of byte 0: to `6A` (then OP_RETURN), from P2WSH to `51` (then P2TR),
from P2TR to `00` (then P2WSH). -/
theorem template_one_byte_change (s : Bytes) (i : Nat) (b : Byte)
    (hT : classify_output_script s ∈ standard_templates)
    (hi : i ∈ template_fixed (classify_output_script s))
    (hb : b ≠ at_ s i) :
    classify_output_script (s.set i b) ≠ classify_output_script s ∧
    classify_output_script (s.set i b) =
      if i = 0 ∧ b = 0x6A then .OP_RETURN
      else if i = 0 ∧ classify_output_script s = .P2WSH ∧ b = 0x51 then .P2TR
      else if i = 0 ∧ classify_output_script s = .P2TR ∧ b = 0x00 then .P2WSH
      else .UNKNOWN := by
  obtain ⟨h1, h2, h3, h4, h5, -, -⟩ := classify_output_script_iff_at s
  obtain ⟨g1, g2, g3, g4, g5, g6, g7⟩ := classify_output_script_iff_at (s.set i b)
  simp only [List.length_set, at_set, List.isEmpty_eq_true, List.set_eq_nil_iff] at g1 g2 g3 g4 g5 g6 g7
  have hne : classify_output_script s ∈ standard_templates → ¬ s = [] := by
    rintro h rfl
    revert h
    decide
  have hne := hne hT
  simp only [standard_templates, List.mem_cons, List.mem_singleton, List.not_mem_nil,
    or_false] at hT
  rcases hT with hT | hT | hT | hT | hT
  all_goals
    rw [hT] at hi ⊢
    simp only [template_fixed, List.mem_cons, List.mem_singleton, List.not_mem_nil,
      or_false] at hi
  · have f := h1.1 hT
    clear h1 h2 h3 h4 h5 hT
    rcases hi with rfl | rfl | rfl | rfl | rfl <;>
      (constructor
       · intro hc; rw [g1] at hc; clear g1 g2 g3 g4 g5 g6 g7
         first | (simp_all; done) | (simp_all; omega)
       · split_ifs <;>
           first
           | (rw [g6]; clear g1 g2 g3 g4 g5 g6 g7; simp_all)
           | (rw [g5]; clear g1 g2 g3 g4 g5 g6 g7; simp_all)
           | (rw [g4]; clear g1 g2 g3 g4 g5 g6 g7; simp_all)
           | (rw [g7]; clear g1 g2 g3 g4 g5 g6 g7; simp_all))
  · have f := h2.1 hT
    clear h1 h2 h3 h4 h5 hT
    rcases hi with rfl | rfl | rfl <;>
      (constructor
       · intro hc; rw [g2] at hc; clear g1 g2 g3 g4 g5 g6 g7
         first | (simp_all; done) | (simp_all; omega)
       · split_ifs <;>
           first
           | (rw [g6]; clear g1 g2 g3 g4 g5 g6 g7; simp_all)
           | (rw [g5]; clear g1 g2 g3 g4 g5 g6 g7; simp_all)
           | (rw [g4]; clear g1 g2 g3 g4 g5 g6 g7; simp_all)
           | (rw [g7]; clear g1 g2 g3 g4 g5 g6 g7; simp_all))
  · have f := h3.1 hT
    clear h1 h2 h3 h4 h5 hT
    rcases hi with rfl | rfl <;>
      (constructor
       · intro hc; rw [g3] at hc; clear g1 g2 g3 g4 g5 g6 g7
         first | (simp_all; done) | (simp_all; omega)
       · split_ifs <;>
           first
           | (rw [g6]; clear g1 g2 g3 g4 g5 g6 g7; simp_all)
           | (rw [g5]; clear g1 g2 g3 g4 g5 g6 g7; simp_all)
           | (rw [g4]; clear g1 g2 g3 g4 g5 g6 g7; simp_all)
           | (rw [g7]; clear g1 g2 g3 g4 g5 g6 g7; simp_all))
  · have f := h4.1 hT
    clear h1 h2 h3 h4 h5 hT
    rcases hi with rfl | rfl <;>
      (constructor
       · intro hc; rw [g4] at hc; clear g1 g2 g3 g4 g5 g6 g7
         first | (simp_all; done) | (simp_all; omega)
       · split_ifs <;>
           first
           | (rw [g6]; clear g1 g2 g3 g4 g5 g6 g7; simp_all)
           | (rw [g5]; clear g1 g2 g3 g4 g5 g6 g7; simp_all)
           | (rw [g4]; clear g1 g2 g3 g4 g5 g6 g7; simp_all)
           | (rw [g7]; clear g1 g2 g3 g4 g5 g6 g7; simp_all))
  · have f := h5.1 hT
    clear h1 h2 h3 h4 h5 hT
    rcases hi with rfl | rfl <;>
      (constructor
       · intro hc; rw [g5] at hc; clear g1 g2 g3 g4 g5 g6 g7
         first | (simp_all; done) | (simp_all; omega)
       · split_ifs <;>
           first
           | (rw [g6]; clear g1 g2 g3 g4 g5 g6 g7; simp_all)
           | (rw [g5]; clear g1 g2 g3 g4 g5 g6 g7; simp_all)
           | (rw [g4]; clear g1 g2 g3 g4 g5 g6 g7; simp_all)
           | (rw [g7]; clear g1 g2 g3 g4 g5 g6 g7; simp_all))

/-- Instance of the amended C6 at the P2WSH script `00 20 <32 zero bytes>` with byte 0
changed to `51`. -/
theorem template_one_byte_change_witness :
    classify_output_script (([0x00, 0x20] ++ List.replicate 32 0 : Bytes).set 0 0x51)
      = .P2TR :=
  (template_one_byte_change ([0x00, 0x20] ++ List.replicate 32 0) 0 0x51
    (by decide) (by decide) (by decide)).2.trans (by decide)

theorem forall₂_mem_left {α β : Type} {R : α → β → Prop} {l1 : List α} {l2 : List β}
    (h : List.Forall₂ R l1 l2) {a : α} (ha : a ∈ l1) : ∃ b, R a b := by
  induction h with
  | nil => cases ha
  | cons hhead _ ih =>
    rcases List.mem_cons.mp ha with rfl | hm
    · exact ⟨_, hhead⟩
    · exact ih hm

/-- C7, as stated, fails: for `tx_overflow` (two outputs of `2^63` satoshis, one input
spending a prevout of 5 satoshis) the analysis succeeds; the mathematical sums are 5 and
`2^64`, whose difference is negative, yet the analysis reports `total_output_sats = 0` and
`fee_sats = 5`. -/
theorem fee_mathematical_sums_counterexample :
    (TxnAnalyzer.construct sample_env tx_overflow prevouts_overflow "mainnet").map
        (fun r => (r.total_input_sats_, r.total_output_sats_, r.fee_sats_)) = .ok (5, 0, 5) ∧
    input_sum prevouts_overflow tx_overflow = 5 ∧
    output_sum tx_overflow = 2 ^ 64 := by
  refine ⟨by rfl, by decide, by decide⟩

/-- C7, amended. For every transaction and prevout list on which the analysis succeeds,
`total_input_sats` and `total_output_sats` are the sum of the resolved prevout values of the
non-coinbase inputs and the sum of the output amounts, each reduced modulo `2^64`, and
`fee_sats` is their difference floored at zero; whenever the two mathematical sums are below
`2^64` the totals are these sums and the fee is their difference when it is non-negative,
and 0 otherwise. -/
theorem fee_accounting (env : Env) (tx : Transaction) (prevouts : List Prevout)
    (network : String) (r : TxnAnalyzer)
    (h : TxnAnalyzer.construct env tx prevouts network = .ok r)
    (hp : ∀ p ∈ prevouts, p.wf = true) (ht : tx.wf = true) :
    r.total_input_sats_ = input_sum prevouts tx % 2 ^ 64 ∧
    r.total_output_sats_ = output_sum tx % 2 ^ 64 ∧
    r.fee_sats_ =
      (if r.total_output_sats_ ≤ r.total_input_sats_
        then r.total_input_sats_ - r.total_output_sats_ else 0) ∧
    (input_sum prevouts tx < 2 ^ 64 → output_sum tx < 2 ^ 64 →
      r.total_input_sats_ = input_sum prevouts tx ∧
      r.total_output_sats_ = output_sum tx ∧
      r.fee_sats_ =
        (if output_sum tx ≤ input_sum prevouts tx
          then input_sum prevouts tx - output_sum tx else 0)) := by
  obtain ⟨m, hm, hin, hout, h1, h2, h3, -⟩ := construct_ok h
  have hres := inputs_resolved hm (fun p hmem => prevout_wf_length (hp p hmem))
    (tx_wf_inputs ht) hin
  have e1 : r.total_input_sats_ = input_sum prevouts tx % 2 ^ 64 := by
    rw [h1, sum_input_sats_eq, resolved_sum hres]; rfl
  have e2 : r.total_output_sats_ = output_sum tx % 2 ^ 64 := by
    rw [h2, sum_output_sats_eq, outputs_sum (build_outputs_ok _ _ _ hout)]; rfl
  have e3 : r.fee_sats_ =
      (if r.total_output_sats_ ≤ r.total_input_sats_
        then r.total_input_sats_ - r.total_output_sats_ else 0) := by
    rw [h3]; rfl
  refine ⟨e1, e2, e3, ?_⟩
  intro b1 b2
  rw [Nat.mod_eq_of_lt b1] at e1
  rw [Nat.mod_eq_of_lt b2] at e2
  refine ⟨e1, e2, ?_⟩
  rw [e3, e1, e2]

/-- Instance of the amended C7 at `sample_tx`: inputs 1000, outputs 545, fee 455. -/
theorem fee_accounting_witness :
    sample_analysis.total_input_sats_ = 1000 ∧ sample_analysis.total_output_sats_ = 545 ∧
    sample_analysis.fee_sats_ = 455 :=
  have h := (fee_accounting sample_env sample_tx sample_prevouts "mainnet" sample_analysis
    (by rfl) (by decide) (by decide)).2.2.2 (by decide) (by decide)
  ⟨h.1.trans (by decide), h.2.1.trans (by decide), h.2.2.trans (by decide)⟩

/-- C8. The analysis of `(tx, prevouts)` fails if two supplied prevouts have the same
`(txid, vout)` pair, and fails if some non-coinbase input is spent by no supplied prevout;
if neither is the case and the address encoders succeed, it succeeds, and every non-coinbase
input carries the value of each supplied prevout that it spends (there is exactly one). -/
theorem prevout_resolution (env : Env) (tx : Transaction) (prevouts : List Prevout)
    (network : String) (hp : ∀ p ∈ prevouts, p.wf = true) (ht : tx.wf = true) :
    (¬ (prevouts.map Prevout.outpoint).Nodup →
      ∃ msg, TxnAnalyzer.construct env tx prevouts network = .error (.runtime_error msg)) ∧
    ((∃ txin ∈ tx.inputs, coinbase_shape txin = false ∧
        ∀ p ∈ prevouts, p.spends txin = false) →
      ∃ msg, TxnAnalyzer.construct env tx prevouts network = .error (.runtime_error msg)) ∧
    ((prevouts.map Prevout.outpoint).Nodup →
      (∀ txin ∈ tx.inputs, coinbase_shape txin = false →
        ∃ p ∈ prevouts, p.spends txin = true) →
      env.encoders_succeed →
      ∃ r, TxnAnalyzer.construct env tx prevouts network = .ok r ∧
        List.Forall₂ (fun txin ai => coinbase_shape txin = false →
          (∃ p ∈ prevouts, p.spends txin = true) ∧
          (∀ p ∈ prevouts, ∀ q ∈ prevouts, p.spends txin = true → q.spends txin = true → p = q) ∧
          (∀ p ∈ prevouts, p.spends txin = true → ai.prevout_value_sats = p.value_sats))
          tx.inputs r.inputs_) := by
  have hlen : ∀ p ∈ prevouts, p.txid.length = 32 := fun p hmem => prevout_wf_length (hp p hmem)
  have hfail : ∀ {e}, TxnAnalyzer.construct env tx prevouts network = .error e →
      ∃ msg, TxnAnalyzer.construct env tx prevouts network = .error (.runtime_error msg) := by
    intro e he
    obtain ⟨msg, rfl⟩ := construct_error he
    exact ⟨msg, he⟩
  refine ⟨?_, ?_, ?_⟩
  · intro hdup
    cases hres : TxnAnalyzer.construct env tx prevouts network with
    | error e => rw [← hres]; exact hfail hres
    | ok r =>
      exfalso
      obtain ⟨m, hm, -⟩ := construct_ok hres
      exact hdup ((key_nodup_iff prevouts hlen).mp (build_prevout_map_ok prevouts [] m hm).2.1)
  · rintro ⟨txin, hmem, hshape, hnone⟩
    cases hres : TxnAnalyzer.construct env tx prevouts network with
    | error e => rw [← hres]; exact hfail hres
    | ok r =>
      exfalso
      obtain ⟨m, hm, hin, -⟩ := construct_ok hres
      obtain ⟨ai, hai⟩ := forall₂_mem_left (inputs_resolved hm hlen (tx_wf_inputs ht) hin) hmem
      obtain ⟨-, p, hfind, -⟩ := hai.2 hshape
      have h1 := List.find?_some hfind
      have h2 := List.mem_of_find?_eq_some hfind
      rw [hnone p h2] at h1
      cases h1
  · intro hnd hall henc
    have huniq : ∀ txin, ∀ p ∈ prevouts, ∀ q ∈ prevouts,
        p.spends txin = true → q.spends txin = true → p = q := by
      intro txin p hpm q hqm hps hqs
      apply List.inj_on_of_nodup_map hnd hpm hqm
      simp only [Prevout.spends, Bool.and_eq_true, decide_eq_true_eq] at hps hqs
      simp [Prevout.outpoint, hps.1, hps.2, hqs.1, hqs.2]
    have hm := build_prevout_map_of_nodup prevouts [] ((key_nodup_iff prevouts hlen).mpr hnd)
      (by simp)
    rw [List.nil_append] at hm
    have hins : ∃ ais, build_inputs env (prevouts.map (fun p => (p.key, p))) tx.inputs
        = .ok ais := by
      apply build_inputs_of_forall
      intro txin hmem
      have hshape := is_coinbase_eq_shape txin (tx_wf_inputs ht txin hmem)
      cases hc : coinbase_shape txin
      · obtain ⟨p, hpm, hps⟩ := hall txin hmem hc
        cases hfind : prevouts.find? (fun p => p.spends txin) with
        | none =>
          have := List.find?_eq_none.mp hfind p hpm
          exact absurd hps this
        | some q =>
          exact build_input_found (hshape.trans hc)
            ((lookup_map_key txin prevouts hlen).trans hfind) henc
      · obtain ⟨ai, hai, -⟩ := build_input_coinbase env
          (prevouts.map (fun p => (p.key, p))) txin (hshape.trans hc)
        exact ⟨ai, hai⟩
    obtain ⟨ais, hais⟩ := hins
    obtain ⟨aos, haos⟩ := build_outputs_of_encoders env tx.outputs henc 0
    have hok : ∃ r, TxnAnalyzer.construct env tx prevouts network = .ok r ∧ r.inputs_ = ais := by
      simp only [TxnAnalyzer.construct, hm, hais, haos]
      exact ⟨_, rfl, rfl⟩
    obtain ⟨r, hr, hri⟩ := hok
    refine ⟨r, hr, ?_⟩
    rw [hri]
    refine List.Forall₂.imp ?_ (inputs_resolved hm hlen (tx_wf_inputs ht) hais)
    intro txin ai hR hshape
    obtain ⟨-, p', hfind, hval⟩ := hR.2 hshape
    have h1 : p'.spends txin = true := by
      have := List.find?_some hfind
      exact this
    have h2 := List.mem_of_find?_eq_some hfind
    refine ⟨⟨p', h2, h1⟩, huniq txin, ?_⟩
    intro p hpm hps
    rw [huniq txin p hpm p' h2 hps h1, hval]

/-- Instance of C8 at `sample_tx` and `sample_prevouts`: the analysis succeeds. -/
theorem prevout_resolution_witness :
    ∃ r, TxnAnalyzer.construct sample_env sample_tx sample_prevouts "mainnet" = .ok r :=
  have h := (prevout_resolution sample_env sample_tx sample_prevouts "mainnet"
    (by decide) (by decide)).2.2 (by decide) (by decide)
    ⟨fun _ _ => by simp [sample_env], fun _ _ _ => ⟨_, rfl⟩⟩
  Exists.imp (fun _ hr => hr.1) h

/-- C9. In every successful analysis, an input whose `prevTxId` is 32 zero bytes and whose
`vout` is `0xFFFFFFFF` is accounted with `script_type` "coinbase" and a prevout value of 0,
and an input that is not of that shape is never given `script_type` "coinbase"; the loop
body handles a coinbase-shaped input without consulting the prevout map (same result, a
success, for every map, the empty one included); and `total_input_sats` is the 64-bit sum
over the inputs that do not have the coinbase shape, `fee_sats` being derived from it, so a
coinbase-shaped input contributes to neither. -/
theorem coinbase_input_accounting (env : Env) (tx : Transaction) (prevouts : List Prevout)
    (network : String) (r : TxnAnalyzer)
    (h : TxnAnalyzer.construct env tx prevouts network = .ok r)
    (hp : ∀ p ∈ prevouts, p.wf = true) (ht : tx.wf = true) :
    List.Forall₂ (fun txin ai =>
      (coinbase_shape txin = true → ai.script_type = "coinbase" ∧ ai.prevout_value_sats = 0) ∧
      (coinbase_shape txin = false → ai.script_type ≠ "coinbase")) tx.inputs r.inputs_ ∧
    (∀ txin ∈ tx.inputs, coinbase_shape txin = true →
      ∀ m : List (String × Prevout),
        build_input env m txin = build_input env [] txin ∧
        ∃ ai, build_input env m txin = .ok ai) ∧
    r.total_input_sats_ =
      ((tx.inputs.filter (fun txin => !coinbase_shape txin)).map
        (resolved_value prevouts)).sum % 2 ^ 64 ∧
    r.fee_sats_ = r.total_input_sats_ - r.total_output_sats_ := by
  obtain ⟨m, hm, hin, hout, h1, h2, h3, -⟩ := construct_ok h
  have hres := inputs_resolved hm (fun p hmem => prevout_wf_length (hp p hmem))
    (tx_wf_inputs ht) hin
  refine ⟨?_, ?_, ?_, ?_⟩
  · exact List.Forall₂.imp (fun txin ai hR => ⟨hR.1, fun hc => (hR.2 hc).1⟩) hres
  · intro txin hmem hc m'
    have hcb : is_coinbase txin = true :=
      (is_coinbase_eq_shape txin (tx_wf_inputs ht txin hmem)).trans hc
    refine ⟨by simp [build_input, hcb], ?_⟩
    obtain ⟨ai, hai, -⟩ := build_input_coinbase env m' txin hcb
    exact ⟨ai, hai⟩
  · rw [h1, sum_input_sats_eq, resolved_sum hres]
  · rw [h3, fee_of]
    split
    · rfl
    · omega

/-- Instance of C9 at `sample_tx`, whose first input has the coinbase shape. -/
theorem coinbase_input_accounting_witness :
    sample_analysis.total_input_sats_ = 1000 :=
  (coinbase_input_accounting sample_env sample_tx sample_prevouts "mainnet" sample_analysis
    (by rfl) (by decide) (by decide)).2.2.1.trans (by decide)

theorem any_outputs {outs : List TxOut} {aos : List AccountedOutput}
    (h : List.Forall₂ (fun o ao => ao.value_sats = o.amount ∧
        ao.script_type = output_script_type_str (classify_output_script o.scriptPubKey))
        outs aos) :
    aos.any (fun out => decide (out.script_type ≠ "op_return" ∧ out.value_sats < 546)) =
      outs.any (fun o => decide (classify_output_script o.scriptPubKey ≠ .OP_RETURN ∧
        o.amount < 546)) := by
  induction h with
  | nil => rfl
  | cons hhead _ ih =>
    simp only [List.any_cons, ih, hhead.1, hhead.2, ne_eq, output_script_type_str_eq_op_return]

/-- The number of `DUST_OUTPUT` warnings that `build_warnings` produces. -/
theorem count_dust (env : Env) (tx : Transaction) (fee_sats : Nat)
    (outputs : List AccountedOutput) :
    (build_warnings env tx fee_sats outputs).count { code := .DUST_OUTPUT } =
      if outputs.any (fun out => decide (out.script_type ≠ "op_return" ∧ out.value_sats < 546))
      then 1 else 0 := by
  unfold build_warnings
  simp only
  split_ifs <;> simp [List.count_append, List.count_cons, List.count_nil]

/-- C10. In every successful analysis the warnings contain `DUST_OUTPUT` exactly once if
some output not classified OP_RETURN has a value strictly below 546 satoshis, and not at all
otherwise; so a transaction whose only output is a non-OP_RETURN output of 545 satoshis gets
exactly one, and one whose only output is worth 546 satoshis gets none. -/
theorem dust_warning (env : Env) (tx : Transaction) (prevouts : List Prevout)
    (network : String) (r : TxnAnalyzer)
    (h : TxnAnalyzer.construct env tx prevouts network = .ok r) :
    (r.warnings_.count { code := .DUST_OUTPUT } =
      if ∃ o ∈ tx.outputs, classify_output_script o.scriptPubKey ≠ .OP_RETURN ∧ o.amount < 546
      then 1 else 0) ∧
    (∀ script, classify_output_script script ≠ .OP_RETURN →
      tx.outputs = [{ amount := 545, scriptPubKey := script }] →
      r.warnings_.count { code := .DUST_OUTPUT } = 1) ∧
    (∀ script, tx.outputs = [{ amount := 546, scriptPubKey := script }] →
      r.warnings_.count { code := .DUST_OUTPUT } = 0) := by
  obtain ⟨m, -, -, hout, -, -, -, hw⟩ := construct_ok h
  have hany := any_outputs (build_outputs_ok _ _ _ hout)
  have hcount : r.warnings_.count { code := .DUST_OUTPUT } =
      if ∃ o ∈ tx.outputs, classify_output_script o.scriptPubKey ≠ .OP_RETURN ∧ o.amount < 546
      then 1 else 0 := by
    rw [hw, count_dust, hany]
    simp only [List.any_eq_true, decide_eq_true_eq]
  refine ⟨hcount, ?_, ?_⟩
  · intro script hs houts
    rw [hcount, houts]
    simp [hs]
  · intro script houts
    rw [hcount, houts]
    simp

/-- Instance of C10 at `sample_tx`, which has a P2WPKH output of 545 satoshis. -/
theorem dust_warning_witness :
    sample_analysis.warnings_.count { code := .DUST_OUTPUT } = 1 :=
  (dust_warning sample_env sample_tx sample_prevouts "mainnet" sample_analysis
    (by rfl)).1.trans (by decide)

/-- Whatever the digest function, decoding `raw_ambiguous` succeeds with a non-segwit transaction
without input and with one output (19 bytes serialized, weight 76, 19 vbytes); its witness
serialization starts, after the version, with `00 01`, so decoding it again yields a segwit
transaction without input or output, of weight 42 and 11 vbytes. -/
theorem round_trip_ambiguity :
    ∀ env : Env,
      (Transaction.construct env raw_ambiguous).map
          (fun t => (t.isSegwit, t.inputs.length, t.outputs.length, t.get_weight, t.get_vbytes,
            t.serialize_with_witness))
        = .ok (false, 0, 1, 76, 19,
            [1, 0, 0, 0, 0, 1, 0, 0, 0, 0, 0, 0, 0, 0, 0, 0, 0, 0, 0]) ∧
      (Transaction.construct env
          [1, 0, 0, 0, 0, 1, 0, 0, 0, 0, 0, 0, 0, 0, 0, 0, 0, 0, 0]).map
          (fun t => (t.isSegwit, t.inputs.length, t.outputs.length, t.get_weight, t.get_vbytes))
        = .ok (true, 0, 0, 42, 11) := by
  intro env
  have k1 := construct_env_irrelevant env sample_env raw_ambiguous
    (fun t => (t.isSegwit, t.inputs.length, t.outputs.length, t.get_weight, t.get_vbytes,
      t.serialize_with_witness)) (fun _ => rfl)
  have k2 := construct_env_irrelevant env sample_env
    [1, 0, 0, 0, 0, 1, 0, 0, 0, 0, 0, 0, 0, 0, 0, 0, 0, 0, 0]
    (fun t => (t.isSegwit, t.inputs.length, t.outputs.length, t.get_weight, t.get_vbytes))
    (fun _ => rfl)
  rw [k1, k2]
  constructor <;> rfl

/-- C1, as stated, fails: decoding `raw_ambiguous` succeeds with a non-segwit transaction
without input and with one output, of weight 76 and 19 vbytes; decoding its witness
serialization `01 00 00 00 00 01 ...` succeeds with a segwit transaction without input or
output, of weight 42 and 11 vbytes. -/
theorem decode_round_trip_counterexample :
    (Transaction.construct sample_env raw_ambiguous).map
        (fun t => (t.isSegwit, t.inputs.length, t.outputs.length, t.get_weight, t.get_vbytes,
          t.serialize_with_witness))
      = .ok (false, 0, 1, 76, 19,
          [1, 0, 0, 0, 0, 1, 0, 0, 0, 0, 0, 0, 0, 0, 0, 0, 0, 0, 0]) ∧
    (Transaction.construct sample_env
        [1, 0, 0, 0, 0, 1, 0, 0, 0, 0, 0, 0, 0, 0, 0, 0, 0, 0, 0]).map
        (fun t => (t.isSegwit, t.inputs.length, t.outputs.length, t.get_weight, t.get_vbytes))
      = .ok (true, 0, 0, 42, 11) :=
  round_trip_ambiguity sample_env

/-- C1, amended. For every byte buffer on which the standalone decoder succeeds with result
`t`, unless `t` is a non-segwit transaction with no input and exactly one output, decoding
`serialize_with_witness(t)` again succeeds and yields `t` itself, hence a transaction with
the same txid, wtxid, weight and vbytes. -/
theorem decode_round_trip (env : Env) (raw : Bytes) (t : Transaction)
    (hlen : raw.length < 2 ^ 63) (h : Transaction.construct env raw = .ok t)
    (hamb : ¬ (t.isSegwit = false ∧ t.inputs = [] ∧ t.outputs.length = 1)) :
    Transaction.construct env t.serialize_with_witness = .ok t ∧
    ∃ t', Transaction.construct env t.serialize_with_witness = .ok t' ∧
      t'.get_txid = t.get_txid ∧ t'.get_wtxid = t.get_wtxid ∧
      t'.get_weight = t.get_weight ∧ t'.get_vbytes = t.get_vbytes := by
  obtain ⟨h1, h2, h3, h4⟩ := construct_inv h hlen
  have hrt := construct_serialize env t h1 h2 hamb (by omega)
  rw [h4] at hrt
  exact ⟨hrt, t, hrt, rfl, rfl, rfl, rfl⟩

/-- Instance of the amended C1 at `sample_raw`, the 67 bytes of `sample_segwit_tx`. -/
theorem decode_round_trip_witness :
    Transaction.construct sample_env
        (Transaction.with_hashes sample_env sample_segwit_tx).serialize_with_witness
      = .ok (Transaction.with_hashes sample_env sample_segwit_tx) :=
  (decode_round_trip sample_env sample_raw (Transaction.with_hashes sample_env sample_segwit_tx)
    (by decide) (by rfl) (by decide)).1

/-- C2 at the failing input: on `raw_overflow` the declared script length `2^64 - 1`
exceeds the 0 bytes that remain, yet the guard `offset + script_len > raw.size()`, computed
in 64 bits (`50 + (2^64 - 1)` wraps to 49), does not fire; the decoder throws nothing and
reaches the `insert` of an iterator range whose end precedes its start. -/
theorem truncated_script_length_overflow :
    ∀ env : Env,
      read_varint raw_overflow 41 = .ok (2 ^ 64 - 1, 50) ∧
      raw_overflow.length = 50 ∧
      ¬ (sz (50 + (2 ^ 64 - 1)) > raw_overflow.length) ∧
      Transaction.construct env raw_overflow = .error .undefined ∧
      (Transaction.construct env raw_overflow).threw = false := by
  intro env
  have h := construct_env_irrelevant env sample_env raw_overflow (fun _ => ()) (fun _ => rfl)
  have h2 : Transaction.construct sample_env raw_overflow = .error .undefined := by rfl
  rw [h2] at h
  have h3 : Transaction.construct env raw_overflow = .error .undefined := by
    cases hc : Transaction.construct env raw_overflow with
    | error e => rw [hc] at h; simpa [Except.map] using h
    | ok t => rw [hc] at h; simp [Except.map] at h
  refine ⟨by decide, by decide, by decide, h3, by rw [h3]; rfl⟩

/-- C17: the address of `process_output_script`. For a P2PKH script the encoder is called
with version `0x00` on the 20 bytes `s[3..23)`, for P2SH with version `0x05` on `s[2..22)`;
for P2WPKH, P2WSH and P2TR the segwit encoder is called with the prefix `"bc"`, witness
version 0, 0 and 1, on `s[2..22)`, `s[2..34)` and `s[2..34)`. The slices have length 20, 20,
20, 32 and 32, so the hash-size check of the Base58Check wrappers never throws: the call
returns the encoder's address, and throws only where the encoder itself fails. OP_RETURN and
UNKNOWN scripts have no address, and `op_return` is present exactly for the type
OP_RETURN. -/
theorem process_output_script_address (env : Env) (s : Bytes) :
    (classify_output_script s = .P2PKH →
      (slice s 3 20).length = 20 ∧
      (∀ a, env.b58check_enc 0x00 (slice s 3 20) = some a →
        process_output_script env s =
          .ok { type := .P2PKH, address := some a, op_return := none }) ∧
      (env.b58check_enc 0x00 (slice s 3 20) = none →
        process_output_script env s = .error (.runtime_error "Base58Check encoding failed"))) ∧
    (classify_output_script s = .P2SH →
      (slice s 2 20).length = 20 ∧
      (∀ a, env.b58check_enc 0x05 (slice s 2 20) = some a →
        process_output_script env s =
          .ok { type := .P2SH, address := some a, op_return := none }) ∧
      (env.b58check_enc 0x05 (slice s 2 20) = none →
        process_output_script env s = .error (.runtime_error "Base58Check encoding failed"))) ∧
    (classify_output_script s = .P2WPKH →
      (slice s 2 20).length = 20 ∧
      ∀ a, env.bech32_address_encode (slice s 2 20) "bc" 0 = .ok a →
        process_output_script env s =
          .ok { type := .P2WPKH, address := some a, op_return := none }) ∧
    (classify_output_script s = .P2WSH →
      (slice s 2 32).length = 32 ∧
      ∀ a, env.bech32_address_encode (slice s 2 32) "bc" 0 = .ok a →
        process_output_script env s =
          .ok { type := .P2WSH, address := some a, op_return := none }) ∧
    (classify_output_script s = .P2TR →
      (slice s 2 32).length = 32 ∧
      ∀ a, env.bech32_address_encode (slice s 2 32) "bc" 1 = .ok a →
        process_output_script env s =
          .ok { type := .P2TR, address := some a, op_return := none }) ∧
    (classify_output_script s = .OP_RETURN →
      process_output_script env s =
        .ok { type := .OP_RETURN, address := none, op_return := some (parse_op_return s) }) ∧
    (classify_output_script s = .UNKNOWN →
      process_output_script env s =
        .ok { type := .UNKNOWN, address := none, op_return := none }) ∧
    (∀ pspk, process_output_script env s = .ok pspk →
      (pspk.op_return.isSome ↔ pspk.type = .OP_RETURN)) := by
  obtain ⟨h1, h2, h3, h4, h5, -, -⟩ := classify_output_script_iff_at s
  refine ⟨?_, ?_, ?_, ?_, ?_, ?_, ?_, ?_⟩
  · intro hc
    have hl := length_slice s 3 20 (by have := (h1.1 hc).1; omega)
    refine ⟨hl, ?_, ?_⟩
    · intro a ha
      simp [process_output_script, hc, encode_p2pkh_address, hl, ha]
    · intro ha
      simp [process_output_script, hc, encode_p2pkh_address, hl, ha]
  · intro hc
    have hl := length_slice s 2 20 (by have := (h2.1 hc).1; omega)
    refine ⟨hl, ?_, ?_⟩
    · intro a ha
      simp [process_output_script, hc, encode_p2sh_address, hl, ha]
    · intro ha
      simp [process_output_script, hc, encode_p2sh_address, hl, ha]
  · intro hc
    have hl := length_slice s 2 20 (by have := (h3.1 hc).1; omega)
    refine ⟨hl, ?_⟩
    intro a ha
    simp [process_output_script, hc, encode_segwit_address, ha]
  · intro hc
    have hl := length_slice s 2 32 (by have := (h4.1 hc).1; omega)
    refine ⟨hl, ?_⟩
    intro a ha
    simp [process_output_script, hc, encode_segwit_address, ha]
  · intro hc
    have hl := length_slice s 2 32 (by have := (h5.1 hc).1; omega)
    refine ⟨hl, ?_⟩
    intro a ha
    simp [process_output_script, hc, encode_segwit_address, ha]
  · intro hc
    simp [process_output_script, hc]
  · intro hc
    simp [process_output_script, hc]
  · intro pspk h
    unfold process_output_script at h
    cases hc : classify_output_script s <;> simp only [hc] at h
    all_goals first
      | (split at h
         · cases h
         · cases h; simp)
      | (cases h; simp)

/-- Instance of C17: the P2PKH script `76 a9 14 <20 bytes 09> 88 ac` gets the address that
the Base58Check encoder returns for version 0 and the 20 payload bytes. -/
theorem process_output_script_address_witness :
    classify_output_script ([0x76, 0xa9, 0x14] ++ List.replicate 20 9 ++ [0x88, 0xac]) = .P2PKH ∧
    sample_env.b58check_enc 0x00
      (slice ([0x76, 0xa9, 0x14] ++ List.replicate 20 9 ++ [0x88, 0xac]) 3 20) = some "address" ∧
    process_output_script sample_env
        ([0x76, 0xa9, 0x14] ++ List.replicate 20 9 ++ [0x88, 0xac]) =
      .ok { type := .P2PKH, address := some "address", op_return := none } :=
  ⟨by decide, rfl,
    ((process_output_script_address sample_env
      ([0x76, 0xa9, 0x14] ++ List.replicate 20 9 ++ [0x88, 0xac])).1 (by decide)).2.1
      "address" rfl⟩

/-- C18: the input type follows the type of the prevout script. P2PKH, P2WPKH and P2WSH
prevouts give the input type of the same name whatever the unlocking script and the witness
are; a P2TR prevout gives P2TR_KEYPATH exactly for one witness item, P2TR_SCRIPTPATH exactly
for two or more, and UNKNOWN exactly for none; OP_RETURN and UNKNOWN prevouts give
UNKNOWN. -/
theorem classify_input_by_prevout (p scriptSig : Bytes) (w : List Bytes) :
    (classify_output_script p = .P2PKH → classify_input p scriptSig w = .P2PKH) ∧
    (classify_output_script p = .P2WPKH → classify_input p scriptSig w = .P2WPKH) ∧
    (classify_output_script p = .P2WSH → classify_input p scriptSig w = .P2WSH) ∧
    (classify_output_script p = .P2TR →
      (classify_input p scriptSig w = .P2TR_KEYPATH ↔ w.length = 1) ∧
      (classify_input p scriptSig w = .P2TR_SCRIPTPATH ↔ w.length ≥ 2) ∧
      (classify_input p scriptSig w = .UNKNOWN ↔ w.length = 0)) ∧
    (classify_output_script p = .OP_RETURN → classify_input p scriptSig w = .UNKNOWN) ∧
    (classify_output_script p = .UNKNOWN → classify_input p scriptSig w = .UNKNOWN) := by
  refine ⟨?_, ?_, ?_, ?_, ?_, ?_⟩
  · intro hc; simp [classify_input, hc]
  · intro hc; simp [classify_input, hc]
  · intro hc; simp [classify_input, hc]
  · intro hc
    simp only [classify_input, hc]
    refine ⟨?_, ?_, ?_⟩ <;> split_ifs with h1 h2 <;>
      (constructor <;> intro h <;> first | omega | rfl | (exfalso; omega) | cases h)
  · intro hc; simp [classify_input, hc]
  · intro hc; simp [classify_input, hc]

/-- Instance of C18: a P2TR prevout `51 20 <32 bytes>` spent with a witness of two items is
a script-path spend, whatever the unlocking script holds. -/
theorem classify_input_by_prevout_witness :
    classify_output_script ([0x51, 0x20] ++ List.replicate 32 7) = .P2TR ∧
    (classify_input ([0x51, 0x20] ++ List.replicate 32 7) [0x01, 0x02] [[0xAA], [0xBB]] =
      .P2TR_SCRIPTPATH ↔ ([[0xAA], [0xBB]] : List Bytes).length ≥ 2) :=
  ⟨by decide,
    ((classify_input_by_prevout ([0x51, 0x20] ++ List.replicate 32 7) [0x01, 0x02]
      [[0xAA], [0xBB]]).2.2.2.1 (by decide)).2.1⟩

/-- C13: decoding an 80-byte header and serializing its fields again in `calcBlockHash`
gives back the 80 bytes, so the block hash is `reverse_32(double_sha256(h))`; the fields are
the little-endian words and the 32-byte ranges at the fixed offsets 0, 4, 36, 68, 72, 76. -/
theorem block_header_round_trip (env : Env) (h : Bytes) (hlen : h.length = 80) :
    ∃ hdr, BlockHeader.construct env h = .ok hdr ∧
      hdr.calcBlockHash_buf = h ∧
      hdr.getBlockHash = reverse_32 (double_sha256 env h) ∧
      hdr.version = le32 (slice h 0 4) ∧
      hdr.prevBlock = slice h 4 32 ∧
      hdr.merkleRoot = slice h 36 32 ∧
      hdr.timestamp = le32 (slice h 68 4) ∧
      hdr.bits = le32 (slice h 72 4) ∧
      hdr.nonce = le32 (slice h 76 4) := by
  refine ⟨_, header_construct_eq env h hlen, ?_, ?_, ?_, rfl, rfl, ?_, ?_, ?_⟩
  · exact calcBlockHash_buf_of_header h hlen _
  · simp only [BlockHeader.getBlockHash, BlockHeader.calcBlockHash]
    rw [calcBlockHash_buf_of_header h hlen]
  · exact read_le_four h 0
  · exact read_le_four h 68
  · exact read_le_four h 72
  · exact read_le_four h 76

/-- Instance of C13 on the header made of the bytes 1 to 80. -/
theorem block_header_round_trip_witness :
    sample_header.length = 80 ∧
    ∃ hdr, BlockHeader.construct sample_env sample_header = .ok hdr ∧
      hdr.calcBlockHash_buf = sample_header ∧
      hdr.getBlockHash = reverse_32 (double_sha256 sample_env sample_header) ∧
      hdr.version = le32 (slice sample_header 0 4) ∧
      hdr.prevBlock = slice sample_header 4 32 ∧
      hdr.merkleRoot = slice sample_header 36 32 ∧
      hdr.timestamp = le32 (slice sample_header 68 4) ∧
      hdr.bits = le32 (slice sample_header 72 4) ∧
      hdr.nonce = le32 (slice sample_header 76 4) :=
  ⟨by decide, block_header_round_trip sample_env sample_header (by decide)⟩

/-- C11: the Merkle root of a block holding the single transaction `t`, whose cached id is
the one the constructors compute, is the leaf itself, `reverse_32(t.get_txid())`, and that is
`double_sha256(serialize_legacy(t))`: no hash is applied on top of it. -/
theorem merkle_root_single_transaction (env : Env) (hd : env.digest32) (b : Block)
    (t0 : Transaction) (hb : b.txs = [Transaction.with_hashes env t0]) :
    b.calcMerkleRoot env = reverse_32 (Transaction.with_hashes env t0).get_txid ∧
    reverse_32 (Transaction.with_hashes env t0).get_txid =
      double_sha256 env (Transaction.with_hashes env t0).serialize_legacy := by
  constructor
  · simp [Block.calcMerkleRoot, hb, merkle_loop]
  · have hs : (Transaction.with_hashes env t0).serialize_legacy = t0.serialize_legacy := rfl
    rw [hs]
    simp only [Transaction.get_txid, Transaction.with_hashes]
    exact reverse_32_reverse_32 _ (hd _)

/-- Instance of C11: the block holding `sample_tx` alone, with the constant digest. -/
theorem merkle_root_single_transaction_witness :
    sample_env.digest32 ∧
    (block_of [Transaction.with_hashes sample_env sample_tx]).calcMerkleRoot sample_env =
      reverse_32 (Transaction.with_hashes sample_env sample_tx).get_txid ∧
    reverse_32 (Transaction.with_hashes sample_env sample_tx).get_txid =
      double_sha256 sample_env (Transaction.with_hashes sample_env sample_tx).serialize_legacy :=
  ⟨fun _ => rfl,
    merkle_root_single_transaction sample_env (fun _ => rfl)
      (block_of [Transaction.with_hashes sample_env sample_tx]) sample_tx rfl⟩

/-- C12: `calcMerkleRoot` returns 32 zero bytes for an empty transaction list and otherwise
the reference Merkle root of the wire-order ids under `H = double_sha256`. Its loop ends:
more iterations than there are transactions change nothing, and the layer it ends on has a
single node. The reference root of one leaf is the leaf, of two leaves `H(a ‖ b)`, of three
leaves `H(H(a ‖ b) ‖ H(c ‖ c))`; the reference fold has one node at level `⌈log₂ n⌉` and
more than one at every level before. -/
theorem merkle_root_reference (env : Env) (b : Block) :
    b.calcMerkleRoot env =
      (if b.txs.isEmpty then List.replicate 32 0
       else merkle_reference (double_sha256 env) (b.txs.map merkle_leaf)) ∧
    (∀ extra, merkle_loop env (b.txs.length + extra) (b.txs.map merkle_leaf) =
      merkle_loop env b.txs.length (b.txs.map merkle_leaf)) ∧
    (if b.txs.isEmpty then True
     else (merkle_loop env b.txs.length (b.txs.map merkle_leaf)).length = 1) ∧
    (∀ (H : Bytes → Bytes) (x y z : Bytes),
      merkle_reference H [x] = x ∧
      merkle_reference H [x, y] = H (x ++ y) ∧
      merkle_reference H [x, y, z] = H (H (x ++ y) ++ H (z ++ z))) ∧
    (∀ (H : Bytes → Bytes) (a : Bytes) (rest : List Bytes),
      (merkle_level H (a :: rest) (Nat.clog 2 (a :: rest).length)).length = 1 ∧
      ∀ k : Fin (Nat.clog 2 (a :: rest).length), 1 < (merkle_level H (a :: rest) k).length) := by
  have hloop : ∀ extra, merkle_loop env (b.txs.length + extra) (b.txs.map merkle_leaf) =
      merkle_level (double_sha256 env) (b.txs.map merkle_leaf) (Nat.clog 2 b.txs.length) := by
    intro extra
    have := merkle_loop_eq_level env (b.txs.length + extra) (b.txs.map merkle_leaf)
      (by simp)
    simpa using this
  refine ⟨?_, ?_, ?_, ?_, ?_⟩
  · unfold Block.calcMerkleRoot
    split
    · rfl
    · have h0 := hloop 0
      simp only [Nat.add_zero] at h0
      simp only [List.length_map]
      rw [show (List.map (fun tx => reverse_32 tx.get_txid) b.txs) = b.txs.map merkle_leaf
        from rfl, h0, merkle_reference, List.length_map]
  · intro extra
    rw [hloop extra, ← hloop 0, Nat.add_zero]
  · split
    · trivial
    · rename_i hne
      have h0 := hloop 0
      simp only [Nat.add_zero] at h0
      rw [h0]
      have hpos : 1 ≤ b.txs.length := by
        cases hb : b.txs with
        | nil => simp [hb] at hne
        | cons t rest => simp
      have := (merkle_level_length (double_sha256 env) b.txs.length (b.txs.map merkle_leaf)
        (by simp) hpos).1
      exact this
  · intro H x y z
    refine ⟨?_, ?_, ?_⟩
    · simp [merkle_reference, merkle_level, Nat.clog]
    · simp [merkle_reference, merkle_level, Nat.clog, merkle_pairs]
    · simp [merkle_reference, merkle_level, Nat.clog, merkle_pairs]
  · intro H a rest
    obtain ⟨h1, h2⟩ := merkle_level_length H (a :: rest).length (a :: rest) rfl (by simp)
    exact ⟨h1, fun k => h2 k.val k.isLt⟩

/-- C14: `read_cvarint` inverts the reference encoding of the bit-packed varint. For every
`n < 2^64` and every buffer that holds `cvarint_enc n` at `off`, the call returns `n` and
advances `off` by the length of the encoding. -/
theorem read_cvarint_enc (data : Bytes) (off n : Nat) (hn : n < 2 ^ 64)
    (h : holds_at data off (cvarint_enc n)) :
    read_cvarint data off = .ok (n, off + (cvarint_enc n).length) := by
  rw [cvarint_enc_eq] at h ⊢
  rw [read_cvarint, read_cvarint_loop_prefix n data off _ hn h]
  obtain ⟨-, hrest⟩ := (holds_at_append data off _ _).1 h
  have hc := at_holds hrest
  have hlt : off + (cvarint_enc_loop n []).length < data.length := by
    have := hrest.1
    simp only [List.length_cons, List.length_nil] at this
    omega
  have hx : (n &&& 0x7F) = n % 128 := Nat.and_pow_two_sub_one_eq_mod n 7
  obtain ⟨hb1, hb2⟩ := last_byte_bits ⟨n % 128, Nat.mod_lt _ (by decide)⟩
  simp only at hb1 hb2
  have hfuel : data.length - (off + (cvarint_enc_loop n []).length)
      = (data.length - (off + (cvarint_enc_loop n []).length + 1)) + 1 := by omega
  rw [hfuel, read_cvarint_loop_last _ _ _ _ hlt (by rw [hc, toByte_val, hx]; exact hb1),
    hc, toByte_val, hx, hb2, shift_or_low, u64_of_lt hn]
  simp only [List.length_append, List.length_cons, List.length_nil, Nat.add_assoc]

/-- Instance of C14 at `n = 16512`, whose encoding is `80 80 00`, together with the
decodings of `7F`, `80 00`, `80 7F`, `81 00` and `FF 7F`. -/
theorem read_cvarint_enc_witness :
    (16512 : Nat) < 2 ^ 64 ∧
    holds_at [0x80, 0x80, 0x00] 0 (cvarint_enc 16512) ∧
    read_cvarint [0x80, 0x80, 0x00] 0 = .ok (16512, 0 + (cvarint_enc 16512).length) ∧
    cvarint_enc 16512 = [0x80, 0x80, 0x00] ∧
    read_cvarint [0x7F] 0 = .ok (127, 1) ∧
    read_cvarint [0x80, 0x00] 0 = .ok (128, 2) ∧
    read_cvarint [0x80, 0x7F] 0 = .ok (255, 2) ∧
    read_cvarint [0x81, 0x00] 0 = .ok (256, 2) ∧
    read_cvarint [0xFF, 0x7F] 0 = .ok (16511, 2) ∧
    read_cvarint [0x80, 0x80, 0x00] 0 = .ok (16512, 3) := by
  have henc : cvarint_enc 16512 = [0x80, 0x80, 0x00] := by
    rw [cvarint_enc, cvarint_enc_loop, if_pos (by decide), cvarint_enc_loop,
      if_pos (by decide), cvarint_enc_loop, if_neg (by decide)]
    decide
  have hh : holds_at [0x80, 0x80, 0x00] 0 (cvarint_enc 16512) := by
    rw [henc]; exact holds_at_self _
  exact ⟨by decide, hh, read_cvarint_enc [0x80, 0x80, 0x00] 0 16512 (by decide) hh, henc,
    by decide, by decide, by decide, by decide, by decide, by decide⟩

/-- C15: `decompress_amount(0) = 0`, and `decompress_amount` undoes the reference
`CompressAmount` on every amount up to 2,100,000,000,000,000 satoshis. -/
theorem decompress_compress_amount (n : Nat) (hn : n ≤ 2100000000000000) :
    decompress_amount 0 = 0 ∧ decompress_amount (compress_amount n) = n := by
  refine ⟨rfl, ?_⟩
  by_cases hn0 : n = 0
  · subst hn0; rfl
  · obtain ⟨m, k, h1, h2, h3, h4, h5⟩ := compress_strip_spec 9 n 0 rfl (by omega)
    rw [Nat.zero_add] at h1 h3 h5
    have hlt : m * 10 ^ k < 2 ^ 64 := by rw [← h2]; omega
    have hpow : 1 ≤ 10 ^ k := Nat.one_le_pow _ _ (by decide)
    have hm : m < 2 ^ 64 := by
      calc m = m * 1 := by ring
        _ ≤ m * 10 ^ k := Nat.mul_le_mul_left _ hpow
        _ < 2 ^ 64 := hlt
    simp only [compress_amount, if_neg hn0, h1]
    by_cases hk : k < 9
    · have hd := h5 hk
      rw [if_pos hk]
      generalize hq : m / 10 = q at *
      generalize hr : m % 10 = r at *
      have hmq : m = q * 10 + r := by rw [← hq, ← hr]; exact (Nat.div_add_mod' m 10).symm
      have hr9 : r < 10 := by rw [← hr]; exact Nat.mod_lt _ (by decide)
      rw [decompress_amount_pos _ (by omega)]
      have e1 : (1 + (q * 9 + r - 1) * 10 + k - 1) % 10 = k := by omega
      have e2 : (1 + (q * 9 + r - 1) * 10 + k - 1) / 10 = q * 9 + r - 1 := by omega
      rw [e1, e2, if_pos hk]
      have e3 : (q * 9 + r - 1) / 9 = q := by omega
      have e4 : (q * 9 + r - 1) % 9 + 1 = r := by omega
      rw [e3, e4, ← hmq, u64_of_lt hm, mul10_loop_eq k m hlt, ← h2]
    · have hk9 : k = 9 := by omega
      subst hk9
      rw [if_neg (by decide)]
      rw [decompress_amount_pos _ (by omega)]
      have e1 : (1 + (m - 1) * 10 + 9 - 1) % 10 = 9 := by omega
      have e2 : (1 + (m - 1) * 10 + 9 - 1) / 10 = m - 1 := by omega
      rw [e1, e2, if_neg (by decide), show m - 1 + 1 = m by omega, u64_of_lt hm,
        mul10_loop_eq 9 m hlt, ← h2]

/-- Instance of C15 at one bitcoin: 100000000 satoshis compress to 9, and 9 decompresses to
100000000. -/
theorem decompress_compress_amount_witness :
    (100000000 : Nat) ≤ 2100000000000000 ∧ compress_amount 100000000 = 9 ∧
    decompress_amount 9 = 100000000 ∧
    decompress_amount 0 = 0 ∧ decompress_amount (compress_amount 100000000) = 100000000 :=
  ⟨by decide, by decide, by decide,
    decompress_compress_amount 100000000 (by decide)⟩

/-- C16: `UndoBlock` decoding succeeds exactly when the two header words can be read, the
buffer holds at least `8 + undoPayloadSize` bytes, the transaction count and the `UndoTx`
records decode, and the offset after the last record is `8 + undoPayloadSize`: the count and
the records together take exactly the declared payload size. In every other case the
constructor throws; in particular a short buffer gives "UndoBlock truncated" and records
ending elsewhere give "UndoBlock payload size mismatch". On success the number of decoded
`UndoTx` entries is the declared count. -/
theorem undo_block_payload_size (env : Env) (raw : Bytes) (ub : UndoBlock) :
    (UndoBlock.construct env raw = .ok ub ↔
      ∃ off1 off2,
        read_uint32_le raw 0 = .ok ub.magic ∧
        read_uint32_le raw 4 = .ok ub.undoPayloadSize ∧
        8 + ub.undoPayloadSize ≤ raw.length ∧
        read_varint raw 8 = .ok (ub.txCount, off1) ∧
        parse_undo_txs env raw ub.txCount off1 = .ok (ub.transactions, off2) ∧
        off2 = 8 + ub.undoPayloadSize) ∧
    (UndoBlock.construct env raw = .ok ub → ub.transactions.length = ub.txCount) ∧
    (∀ magic size, read_uint32_le raw 0 = .ok magic → read_uint32_le raw 4 = .ok size →
      raw.length < 8 + size →
      UndoBlock.construct env raw = .error (.runtime_error "UndoBlock truncated")) ∧
    (∀ magic size count off1 txs off2,
      read_uint32_le raw 0 = .ok magic → read_uint32_le raw 4 = .ok size →
      8 + size ≤ raw.length → read_varint raw 8 = .ok (count, off1) →
      parse_undo_txs env raw count off1 = .ok (txs, off2) → off2 ≠ 8 + size →
      UndoBlock.construct env raw =
        .error (.runtime_error "UndoBlock payload size mismatch")) := by
  have hsz : ∀ size, read_uint32_le raw 4 = .ok size → sz (0 + 4 + 4 + size) = 8 + size := by
    intro size hs
    have := read_uint32_le_ok hs
    rw [sz_of_lt (by omega)]
  have hiff : UndoBlock.construct env raw = .ok ub ↔
      ∃ off1 off2,
        read_uint32_le raw 0 = .ok ub.magic ∧
        read_uint32_le raw 4 = .ok ub.undoPayloadSize ∧
        8 + ub.undoPayloadSize ≤ raw.length ∧
        read_varint raw 8 = .ok (ub.txCount, off1) ∧
        parse_undo_txs env raw ub.txCount off1 = .ok (ub.transactions, off2) ∧
        off2 = 8 + ub.undoPayloadSize := by
    constructor
    · intro h
      unfold UndoBlock.construct at h
      simp only [] at h
      cases h0 : read_uint32_le raw 0 with
      | error e => rw [h0] at h; cases h
      | ok magic =>
        rw [h0] at h
        simp only [] at h
        cases h4 : read_uint32_le raw (0 + 4) with
        | error e => rw [h4] at h; cases h
        | ok size =>
          rw [h4] at h
          simp only [] at h
          rw [hsz size h4] at h
          split at h
          · cases h
          · rename_i hlen
            cases hv : read_varint raw (0 + 4 + 4) with
            | error e => rw [hv] at h; cases h
            | ok r =>
              obtain ⟨count, off1⟩ := r
              rw [hv] at h
              simp only [] at h
              cases hp : parse_undo_txs env raw count off1 with
              | error e => rw [hp] at h; cases h
              | ok r2 =>
                obtain ⟨txs, off2⟩ := r2
                rw [hp] at h
                simp only [] at h
                split at h
                · cases h
                · rename_i hoff
                  cases h
                  exact ⟨off1, off2, rfl, rfl, by show 8 + size ≤ raw.length; omega, rfl, hp,
                    by show off2 = 8 + size; omega⟩
    · rintro ⟨off1, off2, h0, h4, hlen, hv, hp, hoff⟩
      unfold UndoBlock.construct
      simp only []
      rw [h0]
      simp only []
      rw [show (0 + 4 = 4) from rfl, h4]
      simp only []
      rw [show (4 + 4 = 8) from rfl, hv]
      have := hsz _ h4
      simp only [Nat.zero_add, Nat.reduceAdd] at this
      simp only [this, hp]
      rw [if_neg (by omega), if_neg (by simp [hoff])]
  refine ⟨hiff, ?_, ?_, ?_⟩
  · intro h
    obtain ⟨off1, off2, -, -, -, -, hp, -⟩ := hiff.1 h
    exact parse_undo_txs_length env raw _ _ _ _ hp
  · intro magic size h0 h4 hlen
    unfold UndoBlock.construct
    simp only []
    rw [h0]
    simp only []
    rw [show (0 + 4 = 4) from rfl, h4]
    have := hsz _ h4
    simp only [Nat.zero_add, Nat.reduceAdd] at this
    simp only [this]
    rw [if_pos (by omega)]
  · intro magic size count off1 txs off2 h0 h4 hlen hv hp hoff
    unfold UndoBlock.construct
    simp only []
    rw [h0]
    simp only []
    rw [show (0 + 4 = 4) from rfl, h4]
    simp only []
    rw [show (4 + 4 = 8) from rfl, hv]
    have := hsz _ h4
    simp only [Nat.zero_add, Nat.reduceAdd] at this
    simp only [this, hp]
    rw [if_neg (by omega), if_pos (by simpa using hoff)]

/-- Instance of C16: the record `sample_undo_raw` declares a payload of 25 bytes, its count
byte and its single `UndoTx` end at offset 33 = 8 + 25, and it decodes to one `UndoTx`; with
a declared payload of 26 bytes (and one more byte) the same records end one byte early, and
cut to 32 bytes the buffer is too short. -/
theorem undo_block_payload_size_witness :
    UndoBlock.construct sample_env sample_undo_raw = .ok sample_undo ∧
    read_varint sample_undo_raw 8 = .ok (1, 9) ∧
    parse_undo_txs sample_env sample_undo_raw 1 9 = .ok (sample_undo.transactions, 33) ∧
    sample_undo.transactions.length = sample_undo.txCount ∧
    UndoBlock.construct sample_env (sample_undo_raw.set 4 26 ++ [0]) =
      .error (.runtime_error "UndoBlock payload size mismatch") ∧
    UndoBlock.construct sample_env (sample_undo_raw.take 32) =
      .error (.runtime_error "UndoBlock truncated") := by
  have h : UndoBlock.construct sample_env sample_undo_raw = .ok sample_undo := by decide
  exact ⟨h, by decide, by decide,
    (undo_block_payload_size sample_env sample_undo_raw sample_undo).2.1 h,
    by decide, by decide⟩

/-- C19: for a P2SH prevout, the input is P2SH_P2WPKH exactly when the unlocking script is,
from its first byte to its last, a sequence of well-formed push operations whose last pushed
element has 22 bytes and begins `00 14`; it is P2SH_P2WSH exactly when it is such a sequence
whose last pushed element has 34 bytes and begins `00 20`; in every other case it is
UNKNOWN, in particular when the script is not a sequence of well-formed pushes (a non-push
opcode such as OP_0 in opcode position, a truncated push) and when it is empty. The loop of
`extract_last_push` ends within `scriptSig.size()` iterations: more change nothing. -/
theorem classify_input_p2sh (p s : Bytes) (w : List Bytes)
    (hp : classify_output_script p = .P2SH) :
    (classify_input p s w = .P2SH_P2WPKH ↔
      ∃ ops last, parses_as_pushes s ops ∧ ops.getLast? = some last ∧
        last.data.length = 22 ∧ at_ last.data 0 = 0x00 ∧ at_ last.data 1 = 0x14) ∧
    (classify_input p s w = .P2SH_P2WSH ↔
      ∃ ops last, parses_as_pushes s ops ∧ ops.getLast? = some last ∧
        last.data.length = 34 ∧ at_ last.data 0 = 0x00 ∧ at_ last.data 1 = 0x20) ∧
    (classify_input p s w = .UNKNOWN ↔
      ¬ (∃ ops last, parses_as_pushes s ops ∧ ops.getLast? = some last ∧
        last.data.length = 22 ∧ at_ last.data 0 = 0x00 ∧ at_ last.data 1 = 0x14) ∧
      ¬ (∃ ops last, parses_as_pushes s ops ∧ ops.getLast? = some last ∧
        last.data.length = 34 ∧ at_ last.data 0 = 0x00 ∧ at_ last.data 1 = 0x20)) ∧
    ((¬ ∃ ops, parses_as_pushes s ops) → classify_input p s w = .UNKNOWN) ∧
    (s = [] → classify_input p s w = .UNKNOWN) ∧
    (∀ extra, extract_last_push_loop s (s.length + extra) 0 [] =
      extract_last_push_loop s s.length 0 []) := by
  have hA := classify_input_p2sh_iff p s w hp .P2SH_P2WPKH 22 0x14 (Or.inl ⟨rfl, rfl, rfl⟩)
  have hB := classify_input_p2sh_iff p s w hp .P2SH_P2WSH 34 0x20 (Or.inr ⟨rfl, rfl, rfl⟩)
  have hU : classify_input p s w = .UNKNOWN ↔
      ¬ (∃ ops last, parses_as_pushes s ops ∧ ops.getLast? = some last ∧
        last.data.length = 22 ∧ at_ last.data 0 = 0x00 ∧ at_ last.data 1 = 0x14) ∧
      ¬ (∃ ops last, parses_as_pushes s ops ∧ ops.getLast? = some last ∧
        last.data.length = 34 ∧ at_ last.data 0 = 0x00 ∧ at_ last.data 1 = 0x20) := by
    rw [← hA, ← hB]
    rcases classify_input_p2sh_cases p s w hp with h | h | h <;> rw [h] <;> simp
  refine ⟨hA, hB, hU, ?_, ?_, ?_⟩
  · intro hno
    apply hU.2
    constructor
    · rintro ⟨ops, last, hparse, -⟩; exact hno ⟨ops, hparse⟩
    · rintro ⟨ops, last, hparse, -⟩; exact hno ⟨ops, hparse⟩
  · intro hs
    subst hs
    rw [classify_input_p2sh_eq p [] w hp]
    rfl
  · intro extra
    exact extract_last_push_loop_fuel s 0 _ _ [] (by omega) (by omega)

/-- Instance of C19: against the P2SH prevout `a9 14 <20 bytes> 87`, the unlocking script
`16 00 14 <20 bytes>` is the single direct push of a 22-byte element beginning `00 14`, and
the input is P2SH_P2WPKH; the unlocking script `00` (OP_0 alone) gives UNKNOWN. -/
theorem classify_input_p2sh_witness :
    classify_output_script sample_p2sh_script = .P2SH ∧
    parses_as_pushes sample_p2sh_p2wpkh_sig
      [{ header := [0x16], data := [0x00, 0x14] ++ List.replicate 20 0x22 }] ∧
    classify_input sample_p2sh_script sample_p2sh_p2wpkh_sig [] = .P2SH_P2WPKH ∧
    classify_input sample_p2sh_script [0x00] [] = .UNKNOWN := by
  have hp : classify_output_script sample_p2sh_script = .P2SH := by decide
  have hparse : parses_as_pushes sample_p2sh_p2wpkh_sig
      [{ header := [0x16], data := [0x00, 0x14] ++ List.replicate 20 0x22 }] := by
    refine ⟨?_, by decide⟩
    intro q hq
    rw [List.mem_singleton] at hq
    subst hq
    exact Or.inl ⟨0x16, by decide, by decide, rfl, by decide⟩
  exact ⟨hp, hparse,
    (classify_input_p2sh sample_p2sh_script sample_p2sh_p2wpkh_sig [] hp).1.2
      ⟨_, _, hparse, rfl, by decide, by decide, by decide⟩,
    by decide⟩

/-- C20: `disassemble_script` is total on every script (of fewer than `2^64` bytes, as every
vector is). The loop ends within `script.size()` iterations, with a text: more iterations
change nothing; and every element it reads and every range it takes lies within the script,
for the loop with checked reads returns that text and no fault. A direct push or a
PUSHDATA1/2/4 whose declared length exceeds the bytes that remain gives the hex of exactly
the bytes that remain, and a PUSHDATA opcode whose length prefix is cut short gives the name
of the opcode. -/
theorem disassemble_script_total (env : Env) (script : Bytes) (hlen : script.length < 2 ^ 64) :
    disassemble_script_checked env script = .ok (disassemble_script env script) ∧
    (∀ extra, disassemble_loop_checked env script (script.length + extra) 0 "" =
      .ok (disassemble_script env script)) ∧
    (∀ fuel i result, i < script.length →
      0x01 ≤ (at_ script i).val → (at_ script i).val ≤ 0x4b →
      script.length - (i + 1) < (at_ script i).val →
      disassemble_loop_checked env script (fuel + 1) i result =
        .ok (((result ++ ("OP_PUSHBYTES_" ++ to_string (at_ script i).val)) ++ " ") ++
          bytes_to_hex (script.drop (i + 1)))) ∧
    (∀ fuel i result, i + 1 < script.length → at_ script i = OP_PUSHDATA1 →
      script.length - (i + 1 + 1) < (at_ script (i + 1)).val →
      disassemble_loop_checked env script (fuel + 1) i result =
        .ok ((result ++ "OP_PUSHDATA1 ") ++ bytes_to_hex (script.drop (i + 1 + 1)))) ∧
    (∀ fuel i result, i + 1 + 2 ≤ script.length → at_ script i = OP_PUSHDATA2 →
      script.length - (i + 1 + 2)
        < (at_ script (i + 1)).val + 2 ^ 8 * (at_ script (i + 1 + 1)).val →
      disassemble_loop_checked env script (fuel + 1) i result =
        .ok ((result ++ "OP_PUSHDATA2 ") ++ bytes_to_hex (script.drop (i + 1 + 2)))) ∧
    (∀ fuel i result, i + 1 + 4 ≤ script.length → at_ script i = OP_PUSHDATA4 →
      script.length - (i + 1 + 4)
        < (at_ script (i + 1)).val + 2 ^ 8 * (at_ script (i + 1 + 1)).val +
          2 ^ 16 * (at_ script (i + 1 + 2)).val + 2 ^ 24 * (at_ script (i + 1 + 3)).val →
      disassemble_loop_checked env script (fuel + 1) i result =
        .ok ((result ++ "OP_PUSHDATA4 ") ++ bytes_to_hex (script.drop (i + 1 + 4)))) ∧
    (∀ fuel i result, i < script.length →
      (at_ script i = OP_PUSHDATA1 → i + 1 ≥ script.length →
        disassemble_loop_checked env script (fuel + 1) i result =
          .ok (result ++ "OP_PUSHDATA1")) ∧
      (at_ script i = OP_PUSHDATA2 → i + 1 + 2 > script.length →
        disassemble_loop_checked env script (fuel + 1) i result =
          .ok (result ++ "OP_PUSHDATA2")) ∧
      (at_ script i = OP_PUSHDATA4 → i + 1 + 4 > script.length →
        disassemble_loop_checked env script (fuel + 1) i result =
          .ok (result ++ "OP_PUSHDATA4"))) := by
  have hck := disassemble_loop_checked_eq env script hlen
  refine ⟨hck _ 0 "" (by omega), ?_, ?_, ?_, ?_, ?_, ?_⟩
  · intro extra
    rw [hck _ 0 "" (by omega), disassemble_script,
      disassemble_loop_fuel env script script.length 0 (script.length + extra) ""
        (by omega) (by omega)]
  · intro fuel i result hi h1 h2 hn
    rw [hck _ i result (by omega),
      disassemble_loop_pushbytes_clamp env script fuel i result hi ⟨h1, h2⟩ hn]
  · intro fuel i result hi h2 hn
    rw [hck _ i result (by omega),
      disassemble_loop_pushdata1_clamp env script fuel i result hi h2 hn]
  · intro fuel i result hi h2 hn
    rw [hck _ i result (by omega),
      disassemble_loop_pushdata2_clamp env script fuel i result hi h2 hn]
  · intro fuel i result hi h2 hn
    rw [hck _ i result (by omega),
      disassemble_loop_pushdata4_clamp env script fuel i result hi h2 hn]
  · intro fuel i result hi
    obtain ⟨c1, c2, c3⟩ := disassemble_loop_prefix_cut env script fuel i result hi
    rw [hck _ i result (by omega)]
    exact ⟨fun a b => by rw [c1 a b], fun a b => by rw [c2 a b], fun a b => by rw [c3 a b]⟩

/-- Instance of C20: the script `05 aa bb` declares a push of five bytes and holds two; its
disassembly is `OP_PUSHBYTES_5 aabb`. The script `4d 01` ends inside the length prefix of
PUSHDATA2; its disassembly is `OP_PUSHDATA2`. -/
theorem disassemble_script_total_witness :
    ([0x05, 0xAA, 0xBB] : Bytes).length < 2 ^ 64 ∧
    disassemble_script sample_env [0x05, 0xAA, 0xBB] = "OP_PUSHBYTES_5 aabb" ∧
    disassemble_script_checked sample_env [0x05, 0xAA, 0xBB] = .ok "OP_PUSHBYTES_5 aabb" ∧
    disassemble_script_checked sample_env [0x4d, 0x01] = .ok "OP_PUSHDATA2" := by
  have h := (disassemble_script_total sample_env [0x05, 0xAA, 0xBB] (by decide)).1
  have e : disassemble_script sample_env [0x05, 0xAA, 0xBB] = "OP_PUSHBYTES_5 aabb" := by
    decide
  refine ⟨by decide, e, ?_, by decide⟩
  rw [h, e]

/-- The number of `RBF_SIGNALING` warnings that `build_warnings` produces. -/
theorem count_rbf (env : Env) (tx : Transaction) (fee_sats : Nat)
    (outputs : List AccountedOutput) :
    (build_warnings env tx fee_sats outputs).count { code := .RBF_SIGNALING } =
      if tx.RBF_enabled then 1 else 0 := by
  unfold build_warnings
  simp only
  split_ifs <;> simp [List.count_append, List.count_cons, List.count_nil]

/-- C28: `RBF_enabled` is true exactly when some input has a sequence strictly below
`0xFFFFFFFE`, hence false without inputs; and the warnings of a successful analysis contain
`RBF_SIGNALING` exactly once when `RBF_enabled` is true and not at all otherwise. -/
theorem rbf_signaling (env : Env) (tx : Transaction) (prevouts : List Prevout)
    (network : String) (r : TxnAnalyzer)
    (h : TxnAnalyzer.construct env tx prevouts network = .ok r) :
    (tx.RBF_enabled = true ↔ ∃ txin ∈ tx.inputs, txin.sequence < 0xFFFFFFFE) ∧
    (tx.inputs = [] → tx.RBF_enabled = false) ∧
    (r.warnings_.count { code := .RBF_SIGNALING } = 1 ↔ tx.RBF_enabled = true) ∧
    (r.warnings_.count { code := .RBF_SIGNALING } = 0 ↔ tx.RBF_enabled = false) := by
  obtain ⟨m, -, -, -, -, -, -, hw⟩ := construct_ok h
  have hc := count_rbf env tx r.fee_sats_ r.outputs_
  rw [← hw] at hc
  refine ⟨?_, ?_, ?_, ?_⟩
  · simp [Transaction.RBF_enabled, List.any_eq_true]
  · intro he
    simp [Transaction.RBF_enabled, he]
  · rw [hc]; split <;> simp_all
  · rw [hc]; split <;> simp_all

/-- Instance of C28 at `sample_tx`, whose second input has the sequence `0xFFFFFFFD`. -/
theorem rbf_signaling_witness :
    TxnAnalyzer.construct sample_env sample_tx sample_prevouts "mainnet" = .ok sample_analysis ∧
    sample_tx.RBF_enabled = true ∧
    sample_analysis.warnings_.count { code := .RBF_SIGNALING } = 1 := by
  have h : TxnAnalyzer.construct sample_env sample_tx sample_prevouts "mainnet"
      = .ok sample_analysis := by rfl
  have e : sample_tx.RBF_enabled = true := by decide
  exact ⟨h, e,
    (rbf_signaling sample_env sample_tx sample_prevouts "mainnet" sample_analysis h).2.2.1.2 e⟩

theorem and_two_pow_eq_zero (q i : Nat) : q &&& 2 ^ i = 0 ↔ q / 2 ^ i % 2 = 0 := by
  rw [Nat.and_two_pow, Nat.toNat_testBit]
  have hp : 0 < 2 ^ i := Nat.pos_pow_of_pos _ (by decide)
  constructor
  · intro h
    rcases Nat.mul_eq_zero.1 h with h | h
    · exact h
    · omega
  · intro h; rw [h, Nat.zero_mul]

/-- C29: for every sequence `q` (a 32-bit word), `get_rlt_info` reports `enabled` exactly when bit 31 of
`q` is 0; when enabled the type is UNIX_TIMESTAMP exactly when bit 22 is 1 and BLOCK_HEIGHT
otherwise, and the value is `q mod 2^16`; when not enabled the value is 0. -/
theorem rlt_info (txin : TxIn) :
    (txin.get_rlt_info.enabled = true ↔ txin.sequence / 2 ^ 31 % 2 = 0) ∧
    (txin.get_rlt_info.enabled = true →
      (txin.get_rlt_info.type = .UNIX_TIMESTAMP ↔ txin.sequence / 2 ^ 22 % 2 = 1) ∧
      (txin.get_rlt_info.type = .BLOCK_HEIGHT ↔ txin.sequence / 2 ^ 22 % 2 = 0) ∧
      txin.get_rlt_info.value = txin.sequence % 2 ^ 16) ∧
    (txin.get_rlt_info.enabled = false → txin.get_rlt_info.value = 0) := by
  have h31 : txin.sequence &&& 2147483648 = 0 ↔ txin.sequence / 2147483648 % 2 = 0 :=
    and_two_pow_eq_zero txin.sequence 31
  have h22 : txin.sequence &&& 4194304 = 0 ↔ txin.sequence / 4194304 % 2 = 0 :=
    and_two_pow_eq_zero txin.sequence 22
  have hv : txin.sequence &&& 65535 = txin.sequence % 65536 :=
    Nat.and_pow_two_sub_one_eq_mod txin.sequence 16
  have hmod : txin.sequence / 4194304 % 2 < 2 := Nat.mod_lt _ (by decide)
  have e31 : (1 <<< 31 : Nat) = 2147483648 := rfl
  have e22 : (1 <<< 22 : Nat) = 4194304 := rfl
  unfold TxIn.get_rlt_info TxIn.RLT_enabled
  rw [e31, e22]
  norm_num only
  by_cases he : txin.sequence &&& 2147483648 = 0
  · have he' := h31.1 he
    by_cases ht : txin.sequence &&& 4194304 = 0
    · have ht' := h22.1 ht
      simp [he, he', ht, ht', hv]
    · have ht' : txin.sequence / 4194304 % 2 = 1 := by
        have := mt h22.2 ht
        omega
      simp [he, he', ht, ht', hv]
  · have he' := mt h31.2 he
    simp [he, he']

/-- Instance of C29 at the sequence `0x00400010`: bit 31 is 0, bit 22 is 1, and the low 16
bits are 16. -/
theorem rlt_info_witness :
    (0x00400010 : Nat) < 2 ^ 32 ∧
    (TxIn.get_rlt_info { prevTxId := [], vout := 0, scriptSig := [], sequence := 0x00400010,
                         witness := [] }) =
      { enabled := true, type := .UNIX_TIMESTAMP, value := 16 } ∧
    (TxIn.get_rlt_info { prevTxId := [], vout := 0, scriptSig := [], sequence := 0x00400010,
                         witness := [] }).value = 0x00400010 % 2 ^ 16 :=
  ⟨by decide, by decide,
    ((rlt_info { prevTxId := [], vout := 0, scriptSig := [], sequence := 0x00400010,
                 witness := [] }).2.1 (by decide)).2.2⟩

/-- C23: for a transaction whose serialization fits the address space, `build_segwit_savings`
reports `total_bytes = |serialize_with_witness|`, `weight_actual = get_weight` and
`weight_if_legacy = 4 * total_bytes`. For a segwit transaction `weight + 2 - total` does not
underflow and equals `3 * |serialize_legacy| + 2`, so the division by 3 gives
`non_witness_bytes = |serialize_legacy|` exactly; `total - base - 2` does not underflow, and
`witness_bytes` is the size of the witness stacks. For a non-segwit transaction
`witness_bytes = 0` and `non_witness_bytes = total_bytes`. -/
theorem segwit_savings_exact (t : Transaction)
    (hsize : t.serialize_with_witness.length < 2 ^ 62) :
    (build_segwit_savings t).total_bytes = t.serialize_with_witness.length ∧
    (build_segwit_savings t).weight_actual = t.get_weight ∧
    (build_segwit_savings t).weight_if_legacy = 4 * (build_segwit_savings t).total_bytes ∧
    (t.is_segwit = true →
      t.get_size_bytes ≤ t.get_weight + 2 ∧
      t.get_weight + 2 - t.get_size_bytes = 3 * t.serialize_legacy.length + 2 ∧
      (build_segwit_savings t).non_witness_bytes = t.serialize_legacy.length ∧
      (build_segwit_savings t).non_witness_bytes + 2 ≤ (build_segwit_savings t).total_bytes ∧
      (build_segwit_savings t).witness_bytes =
        (build_segwit_savings t).total_bytes - (build_segwit_savings t).non_witness_bytes - 2 ∧
      (build_segwit_savings t).witness_bytes = (serialize_witnesses [] t.inputs).length) ∧
    (t.is_segwit = false →
      (build_segwit_savings t).witness_bytes = 0 ∧
      (build_segwit_savings t).non_witness_bytes = (build_segwit_savings t).total_bytes) := by
  have hl := length_serialize_with_witness t
  have hw := get_weight_eq t hsize
  have h10 := length_serialize_legacy_ge t
  unfold build_segwit_savings
  simp only [Transaction.get_size_bytes, Transaction.is_segwit]
  cases hseg : t.isSegwit with
  | false =>
    rw [hseg] at hl
    simp only [Bool.false_eq_true, if_false] at hl ⊢
    refine ⟨trivial, trivial, ?_, ?_, ?_⟩
    · simp only [sz]; omega
    · intro h; cases h
    · intro _; exact ⟨trivial, trivial⟩
  | true =>
    rw [hseg] at hl
    simp only [if_true] at hl ⊢
    have hbase : sz (sz (t.get_weight + 2) + 2 ^ 64 - t.serialize_with_witness.length) / 3
        = t.serialize_legacy.length := by
      simp only [sz]; omega
    have hwit : sz (sz (t.serialize_with_witness.length + 2 ^ 64 - t.serialize_legacy.length)
        + 2 ^ 64 - 2) = (serialize_witnesses [] t.inputs).length := by
      simp only [sz]; omega
    rw [hbase, hwit]
    refine ⟨trivial, trivial, ?_, ?_, ?_⟩
    · simp only [sz]; omega
    · intro _
      exact ⟨by omega, by omega, rfl, by omega, by omega, rfl⟩
    · intro h; cases h

/-- Instance of C23 at `sample_segwit_tx`: 67 bytes in all, 61 without witness, 4 bytes of
witness stacks, weight 250 against 268. -/
theorem segwit_savings_exact_witness :
    sample_segwit_tx.serialize_with_witness.length < 2 ^ 62 ∧
    sample_segwit_tx.is_segwit = true ∧
    build_segwit_savings sample_segwit_tx =
      { witness_bytes := 4, non_witness_bytes := 61, total_bytes := 67, weight_actual := 250,
        weight_if_legacy := 268 } ∧
    (build_segwit_savings sample_segwit_tx).non_witness_bytes =
      sample_segwit_tx.serialize_legacy.length :=
  ⟨by decide, rfl, by decide,
    ((segwit_savings_exact sample_segwit_tx (by decide)).2.2.2.1 rfl).2.2.1⟩

/-- C21: for a script `s` whose first byte is OP_RETURN (`6A`), `process_output_script`
succeeds with type OP_RETURN and a payload whose `data` is the concatenation, in order, of the
data of the maximal leading run of complete pushes after the first byte (such a run exists and
every such run gives that data); `protocol` is OMNI iff the data begin with `6F 6D 6E 69`,
OPENTIMESTAMPS iff they do not and begin with `01 09 F9 11 02`, and UNKNOWN otherwise. -/
theorem op_return_payload (env : Env) (s : Bytes) (hs : s ≠ []) (h0 : at_ s 0 = 0x6A) :
    ∃ payload : OPReturnPayload,
      process_output_script env s =
        .ok { type := .OP_RETURN, address := none, op_return := some payload } ∧
      (∃ ops tail, leading_pushes (s.drop 1) ops tail) ∧
      (∀ ops tail, leading_pushes (s.drop 1) ops tail →
        payload.data = ops.flatMap PushOp.data) ∧
      (payload.protocol = .OMNI ↔ [0x6F, 0x6D, 0x6E, 0x69] <+: payload.data) ∧
      (payload.protocol = .OPENTIMESTAMPS ↔
        ¬ [0x6F, 0x6D, 0x6E, 0x69] <+: payload.data ∧
          [0x01, 0x09, 0xF9, 0x11, 0x02] <+: payload.data) ∧
      (payload.protocol = .UNKNOWN ↔
        ¬ [0x6F, 0x6D, 0x6E, 0x69] <+: payload.data ∧
          ¬ [0x01, 0x09, 0xF9, 0x11, 0x02] <+: payload.data) := by
  have hne : ¬ s.isEmpty = true := by
    cases s with
    | nil => exact absurd rfl hs
    | cons a t => simp
  have hc : classify_output_script s = .OP_RETURN :=
    (classify_output_script_iff_at s).2.2.2.2.2.1.2 ⟨hne, h0⟩
  have hlen : 1 ≤ s.length := by
    cases s with
    | nil => exact absurd rfl hs
    | cons a t => simp
  obtain ⟨ops, tail, hrun, hloop⟩ := parse_op_return_loop_run s s.length 1 [] hlen (by omega)
  refine ⟨parse_op_return s, ?_, ⟨ops, tail, hrun⟩, ?_, ?_⟩
  · simp [process_output_script, hc]
  · intro ops' tail' h'
    have hu := (leading_pushes_unique ops ops' (s.drop 1) tail tail' hrun h').1
    rw [← hu]
    unfold parse_op_return
    rw [if_neg (by rw [h0]; simp [hne, OP_RETURN])]
    simp only [hloop, List.nil_append]
  · unfold parse_op_return
    rw [if_neg (by rw [h0]; simp [hne, OP_RETURN])]
    simp only [prefix_four_iff, prefix_five_iff]
    by_cases h4 : [0x6F, 0x6D, 0x6E, 0x69] <+: parse_op_return_loop s s.length 1 []
    · simp [h4]
    · by_cases h5 : [0x01, 0x09, 0xF9, 0x11, 0x02] <+: parse_op_return_loop s s.length 1 []
      · simp [h4, h5]
      · simp [h4, h5]

/-- Instance of C21 at `sample_op_return_script`: the run is the direct push of `omni` and
the PUSHDATA1 of `21`, the cut PUSHDATA2 ends it, and the protocol is OMNI. -/
theorem op_return_payload_witness :
    sample_op_return_script ≠ [] ∧ at_ sample_op_return_script 0 = 0x6A ∧
    leading_pushes (sample_op_return_script.drop 1) sample_op_return_ops [0x4D, 0x05] ∧
    process_output_script sample_env sample_op_return_script =
      .ok { type := .OP_RETURN, address := none,
            op_return := some { data := [0x6F, 0x6D, 0x6E, 0x69, 0x21],
                                utf8 := some [0x6F, 0x6D, 0x6E, 0x69, 0x21],
                                protocol := .OMNI } } ∧
    ∃ payload : OPReturnPayload,
      process_output_script sample_env sample_op_return_script =
        .ok { type := .OP_RETURN, address := none, op_return := some payload } ∧
      payload.data = sample_op_return_ops.flatMap PushOp.data := by
  have hrun : leading_pushes (sample_op_return_script.drop 1) sample_op_return_ops [0x4D, 0x05] := by
    refine ⟨?_, by decide, ?_⟩
    · intro p hp
      simp only [sample_op_return_ops, List.mem_cons, List.mem_singleton, List.not_mem_nil,
        or_false] at hp
      rcases hp with rfl | rfl
      · exact Or.inl ⟨0x04, by decide, by decide, rfl, rfl⟩
      · exact Or.inr (Or.inl ⟨0x01, rfl, rfl⟩)
    · intro p rest hp h
      have h' := push_length_of_wf [0x4D, 0x05] 0 p rest hp (by rw [h, PushOp.bytes]; rfl)
      have h2 := h'.2.1
      have hn : push_length [0x4D, 0x05] (at_ [0x4D, 0x05] 0) (0 + 1) = none := by decide
      rw [hn] at h2
      cases h2
  obtain ⟨payload, h1, -, h3, -⟩ :=
    op_return_payload sample_env sample_op_return_script (by decide) (by decide)
  exact ⟨by decide, by decide, hrun, by decide, payload, h1, h3 _ _ hrun⟩

/-- C22: `is_valid_utf8` accepts every strictly well-formed UTF-8 sequence and rejects
truncated ones, but it tests only the lead-byte pattern and the top two bits of the
continuation bytes: it also accepts the overlong form `C0 80`, the surrogate `ED A0 80`
(U+D800) and `F4 90 80 80` (U+110000), none of which is strictly well formed, and the
OP_RETURN script `6A 02 C0 80` gets a utf8 string attached. -/
theorem is_valid_utf8_not_strict :
    (∀ d : Bytes, strict_utf8 d → is_valid_utf8 d = true) ∧
    (is_valid_utf8 [0xC0, 0x80] = true ∧ ¬ strict_utf8 [0xC0, 0x80]) ∧
    (is_valid_utf8 [0xED, 0xA0, 0x80] = true ∧ ¬ strict_utf8 [0xED, 0xA0, 0x80]) ∧
    (is_valid_utf8 [0xF4, 0x90, 0x80, 0x80] = true ∧ ¬ strict_utf8 [0xF4, 0x90, 0x80, 0x80]) ∧
    is_valid_utf8 [0xE2, 0x82] = false ∧
    process_output_script sample_env [0x6A, 0x02, 0xC0, 0x80] =
      .ok { type := .OP_RETURN, address := none,
            op_return := some { data := [0xC0, 0x80], utf8 := some [0xC0, 0x80],
                                protocol := .UNKNOWN } } := by
  refine ⟨?_, ⟨by decide, ?_⟩, ⟨by decide, ?_⟩, ⟨by decide, ?_⟩, by decide, by decide⟩
  · rintro d ⟨cps, hsc, hd⟩
    exact is_valid_utf8_loop_of_encoded d d.length cps 0 hsc (by rw [List.drop_zero, hd])
  · rintro ⟨cps, hsc, hd⟩
    cases cps with
    | nil => cases hd
    | cons c cs =>
      obtain ⟨b, rest, he, h0, -⟩ := utf8_encode_head c (hsc c (List.mem_cons_self _ _))
      rw [List.flatMap_cons, he, List.cons_append] at hd
      injection hd with hb _
      subst hb
      exact h0 rfl
  · rintro ⟨cps, hsc, hd⟩
    cases cps with
    | nil => cases hd
    | cons c cs =>
      obtain ⟨b, rest, he, -, -, -, -, h1, -⟩ :=
        utf8_encode_head c (hsc c (List.mem_cons_self _ _))
      rw [List.flatMap_cons, he, List.cons_append] at hd
      injection hd with hb hr
      subst hb
      obtain ⟨b1, rest', hr', hb1⟩ := h1 rfl
      rw [hr', List.cons_append] at hr
      injection hr with hb1' _
      subst hb1'
      revert hb1
      decide
  · rintro ⟨cps, hsc, hd⟩
    cases cps with
    | nil => cases hd
    | cons c cs =>
      obtain ⟨b, rest, he, -, -, -, -, -, -, h1⟩ :=
        utf8_encode_head c (hsc c (List.mem_cons_self _ _))
      rw [List.flatMap_cons, he, List.cons_append] at hd
      injection hd with hb hr
      subst hb
      obtain ⟨b1, rest', hr', hb1⟩ := h1 rfl
      rw [hr', List.cons_append] at hr
      injection hr with hb1' _
      subst hb1'
      revert hb1
      decide

/-- Instance of the first part of C22: the euro sign U+20AC, `E2 82 AC`, is strictly well
formed and accepted. -/
theorem is_valid_utf8_not_strict_witness :
    strict_utf8 [0xE2, 0x82, 0xAC] ∧ is_valid_utf8 [0xE2, 0x82, 0xAC] = true :=
  have h : strict_utf8 [0xE2, 0x82, 0xAC] :=
    ⟨[0x20AC], by simp [is_scalar_value], by decide⟩
  ⟨h, is_valid_utf8_not_strict.1 _ h⟩

/-- C24 (amended): for a coinbase transaction whose first input has script `s`,
`analyze_coinbase` succeeds; if `s` is non-empty, its first byte `L` has `1 ≤ L ≤ 4` and
`|s| ≥ 1 + L`, then `bip34_height` is the little-endian integer of `s[1..1+L)`, and in every
other case it is 0. `total_output_sats` is the sum of the output amounts modulo `2^64`,
hence the sum itself whenever that is below `2^64`. -/
theorem coinbase_info (cb_tx : Transaction) (txin : TxIn) (rest : List TxIn)
    (hin : cb_tx.inputs = txin :: rest) :
    ∃ info : CoinBaseInfo, analyze_coinbase cb_tx = .ok info ∧
      (txin.scriptSig ≠ [] → 1 ≤ (at_ txin.scriptSig 0).val → (at_ txin.scriptSig 0).val ≤ 4 →
        1 + (at_ txin.scriptSig 0).val ≤ txin.scriptSig.length →
        info.bip34_height = le_value (slice txin.scriptSig 1 (at_ txin.scriptSig 0).val)) ∧
      (txin.scriptSig = [] ∨ (at_ txin.scriptSig 0).val = 0 ∨ 4 < (at_ txin.scriptSig 0).val ∨
          txin.scriptSig.length < 1 + (at_ txin.scriptSig 0).val →
        info.bip34_height = 0) ∧
      info.total_output_sats = output_sum cb_tx % 2 ^ 64 ∧
      (output_sum cb_tx < 2 ^ 64 → info.total_output_sats = output_sum cb_tx) := by
  have hsum : cb_tx.outputs.foldl (fun total out => u64 (total + out.amount)) 0
      = output_sum cb_tx % 2 ^ 64 := by
    have h1 := foldl_u64 (fun _ : TxOut => true) (fun o => o.amount) cb_tx.outputs 0
    have h2 := foldl_u64_lt (fun _ : TxOut => true) (fun o => o.amount) cb_tx.outputs 0
      (by decide)
    simp only [if_true, Nat.zero_add, List.filter_true] at h1 h2
    rw [Nat.mod_eq_of_lt h2] at h1
    simpa [output_sum] using h1
  unfold analyze_coinbase
  rw [hin]
  refine ⟨_, rfl, ?_, ?_, hsum, fun h => by rw [hsum, Nat.mod_eq_of_lt h]⟩
  · intro hne h1 h4 hlen
    have he : txin.scriptSig.isEmpty = false := by
      cases hs : txin.scriptSig with
      | nil => exact absurd hs hne
      | cons a t => rfl
    simp only
    rw [he, if_pos (by decide), if_pos ⟨h1, h4, hlen⟩]
    exact read_le_eq_le_value _ _ _ hlen
  · intro h
    simp only
    cases he : txin.scriptSig.isEmpty with
    | true => rw [if_neg (by decide)]
    | false =>
      have hne : txin.scriptSig ≠ [] := by
        intro hs; rw [hs] at he; cases he
      rw [if_pos (by decide), if_neg]
      rcases h with h | h | h | h
      · exact absurd h hne
      · omega
      · omega
      · omega

/-- Instance of C24 at `coinbase_overflow`: the script `03 40 0D 03` gives the height
`0x030D40 = 200000`. -/
theorem coinbase_info_witness :
    coinbase_overflow.inputs =
      [{ prevTxId := List.replicate 32 0, vout := 0xFFFFFFFF,
         scriptSig := [0x03, 0x40, 0x0D, 0x03], sequence := 0xFFFFFFFF, witness := [] }] ∧
    ∃ info : CoinBaseInfo, analyze_coinbase coinbase_overflow = .ok info ∧
      info.bip34_height = 200000 := by
  obtain ⟨info, h1, h2, -⟩ := coinbase_info coinbase_overflow _ [] rfl
  exact ⟨rfl, info, h1, (h2 (by decide) (by decide) (by decide) (by decide)).trans (by decide)⟩

/-- Counterexample to C24 as stated: the two outputs of `coinbase_overflow` sum to `2^64`,
and `total_output_sats` is 0. -/
theorem coinbase_total_counterexample :
    analyze_coinbase coinbase_overflow =
      .ok { bip34_height := 200000, coinbase_script_hex := "03400d03", total_output_sats := 0 } ∧
    output_sum coinbase_overflow = 2 ^ 64 := by
  constructor
  · decide
  · decide

/-- C25: a block analysis succeeds only if the block has at least one transaction, the
undo data have one entry less than the block has transactions, and for every `i ≥ 1` the
transaction `i` has as many inputs as the undo entry `i - 1` has coins. An empty block fails
with "Block has no transactions", a wrong number of undo entries (the coinbase having an
input) with "Undo mismatch: tx count does not match", and whenever one of the three
conditions is violated the analysis throws and yields no result. -/
theorem block_analysis_conditions (env : Env) (block : Block) (undo : UndoBlock)
    (network : String) (hsize : block.txs.length < 2 ^ 64) :
    (∀ r, BlockAnalyzer.construct env block undo network = .ok r →
      1 ≤ block.txs.length ∧ undo.transactions.length = block.txs.length - 1 ∧
      ∀ (i : Nat) (tx : Transaction) (u : UndoTx), 1 ≤ i → block.txs[i]? = some tx →
        undo.transactions[i - 1]? = some u → tx.inputs.length = u.spentOutputs.length) ∧
    (block.txs = [] →
      BlockAnalyzer.construct env block undo network =
        .error (.runtime_error "Block has no transactions")) ∧
    (∀ cb rest, block.txs = cb :: rest → cb.inputs ≠ [] →
      undo.transactions.length ≠ rest.length →
      BlockAnalyzer.construct env block undo network =
        .error (.runtime_error "Undo mismatch: tx count does not match")) ∧
    (¬ (1 ≤ block.txs.length ∧ undo.transactions.length = block.txs.length - 1 ∧
        ∀ (i : Nat) (tx : Transaction) (u : UndoTx), 1 ≤ i → block.txs[i]? = some tx →
          undo.transactions[i - 1]? = some u → tx.inputs.length = u.spentOutputs.length) →
      ∃ msg, BlockAnalyzer.construct env block undo network = .error (.runtime_error msg)) := by
  have hnec : ∀ r, BlockAnalyzer.construct env block undo network = .ok r →
      1 ≤ block.txs.length ∧ undo.transactions.length = block.txs.length - 1 ∧
      ∀ (i : Nat) (tx : Transaction) (u : UndoTx), 1 ≤ i → block.txs[i]? = some tx →
        undo.transactions[i - 1]? = some u → tx.inputs.length = u.spentOutputs.length := by
    intro r h
    obtain ⟨cb, rest, ta, tas, htx, hcount, -, -, hloop, -⟩ := block_construct_ok h
    obtain ⟨-, -, h3⟩ := analyze_transactions_loop_ok env network rest _ tas hloop
    rw [htx] at hsize hcount ⊢
    simp only [List.length_cons, sz] at hsize hcount ⊢
    refine ⟨by omega, by omega, ?_⟩
    intro i tx u hi htx' hu
    obtain ⟨j, rfl⟩ : ∃ j, i = j + 1 := ⟨i - 1, by omega⟩
    simp only [List.getElem?_cons_succ, Nat.add_sub_cancel] at htx' hu
    exact h3 j tx u htx' hu
  refine ⟨hnec, ?_, ?_, ?_⟩
  · intro htx
    unfold BlockAnalyzer.construct
    simp only [Block.getTransactions, htx]
  · intro cb rest htx hcb hne
    obtain ⟨info, hinfo⟩ := analyze_coinbase_ok cb hcb
    unfold BlockAnalyzer.construct
    simp only [Block.getTransactions, htx, hinfo]
    unfold analyze_transactions
    simp only [Block.getTransactions, UndoBlock.getTransactions, htx]
    rw [htx] at hsize
    simp only [List.length_cons] at hsize
    have hsz : sz ((cb :: rest).length + 2 ^ 64 - 1) = rest.length := by
      simp only [List.length_cons, sz]; omega
    rw [hsz, if_pos hne]
  · intro hnot
    cases hres : BlockAnalyzer.construct env block undo network with
    | ok r => exact absurd (hnec r hres) hnot
    | error e =>
      obtain ⟨msg, rfl⟩ := block_construct_error hsize hres
      exact ⟨msg, rfl⟩

/-- Instance of C25: `sample_block` with `sample_block_undo` is analysed and meets the
three conditions; with one undo entry taken away the analysis fails. -/
theorem block_analysis_conditions_witness :
    sample_block.txs.length < 2 ^ 64 ∧
    (BlockAnalyzer.construct sample_env sample_block sample_block_undo "mainnet").succeeded
      = true ∧
    sample_block_undo.transactions.length = sample_block.txs.length - 1 ∧
    BlockAnalyzer.construct sample_env sample_block
        { sample_block_undo with transactions := [{ spentOutputs := [big_coin] }] } "mainnet" =
      .error (.runtime_error "Undo mismatch: tx count does not match") := by
  have h := block_analysis_conditions sample_env sample_block sample_block_undo "mainnet"
    (by decide)
  have hs : (BlockAnalyzer.construct sample_env sample_block sample_block_undo
      "mainnet").succeeded = true := by rfl
  refine ⟨by decide, hs, ?_, ?_⟩
  · cases hr : BlockAnalyzer.construct sample_env sample_block sample_block_undo "mainnet" with
    | error e => rw [hr] at hs; cases hs
    | ok r => exact (h.1 r hr).2.1
  · exact (block_analysis_conditions sample_env sample_block
      { sample_block_undo with transactions := [{ spentOutputs := [big_coin] }] } "mainnet"
      (by decide)).2.2.1 coinbase_overflow [spend_tx 0, spend_tx 1] rfl (by decide) (by decide)

/-- C26 (amended): after a successful block analysis the accounted transactions are the
block's transactions in order; `total_weight` is the sum of their weights, coinbase
included, and `total_fees_sats` the sum of `fee_sats` over the indices `≥ 1`, each reduced
modulo `2^64` (hence the sums themselves when these are below `2^64`); and, the number of
outputs being below `2^64`, the values of `script_type_summary` sum to the number of outputs
of all transactions of the block, each key holding the number of outputs with that
`script_type`. -/
theorem block_stats_totals (env : Env) (block : Block) (undo : UndoBlock) (network : String)
    (r : BlockAnalyzer) (h : BlockAnalyzer.construct env block undo network = .ok r) :
    r.transactions.map (fun ta => ta.tx_) = block.txs ∧
    r.block_stats.total_weight = (r.transactions.map TxnAnalyzer.weight).sum % 2 ^ 64 ∧
    ((r.transactions.map TxnAnalyzer.weight).sum < 2 ^ 64 →
      r.block_stats.total_weight = (block.txs.map Transaction.get_weight).sum) ∧
    r.block_stats.total_fees_sats =
      ((r.transactions.drop 1).map TxnAnalyzer.fee_sats).sum % 2 ^ 64 ∧
    (((r.transactions.drop 1).map TxnAnalyzer.fee_sats).sum < 2 ^ 64 →
      r.block_stats.total_fees_sats = ((r.transactions.drop 1).map TxnAnalyzer.fee_sats).sum) ∧
    (all_outputs r.transactions).length = (block.txs.map (fun tx => tx.outputs.length)).sum ∧
    ((all_outputs r.transactions).length < 2 ^ 64 →
      (r.block_stats.script_type_summary.map Prod.snd).sum =
        (all_outputs r.transactions).length ∧
      ∀ key, map_get r.block_stats.script_type_summary key =
        (all_outputs r.transactions).countP (fun out => out.script_type = key)) := by
  obtain ⟨cb, rest, ta, tas, htx, -, -, hta, hloop, htr, hstats, -⟩ := block_construct_ok h
  obtain ⟨-, hf, -⟩ := analyze_transactions_loop_ok env network rest _ tas hloop
  have hc := construct_tx hta
  have hall : List.Forall₂
      (fun tx ta => ta.tx_ = tx ∧ ta.outputs_.length = tx.outputs.length) block.txs
      r.transactions := by
    rw [htx, htr]
    exact List.Forall₂.cons ⟨hc.1, hc.2.2⟩ hf
  obtain ⟨hm1, hm2⟩ := forall₂_tx_maps hall
  have hw : r.block_stats.total_weight = (r.transactions.map TxnAnalyzer.weight).sum % 2 ^ 64 := by
    rw [hstats, compute_block_stats, compute_block_stats_loop_weight]
    exact foldl_u64_all TxnAnalyzer.weight r.transactions
  have hfee : r.block_stats.total_fees_sats =
      ((r.transactions.drop 1).map TxnAnalyzer.fee_sats).sum % 2 ^ 64 := by
    rw [hstats, htr, compute_block_stats, compute_block_stats_loop,
      compute_block_stats_loop_fees]
    exact foldl_u64_all TxnAnalyzer.fee_sats tas
  have hwmap : r.transactions.map TxnAnalyzer.weight = block.txs.map Transaction.get_weight := by
    rw [← hm1, List.map_map]
    rfl
  refine ⟨hm1, hw, ?_, hfee, ?_, ?_, ?_⟩
  · intro hlt
    rw [hw, Nat.mod_eq_of_lt hlt, hwmap]
  · intro hlt
    rw [hfee, Nat.mod_eq_of_lt hlt]
  · rw [all_outputs_length, hm2]
  · intro hlt
    have hs := histogram_spec (all_outputs r.transactions) [] (by simpa using hlt)
    rw [hstats, compute_block_stats, compute_block_stats_loop_summary]
    simpa [map_get] using hs

/-- Instance of C26 at `sample_block`: the weights 292, 240 and 240 give 772. -/
theorem block_stats_totals_witness :
    ∃ r, BlockAnalyzer.construct sample_env sample_block sample_block_undo "mainnet" = .ok r ∧
      r.block_stats.total_weight = 772 ∧
      (r.transactions.map TxnAnalyzer.weight).sum % 2 ^ 64 = 772 ∧
      (sample_block.txs.map Transaction.get_weight).sum = 772 := by
  have hv : (BlockAnalyzer.construct sample_env sample_block sample_block_undo "mainnet").map
      (fun r => r.block_stats.total_weight) = .ok 772 := by rfl
  cases hr : BlockAnalyzer.construct sample_env sample_block sample_block_undo "mainnet" with
  | error e => rw [hr] at hv; cases hv
  | ok r =>
    rw [hr] at hv
    have hw : r.block_stats.total_weight = 772 := Except.ok.inj hv
    have ht := (block_stats_totals sample_env sample_block sample_block_undo "mainnet" r hr).2.1
    exact ⟨r, rfl, hw, by rw [← ht, hw], by decide⟩

/-- Counterexample to C26 as stated: in the analysis of `sample_block` the two spends pay
`9223372036999999000` satoshis each, `18446744073999998000` together, and `total_fees_sats`
is `290446384`. -/
theorem block_fees_counterexample :
    (BlockAnalyzer.construct sample_env sample_block sample_block_undo "mainnet").map
      (fun r => (r.block_stats.total_fees_sats, r.transactions.map TxnAnalyzer.fee_sats)) =
      .ok (290446384, [0, 9223372036999999000, 9223372036999999000]) ∧
    ([9223372036999999000, 9223372036999999000] : List Nat).sum = 18446744073999998000 ∧
    decompress_amount 92233720370 = big_coin.value := by
  refine ⟨by rfl, by decide, by decide⟩

/-- The agreement of the two constructors on success, in one statement. -/
theorem construct_at_ok_iff (env : Env) (raw : Bytes) (off : Nat) (hlen : raw.length < 2 ^ 63)
    (ho : off ≤ raw.length) (t : Transaction) (off' : Nat) :
    Transaction.construct_at env raw off = .ok (t, off') ↔
      ∃ n, Transaction.construct_offset env (raw.drop off) = .ok (t, n) ∧ off' = off + n := by
  have hs : (raw.drop off).length < 2 ^ 64 := by rw [List.length_drop]; omega
  rw [construct_at_shift env raw off hlen ho]
  constructor
  · intro h
    cases hc : Transaction.construct_at env (raw.drop off) 0 with
    | error e => rw [hc] at h; cases h
    | ok p =>
      obtain ⟨t', n⟩ := p
      rw [hc, shift_offset_ok] at h
      cases h
      exact ⟨n, (construct_at_zero_ok_iff env _ _ hs).1 hc, rfl⟩
  · rintro ⟨n, hn, rfl⟩
    rw [(construct_at_zero_ok_iff env _ _ hs).2 hn]
    rfl

/-- Where a script is declared longer than what is left, the standalone constructor throws
and the constructor on a cursor copies from beyond the buffer: in `raw_truncated_script` the
script of the input is declared 5 bytes long and 1 byte is left. -/
theorem truncated_script_on_cursor :
    Transaction.construct sample_env raw_truncated_script =
      .error (.runtime_error "Transaction: truncated scriptSig") ∧
    Transaction.construct_at sample_env raw_truncated_script 0 = .error .undefined := by
  constructor
  · rfl
  · rfl

/-- C30: for a buffer `raw` (below the size limit of a vector) and `off ≤ |raw|`, the
constructor on a cursor `Transaction(raw, off)` succeeds iff `Transaction` on the suffix of
`raw` from `off` succeeds; then both yield the same transaction (version, segwit flag,
inputs, outputs, locktime, txid and wtxid), and the cursor is left at `off + n`, where `n` is
the number of bytes the standalone constructor consumed. -/
theorem cursor_constructor_agrees (env : Env) (raw : Bytes) (off : Nat)
    (hlen : raw.length < 2 ^ 63) (ho : off ≤ raw.length) :
    (Transaction.construct_at env raw off).succeeded =
      (Transaction.construct env (raw.drop off)).succeeded ∧
    (∀ t off', Transaction.construct_at env raw off = .ok (t, off') →
      Transaction.construct env (raw.drop off) = .ok t ∧
      ∃ n, Transaction.construct_offset env (raw.drop off) = .ok (t, n) ∧ off' = off + n) ∧
    (∀ t, Transaction.construct env (raw.drop off) = .ok t →
      ∃ n, Transaction.construct_offset env (raw.drop off) = .ok (t, n) ∧
        Transaction.construct_at env raw off = .ok (t, off + n)) := by
  have h1 : ∀ t off', Transaction.construct_at env raw off = .ok (t, off') →
      Transaction.construct env (raw.drop off) = .ok t ∧
      ∃ n, Transaction.construct_offset env (raw.drop off) = .ok (t, n) ∧ off' = off + n := by
    intro t off' h
    obtain ⟨n, hn, hoff⟩ := (construct_at_ok_iff env raw off hlen ho t off').1 h
    refine ⟨?_, n, hn, hoff⟩
    rw [construct_eq_map, hn]
    rfl
  have h2 : ∀ t, Transaction.construct env (raw.drop off) = .ok t →
      ∃ n, Transaction.construct_offset env (raw.drop off) = .ok (t, n) ∧
        Transaction.construct_at env raw off = .ok (t, off + n) := by
    intro t h
    rw [construct_eq_map] at h
    cases hc : Transaction.construct_offset env (raw.drop off) with
    | error e => rw [hc] at h; cases h
    | ok p =>
      obtain ⟨t', n⟩ := p
      rw [hc] at h
      cases h
      exact ⟨n, rfl, (construct_at_ok_iff env raw off hlen ho _ _).2 ⟨n, hc, rfl⟩⟩
  refine ⟨?_, h1, h2⟩
  cases ha : Transaction.construct_at env raw off with
  | error e =>
    cases hb : Transaction.construct env (raw.drop off) with
    | error e' => rfl
    | ok t =>
      obtain ⟨n, -, hn⟩ := h2 t hb
      rw [ha] at hn
      cases hn
  | ok p =>
    obtain ⟨t, off'⟩ := p
    rw [(h1 t off' ha).1]
    rfl

/-- Instance of C30: `sample_raw` (67 bytes) placed after two other bytes is decoded at the
cursor 2 as it is decoded alone, and the cursor is left at 69. -/
theorem cursor_constructor_agrees_witness :
    ([0xAA, 0xBB] ++ sample_raw).length < 2 ^ 63 ∧ 2 ≤ ([0xAA, 0xBB] ++ sample_raw).length ∧
    (Transaction.construct_at sample_env ([0xAA, 0xBB] ++ sample_raw) 2).succeeded = true ∧
    (Transaction.construct_at sample_env ([0xAA, 0xBB] ++ sample_raw) 2).map Prod.snd = .ok 69 ∧
    (Transaction.construct_at sample_env ([0xAA, 0xBB] ++ sample_raw) 2).succeeded =
      (Transaction.construct sample_env (([0xAA, 0xBB] ++ sample_raw).drop 2)).succeeded :=
  ⟨by decide, by decide, by rfl, by rfl,
    (cursor_constructor_agrees sample_env ([0xAA, 0xBB] ++ sample_raw) 2 (by decide)
      (by decide)).1⟩

/-- C27 (amended): on two streams made of well-formed records (block records of
`8 + size` bytes, undo records of `8 + size + 32` bytes, each shorter than `2^32` bytes) the
scan loop of `BlockParser::run` ends, with the same result for every number of iterations
allowed from `|blk_raw|` on, and it is the scan of the records. If every pair before index
`k` decodes and fails the test and the pair `k` decodes and passes it, the result is the
analysis of the pair `k`; if every pair decodes and fails the test, the scan fails with the
no-matching-pair error. For counts below `2^32` the test is that the undo record counts one
transaction less than the block record. -/
theorem scan_first_aligned_pair (env : Env) (can_open : String → Bool) (out_dir : String)
    (blks revs : List Bytes)
    (hb : ∀ b ∈ blks, blk_record_wf b) (hr : ∀ r ∈ revs, rev_record_wf r)
    (hbl : blks.flatten.length < 2 ^ 63) (hrl : revs.flatten.length < 2 ^ 63) :
    (∀ fuel, blks.flatten.length ≤ fuel →
      scan_loop env can_open out_dir blks.flatten revs.flatten fuel 0 0 =
        BlockParser.scan env can_open out_dir blks.flatten revs.flatten) ∧
    BlockParser.scan env can_open out_dir blks.flatten revs.flatten =
      scan_records env can_open out_dir blks revs ∧
    (∀ (k : Nat) (bk rk : Bytes) (block : Block) (undo : UndoBlock),
      blks[k]? = some bk → revs[k]? = some rk →
      (∀ (j : Nat) (bj rj : Bytes), j < k → blks[j]? = some bj → revs[j]? = some rj →
        ∃ b u, Block.construct env bj = .ok b ∧ UndoBlock.construct env rj = .ok u ∧
          pair_matches b u = false) →
      Block.construct env bk = .ok block → UndoBlock.construct env rk = .ok undo →
      pair_matches block undo = true →
      BlockParser.scan env can_open out_dir blks.flatten revs.flatten =
        analyze_and_write env can_open out_dir block undo) ∧
    ((∀ (j : Nat) (bj rj : Bytes), blks[j]? = some bj → revs[j]? = some rj →
        ∃ b u, Block.construct env bj = .ok b ∧ UndoBlock.construct env rj = .ok u ∧
          pair_matches b u = false) →
      BlockParser.scan env can_open out_dir blks.flatten revs.flatten =
        .error (.runtime_error "No matching block/undo pair found")) ∧
    (∀ (block : Block) (undo : UndoBlock), block.txnCounter < 2 ^ 32 →
      undo.txCount + 1 < 2 ^ 32 →
      (pair_matches block undo = true ↔ counts_align block undo)) := by
  have hone : ∀ b ∈ blks, 1 ≤ b.length := by
    intro b hmem
    have := (blk_record_wf_length (hb b hmem)).1
    omega
  have hcount := length_le_length_flatten blks hone
  have hloop : ∀ fuel, blks.flatten.length ≤ fuel →
      scan_loop env can_open out_dir blks.flatten revs.flatten fuel 0 0 =
        scan_records env can_open out_dir blks revs := by
    intro fuel hfuel
    exact scan_loop_records env can_open out_dir _ _ hbl hrl blks revs fuel 0 0 hb hr
      (by simp) (by simp) (by omega)
  have hscan : BlockParser.scan env can_open out_dir blks.flatten revs.flatten =
      scan_records env can_open out_dir blks revs := hloop _ (Nat.le_refl _)
  refine ⟨fun fuel hfuel => by rw [hloop fuel hfuel, hscan], hscan, ?_, ?_, ?_⟩
  · intro k bk rk block undo hbk hrk hskip hB hU hm
    rw [hscan]
    exact scan_records_first env can_open out_dir k blks revs bk rk block undo hbk hrk hskip
      hB hU hm
  · intro h
    rw [hscan]
    exact scan_records_none env can_open out_dir blks revs h
  · intro block undo h1 h2
    exact pair_matches_iff block undo h1 h2

set_option maxRecDepth 100000 in
/-- Instance of C27: of two pairs, the first counts 1 transaction in the block and 1 in the
undo record and is skipped, the second counts 1 and 0 and is analysed. -/
theorem scan_first_aligned_pair_witness :
    (∀ b ∈ [sample_blk_record, sample_blk_record], blk_record_wf b) ∧
    (∀ r ∈ [sample_rev_record_one, sample_rev_record_zero], rev_record_wf r) ∧
    (Block.construct sample_env sample_blk_record).map (fun b => b.txnCounter) = .ok 1 ∧
    (UndoBlock.construct sample_env sample_rev_record_one).map (fun u => u.txCount) = .ok 1 ∧
    (UndoBlock.construct sample_env sample_rev_record_zero).map (fun u => u.txCount) = .ok 0 ∧
    (BlockParser.scan sample_env (fun _ => true) "out"
        [sample_blk_record, sample_blk_record].flatten
        [sample_rev_record_one, sample_rev_record_zero].flatten).map
      (fun p => (p.1.tx_count, p.1.coinbase.bip34_height, p.2)) =
      .ok (1, 200000,
        "out/0000000000000000000000000000000000000000000000000000000000000000.json") ∧
    BlockParser.scan sample_env (fun _ => true) "out"
        [sample_blk_record, sample_blk_record].flatten
        [sample_rev_record_one, sample_rev_record_zero].flatten =
      scan_records sample_env (fun _ => true) "out" [sample_blk_record, sample_blk_record]
        [sample_rev_record_one, sample_rev_record_zero] := by
  have hwb : ∀ b ∈ [sample_blk_record, sample_blk_record], blk_record_wf b := by
    intro b hmem
    simp only [List.mem_cons, List.mem_singleton, List.not_mem_nil, or_false, or_self] at hmem
    subst hmem
    have hl : sample_blk_record.length = 154 := by rfl
    exact ⟨by rfl, by rw [hl]; decide⟩
  have hwr : ∀ r ∈ [sample_rev_record_one, sample_rev_record_zero], rev_record_wf r := by
    intro r hmem
    simp only [List.mem_cons, List.mem_singleton, List.not_mem_nil, or_false] at hmem
    rcases hmem with rfl | rfl
    · have hl : sample_rev_record_one.length = 65 := by rfl
      exact ⟨by rfl, by rw [hl]; decide⟩
    · have hl : sample_rev_record_zero.length = 41 := by rfl
      exact ⟨by rfl, by rw [hl]; decide⟩
  have hl1 : [sample_blk_record, sample_blk_record].flatten.length = 308 := by rfl
  have hl2 : [sample_rev_record_one, sample_rev_record_zero].flatten.length = 106 := by rfl
  exact ⟨hwb, hwr, by rfl, by rfl, by rfl, by rfl,
    (scan_first_aligned_pair sample_env (fun _ => true) "out" _ _ hwb hwr
      (by rw [hl1]; decide) (by rw [hl2]; decide)).2.1⟩

/-- Counterexample to C27 as stated: the two streams hold one well-formed record each, with
empty payloads; no pair has aligned counts, and the scan fails with the error of the block
decoder, not with the no-matching-pair error. -/
theorem scan_decode_error_counterexample :
    blk_record_wf empty_blk_record ∧ rev_record_wf empty_rev_record ∧
    BlockParser.scan sample_env (fun _ => true) "out" [empty_blk_record].flatten
        [empty_rev_record].flatten =
      .error (.runtime_error "Block: not enough bytes for block header") ∧
    Block.construct sample_env empty_blk_record =
      .error (.runtime_error "Block: not enough bytes for block header") := by
  refine ⟨⟨by decide, by decide⟩, ⟨by decide, by decide⟩, by rfl, by rfl⟩

/-- C31 (as the code has it): once the code `c` of an undo coin has been read, the coin
decodes exactly when the dummy byte, if one is due, is in the buffer and the three further
reads succeed; the stored height is `c >> 1` reduced to the 32 bits of the field, which is
`c >> 1` itself below `2^33`, the coinbase flag is the low bit of `c`, and the compressed
amount is read one byte further on exactly when the stored height is positive. A missing
dummy byte is the error "dummy underflow", and the value of the dummy byte changes nothing. -/
theorem undo_coin_code (env : Env) (data : Bytes) (off c o1 : Nat)
    (hc : read_cvarint data off = .ok (c, o1)) :
    (∀ coin o, parse_undo_coin env data off = .ok (coin, o) ↔
      ((c >>> 1) % 2 ^ 32 > 0 → o1 < data.length) ∧
      ∃ comp o3 ty o4,
        read_cvarint data (if (c >>> 1) % 2 ^ 32 > 0 then o1 + 1 else o1) = .ok (comp, o3) ∧
        read_cvarint data o3 = .ok (ty, o4) ∧
        decompress_script env ty data o4 = .ok (coin.scriptPubKey, o) ∧
        coin.height = (c >>> 1) % 2 ^ 32 ∧ coin.isCoinbase = decide (c &&& 1 = 1) ∧
        coin.value = decompress_amount comp) ∧
    ((c >>> 1) % 2 ^ 32 > 0 → data.length ≤ o1 →
      parse_undo_coin env data off = .error (.runtime_error "dummy underflow")) ∧
    (c < 2 ^ 33 → (c >>> 1) % 2 ^ 32 = c >>> 1) ∧
    ((c >>> 1) % 2 ^ 32 > 0 → ∀ b : Byte,
      parse_undo_coin env (data.set o1 b) off = parse_undo_coin env data off) := by
  have hbit : decide (c &&& 1 ≠ 0) = decide (c &&& 1 = 1) := by
    rw [Nat.and_one_is_mod]
    rcases Nat.mod_two_eq_zero_or_one c with h | h <;> simp [h]
  have hgt := read_cvarint_gt data off c o1 hc
  refine ⟨?_, ?_, ?_, ?_⟩
  · intro coin o
    rw [parse_undo_coin_of_code env data off c o1 hc]
    by_cases h1 : (c >>> 1) % 2 ^ 32 > 0 ∧ o1 ≥ data.length
    · rw [if_pos h1]
      constructor
      · intro h; cases h
      · intro h
        have := h.1 h1.1
        omega
    · rw [if_neg h1]
      have hdue : (c >>> 1) % 2 ^ 32 > 0 → o1 < data.length := by
        intro h
        by_contra h2
        exact h1 ⟨h, by omega⟩
      cases h3 : read_cvarint data (if (c >>> 1) % 2 ^ 32 > 0 then o1 + 1 else o1) with
      | error e =>
        simp only []
        constructor
        · intro h; cases h
        · rintro ⟨_, comp, o3, ty, o4, h, _⟩; cases h
      | ok p =>
        obtain ⟨comp, o3⟩ := p
        simp only []
        cases h4 : read_cvarint data o3 with
        | error e =>
          simp only []
          constructor
          · intro h; cases h
          · rintro ⟨_, comp', o3', ty, o4, h, h', _⟩
            cases h
            rw [h4] at h'
            cases h'
        | ok q =>
          obtain ⟨ty, o4⟩ := q
          simp only []
          cases h5 : decompress_script env ty data o4 with
          | error e =>
            simp only []
            constructor
            · intro h; cases h
            · rintro ⟨_, comp', o3', ty', o4', h, h', h'', _⟩
              cases h
              rw [h4] at h'
              cases h'
              rw [h5] at h''
              cases h''
          | ok r =>
            obtain ⟨script, o5⟩ := r
            simp only []
            constructor
            · intro h
              cases h
              exact ⟨hdue, comp, o3, ty, o4, rfl, h4, h5, rfl, hbit, rfl⟩
            · rintro ⟨_, comp', o3', ty', o4', h, h', h'', hh, hb, hv⟩
              cases h
              rw [h4] at h'
              cases h'
              rw [h5] at h''
              cases h''
              obtain ⟨ht, cb, v, s⟩ := coin
              simp only at hh hb hv
              rw [hh, hb, hv, hbit]
  · intro h1 h2
    rw [parse_undo_coin_of_code env data off c o1 hc, if_pos ⟨h1, h2⟩]
  · intro h
    apply Nat.mod_eq_of_lt
    rw [Nat.shiftRight_eq_div_pow]
    omega
  · intro h1 b
    rw [parse_undo_coin_of_code env data off c o1 hc,
      parse_undo_coin_of_code env (data.set o1 b) off c o1
        (read_cvarint_set_above data o1 b off c o1 hc (Nat.le_refl _)),
      List.length_set, if_pos h1, read_cvarint_set_below data o1 b (o1 + 1) (by omega)]
    by_cases h2 : o1 ≥ data.length
    · rw [if_pos ⟨h1, h2⟩, if_pos ⟨h1, h2⟩]
    · rw [if_neg (fun h => h2 h.2), if_neg (fun h => h2 h.2)]
      cases h3 : read_cvarint data (o1 + 1) with
      | error e => rfl
      | ok p =>
        obtain ⟨comp, o3⟩ := p
        simp only []
        have h3g := read_cvarint_gt data _ _ _ h3
        rw [read_cvarint_set_below data o1 b o3 (by omega)]
        cases h4 : read_cvarint data o3 with
        | error e => rfl
        | ok q =>
          obtain ⟨ty, o4⟩ := q
          simp only []
          have h4g := read_cvarint_gt data _ _ _ h4
          rw [decompress_script_set_below env data o1 b ty o4 (by omega)]

/-- C31, an instance: the code `97 B4 01` is 400001, so the coin has height 200000 and is a
coinbase output; one dummy byte is skipped, and the record decodes to the same coin whether
that byte is `00` or `FF`. -/
theorem undo_coin_code_witness :
    read_cvarint (coin_record_dummy 0) 0 = .ok (400001, 3) ∧
    parse_undo_coin sample_env (coin_record_dummy 0) 0 =
      .ok ({ height := 200000, isCoinbase := true, value := 0, scriptPubKey := [] }, 6) ∧
    parse_undo_coin sample_env ((coin_record_dummy 0).set 3 0xFF) 0 =
      parse_undo_coin sample_env (coin_record_dummy 0) 0 :=
  ⟨by decide, by decide,
    (undo_coin_code sample_env (coin_record_dummy 0) 0 400001 3 (by decide)).2.2.2
      (by decide) 0xFF⟩

/-- C31, where the claim fails: the code `9E FE FE FF 00` is `2^33`, whose half `2^32` is
positive, yet the stored height is 0 and no dummy byte is skipped: the compressed amount is
the byte right after the code and the record of seven bytes decodes completely. -/
theorem undo_coin_height_counterexample :
    read_cvarint coin_record_wide_code 0 = .ok (2 ^ 33, 5) ∧
    (2 ^ 33 >>> 1 : Nat) > 0 ∧
    read_cvarint coin_record_wide_code 5 = .ok (0, 6) ∧
    parse_undo_coin sample_env coin_record_wide_code 0 =
      .ok ({ height := 0, isCoinbase := false, value := 0, scriptPubKey := [] }, 7) ∧
    ¬ (∃ coin o, parse_undo_coin sample_env coin_record_wide_code 0 = .ok (coin, o) ∧
        coin.height = 2 ^ 33 >>> 1) := by
  have h : parse_undo_coin sample_env coin_record_wide_code 0 =
      .ok ({ height := 0, isCoinbase := false, value := 0, scriptPubKey := [] }, 7) := by
    decide
  refine ⟨by decide, by decide, by decide, h, ?_⟩
  rintro ⟨coin, o, h1, h2⟩
  rw [h] at h1
  cases h1
  revert h2
  decide

/-- C32: for a script type `ty ≥ 6` (a 64-bit value) and a cursor inside the buffer,
`decompress_script` returns the `ty - 6` bytes at `off` and advances by `ty - 6` where they
are there, and throws "decompress_script: underflow" where they are not and `off + (ty - 6)`
stays below `2^64`; where that sum reaches `2^64` the test `off + n > data.size()` wraps and
passes, and the copy is made from a reversed range, outside defined behaviour: with
`ty = 2^64 - 1` at offset 8 of a 10-byte buffer no exception is thrown by `decompress_script`.
The types 0 and 1 throw where fewer than 20 bytes remain, the types 2 to 5 where fewer than
32 remain. -/
theorem decompress_script_literal (env : Env) (ty : Nat) (data : Bytes) (off : Nat)
    (hlen : data.length < 2 ^ 63) (hoff : off ≤ data.length) :
    (6 ≤ ty → ty < 2 ^ 64 →
      (off + (ty - 6) ≤ data.length →
        decompress_script env ty data off = .ok (slice data off (ty - 6), off + (ty - 6)) ∧
        (slice data off (ty - 6)).length = ty - 6) ∧
      (data.length < off + (ty - 6) → off + (ty - 6) < 2 ^ 64 →
        decompress_script env ty data off =
          .error (.runtime_error "decompress_script: underflow")) ∧
      (2 ^ 64 ≤ off + (ty - 6) → decompress_script env ty data off = .error .undefined)) ∧
    (ty ≤ 1 → data.length < off + 20 →
      decompress_script env ty data off =
        .error (.runtime_error "decompress_script: underflow")) ∧
    (2 ≤ ty → ty ≤ 5 → data.length < off + 32 →
      decompress_script env ty data off =
        .error (.runtime_error "decompress_script: underflow")) ∧
    decompress_script sample_env (2 ^ 64 - 1) (List.replicate 10 0) 8 = .error .undefined := by
  refine ⟨?_, ?_, ?_, by decide⟩
  · intro h6 h64
    have hd : decompress_script env ty data off = read_n data off (ty - 6) := by
      rw [decompress_script, if_neg (by omega), if_neg (by omega), if_neg (by omega),
        if_neg (by omega)]
    rw [hd]
    refine ⟨fun h => ⟨read_n_of_le data off _ h (by omega), length_slice data off _ h⟩,
      fun h hs => read_n_short data off _ h hs,
      fun h => read_n_wrap data off _ hoff (by omega) (by omega) h⟩
  · intro h1 hs
    have hr := read_n_short data off 20 hs (by omega)
    rcases Nat.le_one_iff_eq_zero_or_eq_one.1 h1 with rfl | rfl
    · rw [decompress_script, if_pos rfl, hr]
    · rw [decompress_script, if_neg (by decide), if_pos rfl, hr]
  · intro h2 h5 hs
    have hr := read_n_short data off 32 hs (by omega)
    by_cases h23 : ty = 2 ∨ ty = 3
    · rw [decompress_script, if_neg (by omega), if_neg (by omega), if_pos h23, hr]
    · rw [decompress_script, if_neg (by omega), if_neg (by omega), if_neg h23,
        if_pos (by omega), hr]

/-- Instance of C32: type 9 at offset 1 of a 4-byte buffer copies its last 3 bytes, and at
offset 2 it throws. -/
theorem decompress_script_literal_witness :
    ([0x09, 0xAA, 0xBB, 0xCC] : Bytes).length < 2 ^ 63 ∧
    decompress_script sample_env 9 [0x09, 0xAA, 0xBB, 0xCC] 1 = .ok ([0xAA, 0xBB, 0xCC], 4) ∧
    decompress_script sample_env 9 [0x09, 0xAA, 0xBB, 0xCC] 2 =
      .error (.runtime_error "decompress_script: underflow") :=
  ⟨by decide,
    ((decompress_script_literal sample_env 9 [0x09, 0xAA, 0xBB, 0xCC] 1 (by decide)
      (by decide)).1 (by decide) (by decide)).1 (by decide) |>.1,
    ((decompress_script_literal sample_env 9 [0x09, 0xAA, 0xBB, 0xCC] 2 (by decide)
      (by decide)).1 (by decide) (by decide)).2.1 (by decide) (by decide)⟩

/-- C33: where the buffer holds the 20 bytes `h` at `off`, `decompress_script` with type 0
returns the 25-byte script `76 A9 14 ‖ h ‖ 88 AC`, classified P2PKH, and with type 1 the
23-byte script `A9 14 ‖ h ‖ 87`, classified P2SH; in both cases the cursor advances by 20 and
`process_output_script` hands `h` to the address encoder. Where the buffer holds the 32 bytes
`x` at `off`, the types 2 and 3 give the 35-byte script `21 ‖ type ‖ x ‖ AC` and advance the
cursor by 32. -/
theorem decompress_script_templates (env : Env) (data : Bytes) (off : Nat)
    (hlen : data.length < 2 ^ 64) :
    (∀ h : Bytes, h.length = 20 → holds_at data off h →
      decompress_script env 0 data off = .ok ([0x76, 0xA9, 0x14] ++ h ++ [0x88, 0xAC], off + 20) ∧
      ([0x76, 0xA9, 0x14] ++ h ++ [0x88, 0xAC]).length = 25 ∧
      classify_output_script ([0x76, 0xA9, 0x14] ++ h ++ [0x88, 0xAC]) = .P2PKH ∧
      process_output_script env ([0x76, 0xA9, 0x14] ++ h ++ [0x88, 0xAC]) =
        (match encode_p2pkh_address env h with
         | .error e => .error e
         | .ok address => .ok { type := .P2PKH, address := some address, op_return := none }) ∧
      decompress_script env 1 data off = .ok ([0xA9, 0x14] ++ h ++ [0x87], off + 20) ∧
      ([0xA9, 0x14] ++ h ++ [0x87]).length = 23 ∧
      classify_output_script ([0xA9, 0x14] ++ h ++ [0x87]) = .P2SH ∧
      process_output_script env ([0xA9, 0x14] ++ h ++ [0x87]) =
        (match encode_p2sh_address env h with
         | .error e => .error e
         | .ok address => .ok { type := .P2SH, address := some address, op_return := none })) ∧
    (∀ x : Bytes, x.length = 32 → holds_at data off x →
      decompress_script env 2 data off = .ok ([0x21, 0x02] ++ x ++ [0xAC], off + 32) ∧
      decompress_script env 3 data off = .ok ([0x21, 0x03] ++ x ++ [0xAC], off + 32) ∧
      ([0x21, 0x02] ++ x ++ [0xAC]).length = 35 ∧ ([0x21, 0x03] ++ x ++ [0xAC]).length = 35) := by
  constructor
  · intro h hh hhold
    obtain ⟨hb, hs⟩ := hhold
    rw [hh] at hb hs
    have hr := read_n_of_le data off 20 hb hlen
    rw [hs] at hr
    obtain ⟨c1, -, c3⟩ := process_output_script_p2pkh env h hh
    obtain ⟨e1, -, e3⟩ := process_output_script_p2sh env h hh
    refine ⟨?_, by simp [hh], c1, c3, ?_, by simp [hh], e1, e3⟩
    · rw [decompress_script, if_pos rfl, hr]
      simp
    · rw [decompress_script, if_neg (by decide), if_pos rfl, hr]
  · intro x hx hhold
    obtain ⟨hb, hs⟩ := hhold
    rw [hx] at hb hs
    have hr := read_n_of_le data off 32 hb hlen
    rw [hs] at hr
    refine ⟨?_, ?_, by simp [hx], by simp [hx]⟩
    · rw [decompress_script, if_neg (by decide), if_neg (by decide), if_pos (by decide), hr]
      rfl
    · rw [decompress_script, if_neg (by decide), if_neg (by decide), if_pos (by decide), hr]
      rfl

/-- Instance of C33: 20 bytes `11` at offset 1 of a 21-byte buffer. -/
theorem decompress_script_templates_witness :
    (0x00 :: List.replicate 20 (0x11 : Byte)).length < 2 ^ 64 ∧
    holds_at (0x00 :: List.replicate 20 0x11) 1 (List.replicate 20 0x11) ∧
    decompress_script sample_env 0 (0x00 :: List.replicate 20 0x11) 1 =
      .ok ([0x76, 0xA9, 0x14] ++ List.replicate 20 0x11 ++ [0x88, 0xAC], 1 + 20) ∧
    decompress_script sample_env 1 (0x00 :: List.replicate 20 0x11) 1 =
      .ok ([0xA9, 0x14] ++ List.replicate 20 0x11 ++ [0x87], 1 + 20) :=
  have hh : holds_at (0x00 :: List.replicate 20 (0x11 : Byte)) 1 (List.replicate 20 0x11) :=
    ⟨by decide, by decide⟩
  have h := (decompress_script_templates sample_env (0x00 :: List.replicate 20 0x11) 1
    (by decide)).1 (List.replicate 20 0x11) (by decide) hh
  ⟨by decide, hh, h.1, h.2.2.2.2.1⟩

/-- C34: the bit-packed varint is canonical for `read_cvarint`. Two byte sequences that are
each one complete varint (continuation bit on every byte but the last) and whose value fits
64 bits are read to their ends, and if the two reads return the same value the sequences
are the same. On any buffer the read ends (fuel beyond the rest of the buffer changes
nothing), a successful read has consumed at least one byte and bytes of the buffer only,
and the read fails, with "read_cvarint: underflow", exactly when every byte from the cursor
to the end of the buffer has the continuation bit. -/
theorem cvarint_canonical (e1 e2 : Bytes)
    (h1 : cvarint_complete e1 = true) (h2 : cvarint_complete e2 = true)
    (hv1 : cvarint_wide 0 e1 < 2 ^ 64) (hv2 : cvarint_wide 0 e2 < 2 ^ 64) :
    read_cvarint e1 0 = .ok (cvarint_wide 0 e1, e1.length) ∧
    read_cvarint e2 0 = .ok (cvarint_wide 0 e2, e2.length) ∧
    (∀ v o1 o2, read_cvarint e1 0 = .ok (v, o1) → read_cvarint e2 0 = .ok (v, o2) →
      e1 = e2) ∧
    (∀ (data : Bytes) (off : Nat),
      (∀ extra n, read_cvarint_loop data (data.length - off + extra) off n =
        read_cvarint_loop data (data.length - off) off n) ∧
      (∀ v o, read_cvarint data off = .ok (v, o) → off < o ∧ o ≤ data.length) ∧
      ((∃ e, read_cvarint data off = .error e) ↔
        ∀ i, off ≤ i → i < data.length → (at_ data i).val &&& 0x80 ≠ 0) ∧
      (∀ e, read_cvarint data off = .error e →
        e = .runtime_error "read_cvarint: underflow")) := by
  have hr1 : read_cvarint e1 0 = .ok (cvarint_wide 0 e1, e1.length) :=
    read_cvarint_loop_complete e1 _ 0 0 (Nat.le_refl _) h1 hv1
  have hr2 : read_cvarint e2 0 = .ok (cvarint_wide 0 e2, e2.length) :=
    read_cvarint_loop_complete e2 _ 0 0 (Nat.le_refl _) h2 hv2
  refine ⟨hr1, hr2, ?_, ?_⟩
  · intro v o1 o2 ha hb
    rw [hr1] at ha
    rw [hr2] at hb
    injection ha with ha
    injection hb with hb
    injection ha with ha _
    injection hb with hb _
    exact cvarint_wide_inj e1 e2 h1 h2 (ha.trans hb.symm)
  · intro data off
    refine ⟨?_, ?_, ?_, ?_⟩
    · intro extra n
      exact read_cvarint_loop_fuel data _ _ off n (by omega) (Nat.le_refl _)
    · intro v o h
      exact read_cvarint_gt data off v o h
    · exact read_cvarint_loop_error_iff data _ off 0 (Nat.le_refl _)
    · intro e h
      exact read_cvarint_loop_fault data _ off 0 e h

/-- C34, an instance: `80 00` and `7F` are complete varints of the values 128 and 127; both
are read to their ends, and the general statement holds of the pair. The buffer `80 80`
has no last byte and the read fails on it. -/
theorem cvarint_canonical_witness :
    cvarint_complete [0x80, 0x00] = true ∧ cvarint_complete [0x7F] = true ∧
    read_cvarint [0x80, 0x00] 0 = .ok (128, 2) ∧ read_cvarint [0x7F] 0 = .ok (127, 1) ∧
    read_cvarint [0x80, 0x80] 0 = .error (.runtime_error "read_cvarint: underflow") ∧
    (read_cvarint [0x80, 0x00] 0 = .ok (cvarint_wide 0 [0x80, 0x00], 2) ∧
      read_cvarint [0x7F] 0 = .ok (cvarint_wide 0 [0x7F], 1)) :=
  have h := cvarint_canonical [0x80, 0x00] [0x7F] (by decide) (by decide) (by decide)
    (by decide)
  ⟨by decide, by decide, by decide, by decide, by decide, h.1, h.2.1⟩

/-- C35: encode, then decode. Let `t` be a transaction value (fixed-width members in their
ranges, a serialization that fits memory) with at least one input, whose witness stacks are
empty when its segwit flag is false. The standalone decoder applied to
`serialize_with_witness(t)` succeeds, stops at the end of the buffer, and returns a
transaction with the version, segwit flag, inputs (witness stacks included), outputs and
locktime of `t`. -/
theorem serialize_then_decode (env : Env) (t : Transaction) (hwf : t.wf = true)
    (hin : t.inputs ≠ [])
    (hwit : t.isSegwit = false → ∀ txin ∈ t.inputs, txin.witness = [])
    (hlen : t.serialize_with_witness.length < 2 ^ 63) :
    ∃ t', Transaction.construct env t.serialize_with_witness = .ok t' ∧
      Transaction.construct_offset env t.serialize_with_witness =
        .ok (t', t.serialize_with_witness.length) ∧
      t'.version = t.version ∧ t'.isSegwit = t.isSegwit ∧ t'.inputs = t.inputs ∧
      t'.outputs = t.outputs ∧ t'.locktime = t.locktime := by
  have hrt := construct_serialize env t hwf hwit (fun h => hin h.2.1) hlen
  obtain ⟨f1, f2, f3, f4, f5, f6, f7⟩ := with_hashes_fields env
    { t with TxIdHash := [], WTxIdHash := [] }
  refine ⟨_, hrt, ?_, f1, f5, f2, f3, f4⟩
  have hmap := construct_eq_map env t.serialize_with_witness
  rw [hrt] at hmap
  cases ho : Transaction.construct_offset env t.serialize_with_witness with
  | error e =>
    rw [ho] at hmap
    cases hmap
  | ok p =>
    obtain ⟨t2, n⟩ := p
    rw [ho] at hmap
    have ht2 : Transaction.with_hashes env { t with TxIdHash := [], WTxIdHash := [] } = t2 := by
      injection hmap
    obtain ⟨hlo, hhi, -⟩ := construct_offset_inv ho hlen
    rw [← ht2, f7] at hlo
    have hsame : ({ t with TxIdHash := [], WTxIdHash := [] } : Transaction).serialize_with_witness
        = t.serialize_with_witness := rfl
    rw [hsame] at hlo
    rw [ht2, show n = t.serialize_with_witness.length by omega]

/-- C35, an instance: the 67 bytes of `sample_segwit_tx` decode, to their end, to a
transaction with the fields of `sample_segwit_tx`. -/
theorem serialize_then_decode_witness :
    sample_segwit_tx.serialize_with_witness.length = 67 ∧
    ∃ t', Transaction.construct sample_env sample_segwit_tx.serialize_with_witness = .ok t' ∧
      Transaction.construct_offset sample_env sample_segwit_tx.serialize_with_witness =
        .ok (t', sample_segwit_tx.serialize_with_witness.length) ∧
      t'.version = sample_segwit_tx.version ∧ t'.isSegwit = sample_segwit_tx.isSegwit ∧
      t'.inputs = sample_segwit_tx.inputs ∧ t'.outputs = sample_segwit_tx.outputs ∧
      t'.locktime = sample_segwit_tx.locktime :=
  ⟨by decide, serialize_then_decode sample_env sample_segwit_tx (by decide) (by decide)
    (by decide) (by decide)⟩

/-- C36: two transactions with the same version, the same inputs up to their witness
stacks, the same outputs and the same locktime have the same legacy serialization, whatever
their witness stacks and segwit flags; hence the transaction ids computed by the constructors
(`reverse_32(double_sha256(serialize_legacy()))`) are equal, for decoded transactions too. -/
theorem txid_ignores_witness (env : Env) (t1 t2 : Transaction)
    (hv : t1.version = t2.version) (hin : t1.inputs.map TxIn.strip = t2.inputs.map TxIn.strip)
    (hout : t1.outputs = t2.outputs) (hl : t1.locktime = t2.locktime) :
    t1.serialize_legacy = t2.serialize_legacy ∧
    (Transaction.with_hashes env t1).get_txid = (Transaction.with_hashes env t2).get_txid ∧
    (Transaction.with_hashes env t1).get_txid =
      reverse_32 (double_sha256 env t1.serialize_legacy) ∧
    (∀ raw1 raw2, raw1.length < 2 ^ 63 → raw2.length < 2 ^ 63 →
      Transaction.construct env raw1 = .ok t1 → Transaction.construct env raw2 = .ok t2 →
      t1.get_txid = t2.get_txid) := by
  have hlen : t1.inputs.length = t2.inputs.length := by
    have := congrArg List.length hin
    simpa using this
  have hser : serialize_inputs [] t1.inputs = serialize_inputs [] t2.inputs := by
    have h1 := serialize_inputs_strip t1.inputs
    have h2 := serialize_inputs_strip t2.inputs
    have e : ∀ l : List TxIn, l.map (fun txin => { txin with witness := [] }) = l.map TxIn.strip :=
      fun _ => rfl
    rw [e] at h1 h2
    rw [← h1, ← h2, hin]
  have hleg : t1.serialize_legacy = t2.serialize_legacy := by
    rw [serialize_legacy_eq, serialize_legacy_eq, hv, hlen, hser, hout, hl]
  have hid : (Transaction.with_hashes env t1).get_txid =
      (Transaction.with_hashes env t2).get_txid := by
    show reverse_32 (double_sha256 env t1.serialize_legacy) =
      reverse_32 (double_sha256 env t2.serialize_legacy)
    rw [hleg]
  refine ⟨hleg, hid, rfl, ?_⟩
  intro raw1 raw2 h1 h2 hc1 hc2
  have e1 := (construct_inv hc1 h1).2.2.2
  have e2 := (construct_inv hc2 h2).2.2.2
  rw [← e1, ← e2]
  show reverse_32 (double_sha256 env t1.serialize_legacy) =
    reverse_32 (double_sha256 env t2.serialize_legacy)
  rw [hleg]

/-- Instance of C36: `sample_segwit_tx` and the same transaction without its witness stack
and without the segwit flag have the same legacy serialization. -/
theorem txid_ignores_witness_witness :
    sample_segwit_tx.serialize_legacy =
      ({ sample_segwit_tx with
          inputs := sample_segwit_tx.inputs.map TxIn.strip, isSegwit := false } :
        Transaction).serialize_legacy ∧
    sample_segwit_tx.inputs ≠ sample_segwit_tx.inputs.map TxIn.strip :=
  ⟨(txid_ignores_witness sample_env sample_segwit_tx
      { sample_segwit_tx with
          inputs := sample_segwit_tx.inputs.map TxIn.strip, isSegwit := false }
      rfl (by decide) rfl rfl).1, by decide⟩

/-- C37: the standalone decoder ignores what follows the transaction. If it succeeds on
`raw` with the transaction `t`, then on `raw ++ extra`, for any bytes `extra`, it succeeds
with that same `t`: same version, segwit flag, inputs, outputs, locktime, txid and wtxid.
It stops at the same offset, which lies within `raw`, so nothing asks for the buffer to be
consumed to its end. -/
theorem trailing_bytes_ignored (env : Env) (raw extra : Bytes) (t : Transaction)
    (hlen : raw.length < 2 ^ 63) (h : Transaction.construct env raw = .ok t) :
    Transaction.construct env (raw ++ extra) = .ok t ∧
    (∃ t', Transaction.construct env (raw ++ extra) = .ok t' ∧
      t'.version = t.version ∧ t'.isSegwit = t.isSegwit ∧ t'.inputs = t.inputs ∧
      t'.outputs = t.outputs ∧ t'.locktime = t.locktime ∧
      t'.get_txid = t.get_txid ∧ t'.get_wtxid = t.get_wtxid) ∧
    (∃ n, Transaction.construct_offset env raw = .ok (t, n) ∧
      Transaction.construct_offset env (raw ++ extra) = .ok (t, n) ∧ n ≤ raw.length) := by
  have h' := construct_append env extra hlen h
  refine ⟨h', ⟨t, h', rfl, rfl, rfl, rfl, rfl, rfl, rfl⟩, ?_⟩
  have hmap := construct_eq_map env raw
  rw [h] at hmap
  cases ho : Transaction.construct_offset env raw with
  | error e =>
    rw [ho] at hmap
    cases hmap
  | ok p =>
    obtain ⟨t2, n⟩ := p
    rw [ho] at hmap
    have ht2 : t = t2 := by injection hmap
    subst ht2
    exact ⟨n, rfl, construct_offset_append env extra hlen ho,
      (construct_offset_inv ho hlen).2.1⟩

/-- C37, an instance: the 67 bytes of `sample_segwit_tx` followed by `DE AD` decode to the
transaction that the 67 bytes alone decode to. -/
theorem trailing_bytes_ignored_witness :
    Transaction.construct sample_env sample_raw =
      .ok (Transaction.with_hashes sample_env sample_segwit_tx) ∧
    Transaction.construct sample_env (sample_raw ++ [0xDE, 0xAD]) =
      .ok (Transaction.with_hashes sample_env sample_segwit_tx) :=
  ⟨by rfl, (trailing_bytes_ignored sample_env sample_raw [0xDE, 0xAD]
    (Transaction.with_hashes sample_env sample_segwit_tx) (by decide) (by rfl)).1⟩

/-- C38: for every transaction, `|serialize_with_witness| ≥ |serialize_legacy|`, so that
`total - base` in `get_weight` does not wrap; the two lengths are equal iff the transaction is
not segwit, and for a segwit transaction the difference is at least `2 + (number of inputs)`.
Hence (for a serialization that fits the address space) `get_weight ≥ 40` and
`get_vbytes ≥ 10`: `vbytes = 0` does not occur. -/
theorem weight_lower_bound (t : Transaction) :
    t.serialize_legacy.length ≤ t.serialize_with_witness.length ∧
    (t.serialize_with_witness.length = t.serialize_legacy.length ↔ t.is_segwit = false) ∧
    (t.is_segwit = true →
      t.serialize_legacy.length + (2 + t.inputs.length) ≤ t.serialize_with_witness.length) ∧
    (t.serialize_with_witness.length < 2 ^ 62 →
      40 ≤ t.get_weight ∧ 10 ≤ t.get_vbytes ∧ t.get_vbytes ≠ 0) := by
  have hl := length_serialize_with_witness t
  have hw := length_le_length_serialize_witnesses t.inputs
  have h10 := length_serialize_legacy_ge t
  simp only [Transaction.is_segwit]
  cases hseg : t.isSegwit with
  | false =>
    rw [hseg] at hl
    simp only [Bool.false_eq_true, if_false, Nat.add_zero] at hl
    refine ⟨by omega, ⟨fun _ => rfl, fun _ => hl⟩, fun h => (by cases h), ?_⟩
    intro hsize
    have hg := get_weight_eq t hsize
    have h3 : sz (t.get_weight + 3) = t.get_weight + 3 := sz_of_lt (by omega)
    simp only [Transaction.get_vbytes, h3]
    omega
  | true =>
    rw [hseg] at hl
    simp only [if_true] at hl
    refine ⟨by omega, ⟨fun h => (by omega), fun h => (by cases h)⟩, fun _ => (by omega), ?_⟩
    intro hsize
    have hg := get_weight_eq t hsize
    have h3 : sz (t.get_weight + 3) = t.get_weight + 3 := sz_of_lt (by omega)
    simp only [Transaction.get_vbytes, h3]
    omega

/-- Instance of C38 at `sample_segwit_tx`: 61 and 67 bytes, weight 250, 63 vbytes. -/
theorem weight_lower_bound_witness :
    sample_segwit_tx.serialize_with_witness.length < 2 ^ 62 ∧
    sample_segwit_tx.is_segwit = true ∧
    sample_segwit_tx.serialize_legacy.length + (2 + sample_segwit_tx.inputs.length) ≤
      sample_segwit_tx.serialize_with_witness.length ∧
    40 ≤ sample_segwit_tx.get_weight ∧ 10 ≤ sample_segwit_tx.get_vbytes ∧
    sample_segwit_tx.get_weight = 250 ∧ sample_segwit_tx.get_vbytes = 63 :=
  have h := weight_lower_bound sample_segwit_tx
  ⟨by decide, rfl, h.2.2.1 rfl, (h.2.2.2 (by decide)).1, (h.2.2.2 (by decide)).2.1,
    by decide, by decide⟩

/-- C39: for a block whose transaction list has odd length `n ≥ 3`, the block with a copy
of the last transaction appended has the same Merkle root; and the Merkle root of a block
depends on the list of its transaction ids only. -/
theorem merkle_duplicate_last (env : Env) (b b' : Block) (last : Transaction)
    (hodd : b.txs.length % 2 = 1) (h3 : 3 ≤ b.txs.length)
    (hlast : b.txs.getLast? = some last) (hb' : b'.txs = b.txs ++ [last]) :
    b'.calcMerkleRoot env = b.calcMerkleRoot env ∧
    (∀ b1 b2 : Block, b1.txs.map Transaction.get_txid = b2.txs.map Transaction.get_txid →
      b1.calcMerkleRoot env = b2.calcMerkleRoot env) := by
  constructor
  · have hne : b.txs ≠ [] := by
      intro h0
      rw [h0] at h3
      simp at h3
    have hne' : b'.txs ≠ [] := by rw [hb']; simp
    rw [calcMerkleRoot_eq_level env b hne, calcMerkleRoot_eq_level env b' hne', hb',
      List.length_append, List.length_singleton, clog_succ_of_odd _ hodd h3,
      Nat.clog_of_two_le (by decide) (show 2 ≤ b.txs.length by omega), merkle_level_succ,
      merkle_level_succ, List.map_append, List.map_singleton]
    have hl : merkle_leaf last = (b.txs.map merkle_leaf).getLastD [] := by
      rw [List.getLastD_eq_getLast?, List.getLast?_map, hlast]
      rfl
    rw [hl, merkle_pairs_dup_last _ _ (by rw [List.length_map]; exact hodd)]
  · intro b1 b2 h
    have hl : b1.txs.map (fun tx => reverse_32 tx.get_txid) =
        b2.txs.map (fun tx => reverse_32 tx.get_txid) := by
      have := congrArg (List.map reverse_32) h
      simpa [List.map_map, Function.comp_def] using this
    have he : b1.txs.isEmpty = b2.txs.isEmpty := by
      have := congrArg List.length h
      simp only [List.length_map] at this
      cases h1 : b1.txs <;> cases h2 : b2.txs <;> simp_all
    unfold Block.calcMerkleRoot
    rw [he]
    simp only [hl]

/-- Instance of C39: three transactions `a, b, c` and the four transactions `a, b, c, c`
have the same root. -/
theorem merkle_duplicate_last_witness :
    (block_of [sample_tx, sample_segwit_tx, tx_overflow]).txs.length % 2 = 1 ∧
    3 ≤ (block_of [sample_tx, sample_segwit_tx, tx_overflow]).txs.length ∧
    (block_of [sample_tx, sample_segwit_tx, tx_overflow, tx_overflow]).calcMerkleRoot sample_env =
      (block_of [sample_tx, sample_segwit_tx, tx_overflow]).calcMerkleRoot sample_env :=
  ⟨by decide, by decide,
    (merkle_duplicate_last sample_env (block_of [sample_tx, sample_segwit_tx, tx_overflow])
      (block_of [sample_tx, sample_segwit_tx, tx_overflow, tx_overflow]) tx_overflow
      (by decide) (by decide) rfl rfl).1⟩

/-- C40 (as the code has it): block mode hands `TxnAnalyzer` the prevouts that
`analyze_transactions` rebuilds from the inputs of the transaction and the coins of its undo
entry. With as many inputs as coins, 32-byte identifiers and succeeding address encoders,
that analysis succeeds exactly when no two inputs name the same `(prevTxId, vout)`; when it
fails, it fails with "Duplicate prevout in fixture: ...", never with "Missing prevout for
input: ...". On success input `j` carries the value and the script of coin `j`, unless the
input passes the test `is_coinbase`, in which case it carries the value 0 and an empty
script whatever the coin holds. The loop of `analyze_transactions` passes the failure on.
The first transaction of the block is analysed with no prevout at all and is reported
"Missing prevout for input: ..." as soon as one of its inputs fails the test
`is_coinbase`. -/
theorem block_mode_prevouts (env : Env) (network : String) (tx : Transaction)
    (coins : List UndoCoin) (hlen : tx.inputs.length = coins.length)
    (h32 : ∀ txin ∈ tx.inputs, txin.prevTxId.length = 32) (henc : env.encoders_succeed) :
    ((∃ r, TxnAnalyzer.construct env tx (build_prevouts tx.inputs coins) network = .ok r) ↔
      (tx.inputs.map (fun txin => (txin.prevTxId, txin.vout))).Nodup) ∧
    (∀ e, TxnAnalyzer.construct env tx (build_prevouts tx.inputs coins) network = .error e →
      ∃ key, e = .runtime_error ("Duplicate prevout in fixture: " ++ key)) ∧
    (∀ key, TxnAnalyzer.construct env tx (build_prevouts tx.inputs coins) network ≠
      .error (.runtime_error ("Missing prevout for input: " ++ key))) ∧
    (∀ r, TxnAnalyzer.construct env tx (build_prevouts tx.inputs coins) network = .ok r →
      r.inputs_.map (fun ai => (ai.prevout_value_sats, ai.prevout_script_pubkey_hex)) =
        List.zipWith (fun txin coin =>
          if is_coinbase txin = true then (0, "")
          else (coin.value, bytes_to_hex coin.scriptPubKey)) tx.inputs coins) ∧
    (∀ e txs undo_txs,
      TxnAnalyzer.construct env tx (build_prevouts tx.inputs coins) network = .error e →
      analyze_transactions_loop env network (tx :: txs) ({ spentOutputs := coins } :: undo_txs)
        = .error e) ∧
    (∀ cb : Transaction, (∃ txin ∈ cb.inputs, is_coinbase txin = false) →
      ∃ key, TxnAnalyzer.construct env cb [] network =
        .error (.runtime_error ("Missing prevout for input: " ++ key))) := by
  have hwf := build_prevouts_txid tx.inputs coins
  have hkeys : ((build_prevouts tx.inputs coins).map Prevout.key).Nodup ↔
      (tx.inputs.map (fun txin => (txin.prevTxId, txin.vout))).Nodup := by
    rw [key_nodup_iff _ hwf, build_prevouts_outpoints tx.inputs coins hlen,
      outpoint_nodup_iff tx.inputs h32]
  -- a map with pairwise different keys makes the analysis succeed
  have hsucc : ((build_prevouts tx.inputs coins).map Prevout.key).Nodup →
      ∃ r, TxnAnalyzer.construct env tx (build_prevouts tx.inputs coins) network = .ok r := by
    intro hnd
    have hm := build_prevout_map_of_nodup (build_prevouts tx.inputs coins) [] hnd
      (fun q _ hq => by cases hq)
    rw [List.nil_append] at hm
    have hins : ∃ ais, build_inputs env
        ((build_prevouts tx.inputs coins).map (fun p => (p.key, p))) tx.inputs = .ok ais := by
      apply build_inputs_of_forall
      intro txin hmem
      cases hcb : is_coinbase txin
      · have hk : txin.key ∈ ((build_prevouts tx.inputs coins).map
            (fun p => (p.key, p))).map Prod.fst := by
          rw [List.map_map]
          have : (Prod.fst ∘ fun (p : Prevout) => (p.key, p)) = Prevout.key := rfl
          rw [this, build_prevouts_keys tx.inputs coins hlen]
          exact List.mem_map.2 ⟨txin, hmem, rfl⟩
        rw [← lookup_isSome_iff] at hk
        cases hl : ((build_prevouts tx.inputs coins).map (fun p => (p.key, p))).lookup txin.key with
        | none => rw [hl] at hk; cases hk
        | some prev => exact build_input_found hcb hl henc
      · obtain ⟨ai, hai, -⟩ := build_input_coinbase env _ txin hcb
        exact ⟨ai, hai⟩
    obtain ⟨ais, hais⟩ := hins
    obtain ⟨aos, haos⟩ := build_outputs_of_encoders env tx.outputs henc 0
    unfold TxnAnalyzer.construct
    rw [hm]
    simp only []
    rw [hais]
    simp only []
    rw [haos]
    exact ⟨_, rfl⟩
  have hfail : ∀ e,
      TxnAnalyzer.construct env tx (build_prevouts tx.inputs coins) network = .error e →
      ∃ key, e = .runtime_error ("Duplicate prevout in fixture: " ++ key) := by
    intro e he
    cases hm : build_prevout_map (build_prevouts tx.inputs coins) [] with
    | error e' =>
      obtain ⟨key, hkey⟩ := build_prevout_map_duplicate _ _ _ hm
      unfold TxnAnalyzer.construct at he
      rw [hm] at he
      cases he
      exact ⟨key, hkey⟩
    | ok m =>
      obtain ⟨r, hr⟩ := hsucc (build_prevout_map_ok _ _ _ hm).2.1
      rw [hr] at he
      cases he
  refine ⟨⟨?_, fun h => hsucc (hkeys.2 h)⟩, hfail, ?_, ?_, ?_, ?_⟩
  · rintro ⟨r, hr⟩
    obtain ⟨m, hm, -⟩ := construct_ok hr
    exact hkeys.1 (build_prevout_map_ok _ _ _ hm).2.1
  · intro key he
    obtain ⟨k, hk⟩ := hfail _ he
    injection hk with hk
    exact duplicate_ne_missing k key hk.symm
  · intro r hr
    obtain ⟨m, hm, hin, -⟩ := construct_ok hr
    obtain ⟨hmap, hnd, -⟩ := build_prevout_map_ok _ _ _ hm
    rw [List.nil_append] at hmap
    apply build_inputs_coins env m ?_ tx.inputs coins r.inputs_ ?_ hlen hin
    · rw [hmap, List.map_map]
      exact hnd
    · intro p hp
      rw [hmap]
      exact List.mem_map.2 ⟨p, hp, rfl⟩
  · intro e txs undo_txs he
    rw [analyze_transactions_loop]
    simp only [UndoTx.getInputs]
    rw [if_neg (by simpa using hlen), he]
  · rintro cb hcb
    obtain ⟨key, hkey⟩ := build_inputs_empty_map env cb.inputs hcb
    refine ⟨key, ?_⟩
    unfold TxnAnalyzer.construct
    rw [show build_prevout_map [] [] = .ok [] from rfl]
    simp only []
    rw [hkey]

/-- C40, an instance: `spend_tx 0` with the coin `small_coin` is analysed, and its input
carries the 5000 satoshis and the script `51` of the coin; `double_spend_tx`, whose two
inputs name the same output, is not. -/
theorem block_mode_prevouts_witness :
    (∃ r, TxnAnalyzer.construct sample_env (spend_tx 0)
        (build_prevouts (spend_tx 0).inputs [small_coin]) "mainnet" = .ok r ∧
      r.inputs_.map (fun ai => (ai.prevout_value_sats, ai.prevout_script_pubkey_hex)) =
        [(5000, "51")]) ∧
    ¬ (∃ r, TxnAnalyzer.construct sample_env double_spend_tx
        (build_prevouts double_spend_tx.inputs [small_coin, small_coin]) "mainnet" = .ok r) := by
  have henc : sample_env.encoders_succeed :=
    ⟨fun _ _ => by simp [sample_env], fun _ _ _ => ⟨_, rfl⟩⟩
  have h1 := block_mode_prevouts sample_env "mainnet" (spend_tx 0) [small_coin] (by decide)
    (by decide) henc
  have h2 := block_mode_prevouts sample_env "mainnet" double_spend_tx [small_coin, small_coin]
    (by decide) (by decide) henc
  refine ⟨?_, fun h => absurd (h2.1.1 h) (by decide)⟩
  obtain ⟨r, hr⟩ := h1.1.2 (by decide)
  exact ⟨r, hr, (h1.2.2.2.1 r hr).trans (by decide)⟩

/-- C40, where the claim fails: `null_spend_tx` has one input of the coinbase shape. With
the coin `small_coin` as its undo entry the analysis succeeds, and the input carries the
value 0 and an empty script, not the 5000 satoshis and the script `51` of the coin. -/
theorem block_mode_coinbase_shape_counterexample :
    null_spend_tx.inputs.length = [small_coin].length ∧
    small_coin.value = 5000 ∧ bytes_to_hex small_coin.scriptPubKey = "51" ∧
    (TxnAnalyzer.construct sample_env null_spend_tx
        (build_prevouts null_spend_tx.inputs [small_coin]) "mainnet").map
      (fun r => r.inputs_.map
        (fun ai => (ai.prevout_value_sats, ai.prevout_script_pubkey_hex))) =
      .ok [(0, "")] := by
  refine ⟨by decide, by decide, by decide, ?_⟩
  rfl

end BitcoinParser
